import Mathlib

/-!
# BrainFuck compiler: the translation engine and the runtime it emits calls into

A shallow embedding of `src/main.cpp`:

* the source filter of `main` (lines 582-595),
* the IR builder operations that `generateIR` uses, over an explicit state,
* `generateIR` (lines 341-483) and the part of `main` that frames it
  (lines 623-687),
* the runtime the emitted code runs on: `moveRight` (lines 185-254), `input`
  (lines 256-338), and the inline cell operations; `moveRight` also with an allocator
  that can refuse a block, for what holds of every tape a program can have,
* an executor for the emitted control-flow graph,
* the rest of `main` (lines 651-743) with `getSDKPath` and `link` (lines 486-556), the
  answers of the backend and of the linker being given by an environment.
-/

namespace BrainFuck

/-! ## Data model -/

/-- The eight operations, `enum class Instruction` (lines 46-55). -/
inductive Instruction where
  | moveRight
  | moveLeft
  | increment
  | decrement
  | output
  | input
  | startLoop
  | endLoop
  deriving DecidableEq, Repr

/-- The two kinds of `ParseError` (lines 59-62). -/
inductive ParseError where
  | noLoopEnd
  | noLoopStart
  deriving DecidableEq, Repr

/-! ## Source filter -/

/-- One round of the `switch (c)` at lines 584-594: the instruction vector after character
`c` has been looked at. -/
def pushInstruction (c : Char) (instructions : List Instruction) : List Instruction :=
  if c = '>' then instructions ++ [Instruction.moveRight]
  else if c = '<' then instructions ++ [Instruction.moveLeft]
  else if c = '+' then instructions ++ [Instruction.increment]
  else if c = '-' then instructions ++ [Instruction.decrement]
  else if c = '.' then instructions ++ [Instruction.output]
  else if c = ',' then instructions ++ [Instruction.input]
  else if c = '[' then instructions ++ [Instruction.startLoop]
  else if c = ']' then instructions ++ [Instruction.endLoop]
  else instructions

/-- The loop `while (file.get(c))` at lines 583-595, over the characters still unread. -/
def readSource : List Char → List Instruction → List Instruction
  | [], instructions => instructions
  | c :: rest, instructions => readSource rest (pushInstruction c instructions)

/-- The source filter: the global `instructions` starts empty (line 91). -/
def sourceFilter (source : List Char) : List Instruction :=
  readSource source []

/-! ## Emitted intermediate program -/

/-- The names under which `main.cpp` creates basic blocks of `mainFunction`. -/
inductive BlockName where
  | entry
  | error
  | ret
  | moveLeft
  | loop
  | thenBlock
  | merge
  deriving DecidableEq, Repr

/-- The operations `generateIR` and `main` put into `mainFunction`. Each constructor stands
for one fixed straight-line group of builder calls; the loads and address computations that
feed a branch are kept together with the branch. -/
inductive Inst where
  /-- The call `moveRight(cells, cellsLength, currentCell)`, line 352. -/
  | callMoveRight
  /-- Load `currentCell`, subtract 1, store it back: lines 367-371. -/
  | decrementCurrentCell
  /-- Load the current cell, add the 8-bit constant, store it back: lines 382-391. -/
  | addCellValue (increment : Nat)
  /-- Load the current cell, subtract the 8-bit constant, store it back: lines 402-411. -/
  | subCellValue (decrement : Nat)
  /-- Load the current cell, zero-extend, `putchar`: lines 416-425. -/
  | callPutchar
  /-- The call `input(cells, currentCell, currentLine, length, currentPosition)`,
  lines 430-432. -/
  | callInput
  /-- The call `fputs(moveLeftErrorString, stderr)`, lines 666-668. -/
  | callFputsError
  /-- An unconditional branch. -/
  | br (dest : Nat)
  /-- Load `currentCell`, compare it with 0, branch to `ifZero` when equal and to `otherwise`
  when not: lines 357-363. -/
  | condBrReturnWithError (ifZero otherwise : Nat)
  /-- Load the current cell, compare it with 0, branch to `ifNonZero` when different and to
  `otherwise` when equal: lines 446-455. -/
  | condBrContinueLoop (ifNonZero otherwise : Nat)
  /-- The return block, lines 677-687: a phi with value 0 from `fromLast` and 1 from
  `fromError`, the two calls to `free`, and `ret`. -/
  | retPhi (fromLast fromError : Nat)
  deriving DecidableEq, Repr

/-- A basic block: its name and the instructions appended to it so far. -/
structure BasicBlock where
  name : BlockName
  insts : List Inst
  deriving DecidableEq, Repr

/-- The compiler globals that `generateIR` reads and writes: every basic block created so
far (a block is named by its index, the order of creation), the basic-block list of
`mainFunction`, the insert point of `builder`, and the cursor `currentInstruction` as an
index into `instructions`. -/
structure IRState where
  blocks : List BasicBlock
  function : List Nat
  insertPoint : Nat
  currentInstruction : Nat
  deriving DecidableEq, Repr

namespace IRState

/-- The call `llvm::BasicBlock::Create(context, name, parent)`; with a parent the block is
appended to the function at once, without one it stays detached. -/
def createBlock (s : IRState) (name : BlockName) (attached : Bool) : Nat × IRState :=
  (s.blocks.length,
    { s with
      blocks := s.blocks ++ [{ name := name, insts := [] }]
      function := if attached then s.function ++ [s.blocks.length] else s.function })

/-- The call `mainFunction->getBasicBlockList().push_back(block)`. -/
def pushBack (s : IRState) (block : Nat) : IRState :=
  { s with function := s.function ++ [block] }

/-- The call `builder.SetInsertPoint(block)`. -/
def setInsertPoint (s : IRState) (block : Nat) : IRState :=
  { s with insertPoint := block }

/-- A builder `Create...` call: the instruction is appended to the block at the insert
point. -/
def emit (s : IRState) (i : Inst) : IRState :=
  { s with
    blocks := s.blocks.modify (fun b => { b with insts := b.insts ++ [i] }) s.insertPoint }

/-- The statement `++currentInstruction`. -/
def advance (s : IRState) : IRState :=
  { s with currentInstruction := s.currentInstruction + 1 }

end IRState

/-- The locals `loopBlock` and `mergeBlock` of one activation of `generateIR`. They are
assigned together (lines 438-440 and 457) and are null together, so one optional record
holds both. -/
structure LoopFrame where
  loopBlock : Nat
  mergeBlock : Nat
  deriving DecidableEq, Repr

/-- The look-ahead loop of lines 377-380 and 397-400. `ahead` is what the vector holds from
`currentInstruction + 1` on; `count` is the `uint8_t` counter, so it wraps at 256. The
result is the counter and the cursor when the loop is left. -/
def mergeRun (kind : Instruction) : List Instruction → Nat → Nat → Nat × Nat
  | [], count, cursor => (count, cursor)
  | i :: ahead, count, cursor =>
    if i = kind then mergeRun kind ahead ((count + 1) % 256) (cursor + 1)
    else (count, cursor)

/-- Case `Instruction::moveRight`, lines 351-355. -/
def emitMoveRight (s : IRState) : IRState :=
  s.emit Inst.callMoveRight

/-- Case `Instruction::moveLeft`, lines 356-374. -/
def emitMoveLeft (errorBlock : Nat) (s : IRState) : IRState :=
  let created := s.createBlock BlockName.moveLeft true
  let s1 := created.2.emit (Inst.condBrReturnWithError errorBlock created.1)
  let s2 := s1.setInsertPoint created.1
  s2.emit Inst.decrementCurrentCell

/-- Case `Instruction::increment`, lines 375-394. -/
def emitIncrement (instructions : List Instruction) (s : IRState) : IRState :=
  let run := mergeRun Instruction.increment
    (instructions.drop (s.currentInstruction + 1)) 1 s.currentInstruction
  { s with currentInstruction := run.2 }.emit (Inst.addCellValue run.1)

/-- Case `Instruction::decrement`, lines 395-414. -/
def emitDecrement (instructions : List Instruction) (s : IRState) : IRState :=
  let run := mergeRun Instruction.decrement
    (instructions.drop (s.currentInstruction + 1)) 1 s.currentInstruction
  { s with currentInstruction := run.2 }.emit (Inst.subCellValue run.1)

/-- Case `Instruction::output`, lines 415-428. -/
def emitOutput (s : IRState) : IRState :=
  s.emit Inst.callPutchar

/-- Case `Instruction::input`, lines 429-435. -/
def emitInput (s : IRState) : IRState :=
  s.emit Inst.callInput

/-- Case `Instruction::startLoop` when `loopStart == currentInstruction`, lines 438-460:
the new values of the locals and the new globals. -/
def openLoop (s : IRState) : LoopFrame × IRState :=
  let loop := s.createBlock BlockName.loop true
  let thenB := loop.2.createBlock BlockName.thenBlock false
  let merge := thenB.2.createBlock BlockName.merge false
  let s1 := merge.2.emit (Inst.br loop.1)
  let s2 := s1.setInsertPoint loop.1
  let s3 := s2.emit (Inst.condBrContinueLoop thenB.1 merge.1)
  let s4 := s3.pushBack thenB.1
  ({ loopBlock := s3.insertPoint, mergeBlock := merge.1 }, s4.setInsertPoint thenB.1)

/-- Case `Instruction::endLoop` with a loop block, lines 470-473. -/
def closeLoop (frame : LoopFrame) (s : IRState) : IRState :=
  ((s.emit (Inst.br frame.loopBlock)).pushBack frame.mergeBlock).setInsertPoint
    frame.mergeBlock

/-- What an activation of `generateIR` hands back: the `llvm::Error` (none for success) and
the globals as it leaves them. -/
structure Emitted where
  error : Option ParseError
  state : IRState
  deriving DecidableEq, Repr

/-- The `while` loop of `generateIR` (lines 349-482), from the head of the loop. `fuel`
bounds the number of loop rounds and nested activations; `none` means the bound was too
small. A nested activation is `generateIRLoop` started with empty locals. -/
def generateIRLoop (instructions : List Instruction) (errorBlock : Nat) :
    Nat → Nat → Option LoopFrame → IRState → Option Emitted
  | 0, _, _, _ => none
  | fuel + 1, loopStart, frame, s =>
    match instructions[s.currentInstruction]? with
    | none =>
      some { error := if frame.isSome then some ParseError.noLoopEnd else none, state := s }
    | some Instruction.moveRight =>
      generateIRLoop instructions errorBlock fuel loopStart frame (emitMoveRight s).advance
    | some Instruction.moveLeft =>
      generateIRLoop instructions errorBlock fuel loopStart frame
        (emitMoveLeft errorBlock s).advance
    | some Instruction.increment =>
      generateIRLoop instructions errorBlock fuel loopStart frame
        (emitIncrement instructions s).advance
    | some Instruction.decrement =>
      generateIRLoop instructions errorBlock fuel loopStart frame
        (emitDecrement instructions s).advance
    | some Instruction.output =>
      generateIRLoop instructions errorBlock fuel loopStart frame (emitOutput s).advance
    | some Instruction.input =>
      generateIRLoop instructions errorBlock fuel loopStart frame (emitInput s).advance
    | some Instruction.startLoop =>
      if loopStart = s.currentInstruction then
        generateIRLoop instructions errorBlock fuel loopStart (some (openLoop s).1)
          (openLoop s).2.advance
      else
        match generateIRLoop instructions errorBlock fuel s.currentInstruction none s with
        | none => none
        | some inner =>
          match inner.error with
          | some e => some { error := some e, state := inner.state }
          | none =>
            generateIRLoop instructions errorBlock fuel loopStart frame inner.state.advance
    | some Instruction.endLoop =>
      match frame with
      | none => some { error := some ParseError.noLoopStart, state := s }
      | some f => some { error := none, state := closeLoop f s }

/-- A bound on the rounds `generateIR` needs from cursor position `cursor`: every
instruction is dispatched at most twice (a loop start once by the activation that meets it
and once by the activation it opens), and one more round sees the end of the vector. -/
def fuelFor (instructions : List Instruction) (cursor : Nat) : Nat :=
  2 * (instructions.length - cursor) + 1

/-- The function `generateIR(loopStart)`, lines 341-483: fresh locals, then the loop. -/
def generateIR (instructions : List Instruction) (errorBlock : Nat) (loopStart : Nat)
    (s : IRState) : Option Emitted :=
  generateIRLoop instructions errorBlock (fuelFor instructions s.currentInstruction)
    loopStart none s

/-- The globals when `main` calls `generateIR()` (lines 597 and 623-628): the cursor at the
first instruction, the blocks `entry` (in the function), `error` and `return` (detached),
and the insert point in `entry`. -/
def mainStart : IRState :=
  { blocks := [{ name := BlockName.entry, insts := [] }, { name := BlockName.error, insts := [] },
      { name := BlockName.ret, insts := [] }]
    function := [0]
    insertPoint := 0
    currentInstruction := 0 }

/-- The block `error` of `main`. -/
def errorBlock : Nat := 1

/-- The block `return` of `main`. -/
def returnBlock : Nat := 2

/-- The top-level call `generateIR()` of line 651: the default argument is
`instructions.end()`. -/
def generateIRTop (instructions : List Instruction) : Option Emitted :=
  generateIR instructions errorBlock instructions.length mainStart

/-- What `main` does once `generateIR()` has succeeded, lines 659-687: the branch to
`return`, the block `error`, and the block `return` with its phi. -/
def finishMain (s : IRState) : IRState :=
  let s1 := s.emit (Inst.br returnBlock)
  let lastBlock := s1.insertPoint
  let s2 := (s1.pushBack errorBlock).setInsertPoint errorBlock
  let s3 := (s2.emit Inst.callFputsError).emit (Inst.br returnBlock)
  let s4 := (s3.pushBack returnBlock).setInsertPoint returnBlock
  s4.emit (Inst.retPhi lastBlock s3.insertPoint)

/-- The part of `main` around `generateIR()`, lines 651-687: a parse error ends the
compilation (lines 651-657), a success is completed by `finishMain`. -/
def compileMain (instructions : List Instruction) : Option (Except ParseError IRState) :=
  match generateIRTop instructions with
  | none => none
  | some emitted =>
    match emitted.error with
    | some e => some (Except.error e)
    | none => some (Except.ok (finishMain emitted.state))

/-! ## Runtime of the generated program -/

/-- The number of values of an `i64`, `2 ^ 64`: `currentCell` and `cellsLength` are computed
modulo it. -/
def wordSize : Nat := 18446744073709551616

/-- The text of `moveLeftErrorString`, line 631. -/
def moveLeftErrorString : List Char :=
  "Error: Cannot move pointer to negative cell!\n".toList

/-- The state of a running generated program: the allocas of `main` (lines 633-638) and the
three standard streams. `cells` is the allocated block, `cellsLength` and `currentCell` are
`i64`. `currentPosition` is a pointer into a string; it is kept as an offset into that
string, which is `emptyString` until the first `getline` and the line buffer afterwards, and
whose bytes up to its terminator are `currentLine`. `stdin` is the lines still to be read. -/
structure Runtime where
  cells : List Nat
  cellsLength : Nat
  currentCell : Nat
  currentLine : List Nat
  currentPosition : Nat
  stdin : List (List Nat)
  stdout : List Nat
  stderr : List Char
  deriving DecidableEq, Repr

/-- The library call `realloc(cells, size)` when it gives a block: the old bytes are kept up
to the smaller of the two sizes, the bytes beyond are indeterminate; `junk` says what they
happen to be. With an empty `cells` this is `malloc(size)`. -/
def realloc (junk : Nat → Nat) (cells : List Nat) (size : Nat) : List Nat :=
  (List.range size).map fun i => if i < cells.length then cells.getD i 0 else junk i % 256

/-- The stores of lines 640-649. -/
def initialRuntime (junk : Nat → Nat) (stdin : List (List Nat)) : Runtime :=
  { cells := realloc junk [] 4
    cellsLength := 4
    currentCell := 0
    currentLine := []
    currentPosition := 0
    stdin := stdin
    stdout := []
    stderr := [] }

/-- The emitted function `moveRight`, lines 212-249, when its call of `realloc` gives a
block. -/
def moveRight (junk : Nat → Nat) (r : Runtime) : Runtime :=
  let currentCell := (1 + r.currentCell) % wordSize
  if currentCell = r.cellsLength then
    let cellsLength := (2 * r.cellsLength) % wordSize
    { r with
      currentCell := currentCell
      cellsLength := cellsLength
      cells := realloc junk r.cells cellsLength }
  else
    { r with currentCell := currentCell }

/-- The value of the current cell, `load i8` through the GEP of `cells` at `currentCell`.
A load outside the allocated block is undefined in the source; here it gives 0. -/
def loadCell (r : Runtime) : Nat :=
  r.cells.getD r.currentCell 0

/-- The store to the current cell. A store outside the allocated block is undefined in the
source; here it changes nothing. -/
def storeCell (r : Runtime) (value : Nat) : Runtime :=
  { r with cells := r.cells.set r.currentCell value }

/-- The emitted `add i8`, lines 382-391. -/
def addCellValue (increment : Nat) (r : Runtime) : Runtime :=
  storeCell r ((loadCell r + increment) % 256)

/-- The emitted `sub i8`, lines 402-411. -/
def subCellValue (decrement : Nat) (r : Runtime) : Runtime :=
  storeCell r ((loadCell r + (256 - decrement % 256)) % 256)

/-- The emitted `putchar` of the zero-extended cell, lines 416-425. -/
def putchar (r : Runtime) : Runtime :=
  { r with stdout := r.stdout ++ [loadCell r] }

/-- The emitted `sub i64` on `currentCell`, lines 367-371. -/
def decrementCurrentCell (r : Runtime) : Runtime :=
  { r with currentCell := ((wordSize - 1) + r.currentCell) % wordSize }

/-- The emitted `fputs(moveLeftErrorString, stderr)`, lines 666-668. -/
def fputsError (r : Runtime) : Runtime :=
  { r with stderr := r.stderr ++ moveLeftErrorString }

/-- The byte of a string at an offset: the bytes of the line, then the terminator 0. What
lies beyond the terminator is indeterminate in the source; here it is 0. -/
def byteAt (line : List Nat) (position : Nat) : Nat :=
  line.getD position 0 % 256

/-- The library call `getline`: the next line of standard input and what is left of the
stream. At the end of input the line is empty. -/
def getline (stdin : List (List Nat)) : List Nat × List (List Nat) :=
  match stdin with
  | [] => ([], [])
  | line :: rest => (line, rest)

/-- The emitted function `input`, lines 292-333; `strlen(currentPosition) == 0` holds when
the byte at `currentPosition` is the terminator. -/
def input (r : Runtime) : Runtime :=
  let r1 :=
    if byteAt r.currentLine r.currentPosition = 0 then
      { r with
        currentLine := (getline r.stdin).1
        stdin := (getline r.stdin).2
        currentPosition := 0 }
    else r
  let r2 := { r1 with currentPosition := r1.currentPosition + 1 }
  { r2 with cells := r2.cells.set r2.currentCell (byteAt r2.currentLine r2.currentPosition) }

/-! ## Execution of the emitted control flow -/

/-- A point of execution in `mainFunction`: the block, the index of the next instruction in
it, the block control came from (read by the phi), and the runtime state. -/
structure Config where
  block : Nat
  index : Nat
  previous : Nat
  runtime : Runtime
  deriving DecidableEq, Repr

/-- How a run ends: `main` returns a status, or execution reaches a point with no
instruction (a block without terminator, a phi without matching predecessor). -/
inductive Outcome where
  | exit (status : Nat) (runtime : Runtime)
  | stuck
  deriving DecidableEq, Repr

/-- The result of one instruction. -/
inductive Step where
  | next (c : Config)
  | halt (o : Outcome)
  deriving DecidableEq, Repr

/-- The instruction at index `index` of block `block`. -/
def fetch (blocks : List BasicBlock) (block : Nat) (index : Nat) : Option Inst :=
  match blocks[block]? with
  | none => none
  | some b => b.insts[index]?

/-- Fall through to the next instruction of the block. -/
def Config.advance (c : Config) (r : Runtime) : Config :=
  { c with index := c.index + 1, runtime := r }

/-- Branch to the start of block `dest`. -/
def Config.jump (c : Config) (dest : Nat) : Config :=
  { block := dest, index := 0, previous := c.block, runtime := c.runtime }

/-- Execute one emitted instruction. -/
def execInst (junk : Nat → Nat) (c : Config) : Inst → Step
  | Inst.callMoveRight => Step.next (c.advance (moveRight junk c.runtime))
  | Inst.decrementCurrentCell => Step.next (c.advance (decrementCurrentCell c.runtime))
  | Inst.addCellValue k => Step.next (c.advance (addCellValue k c.runtime))
  | Inst.subCellValue k => Step.next (c.advance (subCellValue k c.runtime))
  | Inst.callPutchar => Step.next (c.advance (putchar c.runtime))
  | Inst.callInput => Step.next (c.advance (input c.runtime))
  | Inst.callFputsError => Step.next (c.advance (fputsError c.runtime))
  | Inst.br dest => Step.next (c.jump dest)
  | Inst.condBrReturnWithError ifZero otherwise =>
    if c.runtime.currentCell = 0 then Step.next (c.jump ifZero)
    else Step.next (c.jump otherwise)
  | Inst.condBrContinueLoop ifNonZero otherwise =>
    if loadCell c.runtime ≠ 0 then Step.next (c.jump ifNonZero)
    else Step.next (c.jump otherwise)
  | Inst.retPhi fromLast fromError =>
    if c.previous = fromLast then Step.halt (Outcome.exit 0 c.runtime)
    else if c.previous = fromError then Step.halt (Outcome.exit 1 c.runtime)
    else Step.halt Outcome.stuck

/-- One step of the emitted program. -/
def step (blocks : List BasicBlock) (junk : Nat → Nat) (c : Config) : Step :=
  match fetch blocks c.block c.index with
  | none => Step.halt Outcome.stuck
  | some i => execInst junk c i

/-- Run the emitted program for at most `fuel` steps; `none` when it has not ended by
then. -/
def run (blocks : List BasicBlock) (junk : Nat → Nat) : Nat → Config → Option Outcome
  | 0, _ => none
  | fuel + 1, c =>
    match step blocks junk c with
    | Step.next c1 => run blocks junk fuel c1
    | Step.halt o => some o

/-- Where `main` starts: the first instruction that `generateIR` emits into `entry`, on the
runtime state that lines 640-649 set up. -/
def startConfig (junk : Nat → Nat) (stdin : List (List Nat)) : Config :=
  { block := 0, index := 0, previous := 0, runtime := initialRuntime junk stdin }

/-! ## Reference interpreter

Written from the specification: one instruction at a time, a loop start skips to after its
matching loop end when the current cell is zero, a loop end goes back to after its matching
loop start when the current cell is nonzero. -/

/-- Distance from the start of `ahead` to the loop end that closes nesting depth `depth`. -/
def findLoopEnd : List Instruction → Nat → Option Nat
  | [], _ => none
  | Instruction.endLoop :: _, 0 => some 0
  | Instruction.endLoop :: ahead, depth + 1 => (findLoopEnd ahead depth).map (· + 1)
  | Instruction.startLoop :: ahead, depth => (findLoopEnd ahead (depth + 1)).map (· + 1)
  | _ :: ahead, depth => (findLoopEnd ahead depth).map (· + 1)

/-- Distance, going backwards through `behind` (nearest instruction first), to the loop
start that opens nesting depth `depth`. -/
def findLoopStart : List Instruction → Nat → Option Nat
  | [], _ => none
  | Instruction.startLoop :: _, 0 => some 0
  | Instruction.startLoop :: behind, depth + 1 => (findLoopStart behind depth).map (· + 1)
  | Instruction.endLoop :: behind, depth => (findLoopStart behind (depth + 1)).map (· + 1)
  | _ :: behind, depth => (findLoopStart behind depth).map (· + 1)

/-- A point of execution of the reference interpreter. -/
structure RefConfig where
  pc : Nat
  runtime : Runtime
  deriving DecidableEq, Repr

/-- The result of one instruction of the reference interpreter. -/
inductive RefStep where
  | next (c : RefConfig)
  | halt (o : Outcome)
  deriving DecidableEq, Repr

/-- One instruction of the reference interpreter. -/
def referenceStep (instructions : List Instruction) (junk : Nat → Nat) (c : RefConfig) :
    RefStep :=
  match instructions[c.pc]? with
  | none => RefStep.halt (Outcome.exit 0 c.runtime)
  | some Instruction.moveRight => RefStep.next ⟨c.pc + 1, moveRight junk c.runtime⟩
  | some Instruction.moveLeft =>
    if c.runtime.currentCell = 0 then RefStep.halt (Outcome.exit 1 (fputsError c.runtime))
    else RefStep.next ⟨c.pc + 1, decrementCurrentCell c.runtime⟩
  | some Instruction.increment => RefStep.next ⟨c.pc + 1, addCellValue 1 c.runtime⟩
  | some Instruction.decrement => RefStep.next ⟨c.pc + 1, subCellValue 1 c.runtime⟩
  | some Instruction.output => RefStep.next ⟨c.pc + 1, putchar c.runtime⟩
  | some Instruction.input => RefStep.next ⟨c.pc + 1, input c.runtime⟩
  | some Instruction.startLoop =>
    if loadCell c.runtime = 0 then
      match findLoopEnd (instructions.drop (c.pc + 1)) 0 with
      | none => RefStep.halt Outcome.stuck
      | some d => RefStep.next ⟨c.pc + 1 + d + 1, c.runtime⟩
    else RefStep.next ⟨c.pc + 1, c.runtime⟩
  | some Instruction.endLoop =>
    if loadCell c.runtime ≠ 0 then
      match findLoopStart (instructions.take c.pc).reverse 0 with
      | none => RefStep.halt Outcome.stuck
      | some d => RefStep.next ⟨c.pc - d, c.runtime⟩
    else RefStep.next ⟨c.pc + 1, c.runtime⟩

/-- Run the reference interpreter for at most `fuel` instructions. -/
def referenceRun (instructions : List Instruction) (junk : Nat → Nat) :
    Nat → RefConfig → Option Outcome
  | 0, _ => none
  | fuel + 1, c =>
    match referenceStep instructions junk c with
    | RefStep.next c1 => referenceRun instructions junk fuel c1
    | RefStep.halt o => some o

/-! ## Notions used to state the properties -/

/-- The character table of the specification: the instruction a character stands for. -/
def instructionOfChar (c : Char) : Option Instruction :=
  if c = '>' then some Instruction.moveRight
  else if c = '<' then some Instruction.moveLeft
  else if c = '+' then some Instruction.increment
  else if c = '-' then some Instruction.decrement
  else if c = '.' then some Instruction.output
  else if c = ',' then some Instruction.input
  else if c = '[' then some Instruction.startLoop
  else if c = ']' then some Instruction.endLoop
  else none

/-- A program is well formed when its loop starts and loop ends are equal in number and
properly nested: no prefix holds more loop ends than loop starts. -/
def WellFormed (p : List Instruction) : Prop :=
  p.count Instruction.startLoop = p.count Instruction.endLoop
    ∧ ∀ k, k ≤ p.length →
      (p.take k).count Instruction.endLoop ≤ (p.take k).count Instruction.startLoop

instance (p : List Instruction) : Decidable (WellFormed p) := by
  unfold WellFormed
  infer_instance

/-- The first violation of nesting met when reading `p` from the left at nesting depth
`depth`: a loop end at depth 0, or the end of `p` at a positive depth. -/
def firstViolation : List Instruction → Nat → Option ParseError
  | [], 0 => none
  | [], _ + 1 => some ParseError.noLoopEnd
  | Instruction.startLoop :: p, depth => firstViolation p (depth + 1)
  | Instruction.endLoop :: _, 0 => some ParseError.noLoopStart
  | Instruction.endLoop :: p, depth + 1 => firstViolation p depth
  | _ :: p, depth => firstViolation p depth

/-- An instruction that is neither a loop start nor a loop end. -/
def Instruction.isSimple (i : Instruction) : Prop :=
  i ≠ Instruction.startLoop ∧ i ≠ Instruction.endLoop

instance (i : Instruction) : Decidable i.isSimple := by
  unfold Instruction.isSimple
  infer_instance

/-- The globals after the round of the `generateIR` loop that dispatches the instruction
`i`, for the six cases of the `switch` that neither recurse nor return. -/
def simpleRound (instructions : List Instruction) (errorBlock : Nat) (i : Instruction)
    (s : IRState) : IRState :=
  match i with
  | Instruction.moveRight => (emitMoveRight s).advance
  | Instruction.moveLeft => (emitMoveLeft errorBlock s).advance
  | Instruction.increment => (emitIncrement instructions s).advance
  | Instruction.decrement => (emitDecrement instructions s).advance
  | Instruction.output => (emitOutput s).advance
  | Instruction.input => (emitInput s).advance
  | Instruction.startLoop => s
  | Instruction.endLoop => s

/-- A program contains a loop start with no matching loop end: reading on from some loop
start, nesting never returns to the level it opened. -/
def HasUnmatchedLoopStart (p : List Instruction) : Prop :=
  ∃ i, i < p.length ∧ p[i]? = some Instruction.startLoop ∧ findLoopEnd (p.drop (i + 1)) 0 = none

instance (p : List Instruction) : Decidable (HasUnmatchedLoopStart p) := by
  unfold HasUnmatchedLoopStart
  infer_instance

/-- One operation of a generated program on its runtime state. A move to the left is the
guard and the decrement of lines 357-371 together, so it changes the state only when the
pointer is not 0. -/
inductive RuntimeStep (junk : Nat → Nat) : Runtime → Runtime → Prop where
  | moveRight (r : Runtime) : RuntimeStep junk r (moveRight junk r)
  | moveLeft (r : Runtime) (h : r.currentCell ≠ 0) : RuntimeStep junk r (decrementCurrentCell r)
  | addCellValue (k : Nat) (r : Runtime) : RuntimeStep junk r (addCellValue k r)
  | subCellValue (k : Nat) (r : Runtime) : RuntimeStep junk r (subCellValue k r)
  | putchar (r : Runtime) : RuntimeStep junk r (putchar r)
  | input (r : Runtime) : RuntimeStep junk r (input r)
  | fputsError (r : Runtime) : RuntimeStep junk r (fputsError r)

/-- The instructions of block `block`, none when there is no such block. -/
def instsAt (blocks : List BasicBlock) (block : Nat) : List Inst :=
  match blocks[block]? with
  | none => []
  | some b => b.insts

/-- The index at which the next emitted instruction lands in the block at the insert
point. -/
def IRState.here (s : IRState) : Nat :=
  (instsAt s.blocks s.insertPoint).length

/-- Every instruction of `old` is at the same place in `new`. -/
def Extends (old new : List BasicBlock) : Prop :=
  ∀ block index i, fetch old block index = some i → fetch new block index = some i

/-- The emission of `generateIR` told without recursion: one round per dispatched
instruction, with the locals of the activations that have a loop open held on a stack,
innermost first. `StackEmits stack s t` says that the rounds from state `s` on end at the
end of the vector in state `t`, every loop closed. -/
inductive StackEmits (instructions : List Instruction) (errorBlock : Nat) :
    List LoopFrame → IRState → IRState → Prop where
  | done (s : IRState) (h : instructions[s.currentInstruction]? = none) :
      StackEmits instructions errorBlock [] s s
  | simple (stack : List LoopFrame) (s t : IRState) (i : Instruction)
      (h : instructions[s.currentInstruction]? = some i) (hi : i.isSimple)
      (rest : StackEmits instructions errorBlock stack
        (simpleRound instructions errorBlock i s) t) :
      StackEmits instructions errorBlock stack s t
  | startLoop (stack : List LoopFrame) (s t : IRState)
      (h : instructions[s.currentInstruction]? = some Instruction.startLoop)
      (rest : StackEmits instructions errorBlock ((openLoop s).1 :: stack)
        (openLoop s).2.advance t) :
      StackEmits instructions errorBlock stack s t
  | endLoop (f : LoopFrame) (stack : List LoopFrame) (s t : IRState)
      (h : instructions[s.currentInstruction]? = some Instruction.endLoop)
      (rest : StackEmits instructions errorBlock stack (closeLoop f s).advance t) :
      StackEmits instructions errorBlock (f :: stack) s t

/-- The stack of open loops fits the state: the insert point is a block, and the merge
blocks of the open loops are blocks, still empty, distinct from the insert point and from
each other. -/
def StackFits (s : IRState) (stack : List LoopFrame) : Prop :=
  s.insertPoint < s.blocks.length
    ∧ (∀ f ∈ stack, f.mergeBlock < s.blocks.length ∧ instsAt s.blocks f.mergeBlock = []
        ∧ f.mergeBlock ≠ s.insertPoint)
    ∧ (stack.map (·.mergeBlock)).Nodup

/-- The blocks hold, from index `index` of block `block` on, the code of the instructions
`ahead`, inside the open loops `stack` (innermost first): each simple instruction is its
one emitted operation, a run of `n + 1` increments or decrements is one add or subtract of
`(n + 1) % 256`, a move to the left is the guard to the error block and the decrement at the
head of a further block, a loop start is a branch to a block holding the entry test, whose
nonzero target starts the body and whose zero target is the merge block, a loop end is a
branch back to the entry test of the innermost open loop, after which the code goes on at
the start of that loop's merge block, and the end of the program is the branch to the
return block, whose phi gives 0 for this predecessor and 1 for the error block. -/
inductive CodeFrom (blocks : List BasicBlock) :
    List Instruction → Nat → Nat → List LoopFrame → Prop where
  | done (block index : Nat)
      (hbr : fetch blocks block index = some (Inst.br returnBlock))
      (hret : fetch blocks returnBlock 0 = some (Inst.retPhi block errorBlock))
      (hne : block ≠ errorBlock) :
      CodeFrom blocks [] block index []
  | moveRight (ahead : List Instruction) (block index : Nat) (stack : List LoopFrame)
      (h : fetch blocks block index = some Inst.callMoveRight)
      (rest : CodeFrom blocks ahead block (index + 1) stack) :
      CodeFrom blocks (Instruction.moveRight :: ahead) block index stack
  | moveLeft (ahead : List Instruction) (block index next : Nat) (stack : List LoopFrame)
      (h : fetch blocks block index = some (Inst.condBrReturnWithError errorBlock next))
      (hnext : fetch blocks next 0 = some Inst.decrementCurrentCell)
      (rest : CodeFrom blocks ahead next 1 stack) :
      CodeFrom blocks (Instruction.moveLeft :: ahead) block index stack
  | increment (n : Nat) (ahead : List Instruction) (block index : Nat)
      (stack : List LoopFrame) (hrun : ahead.head? ≠ some Instruction.increment)
      (h : fetch blocks block index = some (Inst.addCellValue ((n + 1) % 256)))
      (rest : CodeFrom blocks ahead block (index + 1) stack) :
      CodeFrom blocks
        (Instruction.increment :: (List.replicate n Instruction.increment ++ ahead))
        block index stack
  | decrement (n : Nat) (ahead : List Instruction) (block index : Nat)
      (stack : List LoopFrame) (hrun : ahead.head? ≠ some Instruction.decrement)
      (h : fetch blocks block index = some (Inst.subCellValue ((n + 1) % 256)))
      (rest : CodeFrom blocks ahead block (index + 1) stack) :
      CodeFrom blocks
        (Instruction.decrement :: (List.replicate n Instruction.decrement ++ ahead))
        block index stack
  | output (ahead : List Instruction) (block index : Nat) (stack : List LoopFrame)
      (h : fetch blocks block index = some Inst.callPutchar)
      (rest : CodeFrom blocks ahead block (index + 1) stack) :
      CodeFrom blocks (Instruction.output :: ahead) block index stack
  | input (ahead : List Instruction) (block index : Nat) (stack : List LoopFrame)
      (h : fetch blocks block index = some Inst.callInput)
      (rest : CodeFrom blocks ahead block (index + 1) stack) :
      CodeFrom blocks (Instruction.input :: ahead) block index stack
  | startLoop (ahead : List Instruction) (block index loop body merge : Nat)
      (stack : List LoopFrame)
      (h : fetch blocks block index = some (Inst.br loop))
      (htest : fetch blocks loop 0 = some (Inst.condBrContinueLoop body merge))
      (rest : CodeFrom blocks ahead body 0
        ({ loopBlock := loop, mergeBlock := merge } :: stack)) :
      CodeFrom blocks (Instruction.startLoop :: ahead) block index stack
  | endLoop (ahead : List Instruction) (block index : Nat) (f : LoopFrame)
      (stack : List LoopFrame)
      (h : fetch blocks block index = some (Inst.br f.loopBlock))
      (rest : CodeFrom blocks ahead f.mergeBlock 0 stack) :
      CodeFrom blocks (Instruction.endLoop :: ahead) block index (f :: stack)

/-- The blocks hold the error path of `main`: the block `error` is the `fputs` of the
diagnostic and the branch to `return`, and the phi of `return` gives 1 for the predecessor
`error` and 0 for another one. -/
def ErrorPath (blocks : List BasicBlock) : Prop :=
  fetch blocks errorBlock 0 = some Inst.callFputsError
    ∧ fetch blocks errorBlock 1 = some (Inst.br returnBlock)
    ∧ ∃ last, last ≠ errorBlock ∧ fetch blocks returnBlock 0 = some (Inst.retPhi last errorBlock)

/-- The open loops at position `pc` of the program, innermost first, with what the blocks
hold for each: the position `i` of its loop start is the one the reference interpreter
finds going back from `pc`, the loop block starts with the entry test, and the code of the
loop body starts the block the test continues to. -/
inductive Enclosing (blocks : List BasicBlock) (instructions : List Instruction) :
    Nat → List LoopFrame → Prop where
  | nil (pc : Nat) : Enclosing blocks instructions pc []
  | cons (pc i body : Nat) (f : LoopFrame) (stack : List LoopFrame)
      (hlt : i < pc)
      (hstart : instructions[i]? = some Instruction.startLoop)
      (hback : findLoopStart (instructions.take pc).reverse 0 = some (pc - 1 - i))
      (htest : fetch blocks f.loopBlock 0 = some (Inst.condBrContinueLoop body f.mergeBlock))
      (hbody : CodeFrom blocks (instructions.drop (i + 1)) body 0 (f :: stack))
      (outer : Enclosing blocks instructions i stack) :
      Enclosing blocks instructions pc (f :: stack)

/-- A point of the reference interpreter and a point of the emitted program correspond: the
runtime states are equal, and the emitted program is at the code of the instructions from
`pc` on, inside the loops open at `pc`. -/
def Related (blocks : List BasicBlock) (instructions : List Instruction) (rc : RefConfig)
    (c : Config) : Prop :=
  c.runtime = rc.runtime ∧ rc.pc ≤ instructions.length
    ∧ ∃ stack, CodeFrom blocks (instructions.drop rc.pc) c.block c.index stack
      ∧ Enclosing blocks instructions rc.pc stack

/-- The search of the reference interpreter back from `pc1` is the search back from `pc`,
further by the distance between them: no open loop starts in between. -/
def BackSkip (p : List Instruction) (pc pc1 : Nat) : Prop :=
  pc ≤ pc1 ∧ ∀ c, findLoopStart (p.take pc1).reverse c
    = (findLoopStart (p.take pc).reverse c).map (· + (pc1 - pc))

/-- The emitted program gets from `c` to `c1` in exactly `k` steps. -/
def RunsTo (blocks : List BasicBlock) (junk : Nat → Nat) (k : Nat) (c c1 : Config) : Prop :=
  ∀ fuel, run blocks junk (k + fuel) c = run blocks junk fuel c1

/-- The emitted program ends with outcome `o` within `k` steps from `c`. -/
def RunsOut (blocks : List BasicBlock) (junk : Nat → Nat) (k : Nat) (c : Config)
    (o : Outcome) : Prop :=
  ∀ fuel, run blocks junk (k + fuel) c = some o

/-- The reference interpreter gets from `c` to `c1` in exactly `k` instructions. -/
def RefRunsTo (instructions : List Instruction) (junk : Nat → Nat) (k : Nat)
    (c c1 : RefConfig) : Prop :=
  ∀ fuel, referenceRun instructions junk (k + fuel) c = referenceRun instructions junk fuel c1

/-- The reference interpreter ends with outcome `o` within `k` instructions from `c`. -/
def RefRunsOut (instructions : List Instruction) (junk : Nat → Nat) (k : Nat)
    (c : RefConfig) (o : Outcome) : Prop :=
  ∀ fuel, referenceRun instructions junk (k + fuel) c = some o

/-- Every pointer guard in the blocks branches to the block `error` when the pointer is 0,
and otherwise to a block that starts with the decrement of the pointer. -/
def GuardsOK (blocks : List BasicBlock) : Prop :=
  ∀ b j ifZero otherwise, fetch blocks b j = some (Inst.condBrReturnWithError ifZero otherwise) →
    ifZero = errorBlock ∧ fetch blocks otherwise 0 = some Inst.decrementCurrentCell

/-- The number of blocks created under the name `name`. -/
def countBlocks (name : BlockName) (blocks : List BasicBlock) : Nat :=
  blocks.countP (fun b => decide (b.name = name))

/-- The number of instructions in the blocks that `q` picks; `q` sees the index of the block
an instruction is in. -/
def countInsts (q : Nat → Inst → Bool) (blocks : List BasicBlock) : Nat :=
  ∑ b ∈ Finset.range blocks.length, (instsAt blocks b).countP (q b)

/-- An entry test of a loop: the conditional branch on the current cell. -/
def isEntryTest (_ : Nat) : Inst → Bool
  | Inst.condBrContinueLoop _ _ => true
  | _ => false

/-- A back-edge: an unconditional branch to a block that the function lays out before the
block the branch is in. -/
def isBackEdge (function : List Nat) (block : Nat) : Inst → Bool
  | Inst.br dest => decide (function.indexOf dest < function.indexOf block)
  | _ => false

/-- The layout of the function while `generateIR` runs inside the open loops `stack`, with
the merge blocks of `below` kept for later: the function holds created blocks only, the
block at the insert point among them and after the loop block of every open loop, no merge
block of an open loop yet, and both ends of every unconditional branch. -/
def Laid (s : IRState) (stack below : List LoopFrame) : Prop :=
  (∀ b ∈ s.function, b < s.blocks.length)
    ∧ s.insertPoint ∈ s.function
    ∧ (∀ f ∈ stack, s.function.indexOf f.loopBlock < s.function.indexOf s.insertPoint)
    ∧ (∀ f ∈ stack ++ below, f.mergeBlock ∉ s.function)
    ∧ (∀ b dest, Inst.br dest ∈ instsAt s.blocks b → b ∈ s.function ∧ dest ∈ s.function)

/-- The names under which the blocks were created, in the order of their creation. -/
def blockNames (blocks : List BasicBlock) : List BlockName :=
  blocks.map (·.name)

/-- Every entry test is the first instruction of a block created as `loop`, and its zero
target is the block created as `merge` two blocks after it. -/
def TestsOK (blocks : List BasicBlock) : Prop :=
  ∀ b j body merge, fetch blocks b j = some (Inst.condBrContinueLoop body merge) →
    j = 0 ∧ merge = b + 2 ∧ (blockNames blocks)[b]? = some BlockName.loop
      ∧ (blockNames blocks)[merge]? = some BlockName.merge

/-- A growth event: the call of `moveRight` on `r` takes the branch `then` of lines 222-243,
which doubles `cellsLength` and reallocates; the test `resizeCells` of line 222 compares the
incremented pointer with the capacity. -/
def growthEvent (r : Runtime) : Prop :=
  (1 + r.currentCell) % wordSize = r.cellsLength

instance (r : Runtime) : Decidable (growthEvent r) := by
  unfold growthEvent
  infer_instance

/-- The library call `realloc(cells, size)` with the result it can have: `none` stands for
the null pointer that `realloc` returns when the allocator gives no block of `size` bytes.
`grants` says which sizes the allocator gives. -/
def reallocOrNull (junk : Nat → Nat) (grants : Nat → Bool) (cells : List Nat) (size : Nat) :
    Option (List Nat) :=
  if grants size then some (realloc junk cells size) else none

/-- The emitted function `moveRight`, lines 212-249, with an allocation that can fail.
Line 243 stores the result of `realloc` unchecked: after a null pointer there is no tape
any more, and so no tape state (`none`). -/
def moveRightOrNull (junk : Nat → Nat) (grants : Nat → Bool) (r : Runtime) : Option Runtime :=
  let currentCell := (1 + r.currentCell) % wordSize
  if currentCell = r.cellsLength then
    let cellsLength := (2 * r.cellsLength) % wordSize
    match reallocOrNull junk grants r.cells cellsLength with
    | none => none
    | some cells =>
      some { r with
        currentCell := currentCell
        cellsLength := cellsLength
        cells := cells }
  else
    some { r with currentCell := currentCell }

/-- One operation of a generated program on a tape state, with the allocator `grants`: as
`RuntimeStep`, but a call of `moveRight` leads to a tape state only when its `realloc`, if
it calls it, gives a block. -/
inductive TapeStep (junk : Nat → Nat) (grants : Nat → Bool) : Runtime → Runtime → Prop where
  | moveRight (r r1 : Runtime) (h : moveRightOrNull junk grants r = some r1) :
      TapeStep junk grants r r1
  | moveLeft (r : Runtime) (h : r.currentCell ≠ 0) :
      TapeStep junk grants r (decrementCurrentCell r)
  | addCellValue (k : Nat) (r : Runtime) : TapeStep junk grants r (addCellValue k r)
  | subCellValue (k : Nat) (r : Runtime) : TapeStep junk grants r (subCellValue k r)
  | putchar (r : Runtime) : TapeStep junk grants r (putchar r)
  | input (r : Runtime) : TapeStep junk grants r (input r)
  | fputsError (r : Runtime) : TapeStep junk grants r (fputsError r)

/-- The tape states a generated program can be in, with the number of growth events that
led there: `TapeReachable junk grants stdin k r` says that operations of a generated program
lead from the initial state to `r`, exactly `k` of them growth events. -/
inductive TapeReachable (junk : Nat → Nat) (grants : Nat → Bool) (stdin : List (List Nat)) :
    Nat → Runtime → Prop where
  | initial : TapeReachable junk grants stdin 0 (initialRuntime junk stdin)
  | grow (k : Nat) (r r1 : Runtime) (h : TapeReachable junk grants stdin k r)
      (hg : growthEvent r) (hm : moveRightOrNull junk grants r = some r1) :
      TapeReachable junk grants stdin (k + 1) r1
  | step (k : Nat) (r r1 : Runtime) (h : TapeReachable junk grants stdin k r)
      (hs : TapeStep junk grants r r1)
      (hg : ¬ (growthEvent r ∧ moveRightOrNull junk grants r = some r1)) :
      TapeReachable junk grants stdin k r1

/-- A tape state with the allocator `grants`: the cells are a block of `cellsLength` bytes
that the allocator gave, the 4 bytes of line 640 or a size that `realloc` was given. -/
def TapeState (grants : Nat → Bool) (r : Runtime) : Prop :=
  r.cells.length = r.cellsLength ∧ (r.cellsLength = 4 ∨ grants r.cellsLength = true)

/-- The runtime states of a generated program before its first call of `input`: the initial
state and what operations other than `input` lead to from there. -/
inductive BeforeInput (junk : Nat → Nat) (stdin : List (List Nat)) : Runtime → Prop where
  | initial : BeforeInput junk stdin (initialRuntime junk stdin)
  | step (r r1 : Runtime) (h : BeforeInput junk stdin r) (hs : RuntimeStep junk r r1)
      (hne : r1 ≠ input r) : BeforeInput junk stdin r1

/-- The cursor positions at which an activation of `generateIR` and the activations nested
in it enter the `switch` of line 350, in the order in which they do: `generateIRLoop` with
the emission left out and each dispatch noted. -/
def dispatches (instructions : List Instruction) (errorBlock : Nat) :
    Nat → Nat → Option LoopFrame → IRState → List Nat
  | 0, _, _, _ => []
  | fuel + 1, loopStart, frame, s =>
    match instructions[s.currentInstruction]? with
    | none => []
    | some Instruction.moveRight =>
      s.currentInstruction
        :: dispatches instructions errorBlock fuel loopStart frame (emitMoveRight s).advance
    | some Instruction.moveLeft =>
      s.currentInstruction
        :: dispatches instructions errorBlock fuel loopStart frame
            (emitMoveLeft errorBlock s).advance
    | some Instruction.increment =>
      s.currentInstruction
        :: dispatches instructions errorBlock fuel loopStart frame
            (emitIncrement instructions s).advance
    | some Instruction.decrement =>
      s.currentInstruction
        :: dispatches instructions errorBlock fuel loopStart frame
            (emitDecrement instructions s).advance
    | some Instruction.output =>
      s.currentInstruction
        :: dispatches instructions errorBlock fuel loopStart frame (emitOutput s).advance
    | some Instruction.input =>
      s.currentInstruction
        :: dispatches instructions errorBlock fuel loopStart frame (emitInput s).advance
    | some Instruction.startLoop =>
      if loopStart = s.currentInstruction then
        s.currentInstruction
          :: dispatches instructions errorBlock fuel loopStart (some (openLoop s).1)
              (openLoop s).2.advance
      else
        s.currentInstruction
          :: (dispatches instructions errorBlock fuel s.currentInstruction none s
            ++ match generateIRLoop instructions errorBlock fuel s.currentInstruction none s with
              | none => []
              | some inner =>
                match inner.error with
                | some _ => []
                | none =>
                  dispatches instructions errorBlock fuel loopStart frame inner.state.advance)
    | some Instruction.endLoop => [s.currentInstruction]

/-! ## The compiler around the emission -/

/-- The text that `ParseError::log` writes, lines 76-81. -/
def ParseError.log : ParseError → List Char
  | ParseError.noLoopEnd => "Loop was not ended!".toList
  | ParseError.noLoopStart => "Loop was not started!".toList

/-- What the collaborators of `main` answer: the target registry, the file system, the
backend and the programs `xcrun` and `ld`. An error is given by its message. -/
structure Environment where
  /-- The stem of the name of the source file, line 573. -/
  fileBaseName : List Char
  /-- The result of `lookupTarget`, line 701: the error string when there is no target. -/
  targetError : Option (List Char)
  /-- The result of `createTemporaryFile` for the object file, line 717. -/
  objectFileError : Option (List Char)
  /-- The result of `addPassesToEmitFile`, line 728: true when the target cannot emit. -/
  cannotEmit : Bool
  /-- The result of `createTemporaryFile` in `getSDKPath`, line 488. -/
  sdkFileError : Option (List Char)
  /-- The result of `findProgramByName("xcrun")`, line 494. -/
  xcrunError : Option (List Char)
  /-- The status of `xcrun`, line 507. -/
  xcrunReturn : Nat
  /-- The first line of what `xcrun` wrote, lines 514-519. -/
  sdkPath : List Char
  /-- The result of `findProgramByName("ld")`, line 530. -/
  ldError : Option (List Char)
  /-- The status of `ld`, line 546. -/
  ldReturn : Nat
  /-- The path of the executable, lines 574-579. -/
  outputFilePath : List Char

/-- What the compiler does that can be seen from outside. -/
inductive Event where
  /-- The call `mainFunction->eraseFromParent()`, line 652. -/
  | eraseMain
  /-- A text written to `llvm::errs()`. -/
  | errs (text : List Char)
  /-- A text written to `llvm::outs()`. -/
  | outs (text : List Char)
  /-- A temporary file has been created by `createTemporaryFile`, its name made of the two
  given parts and a unique middle. -/
  | temporaryFile (name suffix : List Char)
  /-- The call `outputPassManager.run(*module)`, line 733: the object code of the module,
  whose function `main` holds the given blocks, is written to the temporary file. -/
  | emitObject (main : IRState)
  /-- A program has been run by `ExecuteAndWait`. -/
  | execute (program : List Char)
  deriving DecidableEq

/-- The function `getSDKPath`, lines 486-520: the path, when it is found, and the events. -/
def getSDKPath (env : Environment) : Option (List Char) × List Event :=
  match env.sdkFileError with
  | some message =>
    (none, [Event.errs ("Could not create temporary file: ".toList ++ message)])
  | none =>
    match env.xcrunError with
    | some message =>
      (none, [Event.temporaryFile "sdkpath".toList [],
        Event.errs ("Could not find xcrun: ".toList ++ message)])
    | none =>
      if env.xcrunReturn ≠ 0 then
        (none, [Event.temporaryFile "sdkpath".toList [], Event.execute "xcrun".toList,
          Event.errs "xcrun command failed.".toList])
      else
        (some env.sdkPath, [Event.temporaryFile "sdkpath".toList [],
          Event.execute "xcrun".toList])

/-- The function `link`, lines 523-556: the status it returns and the events. -/
def link (env : Environment) : Nat × List Event :=
  match getSDKPath env with
  | (none, events) => (1, events ++ [Event.errs "Could not find path of MacOSK.sdk".toList])
  | (some _, events) =>
    match env.ldError with
    | some message => (1, events ++ [Event.errs ("Could not find ld: ".toList ++ message)])
    | none =>
      if env.ldReturn ≠ 0 then
        (1, events ++ [Event.execute "ld".toList, Event.errs "ld command failed.".toList])
      else
        (0, events ++ [Event.execute "ld".toList,
          Event.outs ("Generated ".toList ++ env.outputFilePath ++ "\n".toList)])

/-- The function `main` from the call `generateIR()` on, lines 651-743, on the instruction
vector that the source filter has filled: the status that `main` returns and the events up
to there. `none` stands for an emission that would not return. -/
def compiler (env : Environment) (instructions : List Instruction) :
    Option (Nat × List Event) :=
  match generateIRTop instructions with
  | none => none
  | some emitted =>
    match emitted.error with
    | some error =>
      some (1, [Event.eraseMain,
        Event.errs ("Parsing Error: ".toList ++ error.log ++ "\n".toList)])
    | none =>
      match env.targetError with
      | some errorString => some (1, [Event.errs errorString])
      | none =>
        match env.objectFileError with
        | some message =>
          some (1, [Event.errs ("Could not create temporary file: ".toList ++ message)])
        | none =>
          if env.cannotEmit then
            some (1, [Event.temporaryFile env.fileBaseName "o".toList,
              Event.errs "Target machine cannot emit a file of this type".toList])
          else
            some ((link env).1,
              [Event.temporaryFile env.fileBaseName "o".toList,
                Event.emitObject (finishMain emitted.state)] ++ (link env).2)

/-- An event that leaves something on disk or runs the backend or the linker. -/
def Event.isOutput : Event → Bool
  | Event.temporaryFile _ _ => true
  | Event.emitObject _ => true
  | Event.execute _ => true
  | Event.outs _ => true
  | Event.eraseMain => false
  | Event.errs _ => false

/-- An instruction of the kinds that `generateIR` emits: every kind but the call of `fputs`
and the return, which `main` emits itself (lines 666-668 and 677-687). -/
def Inst.fromGenerateIR : Inst → Bool
  | Inst.callFputsError => false
  | Inst.retPhi _ _ => false
  | _ => true

/-- The diagnostic is written in the block `error` only, and every return gives status 1
for the predecessor `error`. -/
def Tidy (blocks : List BasicBlock) : Prop :=
  ∀ b j x, fetch blocks b j = some x →
    (x = Inst.callFputsError → b = errorBlock)
      ∧ ∀ fromLast fromError, x = Inst.retPhi fromLast fromError → fromError = errorBlock

/-- Whether the run of at most `fuel` steps from `c` executes an instruction of the block
`error`, the target of the pointer guards: whether it takes the guarded-underflow path. -/
def visitsError (blocks : List BasicBlock) (junk : Nat → Nat) : Nat → Config → Bool
  | 0, _ => false
  | fuel + 1, c =>
    c.block == errorBlock
      || match step blocks junk c with
        | Step.next c1 => visitsError blocks junk fuel c1
        | Step.halt _ => false

/-- A branch that does not lead to the block `error`, unless it is the zero branch of a
pointer guard, which does. -/
def Inst.guardsError : Inst → Prop
  | Inst.br dest => dest ≠ errorBlock
  | Inst.condBrContinueLoop ifNonZero otherwise =>
    ifNonZero ≠ errorBlock ∧ otherwise ≠ errorBlock
  | Inst.condBrReturnWithError ifZero otherwise =>
    ifZero = errorBlock ∧ otherwise ≠ errorBlock
  | _ => True

/-- Whether the run of at most `fuel` steps from `c` executes a pointer guard with the
pointer at 0: whether a move to the left underflows. -/
def underflows (blocks : List BasicBlock) (junk : Nat → Nat) : Nat → Config → Bool
  | 0, _ => false
  | fuel + 1, c =>
    (match fetch blocks c.block c.index with
      | some (Inst.condBrReturnWithError _ _) => decide (c.runtime.currentCell = 0)
      | _ => false)
      || match step blocks junk c with
        | Step.next c1 => underflows blocks junk fuel c1
        | Step.halt _ => false


/-! ## Pointer guards and the error path -/

/-- A pointer guard: the conditional branch on `currentCell` being 0 that a move to the left
emits, lines 357-363. -/
def isGuard (_ : Nat) : Inst → Bool
  | Inst.condBrReturnWithError _ _ => true
  | _ => false

/-- The write of the diagnostic, with which the error path starts (lines 666-668). -/
def isErrorMessage (_ : Nat) : Inst → Bool
  | Inst.callFputsError => true
  | _ => false

/-! ## The calls of `input` served from one line -/

/-- The library call `strlen` on the buffer `line` from the offset `position` on: the number
of bytes before the first terminator. The end of the list stands for the terminator that
ends the buffer. -/
def strlen (line : List Nat) (position : Nat) : Nat :=
  ((line.drop position).takeWhile (fun byte => decide (byte % 256 ≠ 0))).length

/-- The runtime states that operations of a generated program lead to from `r`, with the
number of calls of `input` among them: `AfterInputs junk k r r1` says that `r1` is reached
from `r` by operations of which exactly `k` are calls of `input`. -/
inductive AfterInputs (junk : Nat → Nat) : Nat → Runtime → Runtime → Prop where
  | start (r : Runtime) : AfterInputs junk 0 r r
  | other (k : Nat) (r r1 r2 : Runtime) (h : AfterInputs junk k r r1)
      (hs : RuntimeStep junk r1 r2) (hne : r2 ≠ input r1) : AfterInputs junk k r r2
  | call (k : Nat) (r r1 : Runtime) (h : AfterInputs junk k r r1) :
      AfterInputs junk (k + 1) r (input r1)

/-! ## The recursion of `generateIR` -/

/-- The recursive activations that an activation of `generateIR` and the activations nested
in it create, in the order of the calls `generateIR(currentInstruction)` of line 461: each
is given by the cursor position it is started at. `generateIRLoop` with the emission left
out and each recursive call noted. -/
def activations (instructions : List Instruction) (errorBlock : Nat) :
    Nat → Nat → Option LoopFrame → IRState → List Nat
  | 0, _, _, _ => []
  | fuel + 1, loopStart, frame, s =>
    match instructions[s.currentInstruction]? with
    | none => []
    | some Instruction.moveRight =>
      activations instructions errorBlock fuel loopStart frame (emitMoveRight s).advance
    | some Instruction.moveLeft =>
      activations instructions errorBlock fuel loopStart frame
        (emitMoveLeft errorBlock s).advance
    | some Instruction.increment =>
      activations instructions errorBlock fuel loopStart frame
        (emitIncrement instructions s).advance
    | some Instruction.decrement =>
      activations instructions errorBlock fuel loopStart frame
        (emitDecrement instructions s).advance
    | some Instruction.output =>
      activations instructions errorBlock fuel loopStart frame (emitOutput s).advance
    | some Instruction.input =>
      activations instructions errorBlock fuel loopStart frame (emitInput s).advance
    | some Instruction.startLoop =>
      if loopStart = s.currentInstruction then
        activations instructions errorBlock fuel loopStart (some (openLoop s).1)
          (openLoop s).2.advance
      else
        s.currentInstruction
          :: (activations instructions errorBlock fuel s.currentInstruction none s
            ++ match generateIRLoop instructions errorBlock fuel s.currentInstruction none s with
              | none => []
              | some inner =>
                match inner.error with
                | some _ => []
                | none =>
                  activations instructions errorBlock fuel loopStart frame inner.state.advance)
    | some Instruction.endLoop => []

/-- The largest number of recursive activations of `generateIR` that are active at the same
time while one activation runs, that activation itself not counted: a recursive call of
line 461 is active together with what is active inside it, and is over when the activation
goes on. -/
def recursionDepth (instructions : List Instruction) (errorBlock : Nat) :
    Nat → Nat → Option LoopFrame → IRState → Nat
  | 0, _, _, _ => 0
  | fuel + 1, loopStart, frame, s =>
    match instructions[s.currentInstruction]? with
    | none => 0
    | some Instruction.moveRight =>
      recursionDepth instructions errorBlock fuel loopStart frame (emitMoveRight s).advance
    | some Instruction.moveLeft =>
      recursionDepth instructions errorBlock fuel loopStart frame
        (emitMoveLeft errorBlock s).advance
    | some Instruction.increment =>
      recursionDepth instructions errorBlock fuel loopStart frame
        (emitIncrement instructions s).advance
    | some Instruction.decrement =>
      recursionDepth instructions errorBlock fuel loopStart frame
        (emitDecrement instructions s).advance
    | some Instruction.output =>
      recursionDepth instructions errorBlock fuel loopStart frame (emitOutput s).advance
    | some Instruction.input =>
      recursionDepth instructions errorBlock fuel loopStart frame (emitInput s).advance
    | some Instruction.startLoop =>
      if loopStart = s.currentInstruction then
        recursionDepth instructions errorBlock fuel loopStart (some (openLoop s).1)
          (openLoop s).2.advance
      else
        max (1 + recursionDepth instructions errorBlock fuel s.currentInstruction none s)
          (match generateIRLoop instructions errorBlock fuel s.currentInstruction none s with
            | none => 0
            | some inner =>
              match inner.error with
              | some _ => 0
              | none =>
                recursionDepth instructions errorBlock fuel loopStart frame
                  inner.state.advance)
    | some Instruction.endLoop => 0

/-- The largest number of loops open at the same time while reading `p` from the left, with
`depth` loops open at the start: the maximum loop-nesting depth of `p` when `depth` is 0. -/
def nestingDepth : List Instruction → Nat → Nat
  | [], depth => depth
  | Instruction.startLoop :: p, depth => max depth (nestingDepth p (depth + 1))
  | Instruction.endLoop :: p, depth => max depth (nestingDepth p (depth - 1))
  | _ :: p, depth => max depth (nestingDepth p depth)
/-! ## Source filter: properties -/

theorem pushInstruction_eq (c : Char) (acc : List Instruction) :
    pushInstruction c acc = acc ++ (instructionOfChar c).toList := by
  unfold pushInstruction instructionOfChar
  split_ifs <;> simp

theorem readSource_eq (source : List Char) (acc : List Instruction) :
    readSource source acc = acc ++ source.filterMap instructionOfChar := by
  induction source generalizing acc with
  | nil => simp [readSource]
  | cons c rest ih =>
    rw [readSource, ih, pushInstruction_eq]
    cases h : instructionOfChar c <;> simp [List.filterMap_cons, h]

/-- C8: the source filter yields, in source order, the instruction of every character of the
eight-entry table and nothing for any other character; it is a total function into
instruction sequences, so it has no error result. -/
theorem sourceFilter_spec (source : List Char) :
    sourceFilter source = source.filterMap instructionOfChar
    ∧ instructionOfChar '>' = some Instruction.moveRight
    ∧ instructionOfChar '<' = some Instruction.moveLeft
    ∧ instructionOfChar '+' = some Instruction.increment
    ∧ instructionOfChar '-' = some Instruction.decrement
    ∧ instructionOfChar '.' = some Instruction.output
    ∧ instructionOfChar ',' = some Instruction.input
    ∧ instructionOfChar '[' = some Instruction.startLoop
    ∧ instructionOfChar ']' = some Instruction.endLoop
    ∧ ∀ c : Char, c ∉ ['>', '<', '+', '-', '.', ',', '[', ']'] → instructionOfChar c = none := by
  refine ⟨by simp [sourceFilter, readSource_eq], by decide, by decide, by decide, by decide,
    by decide, by decide, by decide, by decide, ?_⟩
  intro c hc
  simp only [List.mem_cons, List.mem_singleton, not_or, List.not_mem_nil, or_false] at hc
  obtain ⟨h1, h2, h3, h4, h5, h6, h7, h8⟩ := hc
  simp [instructionOfChar, h1, h2, h3, h4, h5, h6, h7, h8]


/-! ## One round of the `generateIR` loop -/

theorem generateIRLoop_end (instructions : List Instruction) (errorBlock : Nat)
    (fuel loopStart : Nat) (frame : Option LoopFrame) (s : IRState)
    (h : instructions[s.currentInstruction]? = none) :
    generateIRLoop instructions errorBlock (fuel + 1) loopStart frame s
      = some { error := if frame.isSome then some ParseError.noLoopEnd else none, state := s } := by
  simp only [generateIRLoop, h]

theorem generateIRLoop_moveRight (instructions : List Instruction) (errorBlock : Nat)
    (fuel loopStart : Nat) (frame : Option LoopFrame) (s : IRState)
    (h : instructions[s.currentInstruction]? = some Instruction.moveRight) :
    generateIRLoop instructions errorBlock (fuel + 1) loopStart frame s
      = generateIRLoop instructions errorBlock fuel loopStart frame
          (emitMoveRight s).advance := by
  simp only [generateIRLoop, h]

theorem generateIRLoop_moveLeft (instructions : List Instruction) (errorBlock : Nat)
    (fuel loopStart : Nat) (frame : Option LoopFrame) (s : IRState)
    (h : instructions[s.currentInstruction]? = some Instruction.moveLeft) :
    generateIRLoop instructions errorBlock (fuel + 1) loopStart frame s
      = generateIRLoop instructions errorBlock fuel loopStart frame
          (emitMoveLeft errorBlock s).advance := by
  simp only [generateIRLoop, h]

theorem generateIRLoop_increment (instructions : List Instruction) (errorBlock : Nat)
    (fuel loopStart : Nat) (frame : Option LoopFrame) (s : IRState)
    (h : instructions[s.currentInstruction]? = some Instruction.increment) :
    generateIRLoop instructions errorBlock (fuel + 1) loopStart frame s
      = generateIRLoop instructions errorBlock fuel loopStart frame
          (emitIncrement instructions s).advance := by
  simp only [generateIRLoop, h]

theorem generateIRLoop_decrement (instructions : List Instruction) (errorBlock : Nat)
    (fuel loopStart : Nat) (frame : Option LoopFrame) (s : IRState)
    (h : instructions[s.currentInstruction]? = some Instruction.decrement) :
    generateIRLoop instructions errorBlock (fuel + 1) loopStart frame s
      = generateIRLoop instructions errorBlock fuel loopStart frame
          (emitDecrement instructions s).advance := by
  simp only [generateIRLoop, h]

theorem generateIRLoop_output (instructions : List Instruction) (errorBlock : Nat)
    (fuel loopStart : Nat) (frame : Option LoopFrame) (s : IRState)
    (h : instructions[s.currentInstruction]? = some Instruction.output) :
    generateIRLoop instructions errorBlock (fuel + 1) loopStart frame s
      = generateIRLoop instructions errorBlock fuel loopStart frame
          (emitOutput s).advance := by
  simp only [generateIRLoop, h]

theorem generateIRLoop_input (instructions : List Instruction) (errorBlock : Nat)
    (fuel loopStart : Nat) (frame : Option LoopFrame) (s : IRState)
    (h : instructions[s.currentInstruction]? = some Instruction.input) :
    generateIRLoop instructions errorBlock (fuel + 1) loopStart frame s
      = generateIRLoop instructions errorBlock fuel loopStart frame
          (emitInput s).advance := by
  simp only [generateIRLoop, h]

theorem generateIRLoop_open (instructions : List Instruction) (errorBlock : Nat)
    (fuel loopStart : Nat) (frame : Option LoopFrame) (s : IRState)
    (h : instructions[s.currentInstruction]? = some Instruction.startLoop)
    (hown : loopStart = s.currentInstruction) :
    generateIRLoop instructions errorBlock (fuel + 1) loopStart frame s
      = generateIRLoop instructions errorBlock fuel loopStart (some (openLoop s).1)
          (openLoop s).2.advance := by
  simp only [generateIRLoop, h, if_pos hown]

theorem generateIRLoop_nested (instructions : List Instruction) (errorBlock : Nat)
    (fuel loopStart : Nat) (frame : Option LoopFrame) (s : IRState)
    (h : instructions[s.currentInstruction]? = some Instruction.startLoop)
    (hown : loopStart ≠ s.currentInstruction) :
    generateIRLoop instructions errorBlock (fuel + 1) loopStart frame s
      = match generateIRLoop instructions errorBlock fuel s.currentInstruction none s with
        | none => none
        | some inner =>
          match inner.error with
          | some e => some { error := some e, state := inner.state }
          | none =>
            generateIRLoop instructions errorBlock fuel loopStart frame inner.state.advance := by
  simp only [generateIRLoop, h, if_neg hown]

theorem generateIRLoop_close (instructions : List Instruction) (errorBlock : Nat)
    (fuel loopStart : Nat) (frame : Option LoopFrame) (s : IRState)
    (h : instructions[s.currentInstruction]? = some Instruction.endLoop) :
    generateIRLoop instructions errorBlock (fuel + 1) loopStart frame s
      = match frame with
        | none => some { error := some ParseError.noLoopStart, state := s }
        | some f => some { error := none, state := closeLoop f s } := by
  simp only [generateIRLoop, h]


/-! ## Run-length merge -/

theorem mergeRun_replicate (kind : Instruction) (m : Nat) (post : List Instruction)
    (hpost : post.head? ≠ some kind) (count cursor : Nat) (hc : count < 256) :
    mergeRun kind (List.replicate m kind ++ post) count cursor
      = ((count + m) % 256, cursor + m) := by
  induction m generalizing count cursor with
  | zero =>
    cases post with
    | nil => simp [mergeRun, Nat.mod_eq_of_lt hc]
    | cons i rest =>
      have hi : i ≠ kind := by simpa using hpost
      simp [mergeRun, hi, Nat.mod_eq_of_lt hc]
  | succ m ih =>
    rw [List.replicate_succ, List.cons_append, mergeRun, if_pos rfl,
      ih _ _ (Nat.mod_lt _ (by norm_num))]
    simp only [Prod.mk.injEq]
    omega

theorem getElem?_run (pre post : List Instruction) (kind : Instruction) (n : Nat)
    (hn : 1 ≤ n) :
    (pre ++ List.replicate n kind ++ post)[pre.length]? = some kind := by
  obtain ⟨m, rfl⟩ : ∃ m, n = m + 1 := ⟨n - 1, by omega⟩
  rw [List.append_assoc, List.getElem?_append_right (le_refl _)]
  simp [List.replicate_succ]

theorem drop_run (pre post : List Instruction) (kind : Instruction) (n : Nat) (hn : 1 ≤ n) :
    (pre ++ List.replicate n kind ++ post).drop (pre.length + 1)
      = List.replicate (n - 1) kind ++ post := by
  obtain ⟨m, rfl⟩ : ∃ m, n = m + 1 := ⟨n - 1, by omega⟩
  rw [List.append_assoc, ← List.drop_drop, List.drop_left]
  simp [List.replicate_succ]

/-! ## Cell arithmetic -/

theorem loadCell_storeCell (r : Runtime) (v : Nat) (h : r.currentCell < r.cells.length) :
    loadCell (storeCell r v) = v := by
  simp [loadCell, storeCell, List.getD_eq_getElem?_getD, h]

theorem storeCell_storeCell (r : Runtime) (v w : Nat) :
    storeCell (storeCell r v) w = storeCell r w := by
  simp [storeCell]

theorem storeCell_inBounds (r : Runtime) (v : Nat) (h : r.currentCell < r.cells.length) :
    (storeCell r v).currentCell < (storeCell r v).cells.length := by
  simpa [storeCell] using h

theorem addCellValue_iterate (r : Runtime) (n : Nat) (h : r.currentCell < r.cells.length) :
    (addCellValue 1)^[n + 1] r = storeCell r ((loadCell r + (n + 1)) % 256) := by
  induction n with
  | zero => rfl
  | succ n ih =>
    rw [Function.iterate_succ_apply', ih, addCellValue, loadCell_storeCell _ _ h,
      storeCell_storeCell]
    have h1 : ((loadCell r + (n + 1)) % 256 + 1) % 256 = (loadCell r + (n + 1 + 1)) % 256 := by
      generalize loadCell r = v
      omega
    rw [h1]

theorem subCellValue_iterate (r : Runtime) (n : Nat) (h : r.currentCell < r.cells.length) :
    (subCellValue 1)^[n + 1] r = storeCell r ((loadCell r + 255 * (n + 1)) % 256) := by
  induction n with
  | zero => rfl
  | succ n ih =>
    rw [Function.iterate_succ_apply', ih, subCellValue, loadCell_storeCell _ _ h,
      storeCell_storeCell]
    have h1 : ((loadCell r + 255 * (n + 1)) % 256 + (256 - 1 % 256)) % 256
        = (loadCell r + 255 * (n + 1 + 1)) % 256 := by
      generalize loadCell r = v
      omega
    rw [h1]

/-- C7: for a run of `n ≥ 1` increments the emitted constant is the `uint8_t` counter that
the look-ahead loop leaves, and executing the one `add` with it on a cell holding `v` leaves
`(v + n) % 256`, the same state as `n` single wrapping increments; for a run of `n`
decrements the one `sub` leaves `(v - n) mod 256`, the same state as `n` single wrapping
decrements. The pointer is inside the allocated block. -/
theorem merged_run_value (r : Runtime) (n : Nat) (hn : 1 ≤ n)
    (hp : r.currentCell < r.cells.length) (post : List Instruction) (cursor : Nat) :
    (post.head? ≠ some Instruction.increment →
      loadCell (addCellValue
          (mergeRun Instruction.increment
            (List.replicate (n - 1) Instruction.increment ++ post) 1 cursor).1 r)
        = (loadCell r + n) % 256
      ∧ addCellValue
          (mergeRun Instruction.increment
            (List.replicate (n - 1) Instruction.increment ++ post) 1 cursor).1 r
        = (addCellValue 1)^[n] r)
    ∧ (post.head? ≠ some Instruction.decrement →
      (loadCell (subCellValue
          (mergeRun Instruction.decrement
            (List.replicate (n - 1) Instruction.decrement ++ post) 1 cursor).1 r) : Int)
        = ((loadCell r : Int) - (n : Int)) % 256
      ∧ subCellValue
          (mergeRun Instruction.decrement
            (List.replicate (n - 1) Instruction.decrement ++ post) 1 cursor).1 r
        = (subCellValue 1)^[n] r) := by
  obtain ⟨m, rfl⟩ : ∃ m, n = m + 1 := ⟨n - 1, by omega⟩
  constructor
  · intro hpost
    rw [mergeRun_replicate _ _ _ hpost _ _ (by norm_num : 1 < 256), addCellValue_iterate _ _ hp]
    simp only [Nat.add_sub_cancel, addCellValue]
    have h : (loadCell r + (1 + m) % 256) % 256 = (loadCell r + (m + 1)) % 256 := by
      generalize loadCell r = v
      omega
    rw [h, loadCell_storeCell _ _ hp]
    exact ⟨rfl, rfl⟩
  · intro hpost
    rw [mergeRun_replicate _ _ _ hpost _ _ (by norm_num : 1 < 256), subCellValue_iterate _ _ hp]
    simp only [Nat.add_sub_cancel, subCellValue]
    have h : (loadCell r + (256 - (1 + m) % 256 % 256)) % 256
        = (loadCell r + 255 * (m + 1)) % 256 := by
      generalize loadCell r = v
      omega
    rw [h, loadCell_storeCell _ _ hp]
    refine ⟨?_, rfl⟩
    generalize loadCell r = v
    omega

/-- C7 at a concrete input: a run of 300 on a cell holding 7, where the counter has wrapped
to 44. -/
theorem merged_run_value_witness :
    (loadCell (addCellValue
          (mergeRun Instruction.increment
            (List.replicate (300 - 1) Instruction.increment ++ []) 1 0).1
          (initialRuntime (fun _ => 7) []))
        = (loadCell (initialRuntime (fun _ => 7) []) + 300) % 256
      ∧ addCellValue
          (mergeRun Instruction.increment
            (List.replicate (300 - 1) Instruction.increment ++ []) 1 0).1
          (initialRuntime (fun _ => 7) [])
        = (addCellValue 1)^[300] (initialRuntime (fun _ => 7) []))
    ∧ ((loadCell (subCellValue
          (mergeRun Instruction.decrement
            (List.replicate (300 - 1) Instruction.decrement ++ []) 1 0).1
          (initialRuntime (fun _ => 7) [])) : Int)
        = ((loadCell (initialRuntime (fun _ => 7) []) : Int) - (300 : Int)) % 256
      ∧ subCellValue
          (mergeRun Instruction.decrement
            (List.replicate (300 - 1) Instruction.decrement ++ []) 1 0).1
          (initialRuntime (fun _ => 7) [])
        = (subCellValue 1)^[300] (initialRuntime (fun _ => 7) [])) :=
  ⟨(merged_run_value (initialRuntime (fun _ => 7) []) 300 (by decide) (by decide) [] 0).1
      (by decide),
    (merged_run_value (initialRuntime (fun _ => 7) []) 300 (by decide) (by decide) [] 0).2
      (by decide)⟩


/-! ## Reading loop nesting from the left -/

theorem findLoopEnd_cons_simple (i : Instruction) (l : List Instruction) (d : Nat)
    (hi : i.isSimple) : findLoopEnd (i :: l) d = (findLoopEnd l d).map (· + 1) := by
  obtain ⟨h1, h2⟩ := hi
  cases i <;> first | rfl | exact absurd rfl h1 | exact absurd rfl h2

theorem firstViolation_cons_simple (i : Instruction) (l : List Instruction) (d : Nat)
    (hi : i.isSimple) : firstViolation (i :: l) d = firstViolation l d := by
  obtain ⟨h1, h2⟩ := hi
  cases i <;> first | rfl | exact absurd rfl h1 | exact absurd rfl h2

theorem findLoopEnd_lt_length (l : List Instruction) (c d : Nat)
    (h : findLoopEnd l c = some d) : d < l.length := by
  induction l generalizing c d with
  | nil => simp [findLoopEnd] at h
  | cons i l ih =>
    cases i
    case startLoop =>
      simp only [findLoopEnd, Option.map_eq_some'] at h
      obtain ⟨a, ha, rfl⟩ := h
      have := ih _ _ ha
      simp; omega
    case endLoop =>
      cases c with
      | zero => simp only [findLoopEnd, Option.some.injEq] at h; subst h; simp
      | succ c =>
        simp only [findLoopEnd, Option.map_eq_some'] at h
        obtain ⟨a, ha, rfl⟩ := h
        have := ih _ _ ha
        simp; omega
    all_goals
      simp only [findLoopEnd, Option.map_eq_some'] at h
      obtain ⟨a, ha, rfl⟩ := h
      have := ih _ _ ha
      simp; omega

theorem findLoopEnd_getElem (l : List Instruction) (c d : Nat)
    (h : findLoopEnd l c = some d) : l[d]? = some Instruction.endLoop := by
  induction l generalizing c d with
  | nil => simp [findLoopEnd] at h
  | cons i l ih =>
    cases i
    case startLoop =>
      simp only [findLoopEnd, Option.map_eq_some'] at h
      obtain ⟨a, ha, rfl⟩ := h
      simpa using ih _ _ ha
    case endLoop =>
      cases c with
      | zero => simp only [findLoopEnd, Option.some.injEq] at h; subst h; simp
      | succ c =>
        simp only [findLoopEnd, Option.map_eq_some'] at h
        obtain ⟨a, ha, rfl⟩ := h
        simpa using ih _ _ ha
    all_goals
      simp only [findLoopEnd, Option.map_eq_some'] at h
      obtain ⟨a, ha, rfl⟩ := h
      simpa using ih _ _ ha

theorem findLoopEnd_deeper (l : List Instruction) (c d e : Nat)
    (h : findLoopEnd l c = some d) :
    findLoopEnd l (c + e + 1) = (findLoopEnd (l.drop (d + 1)) e).map (· + (d + 1)) := by
  induction l generalizing c d with
  | nil => simp [findLoopEnd] at h
  | cons i l ih =>
    cases i
    case startLoop =>
      simp only [findLoopEnd, Option.map_eq_some'] at h
      obtain ⟨a, ha, rfl⟩ := h
      have := ih _ _ ha
      rw [show c + 1 + e + 1 = c + e + 1 + 1 by omega] at this
      simp only [findLoopEnd, this, List.drop_succ_cons, Option.map_map]
      rfl
    case endLoop =>
      cases c with
      | zero =>
        simp only [findLoopEnd, Option.some.injEq] at h
        subst h
        simp [findLoopEnd]
      | succ c =>
        simp only [findLoopEnd, Option.map_eq_some'] at h
        obtain ⟨a, ha, rfl⟩ := h
        have := ih _ _ ha
        rw [show c + 1 + e + 1 = c + e + 1 + 1 by omega]
        simp only [findLoopEnd, this, List.drop_succ_cons, Option.map_map]
        rfl
    all_goals
      simp only [findLoopEnd, Option.map_eq_some'] at h
      obtain ⟨a, ha, rfl⟩ := h
      have := ih _ _ ha
      simp only [findLoopEnd, this, List.drop_succ_cons, Option.map_map]
      rfl

theorem findLoopEnd_none_deeper (l : List Instruction) (c e : Nat)
    (h : findLoopEnd l c = none) : findLoopEnd l (c + e) = none := by
  induction l generalizing c with
  | nil => simp [findLoopEnd]
  | cons i l ih =>
    cases i
    case startLoop =>
      simp only [findLoopEnd, Option.map_eq_none'] at h
      have := ih _ h
      rw [show c + 1 + e = c + e + 1 by omega] at this
      simp [findLoopEnd, this]
    case endLoop =>
      cases c with
      | zero => simp [findLoopEnd] at h
      | succ c =>
        simp only [findLoopEnd, Option.map_eq_none'] at h
        have := ih _ h
        rw [show c + 1 + e = c + e + 1 by omega]
        simp [findLoopEnd, this]
    all_goals
      simp only [findLoopEnd, Option.map_eq_none'] at h
      have := ih _ h
      simp [findLoopEnd, this]

theorem firstViolation_deeper (l : List Instruction) (c d e : Nat)
    (h : findLoopEnd l c = some d) :
    firstViolation l (c + e + 1) = firstViolation (l.drop (d + 1)) e := by
  induction l generalizing c d with
  | nil => simp [findLoopEnd] at h
  | cons i l ih =>
    cases i
    case startLoop =>
      simp only [findLoopEnd, Option.map_eq_some'] at h
      obtain ⟨a, ha, rfl⟩ := h
      have := ih _ _ ha
      rw [show c + 1 + e + 1 = c + e + 1 + 1 by omega] at this
      simp only [firstViolation, this, List.drop_succ_cons]
    case endLoop =>
      cases c with
      | zero =>
        simp only [findLoopEnd, Option.some.injEq] at h
        subst h
        simp [firstViolation]
      | succ c =>
        simp only [findLoopEnd, Option.map_eq_some'] at h
        obtain ⟨a, ha, rfl⟩ := h
        have := ih _ _ ha
        rw [show c + 1 + e + 1 = c + e + 1 + 1 by omega]
        simp only [firstViolation, this, List.drop_succ_cons]
    all_goals
      simp only [findLoopEnd, Option.map_eq_some'] at h
      obtain ⟨a, ha, rfl⟩ := h
      have := ih _ _ ha
      simp only [firstViolation, this, List.drop_succ_cons]

theorem firstViolation_unclosed (l : List Instruction) (c e : Nat)
    (h : findLoopEnd l c = none) :
    firstViolation l (c + e + 1) = some ParseError.noLoopEnd := by
  induction l generalizing c with
  | nil => simp [firstViolation]
  | cons i l ih =>
    cases i
    case startLoop =>
      simp only [findLoopEnd, Option.map_eq_none'] at h
      have := ih _ h
      rw [show c + 1 + e + 1 = c + e + 1 + 1 by omega] at this
      simp [firstViolation, this]
    case endLoop =>
      cases c with
      | zero => simp [findLoopEnd] at h
      | succ c =>
        simp only [findLoopEnd, Option.map_eq_none'] at h
        have := ih _ h
        rw [show c + 1 + e + 1 = c + e + 1 + 1 by omega]
        simp [firstViolation, this]
    all_goals
      simp only [findLoopEnd, Option.map_eq_none'] at h
      have := ih _ h
      simp [firstViolation, this]

theorem drop_eq_cons_of_getElem? (p : List Instruction) (k : Nat) (i : Instruction)
    (h : p[k]? = some i) : p.drop k = i :: p.drop (k + 1) := by
  obtain ⟨hk, rfl⟩ := List.getElem?_eq_some.mp h
  exact List.drop_eq_getElem_cons hk

theorem findLoopEnd_skip (p : List Instruction) (k m d : Nat)
    (h : ∀ j, k ≤ j → j < k + m → ∃ x, p[j]? = some x ∧ x.isSimple) :
    findLoopEnd (p.drop k) d = (findLoopEnd (p.drop (k + m)) d).map (· + m) := by
  induction m generalizing k with
  | zero => simp
  | succ m ih =>
    obtain ⟨x, hx, hs⟩ := h k (le_refl _) (by omega)
    rw [drop_eq_cons_of_getElem? _ _ _ hx, findLoopEnd_cons_simple _ _ _ hs,
      ih (k + 1) (fun j h1 h2 => h j (by omega) (by omega)),
      Option.map_map, show k + 1 + m = k + (m + 1) by omega]
    congr 1

theorem firstViolation_skip (p : List Instruction) (k m d : Nat)
    (h : ∀ j, k ≤ j → j < k + m → ∃ x, p[j]? = some x ∧ x.isSimple) :
    firstViolation (p.drop k) d = firstViolation (p.drop (k + m)) d := by
  induction m generalizing k with
  | zero => simp
  | succ m ih =>
    obtain ⟨x, hx, hs⟩ := h k (le_refl _) (by omega)
    rw [drop_eq_cons_of_getElem? _ _ _ hx, firstViolation_cons_simple _ _ _ hs,
      ih (k + 1) (fun j h1 h2 => h j (by omega) (by omega)),
      show k + 1 + m = k + (m + 1) by omega]

/-! ## The round that dispatches a simple instruction -/

theorem mergeRun_spec (p : List Instruction) (kind : Instruction) (ahead : List Instruction)
    (count cursor : Nat) (h : p.drop (cursor + 1) = ahead) :
    cursor ≤ (mergeRun kind ahead count cursor).2
    ∧ (∀ j, cursor < j → j ≤ (mergeRun kind ahead count cursor).2 → p[j]? = some kind)
    ∧ p[(mergeRun kind ahead count cursor).2 + 1]? ≠ some kind
    ∧ (count < 256 → (mergeRun kind ahead count cursor).1
        = (count + ((mergeRun kind ahead count cursor).2 - cursor)) % 256) := by
  induction ahead generalizing count cursor with
  | nil =>
    have hlen : p.length ≤ cursor + 1 := by
      have := congrArg List.length h
      simp at this; omega
    refine ⟨le_refl _, fun j h1 h2 => ?_, ?_, fun hc => ?_⟩
    · simp only [mergeRun] at h2; omega
    · simp [mergeRun, List.getElem?_eq_none hlen]
    · simp [mergeRun, Nat.mod_eq_of_lt hc]
  | cons i ahead ih =>
    have hi : p[cursor + 1]? = some i := by
      rw [← List.head?_drop, h]; rfl
    have hrest : p.drop (cursor + 1 + 1) = ahead := by
      rw [← List.drop_drop, h]; rfl
    by_cases hk : i = kind
    · subst hk
      obtain ⟨h1, h2, h3, h4⟩ := ih ((count + 1) % 256) (cursor + 1) hrest
      simp only [mergeRun, if_pos]
      refine ⟨by omega, fun j hj1 hj2 => ?_, h3, fun hc => ?_⟩
      · by_cases hj : j = cursor + 1
        · rw [hj, hi]
        · exact h2 j (by omega) hj2
      · rw [h4 (Nat.mod_lt _ (by norm_num))]
        omega
    · simp only [mergeRun, if_neg hk]
      refine ⟨le_refl _, fun j h1 h2 => by omega, ?_, fun hc => ?_⟩
      · rw [hi]; simpa using hk
      · simp [Nat.mod_eq_of_lt hc]

theorem generateIRLoop_simple (instructions : List Instruction) (errorBlock : Nat)
    (fuel loopStart : Nat) (frame : Option LoopFrame) (s : IRState) (i : Instruction)
    (h : instructions[s.currentInstruction]? = some i) (hi : i.isSimple) :
    generateIRLoop instructions errorBlock (fuel + 1) loopStart frame s
      = generateIRLoop instructions errorBlock fuel loopStart frame
          (simpleRound instructions errorBlock i s) := by
  obtain ⟨h1, h2⟩ := hi
  cases i
  case startLoop => exact absurd rfl h1
  case endLoop => exact absurd rfl h2
  all_goals simp only [generateIRLoop, h, simpleRound]

/-- The cursor after a simple round: it has moved forward, over simple instructions only,
and stays inside the vector. -/
theorem simpleRound_cursor (instructions : List Instruction) (errorBlock : Nat)
    (s : IRState) (i : Instruction)
    (h : instructions[s.currentInstruction]? = some i) (hi : i.isSimple) :
    s.currentInstruction < (simpleRound instructions errorBlock i s).currentInstruction
    ∧ (simpleRound instructions errorBlock i s).currentInstruction ≤ instructions.length
    ∧ ∀ j, s.currentInstruction ≤ j →
        j < (simpleRound instructions errorBlock i s).currentInstruction →
        ∃ x, instructions[j]? = some x ∧ x.isSimple := by
  have hlt : s.currentInstruction < instructions.length := (List.getElem?_eq_some.mp h).1
  have one : s.currentInstruction < s.currentInstruction + 1
      ∧ s.currentInstruction + 1 ≤ instructions.length
      ∧ ∀ j, s.currentInstruction ≤ j → j < s.currentInstruction + 1 →
        ∃ x, instructions[j]? = some x ∧ x.isSimple :=
    ⟨by omega, by omega, fun j h1 h2 => ⟨i, by rw [show j = s.currentInstruction by omega, h], hi⟩⟩
  have run : ∀ kind : Instruction, kind.isSimple → i = kind →
      ∀ r : Nat × Nat, r = mergeRun kind (instructions.drop (s.currentInstruction + 1)) 1
        s.currentInstruction →
      s.currentInstruction < r.2 + 1 ∧ r.2 + 1 ≤ instructions.length
      ∧ ∀ j, s.currentInstruction ≤ j → j < r.2 + 1 →
        ∃ x, instructions[j]? = some x ∧ x.isSimple := by
    intro kind hkind hik r hr
    obtain ⟨h1, h2, _, _⟩ := mergeRun_spec instructions kind _ 1 s.currentInstruction rfl
    rw [← hr] at h1 h2
    refine ⟨by omega, ?_, fun j hj1 hj2 => ?_⟩
    · by_cases hc : s.currentInstruction = r.2
      · omega
      · have := (List.getElem?_eq_some.mp (h2 r.2 (by omega) (le_refl _))).1
        omega
    · by_cases hj : j = s.currentInstruction
      · exact ⟨i, by rw [hj, h], hi⟩
      · exact ⟨kind, h2 j (by omega) (by omega), hkind⟩
  obtain ⟨h1, h2⟩ := hi
  cases i
  case startLoop => exact absurd rfl h1
  case endLoop => exact absurd rfl h2
  case increment => exact run Instruction.increment (by decide) rfl _ rfl
  case decrement => exact run Instruction.decrement (by decide) rfl _ rfl
  all_goals exact one

/-! ## Outcome of an activation -/

theorem openLoop_cursor (s : IRState) :
    (openLoop s).2.currentInstruction = s.currentInstruction := rfl

theorem closeLoop_cursor (f : LoopFrame) (s : IRState) :
    (closeLoop f s).currentInstruction = s.currentInstruction := rfl

/-- An activation that owns an open loop, given enough rounds, returns: with success and
the cursor on the loop end that closes its loop when there is one, with `noLoopEnd`
otherwise. -/
theorem generateIRLoop_owner (instructions : List Instruction) (errorBlock : Nat)
    (fuel : Nat) : ∀ (s : IRState) (loopStart : Nat) (f : LoopFrame),
    loopStart < s.currentInstruction → fuelFor instructions s.currentInstruction ≤ fuel →
    ∃ r, generateIRLoop instructions errorBlock fuel loopStart (some f) s = some r
      ∧ (∀ d, findLoopEnd (instructions.drop s.currentInstruction) 0 = some d →
          r.error = none ∧ r.state.currentInstruction = s.currentInstruction + d)
      ∧ (findLoopEnd (instructions.drop s.currentInstruction) 0 = none →
          r.error = some ParseError.noLoopEnd) := by
  induction fuel using Nat.strong_induction_on with
  | _ fuel ih =>
    intro s loopStart f hls hfuel
    obtain ⟨fuel, rfl⟩ : ∃ m, fuel = m + 1 := ⟨fuel - 1, by unfold fuelFor at hfuel; omega⟩
    cases hget : instructions[s.currentInstruction]? with
    | none =>
      have hdrop : instructions.drop s.currentInstruction = [] :=
        List.drop_eq_nil_of_le (List.getElem?_eq_none_iff.mp hget)
      refine ⟨_, generateIRLoop_end _ _ _ _ _ _ hget, ?_, ?_⟩
      · intro d hd; simp [hdrop, findLoopEnd] at hd
      · intro _; rfl
    | some i =>
      have hlt : s.currentInstruction < instructions.length :=
        (List.getElem?_eq_some.mp hget).1
      by_cases hi : i.isSimple
      · obtain ⟨h1, h2, h3⟩ := simpleRound_cursor instructions errorBlock s i hget hi
        obtain ⟨r, hr, hr1, hr2⟩ := ih fuel (by omega)
          (simpleRound instructions errorBlock i s) loopStart f (by omega)
          (by unfold fuelFor at hfuel ⊢; omega)
        obtain ⟨m, hm⟩ : ∃ m, (simpleRound instructions errorBlock i s).currentInstruction
            = s.currentInstruction + m := ⟨_, (Nat.add_sub_cancel' (le_of_lt h1)).symm⟩
        have hskip := findLoopEnd_skip instructions s.currentInstruction m 0
          (fun j hj1 hj2 => h3 j hj1 (by omega))
        rw [← hm] at hskip
        refine ⟨r, by rw [generateIRLoop_simple _ _ _ _ _ _ _ hget hi, hr], ?_, ?_⟩
        · intro d hd
          rw [hskip, Option.map_eq_some'] at hd
          obtain ⟨a, ha, rfl⟩ := hd
          obtain ⟨e1, e2⟩ := hr1 a ha
          exact ⟨e1, by rw [e2, hm]; omega⟩
        · intro hd
          rw [hskip, Option.map_eq_none'] at hd
          exact hr2 hd
      · have hcases : i = Instruction.startLoop ∨ i = Instruction.endLoop := by
          unfold Instruction.isSimple at hi
          by_contra hcon
          exact hi ⟨fun h => hcon (Or.inl h), fun h => hcon (Or.inr h)⟩
        have hdrop := drop_eq_cons_of_getElem? _ _ _ hget
        rcases hcases with rfl | rfl
        · -- a nested loop: the activation it opens, then the rest of this one
          obtain ⟨fuel, rfl⟩ : ∃ m, fuel = m + 1 :=
            ⟨fuel - 1, by unfold fuelFor at hfuel; omega⟩
          obtain ⟨r1, hr1, hr1a, hr1b⟩ := ih fuel (by omega) (openLoop s).2.advance
            s.currentInstruction (openLoop s).1 (by simp [IRState.advance, openLoop_cursor])
            (by unfold fuelFor at hfuel ⊢
                simp only [IRState.advance, openLoop_cursor]; omega)
          have hinner : generateIRLoop instructions errorBlock (fuel + 1) s.currentInstruction
              none s = some r1 := by
            rw [generateIRLoop_open _ _ _ _ _ _ hget rfl, hr1]
          simp only [IRState.advance, openLoop_cursor] at hr1a hr1b
          rw [generateIRLoop_nested _ _ _ _ _ _ hget (by omega), hinner]
          cases hfe : findLoopEnd (instructions.drop (s.currentInstruction + 1)) 0 with
          | none =>
            have e1 := hr1b hfe
            refine ⟨{ error := some ParseError.noLoopEnd, state := r1.state }, ?_, ?_, ?_⟩
            · simp only [e1]
            · intro d hd
              have := findLoopEnd_none_deeper _ 0 1 hfe
              simp [hdrop, findLoopEnd, this] at hd
            · intro _; rfl
          | some d1 =>
            obtain ⟨e1, e2⟩ := hr1a d1 hfe
            obtain ⟨r2, hr2, hr2a, hr2b⟩ := ih (fuel + 1) (by omega) r1.state.advance
              loopStart f (by simp only [IRState.advance, e2]; omega)
              (by unfold fuelFor at hfuel ⊢
                  simp only [IRState.advance, e2]; omega)
            simp only [IRState.advance, e2] at hr2a hr2b
            have hdeep := findLoopEnd_deeper _ 0 d1 0 hfe
            simp only [List.drop_drop] at hdeep
            rw [show s.currentInstruction + 1 + (d1 + 1) = s.currentInstruction + 1 + d1 + 1
              by omega, show 0 + 0 + 1 = 1 by rfl] at hdeep
            refine ⟨r2, by simp only [e1, hr2], ?_, ?_⟩
            · intro d hd
              rw [hdrop] at hd
              simp only [findLoopEnd, Nat.zero_add, hdeep, Option.map_map,
                Option.map_eq_some'] at hd
              obtain ⟨a, ha, rfl⟩ := hd
              obtain ⟨e3, e4⟩ := hr2a a ha
              exact ⟨e3, by rw [e4]; simp only [Function.comp]; omega⟩
            · intro hd
              rw [hdrop] at hd
              simp only [findLoopEnd, Nat.zero_add, hdeep, Option.map_map,
                Option.map_eq_none'] at hd
              exact hr2b hd
        · -- the loop end of this activation
          refine ⟨{ error := none, state := closeLoop f s }, ?_, ?_, ?_⟩
          · rw [generateIRLoop_close _ _ _ _ _ _ hget]
          · intro d hd
            simp only [hdrop, findLoopEnd, Option.some.injEq] at hd
            subst hd
            exact ⟨rfl, rfl⟩
          · intro hd
            simp [hdrop, findLoopEnd] at hd

/-- The activation that owns no loop, given enough rounds, returns the first violation of
nesting met from the cursor on, and on success leaves the cursor at the end. -/
theorem generateIRLoop_top (instructions : List Instruction) (errorBlock : Nat)
    (fuel : Nat) : ∀ (s : IRState) (loopStart : Nat),
    instructions.length ≤ loopStart → fuelFor instructions s.currentInstruction ≤ fuel →
    s.currentInstruction ≤ instructions.length →
    ∃ r, generateIRLoop instructions errorBlock fuel loopStart none s = some r
      ∧ r.error = firstViolation (instructions.drop s.currentInstruction) 0
      ∧ (r.error = none → r.state.currentInstruction = instructions.length) := by
  induction fuel using Nat.strong_induction_on with
  | _ fuel ih =>
    intro s loopStart hls hfuel hcur
    obtain ⟨fuel, rfl⟩ : ∃ m, fuel = m + 1 := ⟨fuel - 1, by unfold fuelFor at hfuel; omega⟩
    cases hget : instructions[s.currentInstruction]? with
    | none =>
      have hge := List.getElem?_eq_none_iff.mp hget
      have hdrop : instructions.drop s.currentInstruction = [] := List.drop_eq_nil_of_le hge
      refine ⟨_, generateIRLoop_end _ _ _ _ _ _ hget, ?_, ?_⟩
      · simp [hdrop, firstViolation]
      · intro _; simp only; omega
    | some i =>
      have hlt : s.currentInstruction < instructions.length :=
        (List.getElem?_eq_some.mp hget).1
      by_cases hi : i.isSimple
      · obtain ⟨h1, h2, h3⟩ := simpleRound_cursor instructions errorBlock s i hget hi
        obtain ⟨r, hr, hr1, hr2⟩ := ih fuel (by omega)
          (simpleRound instructions errorBlock i s) loopStart hls
          (by unfold fuelFor at hfuel ⊢; omega) h2
        obtain ⟨m, hm⟩ : ∃ m, (simpleRound instructions errorBlock i s).currentInstruction
            = s.currentInstruction + m := ⟨_, (Nat.add_sub_cancel' (le_of_lt h1)).symm⟩
        have hskip := firstViolation_skip instructions s.currentInstruction m 0
          (fun j hj1 hj2 => h3 j hj1 (by omega))
        rw [← hm] at hskip
        exact ⟨r, by rw [generateIRLoop_simple _ _ _ _ _ _ _ hget hi, hr],
          by rw [hskip, hr1], hr2⟩
      · have hcases : i = Instruction.startLoop ∨ i = Instruction.endLoop := by
          unfold Instruction.isSimple at hi
          by_contra hcon
          exact hi ⟨fun h => hcon (Or.inl h), fun h => hcon (Or.inr h)⟩
        have hdrop := drop_eq_cons_of_getElem? _ _ _ hget
        rcases hcases with rfl | rfl
        · obtain ⟨fuel, rfl⟩ : ∃ m, fuel = m + 1 :=
            ⟨fuel - 1, by unfold fuelFor at hfuel; omega⟩
          obtain ⟨r1, hr1, hr1a, hr1b⟩ := generateIRLoop_owner instructions errorBlock fuel
            (openLoop s).2.advance s.currentInstruction (openLoop s).1
            (by simp [IRState.advance, openLoop_cursor])
            (by unfold fuelFor at hfuel ⊢
                simp only [IRState.advance, openLoop_cursor]; omega)
          have hinner : generateIRLoop instructions errorBlock (fuel + 1) s.currentInstruction
              none s = some r1 := by
            rw [generateIRLoop_open _ _ _ _ _ _ hget rfl, hr1]
          simp only [IRState.advance, openLoop_cursor] at hr1a hr1b
          rw [generateIRLoop_nested _ _ _ _ _ _ hget (by omega), hinner]
          cases hfe : findLoopEnd (instructions.drop (s.currentInstruction + 1)) 0 with
          | none =>
            have e1 := hr1b hfe
            refine ⟨{ error := some ParseError.noLoopEnd, state := r1.state }, ?_, ?_, ?_⟩
            · simp only [e1]
            · have := firstViolation_unclosed _ 0 0 hfe
              simp [hdrop, firstViolation, this]
            · intro h; simp at h
          | some d1 =>
            obtain ⟨e1, e2⟩ := hr1a d1 hfe
            have hd1 := findLoopEnd_lt_length _ _ _ hfe
            simp only [List.length_drop] at hd1
            obtain ⟨r2, hr2, hr2a, hr2b⟩ := ih (fuel + 1) (by omega) r1.state.advance
              loopStart hls
              (by unfold fuelFor at hfuel ⊢
                  simp only [IRState.advance, e2]; omega)
              (by simp only [IRState.advance, e2]; omega)
            simp only [IRState.advance, e2] at hr2a hr2b
            have hdeep := firstViolation_deeper _ 0 d1 0 hfe
            simp only [List.drop_drop] at hdeep
            rw [show s.currentInstruction + 1 + (d1 + 1) = s.currentInstruction + 1 + d1 + 1
              by omega, show 0 + 0 + 1 = 1 by rfl] at hdeep
            refine ⟨r2, by simp only [e1, hr2], ?_, hr2b⟩
            rw [hdrop, hr2a]
            simp only [firstViolation, Nat.zero_add, hdeep]
        · refine ⟨{ error := some ParseError.noLoopStart, state := s }, ?_, ?_, ?_⟩
          · rw [generateIRLoop_close _ _ _ _ _ _ hget]
          · simp [hdrop, firstViolation]
          · intro h; simp at h

/-- The top-level call returns, and its error is the first violation of nesting in the
program. -/
theorem generateIRTop_outcome (instructions : List Instruction) :
    ∃ r, generateIRTop instructions = some r
      ∧ r.error = firstViolation instructions 0
      ∧ (r.error = none → r.state.currentInstruction = instructions.length) := by
  have := generateIRLoop_top instructions errorBlock (fuelFor instructions 0) mainStart
    instructions.length (le_refl _) (le_refl _) (Nat.zero_le _)
  simpa [generateIRTop, generateIR, mainStart] using this


/-! ## Nesting violations and counts of loop starts and ends -/

theorem Instruction.simple_or_bracket (i : Instruction) :
    i.isSimple ∨ i = Instruction.startLoop ∨ i = Instruction.endLoop := by
  cases i <;> simp [Instruction.isSimple]

theorem count_take_cons (x i : Instruction) (p : List Instruction) (k : Nat) :
    ((i :: p).take (k + 1)).count x = (p.take k).count x + (if i = x then 1 else 0) := by
  rw [List.take_succ_cons, List.count_cons]
  simp

theorem exists_take_cons (i : Instruction) (p : List Instruction) (d e a b : Nat)
    (hab : a + d = e + b)
    (ha : a = if i = Instruction.startLoop then 1 else 0)
    (hb : b = if i = Instruction.endLoop then 1 else 0) :
    (∃ k, k ≤ p.length ∧
        (p.take k).count Instruction.startLoop + e < (p.take k).count Instruction.endLoop) ↔
      ∃ k, k ≤ (i :: p).length ∧
        ((i :: p).take k).count Instruction.startLoop + d
          < ((i :: p).take k).count Instruction.endLoop := by
  constructor
  · rintro ⟨k, hk1, hk2⟩
    refine ⟨k + 1, by simp; omega, ?_⟩
    rw [count_take_cons, count_take_cons, ← ha, ← hb]; omega
  · rintro ⟨k, hk1, hk2⟩
    cases k with
    | zero => simp at hk2
    | succ k =>
      refine ⟨k, by simp at hk1; omega, ?_⟩
      rw [count_take_cons, count_take_cons, ← ha, ← hb] at hk2; omega

theorem firstViolation_eq_noLoopStart_iff (p : List Instruction) (d : Nat) :
    firstViolation p d = some ParseError.noLoopStart ↔
      ∃ k, k ≤ p.length ∧
        (p.take k).count Instruction.startLoop + d < (p.take k).count Instruction.endLoop := by
  induction p generalizing d with
  | nil => cases d <;> simp [firstViolation]
  | cons i p ih =>
    rcases i.simple_or_bracket with hi | rfl | rfl
    · rw [firstViolation_cons_simple _ _ _ hi, ih]
      exact exists_take_cons i p d d 0 0 (by omega) (by simp [hi.1]) (by simp [hi.2])
    · rw [firstViolation, ih]
      exact exists_take_cons _ p d (d + 1) 1 0 (by omega) (by simp) (by simp)
    · cases d with
      | zero =>
        simp only [firstViolation, true_iff]
        exact ⟨1, by simp, by simp⟩
      | succ d =>
        rw [firstViolation, ih]
        exact exists_take_cons _ p (d + 1) d 0 1 (by omega) (by simp) (by simp)

theorem firstViolation_eq_noLoopEnd (p : List Instruction) (d : Nat)
    (h1 : firstViolation p d ≠ some ParseError.noLoopStart) :
    (firstViolation p d = some ParseError.noLoopEnd ↔
      p.count Instruction.endLoop < p.count Instruction.startLoop + d)
    ∧ (firstViolation p d = none ↔
      p.count Instruction.endLoop = p.count Instruction.startLoop + d) := by
  induction p generalizing d with
  | nil => cases d <;> simp [firstViolation]
  | cons i p ih =>
    rcases i.simple_or_bracket with hi | rfl | rfl
    · rw [firstViolation_cons_simple _ _ _ hi] at h1 ⊢
      have := ih d h1
      rw [List.count_cons, List.count_cons]
      simpa [hi.1, hi.2] using this
    · rw [firstViolation] at h1 ⊢
      have := ih (d + 1) h1
      rw [List.count_cons, List.count_cons]
      simp only [reduceCtorEq, if_false, beq_self_eq_true, if_true, beq_iff_eq, add_zero]
      constructor
      · rw [this.1]; omega
      · rw [this.2]; omega
    · cases d with
      | zero => simp [firstViolation] at h1
      | succ d =>
        rw [firstViolation] at h1 ⊢
        have := ih d h1
        rw [List.count_cons, List.count_cons]
        simp only [reduceCtorEq, if_false, beq_self_eq_true, if_true, beq_iff_eq, add_zero]
        constructor
        · rw [this.1]; omega
        · rw [this.2]; omega

theorem firstViolation_of_wellFormed (p : List Instruction) (h : WellFormed p) :
    firstViolation p 0 = none := by
  have h1 : firstViolation p 0 ≠ some ParseError.noLoopStart := by
    rw [Ne, firstViolation_eq_noLoopStart_iff]
    rintro ⟨k, hk1, hk2⟩
    have := h.2 k hk1
    omega
  rw [(firstViolation_eq_noLoopEnd p 0 h1).2, h.1]
  rfl

theorem firstViolation_none_matched (p : List Instruction) (d : Nat)
    (h : firstViolation p d = none) (i : Nat) (hi : p[i]? = some Instruction.startLoop) :
    findLoopEnd (p.drop (i + 1)) 0 ≠ none := by
  induction p generalizing d i with
  | nil => simp at hi
  | cons x p ih =>
    cases i with
    | zero =>
      simp only [List.getElem?_cons_zero, Option.some.injEq] at hi
      subst hi
      rw [firstViolation] at h
      intro hnone
      have := firstViolation_unclosed p 0 d (by simpa using hnone)
      rw [Nat.zero_add] at this
      rw [this] at h
      exact absurd h (by simp)
    | succ i =>
      simp only [List.getElem?_cons_succ] at hi
      simp only [List.drop_succ_cons]
      rcases x.simple_or_bracket with hx | rfl | rfl
      · rw [firstViolation_cons_simple _ _ _ hx] at h
        exact ih d h i hi
      · rw [firstViolation] at h
        exact ih _ h i hi
      · cases d with
        | zero => simp [firstViolation] at h
        | succ d =>
          rw [firstViolation] at h
          exact ih _ h i hi

/-! ## Success and failure of the top-level emission -/

/-- C2: on a program whose loop starts and loop ends are equal in number and properly
nested, the top-level call `generateIR()` returns success. -/
theorem wellFormed_emission_succeeds (p : List Instruction) (h : WellFormed p) :
    ∃ s, generateIRTop p = some { error := none, state := s } := by
  obtain ⟨r, hr, he, _⟩ := generateIRTop_outcome p
  rw [firstViolation_of_wellFormed p h] at he
  refine ⟨r.state, ?_⟩
  rw [hr, ← he]

/-- C2 at the program `+[-]`. -/
theorem wellFormed_emission_succeeds_witness :
    WellFormed [Instruction.increment, Instruction.startLoop, Instruction.decrement,
        Instruction.endLoop]
    ∧ ∃ s, generateIRTop [Instruction.increment, Instruction.startLoop,
        Instruction.decrement, Instruction.endLoop] = some { error := none, state := s } :=
  ⟨by decide, wellFormed_emission_succeeds _ (by decide)⟩

/-- C4: on a program with more loop ends than loop starts, the top-level call `generateIR()`
fails with `noLoopStart`. -/
theorem more_ends_fails_noLoopStart (p : List Instruction)
    (h : p.count Instruction.startLoop < p.count Instruction.endLoop) :
    ∃ s, generateIRTop p = some { error := some ParseError.noLoopStart, state := s } := by
  obtain ⟨r, hr, he, _⟩ := generateIRTop_outcome p
  have hv : firstViolation p 0 = some ParseError.noLoopStart :=
    (firstViolation_eq_noLoopStart_iff p 0).mpr ⟨p.length, le_refl _, by simpa using h⟩
  rw [hv] at he
  refine ⟨r.state, ?_⟩
  rw [hr, ← he]

/-- C4 at the program `]`. -/
theorem more_ends_fails_noLoopStart_witness :
    [Instruction.endLoop].count Instruction.startLoop
      < [Instruction.endLoop].count Instruction.endLoop
    ∧ ∃ s, generateIRTop [Instruction.endLoop]
        = some { error := some ParseError.noLoopStart, state := s } :=
  ⟨by decide, more_ends_fails_noLoopStart _ (by decide)⟩

/-- C5 as stated fails: the program `][` contains a loop start with no matching loop end,
and the top-level call fails with `noLoopStart`, not `noLoopEnd`. -/
theorem unmatched_start_counterexample :
    HasUnmatchedLoopStart [Instruction.endLoop, Instruction.startLoop]
    ∧ ∃ r, generateIRTop [Instruction.endLoop, Instruction.startLoop] = some r
        ∧ r.error = some ParseError.noLoopStart
        ∧ r.error ≠ some ParseError.noLoopEnd := by
  refine ⟨by decide, { error := some ParseError.noLoopStart, state := mainStart }, ?_, ?_, ?_⟩
  · decide
  · decide
  · decide

/-- C5, amended: on a program that contains a loop start with no matching loop end, and in
which no prefix holds more loop ends than loop starts, the top-level call `generateIR()`
fails with `noLoopEnd`. -/
theorem unmatched_start_fails_noLoopEnd (p : List Instruction)
    (h : HasUnmatchedLoopStart p)
    (hpre : ∀ k, k ≤ p.length →
      (p.take k).count Instruction.endLoop ≤ (p.take k).count Instruction.startLoop) :
    ∃ s, generateIRTop p = some { error := some ParseError.noLoopEnd, state := s } := by
  obtain ⟨r, hr, he, _⟩ := generateIRTop_outcome p
  have h1 : firstViolation p 0 ≠ some ParseError.noLoopStart := by
    rw [Ne, firstViolation_eq_noLoopStart_iff]
    rintro ⟨k, hk1, hk2⟩
    have := hpre k hk1
    omega
  have h2 : firstViolation p 0 ≠ none := by
    intro hnone
    obtain ⟨i, _, hi1, hi2⟩ := h
    exact firstViolation_none_matched p 0 hnone i hi1 hi2
  have hv : firstViolation p 0 = some ParseError.noLoopEnd := by
    cases hfv : firstViolation p 0 with
    | none => exact absurd hfv h2
    | some e =>
      cases e with
      | noLoopEnd => rfl
      | noLoopStart => exact absurd hfv h1
  rw [hv] at he
  refine ⟨r.state, ?_⟩
  rw [hr, ← he]

/-- The amended C5 at the program `[`. -/
theorem unmatched_start_fails_noLoopEnd_witness :
    HasUnmatchedLoopStart [Instruction.startLoop]
    ∧ ∃ s, generateIRTop [Instruction.startLoop]
        = some { error := some ParseError.noLoopEnd, state := s } :=
  ⟨by decide, unmatched_start_fails_noLoopEnd _ (by decide) (by decide)⟩


/-! ## Tape pointer and capacity -/

theorem wordSize_eq : wordSize = 18446744073709551616 := rfl

theorem realloc_length (junk : Nat → Nat) (cells : List Nat) (size : Nat) :
    (realloc junk cells size).length = size := by
  simp [realloc]

theorem moveRight_currentCell (junk : Nat → Nat) (r : Runtime) :
    (moveRight junk r).currentCell = (1 + r.currentCell) % wordSize := by
  unfold moveRight
  simp only
  split <;> rfl

theorem moveRight_cellsLength (junk : Nat → Nat) (r : Runtime) :
    (moveRight junk r).cellsLength
      = if (1 + r.currentCell) % wordSize = r.cellsLength then (2 * r.cellsLength) % wordSize
        else r.cellsLength := by
  unfold moveRight
  simp only
  split <;> rfl

theorem moveRight_cells_length (junk : Nat → Nat) (r : Runtime)
    (h : r.cells.length = r.cellsLength) :
    (moveRight junk r).cells.length = (moveRight junk r).cellsLength := by
  unfold moveRight
  simp only
  split
  · simp [realloc_length]
  · exact h

theorem decrementCurrentCell_currentCell (r : Runtime) :
    (decrementCurrentCell r).currentCell = ((wordSize - 1) + r.currentCell) % wordSize := rfl

theorem decrementCurrentCell_cellsLength (r : Runtime) :
    (decrementCurrentCell r).cellsLength = r.cellsLength := rfl

theorem input_currentCell (r : Runtime) : (input r).currentCell = r.currentCell := by
  unfold input
  simp only
  split <;> rfl

theorem input_cellsLength (r : Runtime) : (input r).cellsLength = r.cellsLength := by
  unfold input
  simp only
  split <;> rfl

theorem input_cells_length (r : Runtime) : (input r).cells.length = r.cells.length := by
  unfold input
  simp only
  split <;> simp

/-! ## The tape with an allocator that can refuse -/

/-- A call of `moveRight` that leads to a tape state does what `moveRight` does, and when it
is a growth event the allocator gave the block of the doubled size. -/
theorem moveRightOrNull_eq (junk : Nat → Nat) (grants : Nat → Bool) (r r1 : Runtime)
    (h : moveRightOrNull junk grants r = some r1) :
    r1 = moveRight junk r
    ∧ (growthEvent r → grants ((2 * r.cellsLength) % wordSize) = true) := by
  unfold moveRightOrNull reallocOrNull at h
  unfold moveRight growthEvent
  simp only at h ⊢
  by_cases hg : (1 + r.currentCell) % wordSize = r.cellsLength
  · rw [if_pos hg] at h
    rw [if_pos hg]
    by_cases ha : grants ((2 * r.cellsLength) % wordSize) = true
    · rw [if_pos ha] at h
      simp only [Option.some.injEq] at h
      exact ⟨h.symm, fun _ => ha⟩
    · rw [if_neg ha] at h
      cases h
  · rw [if_neg hg] at h
    rw [if_neg hg]
    simp only [Option.some.injEq] at h
    exact ⟨h.symm, fun hc => absurd hc hg⟩

/-- A call of `moveRight` that is no growth event calls no `realloc` and leads to a tape
state; one that is a growth event does so exactly when the allocator gives the block. -/
theorem moveRightOrNull_isSome (junk : Nat → Nat) (grants : Nat → Bool) (r : Runtime) :
    (¬ growthEvent r → moveRightOrNull junk grants r = some (moveRight junk r))
    ∧ (growthEvent r → grants ((2 * r.cellsLength) % wordSize) = true →
        moveRightOrNull junk grants r = some (moveRight junk r))
    ∧ (growthEvent r → grants ((2 * r.cellsLength) % wordSize) = false →
        moveRightOrNull junk grants r = none) := by
  unfold moveRightOrNull reallocOrNull moveRight growthEvent
  refine ⟨fun hg => ?_, fun hg ha => ?_, fun hg ha => ?_⟩
  · simp only [if_neg hg]
  · simp only [if_pos hg, ha, if_true]
  · simp only [if_pos hg, ha, Bool.false_eq_true, if_false]

theorem tapeStep_cellsLength (junk : Nat → Nat) (grants : Nat → Bool) (r r1 : Runtime)
    (hs : TapeStep junk grants r r1)
    (hg : ¬ (growthEvent r ∧ moveRightOrNull junk grants r = some r1)) :
    r1.cellsLength = r.cellsLength ∧ r1.cells.length = r.cells.length := by
  cases hs with
  | @moveRight _ _ h =>
    have hng : ¬ growthEvent r := fun hc => hg ⟨hc, h⟩
    obtain ⟨rfl, _⟩ := moveRightOrNull_eq junk grants r r1 h
    unfold growthEvent at hng
    constructor <;> (unfold moveRight; simp only [if_neg hng])
  | moveLeft h0 => exact ⟨rfl, rfl⟩
  | addCellValue k => exact ⟨rfl, by simp [addCellValue, storeCell]⟩
  | subCellValue k => exact ⟨rfl, by simp [subCellValue, storeCell]⟩
  | putchar => exact ⟨rfl, rfl⟩
  | input => exact ⟨input_cellsLength r, input_cells_length r⟩
  | fputsError => exact ⟨rfl, rfl⟩

/-- What holds in every tape state that a generated program can be in after `k` growth
events, when the allocator gives no block of `2 ^ 63` bytes or more: the block has the size
the capacity says, the pointer is below the capacity, the capacity is `4 * 2 ^ k`, below
`2 ^ 63`, and the block is one the allocator gave. -/
theorem tapeReachable_invariant (junk : Nat → Nat) (grants : Nat → Bool)
    (stdin : List (List Nat)) (hbound : ∀ size, grants size = true → size < 2 ^ 63)
    (k : Nat) (r : Runtime) (h : TapeReachable junk grants stdin k r) :
    r.cells.length = r.cellsLength ∧ r.currentCell < r.cellsLength
      ∧ r.cellsLength = 4 * 2 ^ k ∧ r.cellsLength < 2 ^ 63 ∧ TapeState grants r := by
  have h63 : (2 : Nat) ^ 63 = 9223372036854775808 := by norm_num
  induction h with
  | initial =>
    exact ⟨by simp [initialRuntime, realloc_length], by simp [initialRuntime], rfl,
      by simp [initialRuntime], by simp [initialRuntime, realloc_length], Or.inl rfl⟩
  | grow k r r1 _ hg hm ih =>
    obtain ⟨hlen, hlt, hcap, hsmall, _⟩ := ih
    obtain ⟨rfl, hgr⟩ := moveRightOrNull_eq junk grants r r1 hm
    have hgrant := hgr hg
    have hdouble : (2 * r.cellsLength) % wordSize = 2 * r.cellsLength := by
      rw [wordSize_eq]
      exact Nat.mod_eq_of_lt (by omega)
    rw [hdouble] at hgrant
    unfold growthEvent at hg
    have hcl : (moveRight junk r).cellsLength = 2 * r.cellsLength := by
      rw [moveRight_cellsLength, if_pos hg, hdouble]
    have hcc : (moveRight junk r).currentCell = r.cellsLength := by
      rw [moveRight_currentCell, hg]
    have hl := moveRight_cells_length junk r hlen
    have hpos : 0 < r.cellsLength := by rw [hcap]; positivity
    refine ⟨hl, by rw [hcc, hcl]; omega, by rw [hcl, hcap, pow_succ]; ring,
      by rw [hcl]; exact hbound _ hgrant, hl, Or.inr (by rw [hcl]; exact hgrant)⟩
  | step k r r1 _ hs hg ih =>
    obtain ⟨hlen, hlt, hcap, hsmall, _, hgiven⟩ := ih
    obtain ⟨e1, e2⟩ := tapeStep_cellsLength junk grants r r1 hs hg
    have hcc : r1.currentCell < r.cellsLength := by
      cases hs with
      | @moveRight _ _ h =>
        have hng : ¬ growthEvent r := fun hc => hg ⟨hc, h⟩
        obtain ⟨rfl, _⟩ := moveRightOrNull_eq junk grants r r1 h
        unfold growthEvent at hng
        rw [moveRight_currentCell]
        rw [wordSize_eq] at hng ⊢
        rw [Nat.mod_eq_of_lt (by omega)] at hng ⊢
        omega
      | moveLeft h0 =>
        rw [decrementCurrentCell_currentCell, wordSize_eq]
        have h1 : (18446744073709551616 - 1) + r.currentCell
            = (r.currentCell - 1) + 18446744073709551616 := by omega
        rw [h1, Nat.add_mod_right, Nat.mod_eq_of_lt (by omega)]
        omega
      | addCellValue k => exact hlt
      | subCellValue k => exact hlt
      | putchar => exact hlt
      | input => rw [input_currentCell]; exact hlt
      | fputsError => exact hlt
    refine ⟨by rw [e1, e2]; exact hlen, by rw [e1]; exact hcc, by rw [e1]; exact hcap,
      by rw [e1]; exact hsmall, by rw [e1, e2]; exact hlen, by rw [e1]; exact hgiven⟩

/-- An operation on a tape state that a generated program can be in leads to one again. -/
theorem tapeReachable_step (junk : Nat → Nat) (grants : Nat → Bool)
    (stdin : List (List Nat)) (k : Nat) (r r1 : Runtime)
    (h : TapeReachable junk grants stdin k r) (hs : TapeStep junk grants r r1) :
    ∃ k1, TapeReachable junk grants stdin k1 r1 := by
  by_cases hg : growthEvent r ∧ moveRightOrNull junk grants r = some r1
  · exact ⟨k + 1, TapeReachable.grow k r r1 h hg.1 hg.2⟩
  · exact ⟨k, TapeReachable.step k r r1 h hs hg⟩

/-- C9: with an allocator that gives no block of `2 ^ 63` bytes or more, in every tape state
`r` that the operations of a generated program lead to from the initial runtime state, the
allocated block has the size the capacity says and the pointer is below the capacity; no
operation decreases the capacity, and it leads to such a state again; and the doubled
capacity that a growth event stores at line 234, before the call of `realloc`, is not below
the capacity either. -/
theorem pointer_within_capacity (junk : Nat → Nat) (grants : Nat → Bool)
    (stdin : List (List Nat)) (hbound : ∀ size, grants size = true → size < 2 ^ 63)
    (k : Nat) (r : Runtime) (h : TapeReachable junk grants stdin k r) :
    (initialRuntime junk stdin).currentCell = 0
    ∧ (initialRuntime junk stdin).cellsLength = 4
    ∧ r.cells.length = r.cellsLength
    ∧ 0 ≤ r.currentCell ∧ r.currentCell < r.cellsLength
    ∧ (∀ r1, TapeStep junk grants r r1 →
        r.cellsLength ≤ r1.cellsLength ∧ r1.currentCell < r1.cellsLength
          ∧ ∃ k1, TapeReachable junk grants stdin k1 r1)
    ∧ r.cellsLength ≤ (2 * r.cellsLength) % wordSize := by
  have h63 : (2 : Nat) ^ 63 = 9223372036854775808 := by norm_num
  obtain ⟨hlen, hlt, hcap, hsmall, _⟩ := tapeReachable_invariant junk grants stdin hbound k r h
  refine ⟨rfl, rfl, hlen, Nat.zero_le _, hlt, fun r1 hs => ?_, ?_⟩
  · obtain ⟨k1, hk1⟩ := tapeReachable_step junk grants stdin k r r1 h hs
    obtain ⟨_, hlt1, _⟩ := tapeReachable_invariant junk grants stdin hbound k1 r1 hk1
    refine ⟨?_, hlt1, k1, hk1⟩
    by_cases hg : growthEvent r ∧ moveRightOrNull junk grants r = some r1
    · obtain ⟨rfl, _⟩ := moveRightOrNull_eq junk grants r r1 hg.2
      have hge := hg.1
      unfold growthEvent at hge
      rw [moveRight_cellsLength, if_pos hge, wordSize_eq, Nat.mod_eq_of_lt (by omega)]
      omega
    · rw [(tapeStep_cellsLength junk grants r r1 hs hg).1]
  · rw [wordSize_eq, Nat.mod_eq_of_lt (by omega)]
    omega

/-- C9 at the state after one move to the right from the start, with an allocator that
gives blocks of up to 64 bytes: the pointer is 1, the capacity 4. -/
theorem pointer_within_capacity_witness :
    (∀ size, (fun size => decide (size ≤ 64)) size = true → size < 2 ^ 63)
    ∧ TapeReachable (fun _ => 0) (fun size => decide (size ≤ 64)) [] 0
        (moveRight (fun _ => 0) (initialRuntime (fun _ => 0) []))
    ∧ (moveRight (fun _ => 0) (initialRuntime (fun _ => 0) [])).currentCell = 1
    ∧ (moveRight (fun _ => 0) (initialRuntime (fun _ => 0) [])).cellsLength = 4
    ∧ (moveRight (fun _ => 0) (initialRuntime (fun _ => 0) [])).currentCell
        < (moveRight (fun _ => 0) (initialRuntime (fun _ => 0) [])).cellsLength :=
  ⟨fun size h => lt_of_le_of_lt (of_decide_eq_true h) (by norm_num),
    TapeReachable.step 0 _ _ TapeReachable.initial (TapeStep.moveRight _ _ rfl) (by decide),
    by decide, by decide,
    (pointer_within_capacity (fun _ => 0) (fun size => decide (size ≤ 64)) []
      (fun size h => lt_of_le_of_lt (of_decide_eq_true h) (by norm_num)) 0
      (moveRight (fun _ => 0) (initialRuntime (fun _ => 0) []))
      (TapeReachable.step 0 _ _ TapeReachable.initial (TapeStep.moveRight _ _ rfl)
        (by decide))).2.2.2.2.1⟩

/-! ## From the recursive emission to the rounds on a stack -/

/-- The cursor never moves back during an activation. -/
theorem generateIRLoop_cursor_mono (instructions : List Instruction) (errorBlock : Nat)
    (fuel : Nat) : ∀ (loopStart : Nat) (frame : Option LoopFrame) (s : IRState) (r : Emitted),
    generateIRLoop instructions errorBlock fuel loopStart frame s = some r →
    s.currentInstruction ≤ r.state.currentInstruction := by
  induction fuel with
  | zero => intro _ _ _ _ h; simp [generateIRLoop] at h
  | succ fuel ih =>
    intro loopStart frame s r h
    cases hget : instructions[s.currentInstruction]? with
    | none =>
      rw [generateIRLoop_end _ _ _ _ _ _ hget] at h
      simp only [Option.some.injEq] at h
      subst h; exact le_refl _
    | some i =>
      rcases i.simple_or_bracket with hi | rfl | rfl
      · rw [generateIRLoop_simple _ _ _ _ _ _ _ hget hi] at h
        have := ih _ _ _ _ h
        have h1 := (simpleRound_cursor instructions errorBlock s i hget hi).1
        omega
      · by_cases hown : loopStart = s.currentInstruction
        · rw [generateIRLoop_open _ _ _ _ _ _ hget hown] at h
          have := ih _ _ _ _ h
          simp only [IRState.advance, openLoop_cursor] at this
          omega
        · rw [generateIRLoop_nested _ _ _ _ _ _ hget hown] at h
          cases hin : generateIRLoop instructions errorBlock fuel s.currentInstruction none s with
          | none => simp [hin] at h
          | some inner =>
            have h1 := ih _ _ _ _ hin
            simp only [hin] at h
            cases he : inner.error with
            | some e =>
              simp only [he, Option.some.injEq] at h
              subst h; exact h1
            | none =>
              simp only [he] at h
              have := ih _ _ _ _ h
              simp only [IRState.advance] at this
              omega
      · rw [generateIRLoop_close _ _ _ _ _ _ hget] at h
        cases frame with
        | none => simp only [Option.some.injEq] at h; subst h; exact le_refl _
        | some f => simp only [Option.some.injEq] at h; subst h; exact le_refl _

/-- A successful activation is a stretch of rounds on the stack: the activation that owns
a loop runs the rounds up to its loop end, the activation just started on a loop start runs
the rounds of that whole loop, and the top-level activation runs the rounds to the end. -/
theorem generateIRLoop_stackEmits (instructions : List Instruction) (errorBlock : Nat)
    (fuel : Nat) : ∀ (loopStart : Nat) (frame : Option LoopFrame) (s : IRState) (r : Emitted),
    generateIRLoop instructions errorBlock fuel loopStart frame s = some r →
    r.error = none →
    (∀ f, frame = some f → loopStart < s.currentInstruction → ∀ stack t,
        StackEmits instructions errorBlock stack r.state.advance t →
        StackEmits instructions errorBlock (f :: stack) s t)
    ∧ (frame = none → loopStart = s.currentInstruction →
        instructions[s.currentInstruction]? = some Instruction.startLoop → ∀ stack t,
        StackEmits instructions errorBlock stack r.state.advance t →
        StackEmits instructions errorBlock stack s t)
    ∧ (frame = none → instructions.length ≤ loopStart →
        StackEmits instructions errorBlock [] s r.state) := by
  induction fuel with
  | zero => intro _ _ _ _ h; simp [generateIRLoop] at h
  | succ fuel ih =>
    intro loopStart frame s r h hok
    cases hget : instructions[s.currentInstruction]? with
    | none =>
      rw [generateIRLoop_end _ _ _ _ _ _ hget] at h
      simp only [Option.some.injEq] at h
      subst h
      refine ⟨?_, ?_, ?_⟩
      · intro f hf; subst hf; simp at hok
      · intro _ _ h3; simp [hget] at h3
      · intro _ _; exact StackEmits.done s hget
    | some i =>
      have hlt : s.currentInstruction < instructions.length :=
        (List.getElem?_eq_some.mp hget).1
      rcases i.simple_or_bracket with hi | rfl | rfl
      · rw [generateIRLoop_simple _ _ _ _ _ _ _ hget hi] at h
        obtain ⟨h1, h2, h3⟩ := ih _ _ _ _ h hok
        have hc := (simpleRound_cursor instructions errorBlock s i hget hi).1
        refine ⟨?_, ?_, ?_⟩
        · intro f hf hls stack t ht
          exact StackEmits.simple _ _ _ i hget hi (h1 f hf (by omega) stack t ht)
        · intro _ _ hs
          simp only [Option.some.injEq] at hs
          subst hs
          exact absurd rfl hi.1
        · intro hf hls
          exact StackEmits.simple _ _ _ i hget hi (h3 hf hls)
      · by_cases hown : loopStart = s.currentInstruction
        · rw [generateIRLoop_open _ _ _ _ _ _ hget hown] at h
          obtain ⟨h1, _, _⟩ := ih _ _ _ _ h hok
          refine ⟨?_, ?_, ?_⟩
          · intro f _ hls; omega
          · intro _ _ _ stack t ht
            exact StackEmits.startLoop _ _ _ hget
              (h1 _ rfl (by simp only [IRState.advance, openLoop_cursor]; omega) stack t ht)
          · intro _ hls; omega
        · rw [generateIRLoop_nested _ _ _ _ _ _ hget hown] at h
          cases hin : generateIRLoop instructions errorBlock fuel s.currentInstruction none s with
          | none => simp [hin] at h
          | some inner =>
            simp only [hin] at h
            cases he : inner.error with
            | some e =>
              simp only [he, Option.some.injEq] at h
              subst h
              simp at hok
            | none =>
              simp only [he] at h
              obtain ⟨_, hin2, _⟩ := ih _ _ _ _ hin he
              obtain ⟨h1, _, h3⟩ := ih _ _ _ _ h hok
              have hmono := generateIRLoop_cursor_mono _ _ _ _ _ _ _ hin
              refine ⟨?_, ?_, ?_⟩
              · intro f hf hls stack t ht
                exact hin2 rfl rfl hget _ _
                  (h1 f hf (by simp only [IRState.advance]; omega) stack t ht)
              · intro _ hls; exact absurd hls hown
              · intro hf hls
                exact hin2 rfl rfl hget _ _ (h3 hf hls)
      · rw [generateIRLoop_close _ _ _ _ _ _ hget] at h
        cases frame with
        | none =>
          simp only [Option.some.injEq] at h
          subst h
          simp at hok
        | some f =>
          simp only [Option.some.injEq] at h
          subst h
          refine ⟨?_, ?_, ?_⟩
          · intro g hg _ stack t ht
            simp only [Option.some.injEq] at hg
            subst hg
            exact StackEmits.endLoop _ _ _ _ hget ht
          · intro hf; simp at hf
          · intro hf; simp at hf

/-- A successful top-level emission is the rounds on the stack from `mainStart` to its
final state. -/
theorem generateIRTop_stackEmits (instructions : List Instruction) (s : IRState)
    (h : generateIRTop instructions = some { error := none, state := s }) :
    StackEmits instructions errorBlock [] mainStart s :=
  (generateIRLoop_stackEmits instructions errorBlock _ _ _ _ _ h rfl).2.2 rfl (le_refl _)

/-! ## The builder operations -/

theorem fetch_eq_instsAt (blocks : List BasicBlock) (b j : Nat) :
    fetch blocks b j = (instsAt blocks b)[j]? := by
  unfold fetch instsAt
  cases blocks[b]? <;> simp

theorem instsAt_of_length_le (blocks : List BasicBlock) (b : Nat) (h : blocks.length ≤ b) :
    instsAt blocks b = [] := by
  unfold instsAt
  rw [List.getElem?_eq_none h]

theorem instsAt_emit (s : IRState) (x : Inst) (b : Nat) (h : s.insertPoint < s.blocks.length) :
    instsAt (s.emit x).blocks b
      = if b = s.insertPoint then instsAt s.blocks b ++ [x] else instsAt s.blocks b := by
  unfold instsAt IRState.emit
  by_cases hb : b = s.insertPoint
  · subst hb
    simp only [List.getElem?_modify_eq, if_true]
    rw [List.getElem?_eq_getElem h]
    rfl
  · simp only [if_neg hb]
    rw [List.getElem?_modify_ne _ _ (fun h1 => hb h1.symm)]

theorem instsAt_createBlock (s : IRState) (name : BlockName) (attached : Bool) (b : Nat) :
    instsAt (s.createBlock name attached).2.blocks b = instsAt s.blocks b := by
  unfold instsAt IRState.createBlock
  simp only
  rcases Nat.lt_trichotomy b s.blocks.length with h | h | h
  · rw [List.getElem?_append_left h]
  · subst h
    simp
  · rw [List.getElem?_eq_none (by simp; omega), List.getElem?_eq_none (by omega)]

theorem emit_length (s : IRState) (x : Inst) : (s.emit x).blocks.length = s.blocks.length := by
  simp [IRState.emit]

theorem createBlock_length (s : IRState) (name : BlockName) (attached : Bool) :
    (s.createBlock name attached).2.blocks.length = s.blocks.length + 1 := by
  simp [IRState.createBlock]

/-- The blocks after the round for a move to the left. -/
theorem emitMoveLeft_spec (errorBlock : Nat) (s : IRState)
    (h : s.insertPoint < s.blocks.length) :
    (emitMoveLeft errorBlock s).blocks.length = s.blocks.length + 1
    ∧ (emitMoveLeft errorBlock s).insertPoint = s.blocks.length
    ∧ (emitMoveLeft errorBlock s).currentInstruction = s.currentInstruction
    ∧ ∀ b, instsAt (emitMoveLeft errorBlock s).blocks b
        = if b = s.insertPoint then
            instsAt s.blocks b ++ [Inst.condBrReturnWithError errorBlock s.blocks.length]
          else if b = s.blocks.length then [Inst.decrementCurrentCell]
          else instsAt s.blocks b := by
  have hne : s.blocks.length ≠ s.insertPoint := by omega
  refine ⟨?_, rfl, rfl, fun b => ?_⟩
  · simp [emitMoveLeft, emit_length, createBlock_length, IRState.setInsertPoint]
  · unfold emitMoveLeft
    simp only
    rw [instsAt_emit _ _ _ (by
      simp only [IRState.setInsertPoint, emit_length, createBlock_length]
      exact Nat.lt_succ_self _)]
    simp only [IRState.setInsertPoint]
    rw [instsAt_emit _ _ _ (by simp only [createBlock_length]; exact Nat.lt_succ_of_lt h),
      instsAt_createBlock]
    simp only [IRState.createBlock]
    by_cases h1 : b = s.blocks.length
    · subst h1
      simp [if_neg hne, instsAt_of_length_le]
    · simp only [if_neg h1]

/-- The blocks after the rounds that only append one instruction at the insert point. -/
theorem emit_spec (s : IRState) (x : Inst) (h : s.insertPoint < s.blocks.length) :
    (s.emit x).blocks.length = s.blocks.length
    ∧ (s.emit x).insertPoint = s.insertPoint
    ∧ (s.emit x).currentInstruction = s.currentInstruction
    ∧ ∀ b, instsAt (s.emit x).blocks b
        = if b = s.insertPoint then instsAt s.blocks b ++ [x] else instsAt s.blocks b :=
  ⟨emit_length s x, rfl, rfl, fun b => instsAt_emit s x b h⟩

/-- The blocks after the round that opens a loop. -/
theorem openLoop_spec (s : IRState) (h : s.insertPoint < s.blocks.length) :
    (openLoop s).1 = { loopBlock := s.blocks.length, mergeBlock := s.blocks.length + 2 }
    ∧ (openLoop s).2.blocks.length = s.blocks.length + 3
    ∧ (openLoop s).2.insertPoint = s.blocks.length + 1
    ∧ ∀ b, instsAt (openLoop s).2.blocks b
        = if b = s.insertPoint then instsAt s.blocks b ++ [Inst.br s.blocks.length]
          else if b = s.blocks.length then
            [Inst.condBrContinueLoop (s.blocks.length + 1) (s.blocks.length + 2)]
          else instsAt s.blocks b := by
  have hne : s.blocks.length ≠ s.insertPoint := by omega
  refine ⟨?_, ?_, ?_, fun b => ?_⟩
  · simp [openLoop, IRState.createBlock, IRState.emit, IRState.setInsertPoint]
  · simp [openLoop, IRState.createBlock, IRState.emit, IRState.setInsertPoint,
      IRState.pushBack]
  · simp [openLoop, IRState.createBlock, IRState.emit, IRState.setInsertPoint,
      IRState.pushBack]
  · unfold openLoop
    simp only [IRState.pushBack, IRState.setInsertPoint]
    rw [instsAt_emit _ _ _ (by
      simp only [emit_length, createBlock_length]
      show s.blocks.length < _
      omega)]
    simp only
    rw [instsAt_emit _ _ _ (by
      simp only [createBlock_length]
      show s.insertPoint < _
      omega)]
    simp only [instsAt_createBlock]
    simp only [IRState.createBlock]
    by_cases h1 : b = s.blocks.length
    · subst h1
      simp [if_neg hne, instsAt_of_length_le]
    · simp only [if_neg h1]

/-- The blocks after the round that closes a loop. -/
theorem closeLoop_spec (f : LoopFrame) (s : IRState) (h : s.insertPoint < s.blocks.length) :
    (closeLoop f s).blocks.length = s.blocks.length
    ∧ (closeLoop f s).insertPoint = f.mergeBlock
    ∧ ∀ b, instsAt (closeLoop f s).blocks b
        = if b = s.insertPoint then instsAt s.blocks b ++ [Inst.br f.loopBlock]
          else instsAt s.blocks b :=
  ⟨by simp [closeLoop, IRState.pushBack, IRState.setInsertPoint, emit_length], rfl,
    fun b => by
      simp only [closeLoop, IRState.pushBack, IRState.setInsertPoint]
      exact instsAt_emit s _ b h⟩

/-! ## What one round adds to the blocks -/

theorem extends_of_instsAt (old new : List BasicBlock)
    (h : ∀ b, ∃ extra, instsAt new b = instsAt old b ++ extra) : Extends old new := by
  intro b j i hf
  rw [fetch_eq_instsAt] at hf ⊢
  obtain ⟨extra, he⟩ := h b
  rw [he, List.getElem?_append_left (List.getElem?_eq_some.mp hf).1]
  exact hf

theorem Extends.same (blocks : List BasicBlock) : Extends blocks blocks :=
  fun _ _ _ h => h

theorem Extends.andThen {a b c : List BasicBlock} (h1 : Extends a b) (h2 : Extends b c) :
    Extends a c :=
  fun _ _ _ h => h2 _ _ _ (h1 _ _ _ h)

theorem drop_run_eq (p : List Instruction) (kind : Instruction) (m a : Nat)
    (h : ∀ j, a ≤ j → j < a + m → p[j]? = some kind) :
    p.drop a = List.replicate m kind ++ p.drop (a + m) := by
  induction m generalizing a with
  | zero => simp
  | succ m ih =>
    rw [drop_eq_cons_of_getElem? p a kind (h a (le_refl _) (by omega)),
      ih (a + 1) (fun j h1 h2 => h j (by omega) (by omega)), List.replicate_succ,
      List.cons_append, show a + 1 + m = a + (m + 1) by omega]

/-- A round that appends one instruction at the insert point and moves the cursor. -/
theorem emit_round (s : IRState) (x : Inst) (cursor : Nat) (stack : List LoopFrame)
    (hfit : StackFits s stack) :
    StackFits ({ s with currentInstruction := cursor }.emit x).advance stack
    ∧ Extends s.blocks ({ s with currentInstruction := cursor }.emit x).advance.blocks
    ∧ ({ s with currentInstruction := cursor }.emit x).advance.insertPoint = s.insertPoint
    ∧ ({ s with currentInstruction := cursor }.emit x).advance.here = s.here + 1
    ∧ ({ s with currentInstruction := cursor }.emit x).advance.currentInstruction = cursor + 1
    ∧ fetch ({ s with currentInstruction := cursor }.emit x).advance.blocks s.insertPoint
        s.here = some x := by
  obtain ⟨hip, hmerge, hnodup⟩ := hfit
  obtain ⟨hlen, _, _, hinsts⟩ := emit_spec { s with currentInstruction := cursor } x hip
  simp only at hlen hinsts
  have hi : ∀ b, instsAt ({ s with currentInstruction := cursor }.emit x).advance.blocks b
      = if b = s.insertPoint then instsAt s.blocks b ++ [x] else instsAt s.blocks b := hinsts
  have hl : ({ s with currentInstruction := cursor }.emit x).advance.blocks.length
      = s.blocks.length := hlen
  refine ⟨⟨?_, ?_, hnodup⟩, ?_, rfl, ?_, rfl, ?_⟩
  · rw [hl]; exact hip
  · intro f hf
    obtain ⟨h1, h2, h3⟩ := hmerge f hf
    refine ⟨by rw [hl]; exact h1, ?_, h3⟩
    rw [hi, if_neg h3]; exact h2
  · apply extends_of_instsAt
    intro b
    rw [hi]
    split
    · exact ⟨[x], rfl⟩
    · exact ⟨[], by simp⟩
  · show (instsAt _ s.insertPoint).length = _
    rw [hi, if_pos rfl]
    simp [IRState.here]
  · rw [fetch_eq_instsAt, hi, if_pos rfl]
    simp [IRState.here]

theorem moveLeft_round (s : IRState) (stack : List LoopFrame) (hfit : StackFits s stack) :
    StackFits (emitMoveLeft errorBlock s).advance stack
    ∧ Extends s.blocks (emitMoveLeft errorBlock s).advance.blocks
    ∧ (emitMoveLeft errorBlock s).advance.insertPoint = s.blocks.length
    ∧ (emitMoveLeft errorBlock s).advance.here = 1
    ∧ (emitMoveLeft errorBlock s).advance.currentInstruction = s.currentInstruction + 1
    ∧ fetch (emitMoveLeft errorBlock s).advance.blocks s.insertPoint s.here
        = some (Inst.condBrReturnWithError errorBlock s.blocks.length)
    ∧ fetch (emitMoveLeft errorBlock s).advance.blocks s.blocks.length 0
        = some Inst.decrementCurrentCell := by
  obtain ⟨hip, hmerge, hnodup⟩ := hfit
  obtain ⟨hlen, hipn, _, hinsts⟩ := emitMoveLeft_spec errorBlock s hip
  have hi : ∀ b, instsAt (emitMoveLeft errorBlock s).advance.blocks b
      = if b = s.insertPoint then
            instsAt s.blocks b ++ [Inst.condBrReturnWithError errorBlock s.blocks.length]
          else if b = s.blocks.length then [Inst.decrementCurrentCell]
          else instsAt s.blocks b := hinsts
  have hl : (emitMoveLeft errorBlock s).advance.blocks.length = s.blocks.length + 1 := hlen
  have hp : (emitMoveLeft errorBlock s).advance.insertPoint = s.blocks.length := hipn
  have hne : s.blocks.length ≠ s.insertPoint := by omega
  refine ⟨⟨?_, ?_, hnodup⟩, ?_, hp, ?_, rfl, ?_, ?_⟩
  · rw [hl, hp]; omega
  · intro f hf
    obtain ⟨h1, h2, h3⟩ := hmerge f hf
    refine ⟨by rw [hl]; omega, ?_, by rw [hp]; omega⟩
    rw [hi, if_neg h3, if_neg (by omega)]; exact h2
  · apply extends_of_instsAt
    intro b
    rw [hi]
    split
    · exact ⟨_, rfl⟩
    · split
      · rename_i h1
        exact ⟨[Inst.decrementCurrentCell], by
          rw [h1, instsAt_of_length_le _ _ (le_refl _)]; rfl⟩
      · exact ⟨[], by simp⟩
  · show (instsAt _ (emitMoveLeft errorBlock s).advance.insertPoint).length = 1
    rw [hp, hi, if_neg hne, if_pos rfl]
    rfl
  · rw [fetch_eq_instsAt, hi, if_pos rfl]
    simp [IRState.here]
  · rw [fetch_eq_instsAt, hi, if_neg hne, if_pos rfl]
    rfl

/-- The round that dispatches a simple instruction keeps the stack fitting, keeps what the
blocks hold, and puts the code of the instruction (of the whole run, for an increment or a
decrement) in front of the code of what follows. -/
theorem simpleRound_code (instructions : List Instruction) (s : IRState)
    (stack : List LoopFrame) (i : Instruction)
    (hget : instructions[s.currentInstruction]? = some i) (hi : i.isSimple)
    (hfit : StackFits s stack) :
    StackFits (simpleRound instructions errorBlock i s) stack
    ∧ Extends s.blocks (simpleRound instructions errorBlock i s).blocks
    ∧ ∀ final, Extends (simpleRound instructions errorBlock i s).blocks final →
        CodeFrom final
          (instructions.drop (simpleRound instructions errorBlock i s).currentInstruction)
          (simpleRound instructions errorBlock i s).insertPoint
          (simpleRound instructions errorBlock i s).here stack →
        CodeFrom final (instructions.drop s.currentInstruction) s.insertPoint s.here
          stack := by
  have hdrop := drop_eq_cons_of_getElem? _ _ _ hget
  have run : ∀ (kind : Instruction) (mk : Nat → Inst), i = kind →
      (∀ (n : Nat) (ahead : List Instruction) (final : List BasicBlock),
        ahead.head? ≠ some kind →
        fetch final s.insertPoint s.here = some (mk ((n + 1) % 256)) →
        CodeFrom final ahead s.insertPoint (s.here + 1) stack →
        CodeFrom final (kind :: (List.replicate n kind ++ ahead)) s.insertPoint s.here
          stack) →
      ∀ t : IRState,
        t = ({ s with currentInstruction :=
            (mergeRun kind (instructions.drop (s.currentInstruction + 1)) 1
              s.currentInstruction).2 }.emit
          (mk (mergeRun kind (instructions.drop (s.currentInstruction + 1)) 1
              s.currentInstruction).1)).advance →
      StackFits t stack ∧ Extends s.blocks t.blocks
      ∧ ∀ final, Extends t.blocks final →
        CodeFrom final (instructions.drop t.currentInstruction) t.insertPoint t.here stack →
        CodeFrom final (instructions.drop s.currentInstruction) s.insertPoint s.here
          stack := by
    intro kind mk hik hcons t ht
    subst hik
    obtain ⟨h1, h2, h3, h4⟩ := mergeRun_spec instructions i _ 1 s.currentInstruction rfl
    obtain ⟨e1, e2, e3, e4, e5, e6⟩ := emit_round s
      (mk (mergeRun i (instructions.drop (s.currentInstruction + 1)) 1
        s.currentInstruction).1)
      (mergeRun i (instructions.drop (s.currentInstruction + 1)) 1 s.currentInstruction).2
      stack hfit
    rw [← ht] at e1 e2 e3 e4 e5 e6
    refine ⟨e1, e2, fun final hext hcode => ?_⟩
    rw [e3, e4, e5] at hcode
    generalize hrun : mergeRun i (instructions.drop (s.currentInstruction + 1)) 1
      s.currentInstruction = r at h1 h2 h3 h4 e5 e6 hcode
    obtain ⟨n, hn⟩ : ∃ n, r.2 = s.currentInstruction + n :=
      ⟨_, (Nat.add_sub_cancel' h1).symm⟩
    have hd : instructions.drop (s.currentInstruction + 1)
        = List.replicate n i ++ instructions.drop (r.2 + 1) := by
      rw [drop_run_eq instructions i n (s.currentInstruction + 1)
        (fun j hj1 hj2 => h2 j (by omega) (by omega))]
      congr 2
      omega
    rw [hdrop, hd]
    apply hcons
    · rw [List.head?_drop]; exact h3
    · have := hext _ _ _ e6
      rw [h4 (by norm_num), hn, Nat.add_sub_cancel_left, Nat.add_comm 1 n] at this
      exact this
    · exact hcode
  have one : ∀ (x : Inst),
      (∀ (ahead : List Instruction) (final : List BasicBlock),
        fetch final s.insertPoint s.here = some x →
        CodeFrom final ahead s.insertPoint (s.here + 1) stack →
        CodeFrom final (i :: ahead) s.insertPoint s.here stack) →
      ∀ t : IRState, t = (s.emit x).advance →
      StackFits t stack ∧ Extends s.blocks t.blocks
      ∧ ∀ final, Extends t.blocks final →
        CodeFrom final (instructions.drop t.currentInstruction) t.insertPoint t.here stack →
        CodeFrom final (instructions.drop s.currentInstruction) s.insertPoint s.here
          stack := by
    intro x hcons t ht
    obtain ⟨e1, e2, e3, e4, e5, e6⟩ := emit_round s x s.currentInstruction stack hfit
    have hst : ({ s with currentInstruction := s.currentInstruction }.emit x).advance = t :=
      ht.symm
    rw [hst] at e1 e2 e3 e4 e5 e6
    refine ⟨e1, e2, fun final hext hcode => ?_⟩
    rw [e3, e4, e5] at hcode
    rw [hdrop]
    exact hcons _ _ (hext _ _ _ e6) hcode
  obtain ⟨h1, h2⟩ := hi
  cases i
  case startLoop => exact absurd rfl h1
  case endLoop => exact absurd rfl h2
  case moveRight =>
    exact one Inst.callMoveRight (fun a f h c => CodeFrom.moveRight a _ _ stack h c) _ rfl
  case output =>
    exact one Inst.callPutchar (fun a f h c => CodeFrom.output a _ _ stack h c) _ rfl
  case input =>
    exact one Inst.callInput (fun a f h c => CodeFrom.input a _ _ stack h c) _ rfl
  case increment =>
    exact run Instruction.increment Inst.addCellValue rfl
      (fun n a f hr h c => CodeFrom.increment n a _ _ stack hr h c) _ rfl
  case decrement =>
    exact run Instruction.decrement Inst.subCellValue rfl
      (fun n a f hr h c => CodeFrom.decrement n a _ _ stack hr h c) _ rfl
  case moveLeft =>
    obtain ⟨e1, e2, e3, e4, e5, e6, e7⟩ := moveLeft_round s stack hfit
    refine ⟨e1, e2, fun final hext hcode => ?_⟩
    simp only [simpleRound] at hcode
    rw [e3, e4, e5] at hcode
    rw [hdrop]
    exact CodeFrom.moveLeft _ _ _ _ stack (hext _ _ _ e6) (hext _ _ _ e7) hcode

/-- The round that opens a loop: the new frame goes on the stack, and the branch to the
entry test and the entry test come in front of the code of the body. -/
theorem openLoop_code (instructions : List Instruction) (s : IRState)
    (stack : List LoopFrame)
    (hget : instructions[s.currentInstruction]? = some Instruction.startLoop)
    (hfit : StackFits s stack) :
    StackFits (openLoop s).2.advance ((openLoop s).1 :: stack)
    ∧ Extends s.blocks (openLoop s).2.advance.blocks
    ∧ ∀ final, Extends (openLoop s).2.advance.blocks final →
        CodeFrom final (instructions.drop (openLoop s).2.advance.currentInstruction)
          (openLoop s).2.advance.insertPoint (openLoop s).2.advance.here
          ((openLoop s).1 :: stack) →
        CodeFrom final (instructions.drop s.currentInstruction) s.insertPoint s.here
          stack := by
  have hdrop := drop_eq_cons_of_getElem? _ _ _ hget
  obtain ⟨hip, hmerge, hnodup⟩ := hfit
  obtain ⟨hframe, hlen, hipn, hinsts⟩ := openLoop_spec s hip
  have hi : ∀ b, instsAt (openLoop s).2.advance.blocks b
      = if b = s.insertPoint then instsAt s.blocks b ++ [Inst.br s.blocks.length]
        else if b = s.blocks.length then
          [Inst.condBrContinueLoop (s.blocks.length + 1) (s.blocks.length + 2)]
        else instsAt s.blocks b := hinsts
  have hl : (openLoop s).2.advance.blocks.length = s.blocks.length + 3 := hlen
  have hp : (openLoop s).2.advance.insertPoint = s.blocks.length + 1 := hipn
  have hc : (openLoop s).2.advance.currentInstruction = s.currentInstruction + 1 := rfl
  have hhere : (openLoop s).2.advance.here = 0 := by
    show (instsAt _ (openLoop s).2.advance.insertPoint).length = 0
    rw [hp, hi, if_neg (by omega), if_neg (by omega),
      instsAt_of_length_le _ _ (by omega)]
    rfl
  rw [hframe]
  refine ⟨⟨?_, ?_, ?_⟩, ?_, fun final hext hcode => ?_⟩
  · rw [hl, hp]; omega
  · intro f hf
    rw [List.mem_cons] at hf
    rcases hf with rfl | hf
    · refine ⟨by rw [hl]; simp, ?_, by rw [hp]; simp⟩
      rw [hi, if_neg (by simp only; omega), if_neg (by simp only; omega)]
      exact instsAt_of_length_le _ _ (by simp only; omega)
    · obtain ⟨h1, h2, h3⟩ := hmerge f hf
      refine ⟨by rw [hl]; omega, ?_, by rw [hp]; omega⟩
      rw [hi, if_neg h3, if_neg (by omega)]; exact h2
  · rw [List.map_cons, List.nodup_cons]
    refine ⟨?_, hnodup⟩
    intro hmem
    rw [List.mem_map] at hmem
    obtain ⟨f, hf, hfe⟩ := hmem
    have := (hmerge f hf).1
    simp only at hfe
    omega
  · apply extends_of_instsAt
    intro b
    rw [hi]
    split
    · exact ⟨_, rfl⟩
    · split
      · rename_i h1
        exact ⟨_, by rw [h1, instsAt_of_length_le _ _ (le_refl _)]; rfl⟩
      · exact ⟨[], by simp⟩
  · rw [hc, hp, hhere] at hcode
    rw [hdrop]
    refine CodeFrom.startLoop _ _ _ s.blocks.length (s.blocks.length + 1)
      (s.blocks.length + 2) stack (hext _ _ _ ?_) (hext _ _ _ ?_) hcode
    · rw [fetch_eq_instsAt, hi, if_pos rfl]
      simp [IRState.here]
    · rw [fetch_eq_instsAt, hi, if_neg (by omega), if_pos rfl]
      rfl

/-- The round that closes a loop: its frame leaves the stack, and the branch back to the
entry test comes in front of the code that follows, which starts the merge block. -/
theorem closeLoop_code (instructions : List Instruction) (f : LoopFrame) (s : IRState)
    (stack : List LoopFrame)
    (hget : instructions[s.currentInstruction]? = some Instruction.endLoop)
    (hfit : StackFits s (f :: stack)) :
    StackFits (closeLoop f s).advance stack
    ∧ Extends s.blocks (closeLoop f s).advance.blocks
    ∧ ∀ final, Extends (closeLoop f s).advance.blocks final →
        CodeFrom final (instructions.drop (closeLoop f s).advance.currentInstruction)
          (closeLoop f s).advance.insertPoint (closeLoop f s).advance.here stack →
        CodeFrom final (instructions.drop s.currentInstruction) s.insertPoint s.here
          (f :: stack) := by
  have hdrop := drop_eq_cons_of_getElem? _ _ _ hget
  obtain ⟨hip, hmerge, hnodup⟩ := hfit
  obtain ⟨hlen, hipn, hinsts⟩ := closeLoop_spec f s hip
  have hi : ∀ b, instsAt (closeLoop f s).advance.blocks b
      = if b = s.insertPoint then instsAt s.blocks b ++ [Inst.br f.loopBlock]
        else instsAt s.blocks b := hinsts
  have hl : (closeLoop f s).advance.blocks.length = s.blocks.length := hlen
  have hp : (closeLoop f s).advance.insertPoint = f.mergeBlock := hipn
  have hc : (closeLoop f s).advance.currentInstruction = s.currentInstruction + 1 := rfl
  obtain ⟨hf1, hf2, hf3⟩ := hmerge f (List.mem_cons_self _ _)
  rw [List.map_cons, List.nodup_cons] at hnodup
  have hhere : (closeLoop f s).advance.here = 0 := by
    show (instsAt _ (closeLoop f s).advance.insertPoint).length = 0
    rw [hp, hi, if_neg hf3, hf2]
    rfl
  refine ⟨⟨?_, ?_, hnodup.2⟩, ?_, fun final hext hcode => ?_⟩
  · rw [hl, hp]; exact hf1
  · intro g hg
    obtain ⟨h1, h2, h3⟩ := hmerge g (List.mem_cons_of_mem _ hg)
    refine ⟨by rw [hl]; exact h1, ?_, ?_⟩
    · rw [hi, if_neg h3]; exact h2
    · rw [hp]
      intro heq
      exact hnodup.1 (List.mem_map.mpr ⟨g, hg, heq⟩)
  · apply extends_of_instsAt
    intro b
    rw [hi]
    split
    · exact ⟨_, rfl⟩
    · exact ⟨[], by simp⟩
  · rw [hc, hp, hhere] at hcode
    rw [hdrop]
    refine CodeFrom.endLoop _ _ _ f stack (hext _ _ _ ?_) hcode
    rw [fetch_eq_instsAt, hi, if_pos rfl]
    simp [IRState.here]

/-! ## The blocks of a successful emission -/

/-- The rounds keep the stack fitting and keep what the blocks hold. -/
theorem stackEmits_extends (instructions : List Instruction) (stack : List LoopFrame)
    (s t : IRState) (h : StackEmits instructions errorBlock stack s t)
    (hfit : StackFits s stack) :
    Extends s.blocks t.blocks ∧ t.insertPoint < t.blocks.length := by
  induction h with
  | done s _ => exact ⟨Extends.same _, hfit.1⟩
  | simple stack s t i hget hi _ ih =>
    obtain ⟨h1, h2, _⟩ := simpleRound_code instructions s stack i hget hi hfit
    exact ⟨h2.andThen (ih h1).1, (ih h1).2⟩
  | startLoop stack s t hget _ ih =>
    obtain ⟨h1, h2, _⟩ := openLoop_code instructions s stack hget hfit
    exact ⟨h2.andThen (ih h1).1, (ih h1).2⟩
  | endLoop f stack s t hget _ ih =>
    obtain ⟨h1, h2, _⟩ := closeLoop_code instructions f s stack hget hfit
    exact ⟨h2.andThen (ih h1).1, (ih h1).2⟩

/-- The blocks of a finished emission hold the code of the whole rest of the program, once
the end of the program is in place. -/
theorem stackEmits_codeFrom (instructions : List Instruction) (stack : List LoopFrame)
    (s t : IRState) (h : StackEmits instructions errorBlock stack s t)
    (hfit : StackFits s stack) (final : List BasicBlock) (hext : Extends t.blocks final)
    (hdone : CodeFrom final [] t.insertPoint t.here []) :
    CodeFrom final (instructions.drop s.currentInstruction) s.insertPoint s.here stack := by
  induction h with
  | done s hget =>
    rw [List.drop_eq_nil_of_le (List.getElem?_eq_none_iff.mp hget)]
    exact hdone
  | simple stack s t i hget hi rest ih =>
    obtain ⟨h1, _, h3⟩ := simpleRound_code instructions s stack i hget hi hfit
    exact h3 final ((stackEmits_extends _ _ _ _ rest h1).1.andThen hext) (ih h1 hext hdone)
  | startLoop stack s t hget rest ih =>
    obtain ⟨h1, _, h3⟩ := openLoop_code instructions s stack hget hfit
    exact h3 final ((stackEmits_extends _ _ _ _ rest h1).1.andThen hext) (ih h1 hext hdone)
  | endLoop f stack s t hget rest ih =>
    obtain ⟨h1, _, h3⟩ := closeLoop_code instructions f s stack hget hfit
    exact h3 final ((stackEmits_extends _ _ _ _ rest h1).1.andThen hext) (ih h1 hext hdone)

/-- Blocks that are on no open loop's path stay as they are: a stack that fits with further
frames below it leaves those frames fitting at the end. -/
theorem stackEmits_fits (instructions : List Instruction) (stack : List LoopFrame)
    (s t : IRState) (h : StackEmits instructions errorBlock stack s t)
    (below : List LoopFrame) (hfit : StackFits s (stack ++ below)) : StackFits t below := by
  induction h with
  | done s _ => exact hfit
  | simple stack s t i hget hi _ ih =>
    exact ih (simpleRound_code instructions s _ i hget hi hfit).1
  | startLoop stack s t hget _ ih =>
    exact ih (openLoop_code instructions s _ hget hfit).1
  | endLoop f stack s t hget _ ih =>
    exact ih (closeLoop_code instructions f s _ hget hfit).1

theorem mainStart_fits :
    StackFits mainStart ([] ++ [{ loopBlock := 0, mergeBlock := errorBlock },
      { loopBlock := 0, mergeBlock := returnBlock }]) := by
  refine ⟨by decide, ?_, by decide⟩
  intro f hf
  simp only [List.nil_append, List.mem_cons, List.mem_singleton, List.not_mem_nil,
    or_false] at hf
  rcases hf with rfl | rfl <;> exact ⟨by decide, by decide, by decide⟩

theorem emit_insertPoint (s : IRState) (x : Inst) : (s.emit x).insertPoint = s.insertPoint :=
  rfl

/-- The blocks after `finishMain`. -/
theorem finishMain_spec (t : IRState)
    (hfit : StackFits t [{ loopBlock := 0, mergeBlock := errorBlock },
      { loopBlock := 0, mergeBlock := returnBlock }]) :
    ∀ b, instsAt (finishMain t).blocks b
      = if b = t.insertPoint then instsAt t.blocks b ++ [Inst.br returnBlock]
        else if b = errorBlock then [Inst.callFputsError, Inst.br returnBlock]
        else if b = returnBlock then [Inst.retPhi t.insertPoint errorBlock]
        else instsAt t.blocks b := by
  obtain ⟨hip, hmerge, _⟩ := hfit
  obtain ⟨he1, he2, he3⟩ := hmerge _ (List.mem_cons_self _ _)
  obtain ⟨hr1, hr2, hr3⟩ := hmerge _ (List.mem_cons_of_mem _ (List.mem_cons_self _ _))
  simp only at he1 he2 he3 hr1 hr2 hr3
  intro b
  unfold finishMain
  simp only [IRState.pushBack, IRState.setInsertPoint]
  rw [instsAt_emit _ _ _ (by simp only [emit_length]; exact hr1)]
  rw [instsAt_emit _ _ _ (by simp only [emit_length]; exact he1)]
  rw [instsAt_emit _ _ _ (by simp only [emit_length]; exact he1)]
  rw [instsAt_emit _ _ _ hip]
  have hne : errorBlock ≠ returnBlock := by decide
  by_cases h1 : b = t.insertPoint
  · subst h1
    simp [emit_insertPoint, if_neg he3.symm, if_neg hr3.symm]
  · by_cases h2 : b = errorBlock
    · subst h2
      simp [emit_insertPoint, if_neg h1, if_neg hne, he2]
    · by_cases h3 : b = returnBlock
      · subst h3
        simp [emit_insertPoint, if_neg h1, if_neg h2, hr2]
      · simp [emit_insertPoint, if_neg h1, if_neg h2, if_neg h3]

/-- The blocks of a compiled program hold the code of the whole program from the start of
the block `entry`, and the error path of `main`. -/
theorem compileMain_code (p : List Instruction) (m : IRState)
    (h : compileMain p = some (Except.ok m)) :
    CodeFrom m.blocks p 0 0 [] ∧ ErrorPath m.blocks := by
  unfold compileMain at h
  cases hg : generateIRTop p with
  | none => simp [hg] at h
  | some emitted =>
    simp only [hg] at h
    cases he : emitted.error with
    | some e => simp [he] at h
    | none =>
      simp only [he, Option.some.injEq, Except.ok.injEq] at h
      subst h
      have hemit : generateIRTop p = some { error := none, state := emitted.state } := by
        rw [hg, ← he]
      have hstack := generateIRTop_stackEmits p _ hemit
      have hfit := stackEmits_fits p [] _ _ hstack _ mainStart_fits
      have hspec := finishMain_spec _ hfit
      obtain ⟨hip, hmerge, _⟩ := hfit
      obtain ⟨he1, he2, he3⟩ := hmerge _ (List.mem_cons_self _ _)
      obtain ⟨hr1, hr2, hr3⟩ := hmerge _ (List.mem_cons_of_mem _ (List.mem_cons_self _ _))
      simp only at he1 he2 he3 hr1 hr2 hr3
      have hext : Extends emitted.state.blocks (finishMain emitted.state).blocks := by
        apply extends_of_instsAt
        intro b
        rw [hspec]
        split
        · exact ⟨_, rfl⟩
        · split
          · rename_i h2; exact ⟨_, by rw [h2, he2]; rfl⟩
          · split
            · rename_i h3; exact ⟨_, by rw [h3, hr2]; rfl⟩
            · exact ⟨[], by simp⟩
      have hret : fetch (finishMain emitted.state).blocks returnBlock 0
          = some (Inst.retPhi emitted.state.insertPoint errorBlock) := by
        rw [fetch_eq_instsAt, hspec, if_neg hr3, if_neg (by decide), if_pos rfl]
        rfl
      have hdone : CodeFrom (finishMain emitted.state).blocks [] emitted.state.insertPoint
          emitted.state.here [] := by
        refine CodeFrom.done _ _ ?_ hret he3.symm
        rw [fetch_eq_instsAt, hspec, if_pos rfl]
        simp [IRState.here]
      refine ⟨?_, ?_, ?_, _, he3.symm, hret⟩
      · have := stackEmits_codeFrom p [] mainStart _ hstack
          (by
            have := mainStart_fits
            exact ⟨this.1, fun f hf => absurd hf (List.not_mem_nil f), List.nodup_nil⟩)
          _ hext hdone
        exact this
      · rw [fetch_eq_instsAt, hspec, if_neg he3, if_pos rfl]; rfl
      · rw [fetch_eq_instsAt, hspec, if_neg he3, if_pos rfl]; rfl

/-! ## Going back to a loop start -/

theorem findLoopStart_cons_simple (i : Instruction) (l : List Instruction) (d : Nat)
    (hi : i.isSimple) : findLoopStart (i :: l) d = (findLoopStart l d).map (· + 1) := by
  obtain ⟨h1, h2⟩ := hi
  cases i <;> first | rfl | exact absurd rfl h1 | exact absurd rfl h2

theorem findLoopStart_deeper (l : List Instruction) (c d e : Nat)
    (h : findLoopStart l c = some d) :
    findLoopStart l (c + e + 1) = (findLoopStart (l.drop (d + 1)) e).map (· + (d + 1)) := by
  induction l generalizing c d with
  | nil => simp [findLoopStart] at h
  | cons i l ih =>
    rcases i.simple_or_bracket with hi | rfl | rfl
    · rw [findLoopStart_cons_simple _ _ _ hi, Option.map_eq_some'] at h
      obtain ⟨a, ha, rfl⟩ := h
      rw [findLoopStart_cons_simple _ _ _ hi, ih _ _ ha, List.drop_succ_cons, Option.map_map]
      rfl
    · cases c with
      | zero =>
        simp only [findLoopStart, Option.some.injEq] at h
        subst h
        simp [findLoopStart]
      | succ c =>
        simp only [findLoopStart, Option.map_eq_some'] at h
        obtain ⟨a, ha, rfl⟩ := h
        have := ih _ _ ha
        rw [show c + 1 + e + 1 = c + e + 1 + 1 by omega]
        simp only [findLoopStart, this, List.drop_succ_cons, Option.map_map]
        rfl
    · simp only [findLoopStart, Option.map_eq_some'] at h
      obtain ⟨a, ha, rfl⟩ := h
      have := ih _ _ ha
      rw [show c + 1 + e + 1 = c + e + 1 + 1 by omega] at this
      simp only [findLoopStart, this, List.drop_succ_cons, Option.map_map]
      rfl

/-- Going back over a stretch that a forward search at depth `k` has crossed raises the
depth by `k` and finds no loop start inside. -/
theorem findLoopStart_over (l : List Instruction) (k d : Nat)
    (h : findLoopEnd l k = some d) (behind : List Instruction) (c : Nat) :
    findLoopStart ((l.take d).reverse ++ behind) c
      = (findLoopStart behind (c + k)).map (· + d) := by
  induction l generalizing k d behind c with
  | nil => simp [findLoopEnd] at h
  | cons i l ih =>
    rcases i.simple_or_bracket with hi | rfl | rfl
    · rw [findLoopEnd_cons_simple _ _ _ hi, Option.map_eq_some'] at h
      obtain ⟨a, ha, rfl⟩ := h
      rw [List.take_succ_cons, List.reverse_cons, List.append_assoc, ih _ _ ha,
        List.singleton_append, findLoopStart_cons_simple _ _ _ hi, Option.map_map]
      congr 1
      funext x
      simp only [Function.comp]
      omega
    · simp only [findLoopEnd, Option.map_eq_some'] at h
      obtain ⟨a, ha, rfl⟩ := h
      rw [List.take_succ_cons, List.reverse_cons, List.append_assoc, ih _ _ ha,
        List.singleton_append, show c + (k + 1) = c + k + 1 by omega]
      simp only [findLoopStart, Option.map_map]
      congr 1
      funext x
      simp only [Function.comp]
      omega
    · cases k with
      | zero =>
        simp only [findLoopEnd, Option.some.injEq] at h
        subst h
        simp
      | succ k =>
        simp only [findLoopEnd, Option.map_eq_some'] at h
        obtain ⟨a, ha, rfl⟩ := h
        rw [List.take_succ_cons, List.reverse_cons, List.append_assoc, ih _ _ ha,
          List.singleton_append]
        simp only [findLoopStart, Option.map_map]
        rw [show c + (k + 1) = c + k + 1 by omega]
        congr 1
        funext x
        simp only [Function.comp]
        omega

theorem reverse_take_succ (p : List Instruction) (n : Nat) (x : Instruction)
    (h : p[n]? = some x) : (p.take (n + 1)).reverse = x :: (p.take n).reverse := by
  rw [List.take_succ, h]
  simp

theorem BackSkip.stay (p : List Instruction) (pc : Nat) : BackSkip p pc pc :=
  ⟨le_refl _, fun c => by simp⟩

theorem BackSkip.append {p : List Instruction} {a b c : Nat} (h1 : BackSkip p a b)
    (h2 : BackSkip p b c) : BackSkip p a c := by
  refine ⟨le_trans h1.1 h2.1, fun d => ?_⟩
  rw [h2.2, h1.2, Option.map_map]
  congr 1
  funext x
  have := h1.1
  have := h2.1
  simp only [Function.comp]
  omega

theorem BackSkip.simple (p : List Instruction) (pc : Nat) (x : Instruction)
    (h : p[pc]? = some x) (hx : x.isSimple) : BackSkip p pc (pc + 1) := by
  refine ⟨by omega, fun c => ?_⟩
  rw [reverse_take_succ p pc x h, findLoopStart_cons_simple _ _ _ hx]
  simp

theorem BackSkip.simples (p : List Instruction) (pc m : Nat)
    (h : ∀ j, pc ≤ j → j < pc + m → ∃ x, p[j]? = some x ∧ x.isSimple) :
    BackSkip p pc (pc + m) := by
  induction m with
  | zero => exact BackSkip.stay p pc
  | succ m ih =>
    obtain ⟨x, hx, hs⟩ := h (pc + m) (by omega) (by omega)
    exact (ih (fun j h1 h2 => h j h1 (by omega))).append (BackSkip.simple p _ x hx hs)

/-- A whole loop, from its loop start to after its matching loop end, is skipped going
back. -/
theorem BackSkip.loop (p : List Instruction) (pc d : Nat)
    (h : p[pc]? = some Instruction.startLoop)
    (hd : findLoopEnd (p.drop (pc + 1)) 0 = some d) : BackSkip p pc (pc + 1 + d + 1) := by
  refine ⟨by omega, fun c => ?_⟩
  have hend : p[pc + 1 + d]? = some Instruction.endLoop := by
    have := findLoopEnd_getElem _ _ _ hd
    rwa [List.getElem?_drop] at this
  rw [reverse_take_succ p _ _ hend, List.take_add, List.reverse_append,
    reverse_take_succ p pc _ h]
  simp only [findLoopStart]
  rw [findLoopStart_over _ 0 d hd]
  simp only [findLoopStart, Option.map_map, Nat.add_zero]
  congr 1
  funext x
  simp only [Function.comp]
  omega

/-- From after a loop end, going back skips the whole loop to before its loop start `i`. -/
theorem BackSkip.exit (p : List Instruction) (pc i : Nat) (hlt : i < pc)
    (hpc : pc ≤ p.length)
    (h : p[pc]? = some Instruction.endLoop)
    (hback : findLoopStart (p.take pc).reverse 0 = some (pc - 1 - i)) :
    BackSkip p i (pc + 1) := by
  refine ⟨by omega, fun c => ?_⟩
  rw [reverse_take_succ p pc _ h]
  simp only [findLoopStart]
  have := findLoopStart_deeper _ 0 _ c hback
  rw [Nat.zero_add] at this
  rw [this, Option.map_map]
  have hdrop : (p.take pc).reverse.drop (pc - 1 - i + 1) = (p.take i).reverse := by
    rw [List.drop_reverse, List.length_take, Nat.min_eq_left hpc, List.take_take]
    congr 2
    omega
  rw [hdrop]
  congr 1
  funext x
  simp only [Function.comp]
  omega

/-! ## Reading the code predicate -/

theorem Enclosing.lift {blocks : List BasicBlock} {p : List Instruction} {pc pc1 : Nat}
    {stack : List LoopFrame} (h : Enclosing blocks p pc stack) (hs : BackSkip p pc pc1) :
    Enclosing blocks p pc1 stack := by
  cases h with
  | nil => exact Enclosing.nil _
  | cons _ i body f stack hlt hstart hback htest hbody outer =>
    refine Enclosing.cons pc1 i body f stack (by have := hs.1; omega) hstart ?_ htest hbody
      outer
    rw [hs.2, hback]
    simp only [Option.map_some', Option.some.injEq]
    have := hs.1
    omega

theorem CodeFrom.nil_inv {blocks : List BasicBlock} {b j : Nat} {stack : List LoopFrame}
    (h : CodeFrom blocks [] b j stack) :
    stack = [] ∧ fetch blocks b j = some (Inst.br returnBlock)
    ∧ fetch blocks returnBlock 0 = some (Inst.retPhi b errorBlock) ∧ b ≠ errorBlock := by
  cases h with
  | done _ _ h1 h2 h3 => exact ⟨rfl, h1, h2, h3⟩

theorem CodeFrom.moveRight_inv {blocks : List BasicBlock} {l : List Instruction} {b j : Nat}
    {stack : List LoopFrame} (h : CodeFrom blocks (Instruction.moveRight :: l) b j stack) :
    fetch blocks b j = some Inst.callMoveRight ∧ CodeFrom blocks l b (j + 1) stack := by
  cases h with
  | moveRight _ _ _ _ h1 h2 => exact ⟨h1, h2⟩

theorem CodeFrom.output_inv {blocks : List BasicBlock} {l : List Instruction} {b j : Nat}
    {stack : List LoopFrame} (h : CodeFrom blocks (Instruction.output :: l) b j stack) :
    fetch blocks b j = some Inst.callPutchar ∧ CodeFrom blocks l b (j + 1) stack := by
  cases h with
  | output _ _ _ _ h1 h2 => exact ⟨h1, h2⟩

theorem CodeFrom.input_inv {blocks : List BasicBlock} {l : List Instruction} {b j : Nat}
    {stack : List LoopFrame} (h : CodeFrom blocks (Instruction.input :: l) b j stack) :
    fetch blocks b j = some Inst.callInput ∧ CodeFrom blocks l b (j + 1) stack := by
  cases h with
  | input _ _ _ _ h1 h2 => exact ⟨h1, h2⟩

theorem CodeFrom.moveLeft_inv {blocks : List BasicBlock} {l : List Instruction} {b j : Nat}
    {stack : List LoopFrame} (h : CodeFrom blocks (Instruction.moveLeft :: l) b j stack) :
    ∃ next, fetch blocks b j = some (Inst.condBrReturnWithError errorBlock next)
      ∧ fetch blocks next 0 = some Inst.decrementCurrentCell
      ∧ CodeFrom blocks l next 1 stack := by
  cases h with
  | moveLeft _ _ _ next _ h1 h2 h3 => exact ⟨next, h1, h2, h3⟩

theorem CodeFrom.increment_inv {blocks : List BasicBlock} {l : List Instruction} {b j : Nat}
    {stack : List LoopFrame} (h : CodeFrom blocks (Instruction.increment :: l) b j stack) :
    ∃ n ahead, l = List.replicate n Instruction.increment ++ ahead
      ∧ fetch blocks b j = some (Inst.addCellValue ((n + 1) % 256))
      ∧ CodeFrom blocks ahead b (j + 1) stack := by
  cases h with
  | increment n ahead _ _ _ _ h1 h2 => exact ⟨n, ahead, rfl, h1, h2⟩

theorem CodeFrom.decrement_inv {blocks : List BasicBlock} {l : List Instruction} {b j : Nat}
    {stack : List LoopFrame} (h : CodeFrom blocks (Instruction.decrement :: l) b j stack) :
    ∃ n ahead, l = List.replicate n Instruction.decrement ++ ahead
      ∧ fetch blocks b j = some (Inst.subCellValue ((n + 1) % 256))
      ∧ CodeFrom blocks ahead b (j + 1) stack := by
  cases h with
  | decrement n ahead _ _ _ _ h1 h2 => exact ⟨n, ahead, rfl, h1, h2⟩

theorem CodeFrom.startLoop_inv {blocks : List BasicBlock} {l : List Instruction} {b j : Nat}
    {stack : List LoopFrame} (h : CodeFrom blocks (Instruction.startLoop :: l) b j stack) :
    ∃ loop body merge, fetch blocks b j = some (Inst.br loop)
      ∧ fetch blocks loop 0 = some (Inst.condBrContinueLoop body merge)
      ∧ CodeFrom blocks l body 0 ({ loopBlock := loop, mergeBlock := merge } :: stack) := by
  cases h with
  | startLoop _ _ _ loop body merge _ h1 h2 h3 => exact ⟨loop, body, merge, h1, h2, h3⟩

theorem CodeFrom.endLoop_inv {blocks : List BasicBlock} {l : List Instruction} {b j : Nat}
    {stack : List LoopFrame} (h : CodeFrom blocks (Instruction.endLoop :: l) b j stack) :
    ∃ f rest, stack = f :: rest ∧ fetch blocks b j = some (Inst.br f.loopBlock)
      ∧ CodeFrom blocks l f.mergeBlock 0 rest := by
  cases h with
  | endLoop _ _ _ f rest h1 h2 => exact ⟨f, rest, rfl, h1, h2⟩

theorem findLoopEnd_replicate (kind : Instruction) (hk : kind.isSimple) (n : Nat)
    (l : List Instruction) (c : Nat) :
    findLoopEnd (List.replicate n kind ++ l) c = (findLoopEnd l c).map (· + n) := by
  induction n with
  | zero => simp
  | succ n ih =>
    rw [List.replicate_succ, List.cons_append, findLoopEnd_cons_simple _ _ _ hk, ih,
      Option.map_map]
    rfl

/-- Inside `fs.length` further loops of a loop with frame `f`, the code leads to the loop
end that closes `f`, and goes on after it at the start of the merge block of `f`. -/
theorem CodeFrom.skip {blocks : List BasicBlock} {l : List Instruction} {b j : Nat}
    {stack : List LoopFrame} (h : CodeFrom blocks l b j stack) :
    ∀ (fs : List LoopFrame) (f : LoopFrame) (rest : List LoopFrame),
      stack = fs ++ f :: rest →
      ∃ d, findLoopEnd l fs.length = some d
        ∧ CodeFrom blocks (l.drop (d + 1)) f.mergeBlock 0 rest := by
  induction h with
  | done _ _ _ _ _ => intro fs f rest hs; simp at hs
  | moveRight ahead b j stack _ _ ih =>
    intro fs f rest hs
    obtain ⟨d, h1, h2⟩ := ih fs f rest hs
    exact ⟨d + 1, by rw [findLoopEnd_cons_simple _ _ _ (by decide), h1]; rfl, h2⟩
  | output ahead b j stack _ _ ih =>
    intro fs f rest hs
    obtain ⟨d, h1, h2⟩ := ih fs f rest hs
    exact ⟨d + 1, by rw [findLoopEnd_cons_simple _ _ _ (by decide), h1]; rfl, h2⟩
  | input ahead b j stack _ _ ih =>
    intro fs f rest hs
    obtain ⟨d, h1, h2⟩ := ih fs f rest hs
    exact ⟨d + 1, by rw [findLoopEnd_cons_simple _ _ _ (by decide), h1]; rfl, h2⟩
  | moveLeft ahead b j next stack _ _ _ ih =>
    intro fs f rest hs
    obtain ⟨d, h1, h2⟩ := ih fs f rest hs
    exact ⟨d + 1, by rw [findLoopEnd_cons_simple _ _ _ (by decide), h1]; rfl, h2⟩
  | increment n ahead b j stack _ _ _ ih =>
    intro fs f rest hs
    obtain ⟨d, h1, h2⟩ := ih fs f rest hs
    refine ⟨d + n + 1, ?_, ?_⟩
    · rw [findLoopEnd_cons_simple _ _ _ (by decide),
        findLoopEnd_replicate _ (by decide), h1]
      rfl
    · rw [List.drop_succ_cons, show d + n + 1 = n + (d + 1) by omega, ← List.drop_drop,
        List.drop_left' (List.length_replicate n _)]
      exact h2
  | decrement n ahead b j stack _ _ _ ih =>
    intro fs f rest hs
    obtain ⟨d, h1, h2⟩ := ih fs f rest hs
    refine ⟨d + n + 1, ?_, ?_⟩
    · rw [findLoopEnd_cons_simple _ _ _ (by decide),
        findLoopEnd_replicate _ (by decide), h1]
      rfl
    · rw [List.drop_succ_cons, show d + n + 1 = n + (d + 1) by omega, ← List.drop_drop,
        List.drop_left' (List.length_replicate n _)]
      exact h2
  | startLoop ahead b j loop body merge stack _ _ _ ih =>
    intro fs f rest hs
    obtain ⟨d, h1, h2⟩ := ih ({ loopBlock := loop, mergeBlock := merge } :: fs) f rest
      (by rw [hs]; rfl)
    exact ⟨d + 1, by simp only [findLoopEnd]; rw [List.length_cons] at h1; rw [h1]; rfl, h2⟩
  | endLoop ahead b j g stack _ hrest ih =>
    intro fs f rest hs
    cases fs with
    | nil =>
      simp only [List.nil_append, List.cons.injEq] at hs
      obtain ⟨rfl, rfl⟩ := hs
      exact ⟨0, rfl, hrest⟩
    | cons g1 fs =>
      simp only [List.cons_append, List.cons.injEq] at hs
      obtain ⟨rfl, hs⟩ := hs
      obtain ⟨d, h1, h2⟩ := ih fs f rest hs
      exact ⟨d + 1, by simp only [findLoopEnd, List.length_cons]; rw [h1]; rfl, h2⟩

/-! ## Steps of the two machines -/

theorem RunsTo.single {blocks : List BasicBlock} {junk : Nat → Nat} {c c1 : Config} {i : Inst}
    (hf : fetch blocks c.block c.index = some i) (hs : execInst junk c i = Step.next c1) :
    RunsTo blocks junk 1 c c1 := by
  intro fuel
  rw [Nat.add_comm, run]
  simp only [step, hf, hs]

theorem RunsOut.last {blocks : List BasicBlock} {junk : Nat → Nat} {c : Config} {i : Inst}
    {o : Outcome}
    (hf : fetch blocks c.block c.index = some i) (hs : execInst junk c i = Step.halt o) :
    RunsOut blocks junk 1 c o := by
  intro fuel
  rw [Nat.add_comm, run]
  simp only [step, hf, hs]

theorem RunsTo.seq {blocks : List BasicBlock} {junk : Nat → Nat} {k1 k2 : Nat}
    {a b c : Config} (h1 : RunsTo blocks junk k1 a b) (h2 : RunsTo blocks junk k2 b c) :
    RunsTo blocks junk (k1 + k2) a c := by
  intro fuel
  rw [Nat.add_assoc, h1, h2]

theorem RunsTo.out {blocks : List BasicBlock} {junk : Nat → Nat} {k1 k2 : Nat}
    {a b : Config} {o : Outcome} (h1 : RunsTo blocks junk k1 a b)
    (h2 : RunsOut blocks junk k2 b o) : RunsOut blocks junk (k1 + k2) a o := by
  intro fuel
  rw [Nat.add_assoc, h1, h2]

theorem RefRunsTo.instr {p : List Instruction} {junk : Nat → Nat} {c c1 : RefConfig}
    (hs : referenceStep p junk c = RefStep.next c1) : RefRunsTo p junk 1 c c1 := by
  intro fuel
  rw [Nat.add_comm, referenceRun]
  simp only [hs]

theorem RefRunsOut.halt {p : List Instruction} {junk : Nat → Nat} {c : RefConfig}
    {o : Outcome} (hs : referenceStep p junk c = RefStep.halt o) : RefRunsOut p junk 1 c o := by
  intro fuel
  rw [Nat.add_comm, referenceRun]
  simp only [hs]

theorem RefRunsTo.chain {p : List Instruction} {junk : Nat → Nat} {k1 k2 : Nat}
    {a b c : RefConfig} (h1 : RefRunsTo p junk k1 a b) (h2 : RefRunsTo p junk k2 b c) :
    RefRunsTo p junk (k1 + k2) a c := by
  intro fuel
  rw [Nat.add_assoc, h1, h2]

theorem run_mono (blocks : List BasicBlock) (junk : Nat → Nat) (n : Nat) :
    ∀ (c : Config) (o : Outcome) (m : Nat), run blocks junk n c = some o → n ≤ m →
      run blocks junk m c = some o := by
  induction n with
  | zero => intro c o m h; simp [run] at h
  | succ n ih =>
    intro c o m h hm
    obtain ⟨m, rfl⟩ : ∃ k, m = k + 1 := ⟨m - 1, by omega⟩
    rw [run] at h ⊢
    cases hs : step blocks junk c with
    | next c1 =>
      simp only [hs] at h ⊢
      exact ih c1 o m h (by omega)
    | halt o1 =>
      simp only [hs] at h ⊢
      exact h

theorem referenceRun_mono (p : List Instruction) (junk : Nat → Nat) (n : Nat) :
    ∀ (c : RefConfig) (o : Outcome) (m : Nat), referenceRun p junk n c = some o → n ≤ m →
      referenceRun p junk m c = some o := by
  induction n with
  | zero => intro c o m h; simp [referenceRun] at h
  | succ n ih =>
    intro c o m h hm
    obtain ⟨m, rfl⟩ : ∃ k, m = k + 1 := ⟨m - 1, by omega⟩
    rw [referenceRun] at h ⊢
    cases hs : referenceStep p junk c with
    | next c1 =>
      simp only [hs] at h ⊢
      exact ih c1 o m h (by omega)
    | halt o1 =>
      simp only [hs] at h ⊢
      exact h

/-! ## A run merged into one operation -/

theorem storeCell_outside (r : Runtime) (v : Nat) (h : ¬ r.currentCell < r.cells.length) :
    storeCell r v = r := by
  unfold storeCell
  rw [List.set_eq_of_length_le (by omega)]

theorem addCellValue_merged (r : Runtime) (n : Nat) :
    (addCellValue 1)^[n + 1] r = addCellValue ((n + 1) % 256) r := by
  by_cases h : r.currentCell < r.cells.length
  · rw [addCellValue_iterate _ _ h, addCellValue]
    congr 1
    generalize loadCell r = v
    omega
  · have hfix : ∀ k, addCellValue k r = r := fun k => storeCell_outside r _ h
    rw [hfix, Function.iterate_fixed (hfix 1)]

theorem subCellValue_merged (r : Runtime) (n : Nat) :
    (subCellValue 1)^[n + 1] r = subCellValue ((n + 1) % 256) r := by
  by_cases h : r.currentCell < r.cells.length
  · rw [subCellValue_iterate _ _ h, subCellValue]
    congr 1
    generalize loadCell r = v
    omega
  · have hfix : ∀ k, subCellValue k r = r := fun k => storeCell_outside r _ h
    rw [hfix, Function.iterate_fixed (hfix 1)]

theorem referenceRun_increments (p : List Instruction) (junk : Nat → Nat) (m : Nat) :
    ∀ (pc : Nat) (r : Runtime), (∀ k, k < m → p[pc + k]? = some Instruction.increment) →
      RefRunsTo p junk m ⟨pc, r⟩ ⟨pc + m, (addCellValue 1)^[m] r⟩ := by
  induction m with
  | zero => intro pc r _ fuel; simp
  | succ m ih =>
    intro pc r h
    have h0 : p[pc]? = some Instruction.increment := h 0 (by omega)
    have hone : RefRunsTo p junk 1 ⟨pc, r⟩ ⟨pc + 1, addCellValue 1 r⟩ :=
      RefRunsTo.instr (by simp only [referenceStep, h0])
    have := hone.chain (ih (pc + 1) (addCellValue 1 r)
      (fun k hk => by rw [show pc + 1 + k = pc + (k + 1) by omega]; exact h (k + 1) (by omega)))
    rw [Function.iterate_succ_apply, show pc + (m + 1) = pc + 1 + m by omega,
      Nat.add_comm m 1]
    exact this

theorem referenceRun_decrements (p : List Instruction) (junk : Nat → Nat) (m : Nat) :
    ∀ (pc : Nat) (r : Runtime), (∀ k, k < m → p[pc + k]? = some Instruction.decrement) →
      RefRunsTo p junk m ⟨pc, r⟩ ⟨pc + m, (subCellValue 1)^[m] r⟩ := by
  induction m with
  | zero => intro pc r _ fuel; simp
  | succ m ih =>
    intro pc r h
    have h0 : p[pc]? = some Instruction.decrement := h 0 (by omega)
    have hone : RefRunsTo p junk 1 ⟨pc, r⟩ ⟨pc + 1, subCellValue 1 r⟩ :=
      RefRunsTo.instr (by simp only [referenceStep, h0])
    have := hone.chain (ih (pc + 1) (subCellValue 1 r)
      (fun k hk => by rw [show pc + 1 + k = pc + (k + 1) by omega]; exact h (k + 1) (by omega)))
    rw [Function.iterate_succ_apply, show pc + (m + 1) = pc + 1 + m by omega,
      Nat.add_comm m 1]
    exact this

/-! ## The simulation -/

theorem getElem?_of_drop_run (p : List Instruction) (pc n : Nat) (kind : Instruction)
    (ahead : List Instruction)
    (h : p.drop pc = kind :: (List.replicate n kind ++ ahead)) :
    (∀ k, k < n + 1 → p[pc + k]? = some kind) ∧ p.drop (pc + (n + 1)) = ahead := by
  have h1 : p.drop pc = List.replicate (n + 1) kind ++ ahead := by
    rw [h, List.replicate_succ, List.cons_append]
  refine ⟨fun k hk => ?_, ?_⟩
  · rw [← List.getElem?_drop, h1, List.getElem?_append_left (by simpa using hk)]
    simp [List.getElem?_replicate, hk]
  · rw [← List.drop_drop, h1, List.drop_left' (List.length_replicate _ _)]

/-- From corresponding points, either both machines get to corresponding points again, each
in at least one step, or both end with the same outcome. -/
theorem simulation_step (blocks : List BasicBlock) (p : List Instruction)
    (junk : Nat → Nat) (herr : ErrorPath blocks) (rc : RefConfig) (c : Config)
    (h : Related blocks p rc c) :
    (∃ rc1 c1 kr kc, 0 < kr ∧ 0 < kc ∧ RefRunsTo p junk kr rc rc1
        ∧ RunsTo blocks junk kc c c1 ∧ Related blocks p rc1 c1)
    ∨ (∃ o kr kc, 0 < kr ∧ 0 < kc ∧ RefRunsOut p junk kr rc o
        ∧ RunsOut blocks junk kc c o) := by
  obtain ⟨pc, r⟩ := rc
  obtain ⟨b, j, prev, r0⟩ := c
  obtain ⟨hrt, hpc, stack, hcode, henc⟩ := h
  simp only at hrt hpc hcode henc
  subst hrt
  -- one emitted operation for one simple instruction
  have simple : ∀ (i : Instruction) (x : Inst) (op : Runtime → Runtime),
      p[pc]? = some i → i.isSimple →
      referenceStep p junk ⟨pc, r0⟩ = RefStep.next ⟨pc + 1, op r0⟩ →
      execInst junk ⟨b, j, prev, r0⟩ x = Step.next ⟨b, j + 1, prev, op r0⟩ →
      fetch blocks b j = some x → CodeFrom blocks (p.drop (pc + 1)) b (j + 1) stack →
      ∃ rc1 c1 kr kc, 0 < kr ∧ 0 < kc ∧ RefRunsTo p junk kr ⟨pc, r0⟩ rc1
        ∧ RunsTo blocks junk kc ⟨b, j, prev, r0⟩ c1 ∧ Related blocks p rc1 c1 := by
    intro i x op hget hi href hexec hf hc
    refine ⟨⟨pc + 1, op r0⟩, ⟨b, j + 1, prev, op r0⟩, 1, 1, by omega, by omega,
      RefRunsTo.instr href, RunsTo.single hf hexec, rfl, ?_, stack, hc, ?_⟩
    · have := (List.getElem?_eq_some.mp hget).1
      simp only; omega
    · exact henc.lift (BackSkip.simple p pc i hget hi)
  cases hget : p[pc]? with
  | none =>
    right
    rw [List.drop_eq_nil_of_le (List.getElem?_eq_none_iff.mp hget)] at hcode
    obtain ⟨_, h1, h2, h3⟩ := hcode.nil_inv
    refine ⟨Outcome.exit 0 r0, 1, 2, by omega, by omega,
      RefRunsOut.halt (by simp only [referenceStep, hget]), ?_⟩
    have s1 : RunsTo blocks junk 1 ⟨b, j, prev, r0⟩ ⟨returnBlock, 0, b, r0⟩ :=
      RunsTo.single h1 rfl
    have s2 : RunsOut blocks junk 1 ⟨returnBlock, 0, b, r0⟩ (Outcome.exit 0 r0) :=
      RunsOut.last h2 (by simp only [execInst, if_true])
    exact s1.out s2
  | some i =>
    have hlt : pc < p.length := (List.getElem?_eq_some.mp hget).1
    rw [drop_eq_cons_of_getElem? _ _ _ hget] at hcode
    cases i with
    | moveRight =>
      obtain ⟨h1, h2⟩ := hcode.moveRight_inv
      exact Or.inl (simple _ Inst.callMoveRight (moveRight junk) hget (by decide)
        (by simp only [referenceStep, hget]) rfl h1 h2)
    | output =>
      obtain ⟨h1, h2⟩ := hcode.output_inv
      exact Or.inl (simple _ Inst.callPutchar putchar hget (by decide)
        (by simp only [referenceStep, hget]) rfl h1 h2)
    | input =>
      obtain ⟨h1, h2⟩ := hcode.input_inv
      exact Or.inl (simple _ Inst.callInput input hget (by decide)
        (by simp only [referenceStep, hget]) rfl h1 h2)
    | moveLeft =>
      obtain ⟨next, h1, h2, h3⟩ := hcode.moveLeft_inv
      by_cases hz : r0.currentCell = 0
      · right
        obtain ⟨e1, e2, last, e3, e4⟩ := herr
        refine ⟨Outcome.exit 1 (fputsError r0), 1, 1 + (1 + (1 + 1)), by omega, by omega,
          RefRunsOut.halt (by simp only [referenceStep, hget, if_pos hz]), ?_⟩
        have s1 : RunsTo blocks junk 1 ⟨b, j, prev, r0⟩ ⟨errorBlock, 0, b, r0⟩ :=
          RunsTo.single h1 (by simp only [execInst, if_pos hz]; rfl)
        have s2 : RunsTo blocks junk 1 ⟨errorBlock, 0, b, r0⟩
            ⟨errorBlock, 1, b, fputsError r0⟩ := RunsTo.single e1 rfl
        have s3 : RunsTo blocks junk 1 ⟨errorBlock, 1, b, fputsError r0⟩
            ⟨returnBlock, 0, errorBlock, fputsError r0⟩ := RunsTo.single e2 rfl
        have s4 : RunsOut blocks junk 1 ⟨returnBlock, 0, errorBlock, fputsError r0⟩
            (Outcome.exit 1 (fputsError r0)) :=
          RunsOut.last e4 (by simp only [execInst, if_neg (Ne.symm e3), if_true])
        exact s1.out (s2.out (s3.out s4))
      · left
        refine ⟨⟨pc + 1, decrementCurrentCell r0⟩, ⟨next, 1, b, decrementCurrentCell r0⟩,
          1, 1 + 1, by omega, by omega,
          RefRunsTo.instr (by simp only [referenceStep, hget, if_neg hz]), ?_, rfl,
          by simp only; omega, stack, h3,
          henc.lift (BackSkip.simple p pc _ hget (by decide))⟩
        have s1 : RunsTo blocks junk 1 ⟨b, j, prev, r0⟩ ⟨next, 0, b, r0⟩ :=
          RunsTo.single h1 (by simp only [execInst, if_neg hz]; rfl)
        have s2 : RunsTo blocks junk 1 ⟨next, 0, b, r0⟩
            ⟨next, 1, b, decrementCurrentCell r0⟩ := RunsTo.single h2 rfl
        exact s1.seq s2
    | increment =>
      left
      obtain ⟨n, ahead, hl, h1, h2⟩ := hcode.increment_inv
      obtain ⟨hk, hd⟩ := getElem?_of_drop_run p pc n Instruction.increment ahead
        (by rw [drop_eq_cons_of_getElem? _ _ _ hget, hl])
      refine ⟨⟨pc + (n + 1), (addCellValue 1)^[n + 1] r0⟩,
        ⟨b, j + 1, prev, addCellValue ((n + 1) % 256) r0⟩, n + 1, 1, by omega, by omega,
        referenceRun_increments p junk (n + 1) pc r0 hk, RunsTo.single h1 rfl,
        (addCellValue_merged r0 n).symm, ?_, stack, by rw [hd]; exact h2, ?_⟩
      · have := (List.getElem?_eq_some.mp (hk n (by omega))).1
        simp only; omega
      · exact henc.lift (BackSkip.simples p pc (n + 1) (fun k hk1 hk2 =>
          ⟨Instruction.increment,
            by rw [← Nat.add_sub_cancel' hk1]; exact hk (k - pc) (by omega), by decide⟩))
    | decrement =>
      left
      obtain ⟨n, ahead, hl, h1, h2⟩ := hcode.decrement_inv
      obtain ⟨hk, hd⟩ := getElem?_of_drop_run p pc n Instruction.decrement ahead
        (by rw [drop_eq_cons_of_getElem? _ _ _ hget, hl])
      refine ⟨⟨pc + (n + 1), (subCellValue 1)^[n + 1] r0⟩,
        ⟨b, j + 1, prev, subCellValue ((n + 1) % 256) r0⟩, n + 1, 1, by omega, by omega,
        referenceRun_decrements p junk (n + 1) pc r0 hk, RunsTo.single h1 rfl,
        (subCellValue_merged r0 n).symm, ?_, stack, by rw [hd]; exact h2, ?_⟩
      · have := (List.getElem?_eq_some.mp (hk n (by omega))).1
        simp only; omega
      · exact henc.lift (BackSkip.simples p pc (n + 1) (fun k hk1 hk2 =>
          ⟨Instruction.decrement,
            by rw [← Nat.add_sub_cancel' hk1]; exact hk (k - pc) (by omega), by decide⟩))
    | startLoop =>
      left
      obtain ⟨loop, body, merge, h1, h2, h3⟩ := hcode.startLoop_inv
      have s1 : RunsTo blocks junk 1 ⟨b, j, prev, r0⟩ ⟨loop, 0, b, r0⟩ := RunsTo.single h1 rfl
      by_cases hz : loadCell r0 = 0
      · obtain ⟨d, hd1, hd2⟩ := h3.skip [] _ stack rfl
        rw [List.length_nil] at hd1
        rw [List.drop_drop] at hd2
        have hdlt := findLoopEnd_lt_length _ _ _ hd1
        rw [List.length_drop] at hdlt
        refine ⟨⟨pc + 1 + d + 1, r0⟩, ⟨merge, 0, loop, r0⟩, 1, 1 + 1, by omega, by omega,
          RefRunsTo.instr (by simp only [referenceStep, hget, if_pos hz, hd1]), ?_, rfl,
          by simp only; omega, stack,
          by rw [show pc + 1 + d + 1 = pc + 1 + (d + 1) by omega]; exact hd2,
          henc.lift (BackSkip.loop p pc d hget hd1)⟩
        exact s1.seq (RunsTo.single h2 (by simp only [execInst, hz]; rfl))
      · refine ⟨⟨pc + 1, r0⟩, ⟨body, 0, loop, r0⟩, 1, 1 + 1, by omega, by omega,
          RefRunsTo.instr (by simp only [referenceStep, hget, if_neg hz]), ?_, rfl,
          by simp only; omega, _, h3, ?_⟩
        · exact s1.seq (RunsTo.single h2 (by simp only [execInst, ne_eq, hz]; rfl))
        · refine Enclosing.cons (pc + 1) pc body _ stack (by omega) hget ?_ h2 h3 henc
          rw [reverse_take_succ p pc _ hget]
          simp [findLoopStart]
    | endLoop =>
      left
      obtain ⟨f, rest, hs, h1, h2⟩ := hcode.endLoop_inv
      subst hs
      have s1 : RunsTo blocks junk 1 ⟨b, j, prev, r0⟩ ⟨f.loopBlock, 0, b, r0⟩ :=
        RunsTo.single h1 rfl
      cases henc with
      | cons _ i body _ _ hilt hstart hback htest hbody outer =>
        by_cases hz : loadCell r0 = 0
        · refine ⟨⟨pc + 1, r0⟩, ⟨f.mergeBlock, 0, f.loopBlock, r0⟩, 1, 1 + 1, by omega,
            by omega,
            RefRunsTo.instr (by simp only [referenceStep, hget, ne_eq, hz, not_true_eq_false,
              if_false]), ?_, rfl, by simp only; omega, rest, h2,
            outer.lift (BackSkip.exit p pc i hilt hpc hget hback)⟩
          exact s1.seq (RunsTo.single htest (by simp only [execInst, hz]; rfl))
        · refine ⟨⟨i + 1, r0⟩, ⟨body, 0, f.loopBlock, r0⟩, 1, 1 + 1, by omega, by omega,
            RefRunsTo.instr ?_, ?_, rfl, by simp only; omega, _, hbody, ?_⟩
          · simp only [referenceStep, hget, ne_eq, hz, not_false_eq_true, if_true, hback]
            congr 2
            omega
          · exact s1.seq (RunsTo.single htest (by simp only [execInst, ne_eq, hz]; rfl))
          · refine Enclosing.cons (i + 1) i body _ rest (by omega) hstart ?_ htest hbody outer
            rw [reverse_take_succ p i _ hstart]
            simp [findLoopStart]

/-- Whatever the reference interpreter ends with, the emitted program ends with too. -/
theorem reference_to_emitted (blocks : List BasicBlock) (p : List Instruction)
    (junk : Nat → Nat) (herr : ErrorPath blocks) (n : Nat) :
    ∀ (rc : RefConfig) (c : Config), Related blocks p rc c → ∀ o,
      referenceRun p junk n rc = some o → ∃ m, run blocks junk m c = some o := by
  induction n using Nat.strong_induction_on with
  | _ n ih =>
    intro rc c hrel o ho
    rcases simulation_step blocks p junk herr rc c hrel with
      ⟨rc1, c1, kr, kc, hkr, hkc, h1, h2, h3⟩ | ⟨o1, kr, kc, hkr, hkc, h1, h2⟩
    · by_cases hn : n < kr
      · have := referenceRun_mono p junk n rc o (kr + 0) ho (by omega)
        rw [h1 0] at this
        simp [referenceRun] at this
      · obtain ⟨f, rfl⟩ : ∃ f, n = kr + f := ⟨n - kr, by omega⟩
        rw [h1 f] at ho
        obtain ⟨m, hm⟩ := ih f (by omega) rc1 c1 h3 o ho
        exact ⟨kc + m, by rw [h2 m]; exact hm⟩
    · have e1 := referenceRun_mono p junk n rc o (max n kr + 0) ho (by simp)
      have e2 := h1 (max n kr - kr)
      rw [show kr + (max n kr - kr) = max n kr + 0 by
        have := Nat.le_max_right n kr; omega, e1] at e2
      simp only [Option.some.injEq] at e2
      subst e2
      exact ⟨kc + 0, h2 0⟩

/-- Whatever the emitted program ends with, the reference interpreter ends with too. -/
theorem emitted_to_reference (blocks : List BasicBlock) (p : List Instruction)
    (junk : Nat → Nat) (herr : ErrorPath blocks) (n : Nat) :
    ∀ (rc : RefConfig) (c : Config), Related blocks p rc c → ∀ o,
      run blocks junk n c = some o → ∃ m, referenceRun p junk m rc = some o := by
  induction n using Nat.strong_induction_on with
  | _ n ih =>
    intro rc c hrel o ho
    rcases simulation_step blocks p junk herr rc c hrel with
      ⟨rc1, c1, kr, kc, hkr, hkc, h1, h2, h3⟩ | ⟨o1, kr, kc, hkr, hkc, h1, h2⟩
    · by_cases hn : n < kc
      · have := run_mono blocks junk n c o (kc + 0) ho (by omega)
        rw [h2 0] at this
        simp [run] at this
      · obtain ⟨f, rfl⟩ : ∃ f, n = kc + f := ⟨n - kc, by omega⟩
        rw [h2 f] at ho
        obtain ⟨m, hm⟩ := ih f (by omega) rc1 c1 h3 o ho
        exact ⟨kr + m, by rw [h1 m]; exact hm⟩
    · have e1 := run_mono blocks junk n c o (max n kc + 0) ho (by simp)
      have e2 := h2 (max n kc - kc)
      rw [show kc + (max n kc - kc) = max n kc + 0 by
        have := Nat.le_max_right n kc; omega, e1] at e2
      simp only [Option.some.injEq] at e2
      subst e2
      exact ⟨kr + 0, h1 0⟩

theorem compileMain_of_generateIRTop (p : List Instruction) (s : IRState)
    (h : generateIRTop p = some { error := none, state := s }) :
    compileMain p = some (Except.ok (finishMain s)) := by
  simp only [compileMain, h]

/-- C1: a well-formed program compiles, and for every content of fresh memory and every
input stream the emitted control flow, run from the start of `entry` on the initial runtime
state, ends exactly when the reference interpreter does, and then with the same outcome:
the same exit status and the same runtime state (tape, pointer, output, error stream and
input cursor). -/
theorem compiled_refines_reference (p : List Instruction) (h : WellFormed p) :
    ∃ m, compileMain p = some (Except.ok m)
      ∧ ∀ (junk : Nat → Nat) (stdin : List (List Nat)) (o : Outcome),
        (∃ n, referenceRun p junk n ⟨0, initialRuntime junk stdin⟩ = some o)
          ↔ (∃ n, run m.blocks junk n (startConfig junk stdin) = some o) := by
  obtain ⟨s, hs⟩ := wellFormed_emission_succeeds p h
  have hc := compileMain_of_generateIRTop p s hs
  obtain ⟨hcode, herr⟩ := compileMain_code p _ hc
  refine ⟨_, hc, fun junk stdin o => ?_⟩
  have hrel : Related (finishMain s).blocks p ⟨0, initialRuntime junk stdin⟩
      (startConfig junk stdin) :=
    ⟨rfl, Nat.zero_le _, [], hcode, Enclosing.nil _⟩
  constructor
  · rintro ⟨n, hn⟩
    exact reference_to_emitted _ p junk herr n _ _ hrel o hn
  · rintro ⟨n, hn⟩
    exact emitted_to_reference _ p junk herr n _ _ hrel o hn

/-- C1 at the program `+[-]`, and its run on a zero cell: the emitted program ends after
exactly 8 steps (add, branch, test, subtract, branch back, test, branch to `return`,
return), that is after one round of the loop body, with status 0 and cell 0 again holding
0. -/
theorem compiled_refines_reference_witness :
    WellFormed [Instruction.increment, Instruction.startLoop, Instruction.decrement,
      Instruction.endLoop]
    ∧ (∃ m, compileMain [Instruction.increment, Instruction.startLoop,
          Instruction.decrement, Instruction.endLoop] = some (Except.ok m)
        ∧ ∀ (junk : Nat → Nat) (stdin : List (List Nat)) (o : Outcome),
          (∃ n, referenceRun [Instruction.increment, Instruction.startLoop,
              Instruction.decrement, Instruction.endLoop] junk n
              ⟨0, initialRuntime junk stdin⟩ = some o)
            ↔ (∃ n, run m.blocks junk n (startConfig junk stdin) = some o))
    ∧ (∃ m, compileMain [Instruction.increment, Instruction.startLoop,
          Instruction.decrement, Instruction.endLoop] = some (Except.ok m)
        ∧ run m.blocks (fun _ => 0) 8 (startConfig (fun _ => 0) [])
          = some (Outcome.exit 0 (initialRuntime (fun _ => 0) []))
        ∧ run m.blocks (fun _ => 0) 7 (startConfig (fun _ => 0) []) = none
        ∧ referenceRun [Instruction.increment, Instruction.startLoop,
            Instruction.decrement, Instruction.endLoop] (fun _ => 0) 5
            ⟨0, initialRuntime (fun _ => 0) []⟩
          = some (Outcome.exit 0 (initialRuntime (fun _ => 0) []))) :=
  ⟨by decide, compiled_refines_reference _ (by decide),
    ⟨_, rfl, by decide, by decide, by decide⟩⟩

/-! ## The guard of a move to the left -/

theorem fetch_cases_of_instsAt (old new : List BasicBlock) (b j : Nat) (y : Inst)
    (extra : List Inst) (h : instsAt new b = instsAt old b ++ extra)
    (hf : fetch new b j = some y) : fetch old b j = some y ∨ y ∈ extra := by
  rw [fetch_eq_instsAt] at hf ⊢
  rw [h] at hf
  by_cases hj : j < (instsAt old b).length
  · left
    rwa [List.getElem?_append_left hj] at hf
  · right
    rw [List.getElem?_append_right (by omega)] at hf
    exact List.getElem?_mem hf

/-- Blocks that extend blocks with good guards by instructions that are no guards, or are
good guards, have good guards. -/
theorem guardsOK_step (old new : List BasicBlock) (hold : GuardsOK old)
    (hext : Extends old new)
    (hnew : ∀ b j y, fetch new b j = some y → fetch old b j = some y
      ∨ ∀ z o, y = Inst.condBrReturnWithError z o →
        z = errorBlock ∧ fetch new o 0 = some Inst.decrementCurrentCell) :
    GuardsOK new := by
  intro b j z o hf
  rcases hnew b j _ hf with h | h
  · obtain ⟨h1, h2⟩ := hold b j z o h
    exact ⟨h1, hext _ _ _ h2⟩
  · exact h z o rfl

theorem guardsOK_emit (s : IRState) (x : Inst) (cursor : Nat)
    (hip : s.insertPoint < s.blocks.length) (hg : GuardsOK s.blocks)
    (hx : ∀ z o, x ≠ Inst.condBrReturnWithError z o) :
    GuardsOK ({ s with currentInstruction := cursor }.emit x).advance.blocks := by
  have hi : ∀ b, instsAt ({ s with currentInstruction := cursor }.emit x).advance.blocks b
      = if b = s.insertPoint then instsAt s.blocks b ++ [x] else instsAt s.blocks b :=
    (emit_spec { s with currentInstruction := cursor } x hip).2.2.2
  have hex : ∀ b, ∃ extra,
      instsAt ({ s with currentInstruction := cursor }.emit x).advance.blocks b
        = instsAt s.blocks b ++ extra ∧ ∀ y ∈ extra, y = x := by
    intro b
    rw [hi]
    split
    · exact ⟨[x], rfl, fun y hy => by simpa using hy⟩
    · exact ⟨[], by simp, fun y hy => by simp at hy⟩
  refine guardsOK_step _ _ hg (extends_of_instsAt _ _ (fun b => ?_)) (fun b j y hf => ?_)
  · obtain ⟨extra, h1, _⟩ := hex b
    exact ⟨extra, h1⟩
  · obtain ⟨extra, h1, h2⟩ := hex b
    rcases fetch_cases_of_instsAt _ _ b j y extra h1 hf with h | h
    · exact Or.inl h
    · right
      intro z o hy
      exact absurd ((h2 y h).symm.trans hy) (hx z o)

theorem simpleRound_guards (instructions : List Instruction) (s : IRState)
    (stack : List LoopFrame) (i : Instruction) (hi : i.isSimple)
    (hfit : StackFits s stack) (hg : GuardsOK s.blocks) :
    GuardsOK (simpleRound instructions errorBlock i s).blocks := by
  obtain ⟨h1, h2⟩ := hi
  cases i
  case startLoop => exact absurd rfl h1
  case endLoop => exact absurd rfl h2
  case moveRight =>
    exact guardsOK_emit s _ s.currentInstruction hfit.1 hg (fun _ _ h => by cases h)
  case output =>
    exact guardsOK_emit s _ s.currentInstruction hfit.1 hg (fun _ _ h => by cases h)
  case input =>
    exact guardsOK_emit s _ s.currentInstruction hfit.1 hg (fun _ _ h => by cases h)
  case increment => exact guardsOK_emit s _ _ hfit.1 hg (fun _ _ h => by cases h)
  case decrement => exact guardsOK_emit s _ _ hfit.1 hg (fun _ _ h => by cases h)
  case moveLeft =>
    obtain ⟨hip, _, _⟩ := hfit
    have hne : s.blocks.length ≠ s.insertPoint := by omega
    have hi := (emitMoveLeft_spec errorBlock s hip).2.2.2
    obtain ⟨_, e2, _, _, _, _, e7⟩ := moveLeft_round s stack ⟨hip, ‹_›, ‹_›⟩
    have hex : ∀ b, ∃ extra, instsAt (emitMoveLeft errorBlock s).blocks b
        = instsAt s.blocks b ++ extra
        ∧ ∀ y ∈ extra, y = Inst.condBrReturnWithError errorBlock s.blocks.length
          ∨ y = Inst.decrementCurrentCell := by
      intro b
      rw [hi]
      split
      · exact ⟨_, rfl, fun y hy => Or.inl (by simpa using hy)⟩
      · split
        · rename_i hb
          exact ⟨[Inst.decrementCurrentCell],
            by rw [hb, instsAt_of_length_le _ _ (le_refl _)]; rfl,
            fun y hy => Or.inr (by simpa using hy)⟩
        · exact ⟨[], by simp, fun y hy => by simp at hy⟩
    refine guardsOK_step _ _ hg e2 (fun b j y hf => ?_)
    obtain ⟨extra, h3, h4⟩ := hex b
    rcases fetch_cases_of_instsAt _ _ b j y extra h3 hf with h | h
    · exact Or.inl h
    · right
      intro z o hy
      rcases h4 y h with h5 | h5
      · rw [h5] at hy
        simp only [Inst.condBrReturnWithError.injEq] at hy
        obtain ⟨rfl, rfl⟩ := hy
        exact ⟨rfl, e7⟩
      · rw [h5] at hy; cases hy

theorem openLoop_guards (s : IRState) (hip : s.insertPoint < s.blocks.length)
    (hg : GuardsOK s.blocks) : GuardsOK (openLoop s).2.advance.blocks := by
  have hi := (openLoop_spec s hip).2.2.2
  have hex : ∀ b, ∃ extra, instsAt (openLoop s).2.blocks b = instsAt s.blocks b ++ extra
      ∧ ∀ y ∈ extra, y = Inst.br s.blocks.length
        ∨ y = Inst.condBrContinueLoop (s.blocks.length + 1) (s.blocks.length + 2) := by
    intro b
    rw [hi]
    split
    · exact ⟨_, rfl, fun y hy => Or.inl (by simpa using hy)⟩
    · split
      · rename_i hb
        exact ⟨_, by rw [hb, instsAt_of_length_le _ _ (le_refl _)]; rfl,
          fun y hy => Or.inr (by simpa using hy)⟩
      · exact ⟨[], by simp, fun y hy => by simp at hy⟩
  refine guardsOK_step _ _ hg (extends_of_instsAt _ _ (fun b => ?_)) (fun b j y hf => ?_)
  · obtain ⟨extra, h1, _⟩ := hex b
    exact ⟨extra, h1⟩
  · obtain ⟨extra, h3, h4⟩ := hex b
    rcases fetch_cases_of_instsAt _ _ b j y extra h3 hf with h | h
    · exact Or.inl h
    · right
      intro z o hy
      rcases h4 y h with h5 | h5 <;> (rw [h5] at hy; cases hy)

theorem closeLoop_guards (f : LoopFrame) (s : IRState)
    (hip : s.insertPoint < s.blocks.length) (hg : GuardsOK s.blocks) :
    GuardsOK (closeLoop f s).advance.blocks := by
  have hi := (closeLoop_spec f s hip).2.2
  have hex : ∀ b, ∃ extra, instsAt (closeLoop f s).blocks b = instsAt s.blocks b ++ extra
      ∧ ∀ y ∈ extra, y = Inst.br f.loopBlock := by
    intro b
    rw [hi]
    split
    · exact ⟨_, rfl, fun y hy => by simpa using hy⟩
    · exact ⟨[], by simp, fun y hy => by simp at hy⟩
  refine guardsOK_step _ _ hg (extends_of_instsAt _ _ (fun b => ?_)) (fun b j y hf => ?_)
  · obtain ⟨extra, h1, _⟩ := hex b
    exact ⟨extra, h1⟩
  · obtain ⟨extra, h3, h4⟩ := hex b
    rcases fetch_cases_of_instsAt _ _ b j y extra h3 hf with h | h
    · exact Or.inl h
    · right
      intro z o hy
      rw [h4 y h] at hy; cases hy

theorem stackEmits_guards (instructions : List Instruction) (stack : List LoopFrame)
    (s t : IRState) (h : StackEmits instructions errorBlock stack s t)
    (hfit : StackFits s stack) (hg : GuardsOK s.blocks) : GuardsOK t.blocks := by
  induction h with
  | done s _ => exact hg
  | simple stack s t i hget hi _ ih =>
    exact ih (simpleRound_code instructions s stack i hget hi hfit).1
      (simpleRound_guards instructions s stack i hi hfit hg)
  | startLoop stack s t hget _ ih =>
    exact ih (openLoop_code instructions s stack hget hfit).1 (openLoop_guards s hfit.1 hg)
  | endLoop f stack s t hget _ ih =>
    exact ih (closeLoop_code instructions f s stack hget hfit).1
      (closeLoop_guards f s hfit.1 hg)

/-- Every pointer guard of a compiled program is a good one. -/
theorem compileMain_guards (p : List Instruction) (m : IRState)
    (h : compileMain p = some (Except.ok m)) : GuardsOK m.blocks := by
  unfold compileMain at h
  cases hg : generateIRTop p with
  | none => simp [hg] at h
  | some emitted =>
    simp only [hg] at h
    cases he : emitted.error with
    | some e => simp [he] at h
    | none =>
      simp only [he, Option.some.injEq, Except.ok.injEq] at h
      subst h
      have hemit : generateIRTop p = some { error := none, state := emitted.state } := by
        rw [hg, ← he]
      have hstack := generateIRTop_stackEmits p _ hemit
      have hfit := stackEmits_fits p [] _ _ hstack _ mainStart_fits
      have hspec := finishMain_spec _ hfit
      have hfit0 : StackFits mainStart [] :=
        ⟨mainStart_fits.1, fun f hf => absurd hf (List.not_mem_nil f), List.nodup_nil⟩
      have hg0 : GuardsOK mainStart.blocks := by
        intro b j z o hf
        rw [fetch_eq_instsAt] at hf
        have : instsAt mainStart.blocks b = [] := by
          unfold instsAt mainStart
          rcases b with _ | _ | _ | b <;> simp
        rw [this] at hf
        simp at hf
      have hgt := stackEmits_guards p [] _ _ hstack hfit0 hg0
      obtain ⟨hip, hmerge, _⟩ := hfit
      obtain ⟨he1, he2, he3⟩ := hmerge _ (List.mem_cons_self _ _)
      obtain ⟨hr1, hr2, hr3⟩ := hmerge _ (List.mem_cons_of_mem _ (List.mem_cons_self _ _))
      simp only at he1 he2 he3 hr1 hr2 hr3
      have hex : ∀ b, ∃ extra, instsAt (finishMain emitted.state).blocks b
          = instsAt emitted.state.blocks b ++ extra
          ∧ ∀ y ∈ extra, ∀ z o, y ≠ Inst.condBrReturnWithError z o := by
        intro b
        rw [hspec]
        split
        · exact ⟨_, rfl, fun y hy z o h => by
            rw [List.mem_singleton] at hy; rw [hy] at h; cases h⟩
        · split
          · rename_i h2
            refine ⟨_, by rw [h2, he2]; rfl, fun y hy z o h => ?_⟩
            simp only [List.mem_cons, List.mem_singleton, List.not_mem_nil, or_false] at hy
            rcases hy with hy | hy <;> (rw [hy] at h; cases h)
          · split
            · rename_i h3
              refine ⟨_, by rw [h3, hr2]; rfl, fun y hy z o h => ?_⟩
              rw [List.mem_singleton] at hy; rw [hy] at h; cases h
            · exact ⟨[], by simp, fun y hy => by simp at hy⟩
      refine guardsOK_step _ _ hgt (extends_of_instsAt _ _ (fun b => ?_)) (fun b j y hf => ?_)
      · obtain ⟨extra, h1, _⟩ := hex b
        exact ⟨extra, h1⟩
      · obtain ⟨extra, h3, h4⟩ := hex b
        rcases fetch_cases_of_instsAt _ _ b j y extra h3 hf with h | h
        · exact Or.inl h
        · exact Or.inr (fun z o hy => absurd hy (h4 y h z o))

/-- C10: in a compiled program, every move to the left is emitted as a pointer guard
followed by the decrement, and at every pointer guard of the program: when the pointer is 0,
control goes to the block `error` and the program ends there with status 1, the runtime
state being the one at the guard plus the diagnostic on the error stream (pointer, tape and
output are as they were, no further program instruction has run); when the pointer is
`p > 0`, the next step is the decrement, which leaves the pointer at `p - 1`, and execution
goes on after it. The pointer is a 64-bit value. -/
theorem moveLeft_guarded (p : List Instruction) (m : IRState)
    (h : compileMain p = some (Except.ok m)) :
    (∀ (s : IRState) (fuel loopStart : Nat) (frame : Option LoopFrame),
      p[s.currentInstruction]? = some Instruction.moveLeft →
      s.insertPoint < s.blocks.length →
      generateIRLoop p errorBlock (fuel + 1) loopStart frame s
          = generateIRLoop p errorBlock fuel loopStart frame (emitMoveLeft errorBlock s).advance
        ∧ fetch (emitMoveLeft errorBlock s).blocks s.insertPoint s.here
          = some (Inst.condBrReturnWithError errorBlock s.blocks.length)
        ∧ fetch (emitMoveLeft errorBlock s).blocks s.blocks.length 0
          = some Inst.decrementCurrentCell)
    ∧ ∀ (b j ifZero otherwise : Nat),
      fetch m.blocks b j = some (Inst.condBrReturnWithError ifZero otherwise) →
      ∀ (junk : Nat → Nat) (prev : Nat) (r : Runtime), r.currentCell < wordSize →
        (r.currentCell = 0 →
          RunsTo m.blocks junk 1 ⟨b, j, prev, r⟩ ⟨errorBlock, 0, b, r⟩
          ∧ RunsOut m.blocks junk 4 ⟨b, j, prev, r⟩ (Outcome.exit 1 (fputsError r))
          ∧ (fputsError r).currentCell = r.currentCell
          ∧ (fputsError r).cells = r.cells
          ∧ (fputsError r).stdout = r.stdout
          ∧ (fputsError r).stderr = r.stderr ++ moveLeftErrorString)
        ∧ (r.currentCell ≠ 0 →
          RunsTo m.blocks junk 2 ⟨b, j, prev, r⟩ ⟨otherwise, 1, b, decrementCurrentCell r⟩
          ∧ (decrementCurrentCell r).currentCell = r.currentCell - 1
          ∧ (decrementCurrentCell r).currentCell < r.currentCell) := by
  constructor
  · intro s fuel loopStart frame hget hip
    obtain ⟨_, _, _, _, _, e6, e7⟩ := moveLeft_round s []
      ⟨hip, fun f hf => absurd hf (List.not_mem_nil f), List.nodup_nil⟩
    exact ⟨generateIRLoop_moveLeft _ _ _ _ _ _ hget, e6, e7⟩
  · intro b j ifZero otherwise hf junk prev r hr
    obtain ⟨hz, hdec⟩ := compileMain_guards p m h b j ifZero otherwise hf
    obtain ⟨_, e1, e2, last, e3, e4⟩ := compileMain_code p m h
    subst hz
    constructor
    · intro h0
      have s1 : RunsTo m.blocks junk 1 ⟨b, j, prev, r⟩ ⟨errorBlock, 0, b, r⟩ :=
        RunsTo.single hf (by simp only [execInst, if_pos h0]; rfl)
      have s2 : RunsTo m.blocks junk 1 ⟨errorBlock, 0, b, r⟩
          ⟨errorBlock, 1, b, fputsError r⟩ := RunsTo.single e1 rfl
      have s3 : RunsTo m.blocks junk 1 ⟨errorBlock, 1, b, fputsError r⟩
          ⟨returnBlock, 0, errorBlock, fputsError r⟩ := RunsTo.single e2 rfl
      have s4 : RunsOut m.blocks junk 1 ⟨returnBlock, 0, errorBlock, fputsError r⟩
          (Outcome.exit 1 (fputsError r)) :=
        RunsOut.last e4 (by simp only [execInst, if_neg (Ne.symm e3), if_true])
      exact ⟨s1, s1.out (s2.out (s3.out s4)), rfl, rfl, rfl, rfl⟩
    · intro h0
      have s1 : RunsTo m.blocks junk 1 ⟨b, j, prev, r⟩ ⟨otherwise, 0, b, r⟩ :=
        RunsTo.single hf (by simp only [execInst, if_neg h0]; rfl)
      have s2 : RunsTo m.blocks junk 1 ⟨otherwise, 0, b, r⟩
          ⟨otherwise, 1, b, decrementCurrentCell r⟩ := RunsTo.single hdec rfl
      have hval : (decrementCurrentCell r).currentCell = r.currentCell - 1 := by
        rw [decrementCurrentCell_currentCell]
        rw [wordSize_eq] at hr ⊢
        have h1 : (18446744073709551616 - 1) + r.currentCell
            = (r.currentCell - 1) + 18446744073709551616 := by omega
        rw [h1, Nat.add_mod_right]
        exact Nat.mod_eq_of_lt (by omega)
      exact ⟨s1.seq s2, hval, by rw [hval]; omega⟩

/-- C10 at the program `<`: its first instruction is a pointer guard, and run from the
initial runtime state it ends at once on the error path. -/
theorem moveLeft_guarded_witness :
    ∃ m, compileMain [Instruction.moveLeft] = some (Except.ok m)
      ∧ fetch m.blocks 0 0 = some (Inst.condBrReturnWithError errorBlock 3)
      ∧ run m.blocks (fun _ => 0) 4 (startConfig (fun _ => 0) [])
        = some (Outcome.exit 1 (fputsError (initialRuntime (fun _ => 0) [])))
      ∧ ((initialRuntime (fun _ => 0) []).currentCell = 0 →
          RunsTo m.blocks (fun _ => 0) 1 ⟨0, 0, 0, initialRuntime (fun _ => 0) []⟩
            ⟨errorBlock, 0, 0, initialRuntime (fun _ => 0) []⟩
          ∧ RunsOut m.blocks (fun _ => 0) 4 ⟨0, 0, 0, initialRuntime (fun _ => 0) []⟩
            (Outcome.exit 1 (fputsError (initialRuntime (fun _ => 0) [])))
          ∧ (fputsError (initialRuntime (fun _ => 0) [])).currentCell
            = (initialRuntime (fun _ => 0) []).currentCell
          ∧ (fputsError (initialRuntime (fun _ => 0) [])).cells
            = (initialRuntime (fun _ => 0) []).cells
          ∧ (fputsError (initialRuntime (fun _ => 0) [])).stdout
            = (initialRuntime (fun _ => 0) []).stdout
          ∧ (fputsError (initialRuntime (fun _ => 0) [])).stderr
            = (initialRuntime (fun _ => 0) []).stderr ++ moveLeftErrorString) :=
  ⟨_, rfl, by decide, by decide,
    ((moveLeft_guarded [Instruction.moveLeft] _ rfl).2 0 0 errorBlock 3 (by decide)
      (fun _ => 0) 0 (initialRuntime (fun _ => 0) []) (by decide)).1⟩

/-! ## Where the code of a loop start and of its loop end is -/

/-- The code of the program from any loop start or loop end on starts somewhere in the
blocks. -/
theorem CodeFrom.reach {blocks : List BasicBlock} {l : List Instruction} {b j : Nat}
    {stack : List LoopFrame} (h : CodeFrom blocks l b j stack) :
    ∀ (i : Nat) (x : Instruction), l[i]? = some x → ¬ x.isSimple →
      ∃ b1 j1 stack1, CodeFrom blocks (l.drop i) b1 j1 stack1 := by
  have step : ∀ (y : Instruction) (ahead : List Instruction) (b j : Nat)
      (stack : List LoopFrame), y.isSimple →
      (∀ (i : Nat) (x : Instruction), ahead[i]? = some x → ¬ x.isSimple →
        ∃ b1 j1 stack1, CodeFrom blocks (ahead.drop i) b1 j1 stack1) →
      ∀ (i : Nat) (x : Instruction), (y :: ahead)[i]? = some x → ¬ x.isSimple →
        ∃ b1 j1 stack1, CodeFrom blocks ((y :: ahead).drop i) b1 j1 stack1 := by
    intro y ahead b j stack hy ih i x hx hns
    cases i with
    | zero =>
      simp only [List.getElem?_cons_zero, Option.some.injEq] at hx
      subst hx
      exact absurd hy hns
    | succ i => exact ih i x (by simpa using hx) hns
  have run : ∀ (y : Instruction) (n : Nat) (ahead : List Instruction), y.isSimple →
      (∀ (i : Nat) (x : Instruction), ahead[i]? = some x → ¬ x.isSimple →
        ∃ b1 j1 stack1, CodeFrom blocks (ahead.drop i) b1 j1 stack1) →
      ∀ (i : Nat) (x : Instruction), (y :: (List.replicate n y ++ ahead))[i]? = some x →
        ¬ x.isSimple →
        ∃ b1 j1 stack1, CodeFrom blocks ((y :: (List.replicate n y ++ ahead)).drop i)
          b1 j1 stack1 := by
    intro y n ahead hy ih i x hx hns
    have hl : y :: (List.replicate n y ++ ahead) = List.replicate (n + 1) y ++ ahead := by
      rw [List.replicate_succ, List.cons_append]
    rw [hl] at hx ⊢
    by_cases hi : i < n + 1
    · rw [List.getElem?_append_left (by simpa using hi)] at hx
      simp only [List.getElem?_replicate, hi, if_true, Option.some.injEq] at hx
      subst hx
      exact absurd hy hns
    · rw [List.getElem?_append_right (by simpa using hi), List.length_replicate] at hx
      obtain ⟨b1, j1, stack1, h1⟩ := ih (i - (n + 1)) x hx hns
      refine ⟨b1, j1, stack1, ?_⟩
      rw [show i = (n + 1) + (i - (n + 1)) by omega, ← List.drop_drop,
        List.drop_left' (List.length_replicate _ _)]
      exact h1
  induction h with
  | done _ _ _ _ _ => intro i x hx; simp at hx
  | moveRight ahead b j stack _ _ ih => exact step _ ahead b j stack (by decide) ih
  | output ahead b j stack _ _ ih => exact step _ ahead b j stack (by decide) ih
  | input ahead b j stack _ _ ih => exact step _ ahead b j stack (by decide) ih
  | moveLeft ahead b j next stack _ _ _ ih => exact step _ ahead b j stack (by decide) ih
  | increment n ahead b j stack _ _ _ ih => exact run _ n ahead (by decide) ih
  | decrement n ahead b j stack _ _ _ ih => exact run _ n ahead (by decide) ih
  | startLoop ahead b j loop body merge stack h1 h2 h3 ih =>
    intro i x hx hns
    cases i with
    | zero => exact ⟨b, j, stack, CodeFrom.startLoop ahead b j loop body merge stack h1 h2 h3⟩
    | succ i => exact ih i x (by simpa using hx) hns
  | endLoop ahead b j f stack h1 h2 ih =>
    intro i x hx hns
    cases i with
    | zero => exact ⟨b, j, f :: stack, CodeFrom.endLoop ahead b j f stack h1 h2⟩
    | succ i => exact ih i x (by simpa using hx) hns

/-- Inside `fs.length` further loops of a loop with frame `f`, the code leads to the code of
the loop end that closes `f`. -/
theorem CodeFrom.toLoopEnd {blocks : List BasicBlock} {l : List Instruction} {b j : Nat}
    {stack : List LoopFrame} (h : CodeFrom blocks l b j stack) :
    ∀ (fs : List LoopFrame) (f : LoopFrame) (rest : List LoopFrame),
      stack = fs ++ f :: rest →
      ∃ d b1 j1, findLoopEnd l fs.length = some d
        ∧ CodeFrom blocks (l.drop d) b1 j1 (f :: rest) := by
  induction h with
  | done _ _ _ _ _ => intro fs f rest hs; simp at hs
  | moveRight ahead b j stack _ _ ih =>
    intro fs f rest hs
    obtain ⟨d, b1, j1, h1, h2⟩ := ih fs f rest hs
    exact ⟨d + 1, b1, j1, by rw [findLoopEnd_cons_simple _ _ _ (by decide), h1]; rfl, h2⟩
  | output ahead b j stack _ _ ih =>
    intro fs f rest hs
    obtain ⟨d, b1, j1, h1, h2⟩ := ih fs f rest hs
    exact ⟨d + 1, b1, j1, by rw [findLoopEnd_cons_simple _ _ _ (by decide), h1]; rfl, h2⟩
  | input ahead b j stack _ _ ih =>
    intro fs f rest hs
    obtain ⟨d, b1, j1, h1, h2⟩ := ih fs f rest hs
    exact ⟨d + 1, b1, j1, by rw [findLoopEnd_cons_simple _ _ _ (by decide), h1]; rfl, h2⟩
  | moveLeft ahead b j next stack _ _ _ ih =>
    intro fs f rest hs
    obtain ⟨d, b1, j1, h1, h2⟩ := ih fs f rest hs
    exact ⟨d + 1, b1, j1, by rw [findLoopEnd_cons_simple _ _ _ (by decide), h1]; rfl, h2⟩
  | increment n ahead b j stack _ _ _ ih =>
    intro fs f rest hs
    obtain ⟨d, b1, j1, h1, h2⟩ := ih fs f rest hs
    refine ⟨d + n + 1, b1, j1, ?_, ?_⟩
    · rw [findLoopEnd_cons_simple _ _ _ (by decide),
        findLoopEnd_replicate _ (by decide), h1]
      rfl
    · rw [List.drop_succ_cons, show d + n = n + d by omega, ← List.drop_drop,
        List.drop_left' (List.length_replicate n _)]
      exact h2
  | decrement n ahead b j stack _ _ _ ih =>
    intro fs f rest hs
    obtain ⟨d, b1, j1, h1, h2⟩ := ih fs f rest hs
    refine ⟨d + n + 1, b1, j1, ?_, ?_⟩
    · rw [findLoopEnd_cons_simple _ _ _ (by decide),
        findLoopEnd_replicate _ (by decide), h1]
      rfl
    · rw [List.drop_succ_cons, show d + n = n + d by omega, ← List.drop_drop,
        List.drop_left' (List.length_replicate n _)]
      exact h2
  | startLoop ahead b j loop body merge stack _ _ _ ih =>
    intro fs f rest hs
    obtain ⟨d, b1, j1, h1, h2⟩ := ih ({ loopBlock := loop, mergeBlock := merge } :: fs) f rest
      (by rw [hs]; rfl)
    exact ⟨d + 1, b1, j1,
      by simp only [findLoopEnd]; rw [List.length_cons] at h1; rw [h1]; rfl, h2⟩
  | endLoop ahead b j g stack hf hrest ih =>
    intro fs f rest hs
    cases fs with
    | nil =>
      simp only [List.nil_append, List.cons.injEq] at hs
      obtain ⟨rfl, rfl⟩ := hs
      exact ⟨0, b, j, rfl, CodeFrom.endLoop ahead b j g stack hf hrest⟩
    | cons g1 fs =>
      simp only [List.cons_append, List.cons.injEq] at hs
      obtain ⟨rfl, hs⟩ := hs
      obtain ⟨d, b1, j1, h1, h2⟩ := ih fs f rest hs
      exact ⟨d + 1, b1, j1, by simp only [findLoopEnd, List.length_cons]; rw [h1]; rfl, h2⟩

/-- In a compiled program, for every loop start and the loop end that matches it: the loop
start is a branch to a block that starts with the entry test, the loop end is a branch back
to that same block, and the code after the loop end starts the block that the entry test
goes to on zero. -/
theorem compileMain_loops (p : List Instruction) (m : IRState)
    (h : compileMain p = some (Except.ok m)) (i d : Nat)
    (hi : p[i]? = some Instruction.startLoop)
    (hd : findLoopEnd (p.drop (i + 1)) 0 = some d) :
    ∃ loop body merge stack b j b1 j1,
      CodeFrom m.blocks (p.drop i) b j stack
      ∧ fetch m.blocks b j = some (Inst.br loop)
      ∧ fetch m.blocks loop 0 = some (Inst.condBrContinueLoop body merge)
      ∧ CodeFrom m.blocks (p.drop (i + 1)) body 0
          ({ loopBlock := loop, mergeBlock := merge } :: stack)
      ∧ CodeFrom m.blocks (p.drop (i + 1 + d)) b1 j1
          ({ loopBlock := loop, mergeBlock := merge } :: stack)
      ∧ fetch m.blocks b1 j1 = some (Inst.br loop)
      ∧ CodeFrom m.blocks (p.drop (i + 1 + d + 1)) merge 0 stack := by
  obtain ⟨hcode, _⟩ := compileMain_code p m h
  obtain ⟨b, j, stack, h1⟩ := hcode.reach i _ hi (by decide)
  have h1c := h1
  rw [drop_eq_cons_of_getElem? _ _ _ hi] at h1c
  obtain ⟨loop, body, merge, e1, e2, e3⟩ := h1c.startLoop_inv
  obtain ⟨d1, b1, j1, f1, f2⟩ := e3.toLoopEnd [] _ stack rfl
  rw [List.length_nil, hd, Option.some.injEq] at f1
  subst f1
  rw [List.drop_drop] at f2
  have hend : p[i + 1 + d]? = some Instruction.endLoop := by
    have := findLoopEnd_getElem _ _ _ hd
    rwa [List.getElem?_drop] at this
  have f2c := f2
  rw [drop_eq_cons_of_getElem? _ _ _ hend] at f2c
  obtain ⟨f, rest, hs, g1, g2⟩ := f2c.endLoop_inv
  simp only [List.cons.injEq] at hs
  obtain ⟨rfl, rfl⟩ := hs
  exact ⟨loop, body, merge, stack, b, j, b1, j1, h1, e1, e2, e3, f2, g1, g2⟩

/-! ## Counting blocks and instructions -/

theorem countP_modify (q : BasicBlock → Bool) (f : BasicBlock → BasicBlock)
    (hf : ∀ x, q (f x) = q x) (l : List BasicBlock) (n : Nat) :
    (l.modify f n).countP q = l.countP q := by
  induction l generalizing n with
  | nil => simp
  | cons a l ih =>
    cases n with
    | zero => simp [List.countP_cons, hf]
    | succ n => simp [List.countP_cons, ih]

theorem countBlocks_emit (name : BlockName) (s : IRState) (x : Inst) :
    countBlocks name (s.emit x).blocks = countBlocks name s.blocks := by
  unfold countBlocks IRState.emit
  exact countP_modify (fun b => decide (b.name = name))
    (fun b => { b with insts := b.insts ++ [x] }) (fun _ => rfl) _ _

theorem countBlocks_createBlock (name new : BlockName) (s : IRState) (attached : Bool) :
    countBlocks name (s.createBlock new attached).2.blocks
      = countBlocks name s.blocks + if new = name then 1 else 0 := by
  unfold countBlocks IRState.createBlock
  simp only [List.countP_append, List.countP_cons, List.countP_nil, Nat.zero_add]
  congr 1
  by_cases h : new = name <;> simp [h]

theorem countInsts_same_length (q : Nat → Inst → Bool) (old new : List BasicBlock)
    (ip : Nat) (x : Inst) (hlen : new.length = old.length) (hip : ip < old.length)
    (hi : ∀ b, instsAt new b = if b = ip then instsAt old b ++ [x] else instsAt old b) :
    countInsts q new = countInsts q old + if q ip x then 1 else 0 := by
  unfold countInsts
  rw [hlen]
  have hg : ∀ b ∈ Finset.range old.length, (instsAt new b).countP (q b)
      = (instsAt old b).countP (q b) + if b = ip then (if q ip x then 1 else 0) else 0 := by
    intro b _
    rw [hi]
    by_cases hb : b = ip
    · subst hb
      simp [List.countP_append, List.countP_cons]
    · simp [hb]
  rw [Finset.sum_congr rfl hg, Finset.sum_add_distrib, Finset.sum_ite_eq']
  simp [hip]

theorem countInsts_new_block (q : Nat → Inst → Bool) (old new : List BasicBlock)
    (ip k : Nat) (x y : Inst) (hlen : new.length = old.length + (k + 1))
    (hip : ip < old.length)
    (hi : ∀ b, instsAt new b = if b = ip then instsAt old b ++ [x]
      else if b = old.length then [y] else instsAt old b) :
    countInsts q new = countInsts q old + (if q ip x then 1 else 0)
      + (if q old.length y then 1 else 0) := by
  unfold countInsts
  rw [hlen]
  have hne : old.length ≠ ip := by omega
  have hg : ∀ b ∈ Finset.range (old.length + (k + 1)), (instsAt new b).countP (q b)
      = (instsAt old b).countP (q b)
        + ((if b = ip then (if q ip x then 1 else 0) else 0)
          + (if b = old.length then (if q old.length y then 1 else 0) else 0)) := by
    intro b _
    rw [hi]
    by_cases hb : b = ip
    · subst hb
      simp [List.countP_append, List.countP_cons, Ne.symm hne]
    · by_cases hb2 : b = old.length
      · subst hb2
        simp [hb, instsAt_of_length_le, List.countP_cons]
      · simp [hb, hb2]
  have hzero : ∑ b ∈ Finset.range (old.length + (k + 1)), (instsAt old b).countP (q b)
      = ∑ b ∈ Finset.range old.length, (instsAt old b).countP (q b) := by
    symm
    apply Finset.sum_subset
    · intro b hb
      simp only [Finset.mem_range] at hb ⊢
      omega
    · intro b _ hb
      simp only [Finset.mem_range, not_lt] at hb
      rw [instsAt_of_length_le _ _ hb]
      rfl
  rw [Finset.sum_congr rfl hg, Finset.sum_add_distrib, Finset.sum_add_distrib,
    Finset.sum_ite_eq', Finset.sum_ite_eq', hzero]
  simp only [Finset.mem_range]
  rw [if_pos (show ip < old.length + (k + 1) by omega),
    if_pos (show old.length < old.length + (k + 1) by omega)]
  omega

theorem count_drop_skip (p : List Instruction) (x : Instruction) (hx : ¬ x.isSimple)
    (k m : Nat) (h : ∀ j, k ≤ j → j < k + m → ∃ y, p[j]? = some y ∧ y.isSimple) :
    (p.drop k).count x = (p.drop (k + m)).count x := by
  induction m generalizing k with
  | zero => simp
  | succ m ih =>
    obtain ⟨y, hy, hs⟩ := h k (le_refl _) (by omega)
    rw [drop_eq_cons_of_getElem? _ _ _ hy, List.count_cons,
      ih (k + 1) (fun j h1 h2 => h j (by omega) (by omega)),
      show k + 1 + m = k + (m + 1) by omega]
    have : y ≠ x := fun e => hx (e ▸ hs)
    simp [this]

theorem countInsts_congr (q1 q2 : Nat → Inst → Bool) (blocks : List BasicBlock)
    (h : ∀ b x, x ∈ instsAt blocks b → q1 b x = q2 b x) :
    countInsts q1 blocks = countInsts q2 blocks := by
  unfold countInsts
  refine Finset.sum_congr rfl (fun b _ => List.countP_congr (fun x hx => ?_))
  rw [h b x hx]

theorem emit_counts (s : IRState) (x : Inst) (cursor : Nat) (stack : List LoopFrame)
    (hfit : StackFits s stack) (h1 : isEntryTest s.insertPoint x = false) :
    countInsts isEntryTest ({ s with currentInstruction := cursor }.emit x).advance.blocks
        = countInsts isEntryTest s.blocks
    ∧ countBlocks BlockName.loop ({ s with currentInstruction := cursor }.emit x).advance.blocks
        = countBlocks BlockName.loop s.blocks
    ∧ countBlocks BlockName.merge ({ s with currentInstruction := cursor }.emit x).advance.blocks
        = countBlocks BlockName.merge s.blocks := by
  obtain ⟨hlen, _, _, hi⟩ := emit_spec { s with currentInstruction := cursor } x hfit.1
  refine ⟨?_, countBlocks_emit _ _ _, countBlocks_emit _ _ _⟩
  have := countInsts_same_length isEntryTest s.blocks _ s.insertPoint x hlen hfit.1 hi
  rw [h1] at this
  simpa using this

theorem simpleRound_counts (instructions : List Instruction) (s : IRState)
    (stack : List LoopFrame) (i : Instruction) (hi : i.isSimple)
    (hfit : StackFits s stack) :
    countInsts isEntryTest (simpleRound instructions errorBlock i s).blocks
        = countInsts isEntryTest s.blocks
    ∧ countBlocks BlockName.loop (simpleRound instructions errorBlock i s).blocks
        = countBlocks BlockName.loop s.blocks
    ∧ countBlocks BlockName.merge (simpleRound instructions errorBlock i s).blocks
        = countBlocks BlockName.merge s.blocks := by
  obtain ⟨h1, h2⟩ := hi
  cases i
  case startLoop => exact absurd rfl h1
  case endLoop => exact absurd rfl h2
  case moveRight => exact emit_counts s _ s.currentInstruction stack hfit rfl
  case output => exact emit_counts s _ s.currentInstruction stack hfit rfl
  case input => exact emit_counts s _ s.currentInstruction stack hfit rfl
  case increment => exact emit_counts s _ _ stack hfit rfl
  case decrement => exact emit_counts s _ _ stack hfit rfl
  case moveLeft =>
    obtain ⟨hlen, hipn, _, hinsts⟩ := emitMoveLeft_spec errorBlock s hfit.1
    have hl : (emitMoveLeft errorBlock s).advance.blocks.length = s.blocks.length + (0 + 1) :=
      hlen
    have hnames : ∀ name, name ≠ BlockName.moveLeft →
        countBlocks name (emitMoveLeft errorBlock s).advance.blocks
          = countBlocks name s.blocks := by
      intro name hn
      show countBlocks name (emitMoveLeft errorBlock s).blocks = _
      unfold emitMoveLeft
      simp only [IRState.setInsertPoint]
      rw [countBlocks_emit]
      show countBlocks name ((s.createBlock BlockName.moveLeft true).2.emit _).blocks = _
      rw [countBlocks_emit, countBlocks_createBlock, if_neg (Ne.symm hn)]
      rfl
    refine ⟨?_, hnames _ (by decide), hnames _ (by decide)⟩
    have := countInsts_new_block isEntryTest s.blocks _ s.insertPoint 0 _ _ hl hfit.1 hinsts
    simpa [isEntryTest] using this

theorem openLoop_counts (s : IRState) (stack : List LoopFrame) (hfit : StackFits s stack) :
    countInsts isEntryTest (openLoop s).2.advance.blocks
        = countInsts isEntryTest s.blocks + 1
    ∧ countBlocks BlockName.loop (openLoop s).2.advance.blocks
        = countBlocks BlockName.loop s.blocks + 1
    ∧ countBlocks BlockName.merge (openLoop s).2.advance.blocks
        = countBlocks BlockName.merge s.blocks + 1 := by
  obtain ⟨hframe, hlen, hipn, hinsts⟩ := openLoop_spec s hfit.1
  have hl : (openLoop s).2.advance.blocks.length = s.blocks.length + (2 + 1) := hlen
  have hip := hfit.1
  have hnames : ∀ name, countBlocks name (openLoop s).2.advance.blocks
      = countBlocks name s.blocks + (if BlockName.loop = name then 1 else 0)
        + (if BlockName.thenBlock = name then 1 else 0)
        + (if BlockName.merge = name then 1 else 0) := by
    intro name
    show countBlocks name (openLoop s).2.blocks = _
    unfold openLoop
    simp only [IRState.setInsertPoint, IRState.pushBack]
    rw [countBlocks_emit]
    show countBlocks name (((((s.createBlock BlockName.loop true).2.createBlock
      BlockName.thenBlock false).2.createBlock BlockName.merge false).2.emit _).blocks) = _
    rw [countBlocks_emit, countBlocks_createBlock, countBlocks_createBlock,
      countBlocks_createBlock]
  refine ⟨?_, ?_, ?_⟩
  · have := countInsts_new_block isEntryTest s.blocks _ s.insertPoint 2 _ _ hl hip hinsts
    simpa [isEntryTest] using this
  · rw [hnames]; simp
  · rw [hnames]; simp

theorem closeLoop_counts (f : LoopFrame) (s : IRState) (stack : List LoopFrame)
    (hfit : StackFits s (f :: stack)) :
    countInsts isEntryTest (closeLoop f s).advance.blocks = countInsts isEntryTest s.blocks
    ∧ countBlocks BlockName.loop (closeLoop f s).advance.blocks
        = countBlocks BlockName.loop s.blocks
    ∧ countBlocks BlockName.merge (closeLoop f s).advance.blocks
        = countBlocks BlockName.merge s.blocks := by
  obtain ⟨hlen, hipn, hinsts⟩ := closeLoop_spec f s hfit.1
  have hnames : ∀ name, countBlocks name (closeLoop f s).advance.blocks
      = countBlocks name s.blocks := fun name => countBlocks_emit name s _
  refine ⟨?_, hnames _, hnames _⟩
  have := countInsts_same_length isEntryTest s.blocks _ s.insertPoint _ hlen hfit.1 hinsts
  simpa [isEntryTest] using this

/-- The rounds add one entry test, one loop block and one merge block for every loop start
still to come. -/
theorem stackEmits_counts (instructions : List Instruction) (stack : List LoopFrame)
    (s t : IRState) (h : StackEmits instructions errorBlock stack s t)
    (below : List LoopFrame) (hfit : StackFits s (stack ++ below)) :
    countInsts isEntryTest t.blocks = countInsts isEntryTest s.blocks
        + (instructions.drop s.currentInstruction).count Instruction.startLoop
    ∧ countBlocks BlockName.loop t.blocks = countBlocks BlockName.loop s.blocks
        + (instructions.drop s.currentInstruction).count Instruction.startLoop
    ∧ countBlocks BlockName.merge t.blocks = countBlocks BlockName.merge s.blocks
        + (instructions.drop s.currentInstruction).count Instruction.startLoop := by
  induction h with
  | done s hget =>
    rw [List.drop_eq_nil_of_le (List.getElem?_eq_none_iff.mp hget)]
    simp
  | simple stack s t i hget hi _ ih =>
    obtain ⟨c1, c2, c3⟩ := simpleRound_cursor instructions errorBlock s i hget hi
    obtain ⟨o2, o4, o5⟩ := simpleRound_counts instructions s _ i hi hfit
    obtain ⟨e1, e3, e4⟩ := ih (simpleRound_code instructions s _ i hget hi hfit).1
    obtain ⟨m, hm⟩ : ∃ m, (simpleRound instructions errorBlock i s).currentInstruction
        = s.currentInstruction + m := ⟨_, (Nat.add_sub_cancel' (le_of_lt c1)).symm⟩
    have k1 := count_drop_skip instructions Instruction.startLoop (by decide)
      s.currentInstruction m (fun j hj1 hj2 => c3 j hj1 (by omega))
    rw [← hm] at k1
    rw [k1, e1, e3, e4, o2, o4, o5]
    exact ⟨rfl, rfl, rfl⟩
  | startLoop stack s t hget _ ih =>
    obtain ⟨o2, o4, o5⟩ := openLoop_counts s _ hfit
    obtain ⟨e1, e3, e4⟩ := ih (openLoop_code instructions s _ hget hfit).1
    rw [drop_eq_cons_of_getElem? _ _ _ hget, e1, e3, e4, o2, o4, o5]
    simp only [IRState.advance, openLoop_cursor, List.count_cons, beq_self_eq_true, if_true]
    refine ⟨by omega, by omega, by omega⟩
  | endLoop f stack s t hget _ ih =>
    obtain ⟨o2, o4, o5⟩ := closeLoop_counts f s _ hfit
    obtain ⟨e1, e3, e4⟩ := ih (closeLoop_code instructions f s _ hget hfit).1
    rw [drop_eq_cons_of_getElem? _ _ _ hget, e1, e3, e4, o2, o4, o5]
    simp only [IRState.advance, closeLoop_cursor, List.count_cons]
    refine ⟨?_, ?_, ?_⟩ <;> simp

/-! ## The layout of the function and the back-edges -/

theorem isBackEdge_append (function more : List Nat) (b : Nat) (x : Inst)
    (h : ∀ dest, x = Inst.br dest → b ∈ function ∧ dest ∈ function) :
    isBackEdge (function ++ more) b x = isBackEdge function b x := by
  cases x <;> try rfl
  case br dest =>
    obtain ⟨h1, h2⟩ := h dest rfl
    simp only [isBackEdge, List.indexOf_append_of_mem h1, List.indexOf_append_of_mem h2]

theorem isBackEdge_of_not_br (function : List Nat) (b : Nat) (x : Inst)
    (h : ∀ dest, x ≠ Inst.br dest) : isBackEdge function b x = false := by
  cases x <;> try rfl
  case br dest => exact absurd rfl (h dest)

theorem countInsts_backEdge_append (s : IRState) (stack below : List LoopFrame)
    (hl : Laid s stack below) (more : List Nat) :
    countInsts (isBackEdge (s.function ++ more)) s.blocks
      = countInsts (isBackEdge s.function) s.blocks :=
  countInsts_congr _ _ _ (fun b _ hx =>
    isBackEdge_append _ _ _ _ (fun dest e => hl.2.2.2.2 b dest (e ▸ hx)))

theorem indexOf_lt_of_mem_of_not_mem (function more : List Nat) (a c : Nat)
    (ha : a ∈ function) (hc : c ∉ function) :
    (function ++ more).indexOf a < (function ++ more).indexOf c := by
  rw [List.indexOf_append_of_mem ha, List.indexOf_append_of_not_mem hc]
  have := List.indexOf_lt_length.2 ha
  omega

theorem Laid.loop_mem {s : IRState} {stack below : List LoopFrame} (hl : Laid s stack below)
    (f : LoopFrame) (hf : f ∈ stack) : f.loopBlock ∈ s.function := by
  have h1 := hl.2.2.1 f hf
  have h2 : s.function.indexOf s.insertPoint ≤ s.function.length := List.indexOf_le_length
  exact List.indexOf_lt_length.1 (by omega)

theorem Laid.fresh {s : IRState} {stack below : List LoopFrame} (hl : Laid s stack below)
    (b : Nat) (hb : s.blocks.length ≤ b) : b ∉ s.function := fun h => by
  have := hl.1 b h
  omega

theorem emit_laid (s : IRState) (x : Inst) (cursor : Nat) (stack below : List LoopFrame)
    (hfit : StackFits s (stack ++ below)) (hl : Laid s stack below)
    (hx : ∀ dest, x ≠ Inst.br dest) :
    Laid ({ s with currentInstruction := cursor }.emit x).advance stack below
    ∧ countInsts (isBackEdge ({ s with currentInstruction := cursor }.emit x).advance.function)
          ({ s with currentInstruction := cursor }.emit x).advance.blocks
        = countInsts (isBackEdge s.function) s.blocks := by
  obtain ⟨hlen, _, _, hi⟩ := emit_spec { s with currentInstruction := cursor } x hfit.1
  obtain ⟨l1, l2, l3, l4, l5⟩ := hl
  refine ⟨⟨fun b hb => ?_, l2, l3, l4, fun b dest hb => ?_⟩, ?_⟩
  · have := l1 b hb
    show b < ({ s with currentInstruction := cursor }.emit x).blocks.length
    rw [hlen]
    exact this
  · have hb1 : Inst.br dest ∈ instsAt ({ s with currentInstruction := cursor }.emit x).blocks b :=
      hb
    rw [hi b] at hb1
    by_cases hbi : b = s.insertPoint
    · rw [if_pos hbi, List.mem_append, List.mem_singleton] at hb1
      rcases hb1 with hb1 | hb1
      · exact l5 b dest hb1
      · exact absurd hb1.symm (hx dest)
    · rw [if_neg hbi] at hb1
      exact l5 b dest hb1
  · have := countInsts_same_length (isBackEdge s.function) s.blocks _ s.insertPoint x hlen
      hfit.1 hi
    rw [isBackEdge_of_not_br _ _ _ hx] at this
    simpa using this

theorem moveLeft_laid (s : IRState) (stack below : List LoopFrame)
    (hfit : StackFits s (stack ++ below)) (hl : Laid s stack below) :
    Laid (emitMoveLeft errorBlock s).advance stack below
    ∧ countInsts (isBackEdge (emitMoveLeft errorBlock s).advance.function)
          (emitMoveLeft errorBlock s).advance.blocks
        = countInsts (isBackEdge s.function) s.blocks := by
  obtain ⟨hlen, hipn, _, hinsts⟩ := emitMoveLeft_spec errorBlock s hfit.1
  have hfun : (emitMoveLeft errorBlock s).advance.function
      = s.function ++ [s.blocks.length] := rfl
  have hblocks : (emitMoveLeft errorBlock s).advance.blocks
      = (emitMoveLeft errorBlock s).blocks := rfl
  have hipa : (emitMoveLeft errorBlock s).advance.insertPoint = s.blocks.length := hipn
  have hfresh := hl.fresh _ (le_refl _)
  have hloops := fun f hf => hl.loop_mem f hf
  have hcount := countInsts_backEdge_append s stack below hl [s.blocks.length]
  obtain ⟨l1, l2, l3, l4, l5⟩ := hl
  rw [hfun, hblocks]
  refine ⟨⟨fun b hb => ?_, ?_, fun f hf => ?_, fun f hf => ?_, fun b dest hb => ?_⟩, ?_⟩
  · rw [hblocks, hlen]
    rw [hfun, List.mem_append, List.mem_singleton] at hb
    rcases hb with hb | hb
    · have := l1 b hb; omega
    · omega
  · rw [hfun, hipa]; simp
  · rw [hfun, hipa]
    exact indexOf_lt_of_mem_of_not_mem _ _ _ _ (hloops f hf) hfresh
  · rw [hfun, List.mem_append, List.mem_singleton]
    have h1 := l4 f hf
    have h2 := (hfit.2.1 f hf).1
    rintro (h | h)
    · exact h1 h
    · omega
  · rw [hblocks, hinsts b] at hb
    rw [hfun]
    have old : Inst.br dest ∈ instsAt s.blocks b := by
      by_cases h1 : b = s.insertPoint
      · rw [if_pos h1, List.mem_append, List.mem_singleton] at hb
        rcases hb with hb | hb
        · exact hb
        · exact absurd hb (by simp)
      · rw [if_neg h1] at hb
        by_cases h2 : b = s.blocks.length
        · rw [if_pos h2, List.mem_singleton] at hb
          exact absurd hb (by simp)
        · rw [if_neg h2] at hb
          exact hb
    obtain ⟨m1, m2⟩ := l5 b dest old
    exact ⟨List.mem_append_left _ m1, List.mem_append_left _ m2⟩
  · have hl1 : (emitMoveLeft errorBlock s).blocks.length = s.blocks.length + (0 + 1) := hlen
    have := countInsts_new_block (isBackEdge (s.function ++ [s.blocks.length])) s.blocks _
      s.insertPoint 0 _ _ hl1 hfit.1 hinsts
    rw [this, hcount]
    simp [isBackEdge]

theorem simpleRound_laid (instructions : List Instruction) (s : IRState)
    (stack below : List LoopFrame) (i : Instruction) (hi : i.isSimple)
    (hfit : StackFits s (stack ++ below)) (hl : Laid s stack below) :
    Laid (simpleRound instructions errorBlock i s) stack below
    ∧ countInsts (isBackEdge (simpleRound instructions errorBlock i s).function)
          (simpleRound instructions errorBlock i s).blocks
        = countInsts (isBackEdge s.function) s.blocks := by
  obtain ⟨h1, h2⟩ := hi
  cases i
  case startLoop => exact absurd rfl h1
  case endLoop => exact absurd rfl h2
  case moveRight =>
    exact emit_laid s _ s.currentInstruction stack below hfit hl (fun _ => by simp)
  case output =>
    exact emit_laid s _ s.currentInstruction stack below hfit hl (fun _ => by simp)
  case input =>
    exact emit_laid s _ s.currentInstruction stack below hfit hl (fun _ => by simp)
  case increment => exact emit_laid s _ _ stack below hfit hl (fun _ => by simp)
  case decrement => exact emit_laid s _ _ stack below hfit hl (fun _ => by simp)
  case moveLeft => exact moveLeft_laid s stack below hfit hl

theorem openLoop_function (s : IRState) :
    (openLoop s).2.advance.function = s.function ++ [s.blocks.length, s.blocks.length + 1] := by
  simp [openLoop, IRState.createBlock, IRState.emit, IRState.setInsertPoint,
    IRState.pushBack, IRState.advance]

theorem openLoop_laid (s : IRState) (stack below : List LoopFrame)
    (hfit : StackFits s (stack ++ below)) (hl : Laid s stack below) :
    Laid (openLoop s).2.advance ((openLoop s).1 :: stack) below
    ∧ countInsts (isBackEdge (openLoop s).2.advance.function) (openLoop s).2.advance.blocks
        = countInsts (isBackEdge s.function) s.blocks := by
  obtain ⟨hframe, hlen, hipn, hinsts⟩ := openLoop_spec s hfit.1
  have hfun := openLoop_function s
  have hblocks : (openLoop s).2.advance.blocks = (openLoop s).2.blocks := rfl
  have hipa : (openLoop s).2.advance.insertPoint = s.blocks.length + 1 := hipn
  have hfresh0 := hl.fresh _ (le_refl _)
  have hfresh1 := hl.fresh (s.blocks.length + 1) (by omega)
  have hfresh2 := hl.fresh (s.blocks.length + 2) (by omega)
  have hloops := fun f hf => hl.loop_mem f hf
  have hcount := countInsts_backEdge_append s stack below hl
    [s.blocks.length, s.blocks.length + 1]
  obtain ⟨l1, l2, l3, l4, l5⟩ := hl
  have i0 : (s.function ++ [s.blocks.length, s.blocks.length + 1]).indexOf s.blocks.length
      = s.function.length := by
    rw [List.indexOf_append_of_not_mem hfresh0]
    simp
  have i1 : (s.function ++ [s.blocks.length, s.blocks.length + 1]).indexOf
      (s.blocks.length + 1) = s.function.length + 1 := by
    rw [List.indexOf_append_of_not_mem hfresh1]
    simp [List.indexOf_cons]
  rw [hfun, hblocks, hframe]
  refine ⟨⟨fun b hb => ?_, ?_, fun f hf => ?_, fun f hf => ?_, fun b dest hb => ?_⟩, ?_⟩
  · rw [hblocks, hlen]
    rw [hfun, List.mem_append] at hb
    rcases hb with hb | hb
    · have := l1 b hb; omega
    · simp only [List.mem_cons, List.mem_singleton, List.not_mem_nil, or_false] at hb
      omega
  · rw [hfun, hipa]; simp
  · rw [hfun, hipa, i1]
    rw [List.mem_cons] at hf
    rcases hf with rfl | hf
    · show List.indexOf s.blocks.length _ < _
      rw [i0]; omega
    · rw [List.indexOf_append_of_mem (hloops f hf)]
      have := List.indexOf_lt_length.2 (hloops f hf)
      omega
  · rw [hfun, List.mem_append]
    rw [List.cons_append, List.mem_cons] at hf
    simp only [List.mem_cons, List.mem_singleton, List.not_mem_nil, or_false]
    rcases hf with rfl | hf
    · show ¬ (s.blocks.length + 2 ∈ s.function
        ∨ (s.blocks.length + 2 = s.blocks.length ∨ s.blocks.length + 2 = s.blocks.length + 1))
      rintro (h | h)
      · exact hfresh2 h
      · omega
    · have h1 := l4 f hf
      have h2 := (hfit.2.1 f hf).1
      rintro (h | h)
      · exact h1 h
      · omega
  · rw [hblocks, hinsts b] at hb
    rw [hfun]
    by_cases h1 : b = s.insertPoint
    · rw [if_pos h1, List.mem_append, List.mem_singleton] at hb
      rcases hb with hb | hb
      · obtain ⟨m1, m2⟩ := l5 b dest hb
        exact ⟨List.mem_append_left _ m1, List.mem_append_left _ m2⟩
      · simp only [Inst.br.injEq] at hb
        subst hb
        exact ⟨List.mem_append_left _ (h1 ▸ l2), by simp⟩
    · rw [if_neg h1] at hb
      by_cases h2 : b = s.blocks.length
      · rw [if_pos h2, List.mem_singleton] at hb
        exact absurd hb (by simp)
      · rw [if_neg h2] at hb
        obtain ⟨m1, m2⟩ := l5 b dest hb
        exact ⟨List.mem_append_left _ m1, List.mem_append_left _ m2⟩
  · have hl1 : (openLoop s).2.blocks.length = s.blocks.length + (2 + 1) := hlen
    have := countInsts_new_block (isBackEdge (s.function ++ [s.blocks.length,
      s.blocks.length + 1])) s.blocks _ s.insertPoint 2 _ _ hl1 hfit.1 hinsts
    rw [this, hcount]
    have hip : (s.function ++ [s.blocks.length, s.blocks.length + 1]).indexOf s.insertPoint
        < s.function.length := by
      rw [List.indexOf_append_of_mem l2]
      exact List.indexOf_lt_length.2 l2
    simp only [isBackEdge, i0, decide_eq_true_eq]
    rw [if_neg (by omega)]
    simp

theorem closeLoop_laid (f : LoopFrame) (s : IRState) (stack below : List LoopFrame)
    (hfit : StackFits s ((f :: stack) ++ below)) (hl : Laid s (f :: stack) below) :
    Laid (closeLoop f s).advance stack below
    ∧ countInsts (isBackEdge (closeLoop f s).advance.function) (closeLoop f s).advance.blocks
        = countInsts (isBackEdge s.function) s.blocks + 1 := by
  obtain ⟨hlen, hipn, hinsts⟩ := closeLoop_spec f s hfit.1
  have hfun : (closeLoop f s).advance.function = s.function ++ [f.mergeBlock] := rfl
  have hblocks : (closeLoop f s).advance.blocks = (closeLoop f s).blocks := rfl
  have hipa : (closeLoop f s).advance.insertPoint = f.mergeBlock := hipn
  have hloops := fun g hg => hl.loop_mem g hg
  have hcount := countInsts_backEdge_append s _ below hl [f.mergeBlock]
  obtain ⟨l1, l2, l3, l4, l5⟩ := hl
  have hmerge : f.mergeBlock ∉ s.function := l4 f (by simp)
  have hnodup := hfit.2.2
  rw [List.cons_append, List.map_cons, List.nodup_cons] at hnodup
  rw [hfun, hblocks]
  refine ⟨⟨fun b hb => ?_, ?_, fun g hg => ?_, fun g hg => ?_, fun b dest hb => ?_⟩, ?_⟩
  · rw [hblocks, hlen]
    rw [hfun, List.mem_append, List.mem_singleton] at hb
    rcases hb with hb | hb
    · exact l1 b hb
    · rw [hb]
      exact (hfit.2.1 f (by simp)).1
  · rw [hfun, hipa]; simp
  · rw [hfun, hipa]
    exact indexOf_lt_of_mem_of_not_mem _ _ _ _ (hloops g (List.mem_cons_of_mem _ hg)) hmerge
  · rw [hfun, List.mem_append, List.mem_singleton]
    have h1 := l4 g (by rw [List.cons_append]; exact List.mem_cons_of_mem _ hg)
    rintro (h | h)
    · exact h1 h
    · exact hnodup.1 (h ▸ List.mem_map_of_mem _ hg)
  · rw [hblocks, hinsts b] at hb
    rw [hfun]
    by_cases h1 : b = s.insertPoint
    · rw [if_pos h1, List.mem_append, List.mem_singleton] at hb
      rcases hb with hb | hb
      · obtain ⟨m1, m2⟩ := l5 b dest hb
        exact ⟨List.mem_append_left _ m1, List.mem_append_left _ m2⟩
      · simp only [Inst.br.injEq] at hb
        subst hb
        exact ⟨List.mem_append_left _ (h1 ▸ l2),
          List.mem_append_left _ (hloops f (List.mem_cons_self _ _))⟩
    · rw [if_neg h1] at hb
      obtain ⟨m1, m2⟩ := l5 b dest hb
      exact ⟨List.mem_append_left _ m1, List.mem_append_left _ m2⟩
  · have := countInsts_same_length (isBackEdge (s.function ++ [f.mergeBlock])) s.blocks _
      s.insertPoint _ hlen hfit.1 hinsts
    rw [this, hcount]
    have hback := l3 f (List.mem_cons_self _ _)
    simp only [isBackEdge, List.indexOf_append_of_mem l2,
      List.indexOf_append_of_mem (hloops f (List.mem_cons_self _ _)), decide_eq_true_eq]
    rw [if_pos hback]

/-- The rounds add one back-edge for every loop end still to come, and keep the layout. -/
theorem stackEmits_backEdges (instructions : List Instruction) (stack : List LoopFrame)
    (s t : IRState) (h : StackEmits instructions errorBlock stack s t)
    (below : List LoopFrame) (hfit : StackFits s (stack ++ below))
    (hl : Laid s stack below) :
    Laid t [] below
    ∧ countInsts (isBackEdge t.function) t.blocks
        = countInsts (isBackEdge s.function) s.blocks
          + (instructions.drop s.currentInstruction).count Instruction.endLoop := by
  induction h with
  | done s hget =>
    rw [List.drop_eq_nil_of_le (List.getElem?_eq_none_iff.mp hget)]
    exact ⟨hl, by simp⟩
  | simple stack s t i hget hi _ ih =>
    obtain ⟨c1, c2, c3⟩ := simpleRound_cursor instructions errorBlock s i hget hi
    obtain ⟨o1, o2⟩ := simpleRound_laid instructions s stack below i hi hfit hl
    obtain ⟨e1, e2⟩ := ih (simpleRound_code instructions s _ i hget hi hfit).1 o1
    obtain ⟨m, hm⟩ : ∃ m, (simpleRound instructions errorBlock i s).currentInstruction
        = s.currentInstruction + m := ⟨_, (Nat.add_sub_cancel' (le_of_lt c1)).symm⟩
    have k2 := count_drop_skip instructions Instruction.endLoop (by decide)
      s.currentInstruction m (fun j hj1 hj2 => c3 j hj1 (by omega))
    rw [← hm] at k2
    rw [k2, e2, o2]
    exact ⟨e1, rfl⟩
  | startLoop stack s t hget _ ih =>
    obtain ⟨o1, o2⟩ := openLoop_laid s stack below hfit hl
    obtain ⟨e1, e2⟩ := ih (openLoop_code instructions s _ hget hfit).1 o1
    rw [drop_eq_cons_of_getElem? _ _ _ hget, e2, o2]
    simp only [IRState.advance, openLoop_cursor, List.count_cons]
    exact ⟨e1, by simp⟩
  | endLoop f stack s t hget _ ih =>
    obtain ⟨o1, o2⟩ := closeLoop_laid f s stack below hfit hl
    obtain ⟨e1, e2⟩ := ih (closeLoop_code instructions f s _ hget hfit).1 o1
    rw [drop_eq_cons_of_getElem? _ _ _ hget, e2, o2]
    simp only [IRState.advance, closeLoop_cursor, List.count_cons, beq_self_eq_true, if_true]
    exact ⟨e1, by omega⟩

theorem countInsts_emit (q : Nat → Inst → Bool) (s : IRState) (x : Inst)
    (h : s.insertPoint < s.blocks.length) :
    countInsts q (s.emit x).blocks
      = countInsts q s.blocks + if q s.insertPoint x then 1 else 0 := by
  obtain ⟨hlen, _, _, hi⟩ := emit_spec s x h
  exact countInsts_same_length q s.blocks _ s.insertPoint x hlen h hi

theorem finishMain_function (t : IRState) :
    (finishMain t).function = t.function ++ [errorBlock, returnBlock] := by
  simp [finishMain, IRState.pushBack, IRState.emit, IRState.setInsertPoint]

/-- What `finishMain` adds is counted by `q` as often as `q` picks its four instructions. -/
theorem finishMain_countInsts (q : Nat → Inst → Bool) (t : IRState)
    (hfit : StackFits t [{ loopBlock := 0, mergeBlock := errorBlock },
      { loopBlock := 0, mergeBlock := returnBlock }]) :
    countInsts q (finishMain t).blocks
      = countInsts q t.blocks + (if q t.insertPoint (Inst.br returnBlock) then 1 else 0)
        + (if q errorBlock Inst.callFputsError then 1 else 0)
        + (if q errorBlock (Inst.br returnBlock) then 1 else 0)
        + (if q returnBlock (Inst.retPhi t.insertPoint errorBlock) then 1 else 0) := by
  obtain ⟨hip, hmerge, _⟩ := hfit
  obtain ⟨he1, _, _⟩ := hmerge _ (List.mem_cons_self _ _)
  obtain ⟨hr1, _, _⟩ := hmerge _ (List.mem_cons_of_mem _ (List.mem_cons_self _ _))
  simp only at he1 hr1
  have e : (finishMain t).blocks
      = ((((((t.emit (Inst.br returnBlock)).setInsertPoint errorBlock).emit
          Inst.callFputsError).emit (Inst.br returnBlock)).setInsertPoint returnBlock).emit
          (Inst.retPhi t.insertPoint errorBlock)).blocks := rfl
  rw [e, countInsts_emit _ _ _ (by simp only [IRState.setInsertPoint, emit_length]; exact hr1)]
  simp only [IRState.setInsertPoint]
  rw [countInsts_emit _ _ _ (by simp only [emit_length, emit_insertPoint]; exact he1)]
  simp only [emit_insertPoint]
  rw [countInsts_emit _ _ _ (by simp only [emit_length]; exact he1)]
  simp only
  rw [countInsts_emit _ _ _ hip]

theorem finishMain_countBlocks (name : BlockName) (t : IRState) :
    countBlocks name (finishMain t).blocks = countBlocks name t.blocks := by
  have e : (finishMain t).blocks
      = ((((((t.emit (Inst.br returnBlock)).setInsertPoint errorBlock).emit
          Inst.callFputsError).emit (Inst.br returnBlock)).setInsertPoint returnBlock).emit
          (Inst.retPhi t.insertPoint errorBlock)).blocks := rfl
  rw [e, countBlocks_emit]
  simp only [IRState.setInsertPoint]
  rw [countBlocks_emit]
  show countBlocks name (IRState.emit _ _).blocks = _
  rw [countBlocks_emit]
  simp only
  rw [countBlocks_emit]

theorem finishMain_backEdges (t : IRState)
    (hfit : StackFits t [{ loopBlock := 0, mergeBlock := errorBlock },
      { loopBlock := 0, mergeBlock := returnBlock }])
    (hl : Laid t [] [{ loopBlock := 0, mergeBlock := errorBlock },
      { loopBlock := 0, mergeBlock := returnBlock }]) :
    countInsts (isBackEdge (finishMain t).function) (finishMain t).blocks
      = countInsts (isBackEdge t.function) t.blocks := by
  rw [finishMain_function, finishMain_countInsts _ t hfit,
    countInsts_backEdge_append t _ _ hl]
  obtain ⟨_, l2, _, l4, _⟩ := hl
  have n1 : errorBlock ∉ t.function :=
    l4 { loopBlock := 0, mergeBlock := errorBlock } (by simp)
  have n2 : returnBlock ∉ t.function := l4 { loopBlock := 0, mergeBlock := returnBlock } (by simp)
  have i1 : (t.function ++ [errorBlock, returnBlock]).indexOf errorBlock
      = t.function.length := by
    rw [List.indexOf_append_of_not_mem n1]
    simp
  have i2 : (t.function ++ [errorBlock, returnBlock]).indexOf returnBlock
      = t.function.length + 1 := by
    rw [List.indexOf_append_of_not_mem n2]
    simp [List.indexOf_cons, errorBlock, returnBlock]
  have i3 : (t.function ++ [errorBlock, returnBlock]).indexOf t.insertPoint
      < t.function.length := by
    rw [List.indexOf_append_of_mem l2]
    exact List.indexOf_lt_length.2 l2
  simp only [isBackEdge, i1, i2, decide_eq_true_eq]
  rw [if_neg (show ¬ (t.function.length + 1
      < (t.function ++ [errorBlock, returnBlock]).indexOf t.insertPoint) by omega),
    if_neg (show ¬ (t.function.length + 1 < t.function.length) by omega)]
  simp

theorem mainStart_laid :
    Laid mainStart [] [{ loopBlock := 0, mergeBlock := errorBlock },
      { loopBlock := 0, mergeBlock := returnBlock }] := by
  refine ⟨by decide, by decide, by simp, by decide, fun b dest hb => ?_⟩
  have : instsAt mainStart.blocks b = [] := by
    rcases b with _ | _ | _ | b <;> rfl
  rw [this] at hb
  simp at hb

/-! ## Every loop end of a well-formed program has its loop start -/

theorem findLoopEnd_none_of_firstViolation (l : List Instruction) (c e : Nat)
    (h : firstViolation l c = none) (hc : c ≤ e) : findLoopEnd l e = none := by
  induction l generalizing c e with
  | nil => rfl
  | cons x l ih =>
    rcases Instruction.simple_or_bracket x with hx | rfl | rfl
    · rw [firstViolation_cons_simple _ _ _ hx] at h
      rw [findLoopEnd_cons_simple _ _ _ hx, ih c e h hc]
      rfl
    · simp only [firstViolation] at h
      simp only [findLoopEnd]
      rw [ih (c + 1) (e + 1) h (by omega)]
      rfl
    · cases c with
      | zero => simp [firstViolation] at h
      | succ c =>
        simp only [firstViolation] at h
        obtain ⟨e, rfl⟩ : ∃ e1, e = e1 + 1 := ⟨e - 1, by omega⟩
        simp only [findLoopEnd]
        rw [ih c e h (by omega)]
        rfl

theorem loopEnd_matched_or_open (l : List Instruction) (k : Nat)
    (hk : l[k]? = some Instruction.endLoop) :
    (∃ i d, l[i]? = some Instruction.startLoop ∧ findLoopEnd (l.drop (i + 1)) 0 = some d
      ∧ k = i + 1 + d)
    ∨ ∃ c, findLoopEnd l c = some k := by
  induction l generalizing k with
  | nil => simp at hk
  | cons x l ih =>
    cases k with
    | zero =>
      simp only [List.getElem?_cons_zero, Option.some.injEq] at hk
      subst hk
      exact Or.inr ⟨0, rfl⟩
    | succ k =>
      rw [List.getElem?_cons_succ] at hk
      rcases ih k hk with ⟨i, d, h1, h2, h3⟩ | ⟨c, hc⟩
      · exact Or.inl ⟨i + 1, d, by rw [List.getElem?_cons_succ]; exact h1,
          by rw [List.drop_succ_cons]; exact h2, by omega⟩
      · rcases Instruction.simple_or_bracket x with hx | rfl | rfl
        · exact Or.inr ⟨c, by rw [findLoopEnd_cons_simple _ _ _ hx, hc]; rfl⟩
        · cases c with
          | zero =>
            exact Or.inl ⟨0, k, List.getElem?_cons_zero, by simpa using hc, by omega⟩
          | succ c =>
            exact Or.inr ⟨c, by simp only [findLoopEnd]; rw [hc]; rfl⟩
        · exact Or.inr ⟨c + 1, by simp only [findLoopEnd]; rw [hc]; rfl⟩

/-! ## The blocks of the entry tests and of their zero targets -/

theorem map_name_modify (f : BasicBlock → BasicBlock) (hf : ∀ x, (f x).name = x.name)
    (l : List BasicBlock) (n : Nat) : blockNames (l.modify f n) = blockNames l := by
  unfold blockNames
  induction l generalizing n with
  | nil => simp
  | cons a l ih =>
    cases n with
    | zero => simp [hf]
    | succ n => simp [ih]

theorem blockNames_emit (s : IRState) (x : Inst) :
    blockNames (s.emit x).blocks = blockNames s.blocks :=
  map_name_modify (fun b => { b with insts := b.insts ++ [x] }) (fun _ => rfl) _ _

theorem blockNames_createBlock (s : IRState) (name : BlockName) (attached : Bool) :
    blockNames (s.createBlock name attached).2.blocks = blockNames s.blocks ++ [name] := by
  simp [blockNames, IRState.createBlock]

theorem getElem?_append_of_some {α : Type} (l m : List α) (i : Nat) (a : α)
    (h : l[i]? = some a) : (l ++ m)[i]? = some a := by
  rw [List.getElem?_append_left (List.getElem?_eq_some.mp h).1]
  exact h

/-- Blocks with good entry tests stay so when a round appends one instruction at `ip` and
puts one instruction `y` into the first new block, when neither is an entry test, or `y` is
the entry test of a new block `loop` whose zero target is a new block `merge`. -/
theorem testsOK_new_block (old new : List BasicBlock) (ip : Nat) (x y : Inst)
    (extra : List BlockName) (hold : TestsOK old)
    (hnames : blockNames new = blockNames old ++ extra)
    (hi : ∀ b, instsAt new b
      = if b = ip then instsAt old b ++ [x]
        else if b = old.length then [y] else instsAt old b)
    (hx : ∀ body merge, x ≠ Inst.condBrContinueLoop body merge)
    (hy : ∀ body merge, y = Inst.condBrContinueLoop body merge →
      merge = old.length + 2 ∧ (blockNames new)[old.length]? = some BlockName.loop
        ∧ (blockNames new)[old.length + 2]? = some BlockName.merge) :
    TestsOK new := by
  intro b j body merge hf
  have lift : fetch old b j = some (Inst.condBrContinueLoop body merge) →
      j = 0 ∧ merge = b + 2 ∧ (blockNames new)[b]? = some BlockName.loop
        ∧ (blockNames new)[merge]? = some BlockName.merge := by
    intro h
    obtain ⟨h1, h2, h3, h4⟩ := hold b j body merge h
    rw [hnames]
    exact ⟨h1, h2, getElem?_append_of_some _ _ _ _ h3, getElem?_append_of_some _ _ _ _ h4⟩
  rw [fetch_eq_instsAt, hi b] at hf
  by_cases h1 : b = ip
  · rw [if_pos h1] at hf
    by_cases hj : j < (instsAt old b).length
    · rw [List.getElem?_append_left hj] at hf
      exact lift (by rw [fetch_eq_instsAt]; exact hf)
    · rw [List.getElem?_append_right (by omega)] at hf
      have := List.getElem?_mem hf
      rw [List.mem_singleton] at this
      exact absurd this.symm (hx body merge)
  · rw [if_neg h1] at hf
    by_cases h2 : b = old.length
    · rw [if_pos h2] at hf
      cases j with
      | zero =>
        simp only [List.getElem?_cons_zero, Option.some.injEq] at hf
        obtain ⟨e1, e2, e3⟩ := hy body merge hf
        subst h2
        exact ⟨rfl, e1, e2, e1 ▸ e3⟩
      | succ j => simp at hf
    · rw [if_neg h2] at hf
      exact lift (by rw [fetch_eq_instsAt]; exact hf)

/-- Blocks with good entry tests stay so when a round appends one instruction at `ip` that
is no entry test. -/
theorem testsOK_same_length (old new : List BasicBlock) (ip : Nat) (x : Inst)
    (hold : TestsOK old) (hnames : blockNames new = blockNames old)
    (hi : ∀ b, instsAt new b = if b = ip then instsAt old b ++ [x] else instsAt old b)
    (hx : ∀ body merge, x ≠ Inst.condBrContinueLoop body merge) : TestsOK new := by
  intro b j body merge hf
  have lift : fetch old b j = some (Inst.condBrContinueLoop body merge) →
      j = 0 ∧ merge = b + 2 ∧ (blockNames new)[b]? = some BlockName.loop
        ∧ (blockNames new)[merge]? = some BlockName.merge := by
    intro h
    rw [hnames]
    exact hold b j body merge h
  rw [fetch_eq_instsAt, hi b] at hf
  by_cases h1 : b = ip
  · rw [if_pos h1] at hf
    by_cases hj : j < (instsAt old b).length
    · rw [List.getElem?_append_left hj] at hf
      exact lift (by rw [fetch_eq_instsAt]; exact hf)
    · rw [List.getElem?_append_right (by omega)] at hf
      have := List.getElem?_mem hf
      rw [List.mem_singleton] at this
      exact absurd this.symm (hx body merge)
  · rw [if_neg h1] at hf
    exact lift (by rw [fetch_eq_instsAt]; exact hf)

theorem simpleRound_tests (instructions : List Instruction) (s : IRState)
    (stack : List LoopFrame) (i : Instruction) (hi : i.isSimple)
    (hfit : StackFits s stack) (hg : TestsOK s.blocks) :
    TestsOK (simpleRound instructions errorBlock i s).blocks := by
  have emitted : ∀ (x : Inst) (cursor : Nat),
      (∀ body merge, x ≠ Inst.condBrContinueLoop body merge) →
      TestsOK ({ s with currentInstruction := cursor }.emit x).advance.blocks :=
    fun x cursor hx => testsOK_same_length s.blocks _ s.insertPoint x hg
      (blockNames_emit _ _) (emit_spec { s with currentInstruction := cursor } x hfit.1).2.2.2
      hx
  obtain ⟨h1, h2⟩ := hi
  cases i
  case startLoop => exact absurd rfl h1
  case endLoop => exact absurd rfl h2
  case moveRight => exact emitted _ s.currentInstruction (fun _ _ h => by cases h)
  case output => exact emitted _ s.currentInstruction (fun _ _ h => by cases h)
  case input => exact emitted _ s.currentInstruction (fun _ _ h => by cases h)
  case increment => exact emitted _ _ (fun _ _ h => by cases h)
  case decrement => exact emitted _ _ (fun _ _ h => by cases h)
  case moveLeft =>
    have hnames : blockNames (emitMoveLeft errorBlock s).blocks
        = blockNames s.blocks ++ [BlockName.moveLeft] := by
      unfold emitMoveLeft
      simp only [IRState.setInsertPoint]
      rw [blockNames_emit]
      show blockNames ((s.createBlock BlockName.moveLeft true).2.emit _).blocks = _
      rw [blockNames_emit, blockNames_createBlock]
    exact testsOK_new_block s.blocks _ s.insertPoint _ _ _ hg hnames
      (emitMoveLeft_spec errorBlock s hfit.1).2.2.2 (fun _ _ h => by cases h)
      (fun _ _ h => by cases h)

theorem openLoop_blockNames (s : IRState) :
    blockNames (openLoop s).2.blocks
      = blockNames s.blocks ++ [BlockName.loop, BlockName.thenBlock, BlockName.merge] := by
  unfold openLoop
  simp only [IRState.setInsertPoint, IRState.pushBack]
  rw [blockNames_emit]
  show blockNames (((((s.createBlock BlockName.loop true).2.createBlock
    BlockName.thenBlock false).2.createBlock BlockName.merge false).2.emit _).blocks) = _
  rw [blockNames_emit, blockNames_createBlock, blockNames_createBlock,
    blockNames_createBlock]
  simp

theorem openLoop_tests (s : IRState) (hip : s.insertPoint < s.blocks.length)
    (hg : TestsOK s.blocks) : TestsOK (openLoop s).2.advance.blocks := by
  have hlen : (blockNames s.blocks).length = s.blocks.length := by simp [blockNames]
  refine testsOK_new_block s.blocks _ s.insertPoint _ _ _ hg (openLoop_blockNames s)
    (openLoop_spec s hip).2.2.2 (fun _ _ h => by cases h) (fun body merge h => ?_)
  simp only [Inst.condBrContinueLoop.injEq] at h
  refine ⟨h.2.symm, ?_, ?_⟩
  · show (blockNames (openLoop s).2.blocks)[s.blocks.length]? = _
    rw [openLoop_blockNames, List.getElem?_append_right (by omega), hlen]
    simp
  · show (blockNames (openLoop s).2.blocks)[s.blocks.length + 2]? = _
    rw [openLoop_blockNames, List.getElem?_append_right (by omega), hlen]
    simp

theorem closeLoop_tests (f : LoopFrame) (s : IRState)
    (hip : s.insertPoint < s.blocks.length) (hg : TestsOK s.blocks) :
    TestsOK (closeLoop f s).advance.blocks :=
  testsOK_same_length s.blocks _ s.insertPoint _ hg (blockNames_emit _ _)
    (closeLoop_spec f s hip).2.2 (fun _ _ h => by cases h)

theorem stackEmits_tests (instructions : List Instruction) (stack : List LoopFrame)
    (s t : IRState) (h : StackEmits instructions errorBlock stack s t)
    (below : List LoopFrame) (hfit : StackFits s (stack ++ below)) (hg : TestsOK s.blocks) :
    TestsOK t.blocks := by
  induction h with
  | done s _ => exact hg
  | simple stack s t i hget hi _ ih =>
    exact ih (simpleRound_code instructions s _ i hget hi hfit).1
      (simpleRound_tests instructions s _ i hi hfit hg)
  | startLoop stack s t hget _ ih =>
    exact ih (openLoop_code instructions s _ hget hfit).1 (openLoop_tests s hfit.1 hg)
  | endLoop f stack s t hget _ ih =>
    exact ih (closeLoop_code instructions f s _ hget hfit).1
      (closeLoop_tests f s hfit.1 hg)

theorem finishMain_tests (t : IRState)
    (hfit : StackFits t [{ loopBlock := 0, mergeBlock := errorBlock },
      { loopBlock := 0, mergeBlock := returnBlock }])
    (hg : TestsOK t.blocks) : TestsOK (finishMain t).blocks := by
  obtain ⟨hip, hmerge, _⟩ := hfit
  obtain ⟨he1, _, _⟩ := hmerge _ (List.mem_cons_self _ _)
  obtain ⟨hr1, _, _⟩ := hmerge _ (List.mem_cons_of_mem _ (List.mem_cons_self _ _))
  simp only at he1 hr1
  have e : (finishMain t).blocks
      = ((((((t.emit (Inst.br returnBlock)).setInsertPoint errorBlock).emit
          Inst.callFputsError).emit (Inst.br returnBlock)).setInsertPoint returnBlock).emit
          (Inst.retPhi t.insertPoint errorBlock)).blocks := rfl
  have step : ∀ (s : IRState) (x : Inst), s.insertPoint < s.blocks.length →
      (∀ body merge, x ≠ Inst.condBrContinueLoop body merge) → TestsOK s.blocks →
      TestsOK (s.emit x).blocks :=
    fun s x h hx hs => testsOK_same_length s.blocks _ s.insertPoint x hs
      (blockNames_emit _ _) (emit_spec s x h).2.2.2 hx
  rw [e]
  refine step _ _ (by simp only [IRState.setInsertPoint, emit_length]; exact hr1)
    (fun _ _ h => by cases h) ?_
  refine step _ _ (show errorBlock < (IRState.emit _ _).blocks.length by
    simp only [emit_length, IRState.setInsertPoint]
    exact he1) (fun _ _ h => by cases h) ?_
  refine step _ _ (by simp only [IRState.setInsertPoint, emit_length]; exact he1)
    (fun _ _ h => by cases h) ?_
  exact step _ _ hip (fun _ _ h => by cases h) hg

theorem mainStart_tests : TestsOK mainStart.blocks := by
  intro b j body merge hf
  rw [fetch_eq_instsAt] at hf
  have : instsAt mainStart.blocks b = [] := by
    rcases b with _ | _ | _ | b <;> rfl
  rw [this] at hf
  simp at hf

/-- C3: a well-formed program compiles, and in the emitted blocks of `main` the entry tests
(the conditional branches on the current cell), the back-edges (the unconditional branches
to a block laid out earlier in the function) and the merge blocks (the blocks created under
the name `merge`) are each as many as the loop starts of the program; every entry test is
the first instruction of a block created as `loop` and its zero target is a merge block of
its own, created two blocks after it. Every loop end has the loop start that matches it
under bracket matching, and for every loop start with its matching loop end: the code of the
loop start is a branch to a block `loop` that starts with the entry test, the code of the
loop end is a branch back to that same block `loop`, and the zero target `merge` of the
entry test is the block at whose start the code of the instructions after the loop end is
emitted. -/
theorem loops_one_test_backEdge_merge (p : List Instruction) (h : WellFormed p) :
    ∃ m, compileMain p = some (Except.ok m)
      ∧ countInsts isEntryTest m.blocks = p.count Instruction.startLoop
      ∧ countInsts (isBackEdge m.function) m.blocks = p.count Instruction.startLoop
      ∧ countBlocks BlockName.merge m.blocks = p.count Instruction.startLoop
      ∧ (∀ b j body merge,
          fetch m.blocks b j = some (Inst.condBrContinueLoop body merge) →
          j = 0 ∧ merge = b + 2 ∧ (blockNames m.blocks)[b]? = some BlockName.loop
            ∧ (blockNames m.blocks)[merge]? = some BlockName.merge)
      ∧ (∀ k, p[k]? = some Instruction.endLoop →
          ∃ i d, p[i]? = some Instruction.startLoop
            ∧ findLoopEnd (p.drop (i + 1)) 0 = some d ∧ k = i + 1 + d)
      ∧ ∀ i d, p[i]? = some Instruction.startLoop →
          findLoopEnd (p.drop (i + 1)) 0 = some d →
          ∃ loop body merge stack b j b1 j1,
            CodeFrom m.blocks (p.drop i) b j stack
            ∧ fetch m.blocks b j = some (Inst.br loop)
            ∧ fetch m.blocks loop 0 = some (Inst.condBrContinueLoop body merge)
            ∧ CodeFrom m.blocks (p.drop (i + 1)) body 0
                ({ loopBlock := loop, mergeBlock := merge } :: stack)
            ∧ CodeFrom m.blocks (p.drop (i + 1 + d)) b1 j1
                ({ loopBlock := loop, mergeBlock := merge } :: stack)
            ∧ fetch m.blocks b1 j1 = some (Inst.br loop)
            ∧ CodeFrom m.blocks (p.drop (i + 1 + d + 1)) merge 0 stack := by
  have hv := firstViolation_of_wellFormed p h
  obtain ⟨r, hr, he, _⟩ := generateIRTop_outcome p
  rw [hv] at he
  have hgen : generateIRTop p = some { error := none, state := r.state } := by
    rw [hr, ← he]
  have hcomp := compileMain_of_generateIRTop p r.state hgen
  have hemits := generateIRTop_stackEmits p r.state hgen
  have hfit := stackEmits_fits p [] mainStart r.state hemits _ mainStart_fits
  obtain ⟨c1, _, c3⟩ := stackEmits_counts p [] mainStart r.state hemits _ mainStart_fits
  obtain ⟨hlaid, c2⟩ := stackEmits_backEdges p [] mainStart r.state hemits _ mainStart_fits
    mainStart_laid
  have z1 : countInsts isEntryTest mainStart.blocks = 0 := by decide
  have z2 : countInsts (isBackEdge mainStart.function) mainStart.blocks = 0 := by decide
  have z3 : countBlocks BlockName.merge mainStart.blocks = 0 := by decide
  have hdrop : p.drop mainStart.currentInstruction = p := rfl
  rw [z1, hdrop, Nat.zero_add] at c1
  rw [z2, hdrop, Nat.zero_add] at c2
  rw [z3, hdrop, Nat.zero_add] at c3
  have htests := finishMain_tests _ hfit
    (stackEmits_tests p [] mainStart r.state hemits _ mainStart_fits mainStart_tests)
  refine ⟨finishMain r.state, hcomp, ?_, ?_, ?_, htests, fun k hk => ?_,
    fun i d hi hd => ?_⟩
  · rw [finishMain_countInsts _ _ hfit, c1]
    rfl
  · rw [finishMain_backEdges _ hfit hlaid, c2, h.1]
  · rw [finishMain_countBlocks, c3]
  · rcases loopEnd_matched_or_open p k hk with hm | ⟨c, hc⟩
    · exact hm
    · rw [findLoopEnd_none_of_firstViolation p 0 c hv (Nat.zero_le _)] at hc
      exact absurd hc (by simp)
  · exact compileMain_loops p _ hcomp i d hi hd

/-- C3 at the program `+[-]`: one entry test (at the start of block 3), one back-edge (the
branch to block 3 that ends block 4, the body) and one merge block (block 5, where the final
branch to `return` is emitted). -/
theorem loops_one_test_backEdge_merge_witness :
    WellFormed [Instruction.increment, Instruction.startLoop, Instruction.decrement,
      Instruction.endLoop]
    ∧ (∃ m, compileMain [Instruction.increment, Instruction.startLoop, Instruction.decrement,
          Instruction.endLoop] = some (Except.ok m)
        ∧ countInsts isEntryTest m.blocks = [Instruction.increment, Instruction.startLoop,
            Instruction.decrement, Instruction.endLoop].count Instruction.startLoop
        ∧ countInsts (isBackEdge m.function) m.blocks = [Instruction.increment,
            Instruction.startLoop, Instruction.decrement, Instruction.endLoop].count
              Instruction.startLoop
        ∧ countBlocks BlockName.merge m.blocks = [Instruction.increment,
            Instruction.startLoop, Instruction.decrement, Instruction.endLoop].count
              Instruction.startLoop)
    ∧ (∃ m, compileMain [Instruction.increment, Instruction.startLoop, Instruction.decrement,
          Instruction.endLoop] = some (Except.ok m)
        ∧ countInsts isEntryTest m.blocks = 1
        ∧ countInsts (isBackEdge m.function) m.blocks = 1
        ∧ countBlocks BlockName.merge m.blocks = 1
        ∧ m.function = [0, 3, 4, 5, errorBlock, returnBlock]
        ∧ fetch m.blocks 0 1 = some (Inst.br 3)
        ∧ fetch m.blocks 3 0 = some (Inst.condBrContinueLoop 4 5)
        ∧ fetch m.blocks 4 1 = some (Inst.br 3)
        ∧ fetch m.blocks 5 0 = some (Inst.br returnBlock)) := by
  refine ⟨by decide, ?_, ⟨_, rfl, by decide, by decide, by decide, by decide, by decide,
    by decide, by decide, by decide⟩⟩
  obtain ⟨m, h1, h2, h3, h4, _⟩ := loops_one_test_backEdge_merge
    [Instruction.increment, Instruction.startLoop, Instruction.decrement, Instruction.endLoop]
    (by decide)
  exact ⟨m, h1, h2, h3, h4⟩

/-! ## Growth of the tape -/

theorem realloc_getElem? (junk : Nat → Nat) (cells : List Nat) (size i : Nat)
    (hi : i < cells.length) (hs : cells.length ≤ size) :
    (realloc junk cells size)[i]? = cells[i]? := by
  unfold realloc
  rw [List.getElem?_map, List.getElem?_range (by omega)]
  simp only [Option.map_some', if_pos hi]
  rw [List.getD_eq_getElem?_getD, List.getElem?_eq_getElem hi]
  rfl

/-- C11: with an allocator that gives no block of `2 ^ 63` bytes or more, in every tape
state `r` that a generated program can be in after `k` growth events: the tape started with
capacity 4; a call of `moveRight` is a growth event exactly when the pointer it has
incremented equals the capacity; a growth event doubles the capacity exactly and makes the
allocated block that large, and is then the growth event number `k + 1`; no other operation
changes the capacity; so the capacity is `4 * 2 ^ k`. There are at most 60 growth events. -/
theorem capacity_after_growth (junk : Nat → Nat) (grants : Nat → Bool)
    (stdin : List (List Nat)) (hbound : ∀ size, grants size = true → size < 2 ^ 63)
    (k : Nat) (r : Runtime) (h : TapeReachable junk grants stdin k r) :
    (initialRuntime junk stdin).cellsLength = 4
    ∧ (growthEvent r ↔ 1 + r.currentCell = r.cellsLength)
    ∧ (∀ r1, moveRightOrNull junk grants r = some r1 →
        r1.currentCell = 1 + r.currentCell
        ∧ (growthEvent r ↔ r1.currentCell = r.cellsLength)
        ∧ (growthEvent r → r1.cellsLength = 2 * r.cellsLength
            ∧ r1.cells.length = 2 * r.cellsLength
            ∧ TapeReachable junk grants stdin (k + 1) r1)
        ∧ (¬ growthEvent r → r1.cellsLength = r.cellsLength ∧ r1.cells = r.cells
            ∧ TapeReachable junk grants stdin k r1))
    ∧ (∀ r1, TapeStep junk grants r r1 →
        ¬ (growthEvent r ∧ moveRightOrNull junk grants r = some r1) →
        r1.cellsLength = r.cellsLength)
    ∧ r.cellsLength = 4 * 2 ^ k
    ∧ k ≤ 60 := by
  have h63 : (2 : Nat) ^ 63 = 9223372036854775808 := by norm_num
  obtain ⟨hlen, hlt, hcap, hsmall, _⟩ := tapeReachable_invariant junk grants stdin hbound k r h
  have hmod : (1 + r.currentCell) % wordSize = 1 + r.currentCell := by
    rw [wordSize_eq]
    exact Nat.mod_eq_of_lt (by omega)
  have hiff : growthEvent r ↔ 1 + r.currentCell = r.cellsLength := by
    unfold growthEvent
    rw [hmod]
  refine ⟨rfl, hiff, fun r1 hm => ?_, fun r1 hs hg =>
    (tapeStep_cellsLength junk grants r r1 hs hg).1, hcap, ?_⟩
  · obtain ⟨hr1, _⟩ := moveRightOrNull_eq junk grants r r1 hm
    have hcc : r1.currentCell = 1 + r.currentCell := by
      rw [hr1, moveRight_currentCell, hmod]
    refine ⟨hcc, by rw [hiff, hcc], fun hg => ?_, fun hg => ?_⟩
    · have hreach := TapeReachable.grow k r r1 h hg hm
      obtain ⟨hlen1, _, hcap1, _⟩ :=
        tapeReachable_invariant junk grants stdin hbound (k + 1) r1 hreach
      have : r1.cellsLength = 2 * r.cellsLength := by
        rw [hcap1, hcap, pow_succ]; ring
      exact ⟨this, by rw [hlen1, this], hreach⟩
    · have hreach := TapeReachable.step k r r1 h (TapeStep.moveRight r r1 hm)
        (fun hc => hg hc.1)
      refine ⟨(tapeStep_cellsLength junk grants r r1 (TapeStep.moveRight r r1 hm)
        (fun hc => hg hc.1)).1, ?_, hreach⟩
      unfold growthEvent at hg
      rw [hr1]
      unfold moveRight
      simp only [if_neg hg]
  · by_contra hk
    have h1 : 2 ^ 61 ≤ 2 ^ k := Nat.pow_le_pow_right (by norm_num) (by omega)
    have h2 : (2 : Nat) ^ 61 = 2305843009213693952 := by norm_num
    omega

/-- C11 at the state after four moves to the right from the start, the fourth of them the
first growth event, with an allocator that gives blocks of up to 64 bytes: the capacity
is 8. -/
theorem capacity_after_growth_witness :
    (∀ size, (fun size => decide (size ≤ 64)) size = true → size < 2 ^ 63)
    ∧ TapeReachable (fun _ => 0) (fun size => decide (size ≤ 64)) [] 1
      ((moveRight (fun _ => 0))^[4] (initialRuntime (fun _ => 0) []))
    ∧ ((moveRight (fun _ => 0))^[4] (initialRuntime (fun _ => 0) [])).cellsLength = 8
    ∧ ((moveRight (fun _ => 0))^[4] (initialRuntime (fun _ => 0) [])).cellsLength
        = 4 * 2 ^ 1 := by
  have hb : ∀ size, (fun size => decide (size ≤ 64)) size = true → size < 2 ^ 63 :=
    fun size h => lt_of_le_of_lt (of_decide_eq_true h) (by norm_num)
  have h : TapeReachable (fun _ => 0) (fun size => decide (size ≤ 64)) [] 1
      ((moveRight (fun _ => 0))^[4] (initialRuntime (fun _ => 0) [])) := by
    have s0 := @TapeReachable.initial (fun _ => 0) (fun size => decide (size ≤ 64)) []
    have s1 := TapeReachable.step 0 _ _ s0 (TapeStep.moveRight _ _ rfl) (by decide)
    have s2 := TapeReachable.step 0 _ _ s1 (TapeStep.moveRight _ _ rfl) (by decide)
    have s3 := TapeReachable.step 0 _ _ s2 (TapeStep.moveRight _ _ rfl) (by decide)
    exact TapeReachable.grow 0 _ _ s3 (by decide) rfl
  exact ⟨hb, h, by decide,
    (capacity_after_growth (fun _ => 0) (fun size => decide (size ≤ 64)) [] hb 1 _
      h).2.2.2.2.1⟩

/-- C12: with an allocator that gives no block of `2 ^ 63` bytes or more, on every tape
state (a block of the size the capacity says, given by the allocator), a move to the right
that leads to a tape state, with or without a growth event, leaves every cell below the old
capacity as it was, does not decrease the capacity, leads to a tape state again, sets the
pointer to the incremented one, and changes nothing of the input cursor, the input still to
be read, the output and the error stream; without a growth event the cells are the same. -/
theorem moveRight_keeps_cells (junk : Nat → Nat) (grants : Nat → Bool) (r r1 : Runtime)
    (hbound : ∀ size, grants size = true → size < 2 ^ 63)
    (htape : TapeState grants r) (hmove : moveRightOrNull junk grants r = some r1) :
    (∀ i, i < r.cellsLength → r1.cells[i]? = r.cells[i]?)
    ∧ r.cellsLength ≤ r1.cellsLength
    ∧ TapeState grants r1
    ∧ (¬ growthEvent r → r1.cells = r.cells ∧ r1.cellsLength = r.cellsLength)
    ∧ r1.currentCell = (1 + r.currentCell) % wordSize
    ∧ r1.currentLine = r.currentLine
    ∧ r1.currentPosition = r.currentPosition
    ∧ r1.stdin = r.stdin
    ∧ r1.stdout = r.stdout
    ∧ r1.stderr = r.stderr := by
  have h63 : (2 : Nat) ^ 63 = 9223372036854775808 := by norm_num
  obtain ⟨hlen, hgiven⟩ := htape
  have hcap : r.cellsLength < 2 ^ 63 := by
    rcases hgiven with h4 | hg
    · rw [h4]; norm_num
    · exact hbound _ hg
  obtain ⟨rfl, hgr⟩ := moveRightOrNull_eq junk grants r _ hmove
  have hmod : (2 * r.cellsLength) % wordSize = 2 * r.cellsLength := by
    rw [wordSize_eq]
    exact Nat.mod_eq_of_lt (by omega)
  refine ⟨fun i hi => ?_, ?_, ⟨moveRight_cells_length junk r hlen, ?_⟩, fun hg => ?_,
    moveRight_currentCell junk r, ?_, ?_, ?_, ?_, ?_⟩
  · unfold moveRight
    simp only
    split
    · simp only
      rw [hmod]
      exact realloc_getElem? junk r.cells _ i (by omega) (by omega)
    · rfl
  · rw [moveRight_cellsLength]
    split
    · rw [hmod]; omega
    · exact le_refl _
  · rw [moveRight_cellsLength]
    by_cases hg : (1 + r.currentCell) % wordSize = r.cellsLength
    · rw [if_pos hg]
      exact Or.inr (hgr hg)
    · rw [if_neg hg]
      exact hgiven
  · unfold growthEvent at hg
    unfold moveRight
    simp only [if_neg hg]
    exact ⟨trivial, trivial⟩
  all_goals
    unfold moveRight
    simp only
    split <;> rfl

/-- C12 at the tape `[7, 8, 9, 10]` with the pointer on its last cell and an allocator that
gives blocks of up to 64 bytes: the move to the right is a growth event, and the four cells
are as they were. -/
theorem moveRight_keeps_cells_witness :
    (∀ size, (fun size => decide (size ≤ 64)) size = true → size < 2 ^ 63)
    ∧ TapeState (fun size => decide (size ≤ 64))
        { cells := [7, 8, 9, 10], cellsLength := 4, currentCell := 3, currentLine := [],
          currentPosition := 0, stdin := [], stdout := [], stderr := [] }
    ∧ moveRightOrNull (fun _ => 0) (fun size => decide (size ≤ 64))
        { cells := [7, 8, 9, 10], cellsLength := 4, currentCell := 3, currentLine := [],
          currentPosition := 0, stdin := [], stdout := [], stderr := [] }
      = some
        { cells := [7, 8, 9, 10, 0, 0, 0, 0], cellsLength := 8, currentCell := 4,
          currentLine := [], currentPosition := 0, stdin := [], stdout := [], stderr := [] }
    ∧ (∀ i, i < 4 → [7, 8, 9, 10, 0, 0, 0, 0][i]? = [7, 8, 9, 10][i]?)
    ∧ moveRightOrNull (fun _ => 0) (fun size => decide (size ≤ 4))
        { cells := [7, 8, 9, 10], cellsLength := 4, currentCell := 3, currentLine := [],
          currentPosition := 0, stdin := [], stdout := [], stderr := [] } = none :=
  ⟨fun size h => lt_of_le_of_lt (of_decide_eq_true h) (by norm_num),
    ⟨rfl, Or.inl rfl⟩, by decide,
    (moveRight_keeps_cells (fun _ => 0) (fun size => decide (size ≤ 64))
      { cells := [7, 8, 9, 10], cellsLength := 4, currentCell := 3, currentLine := [],
        currentPosition := 0, stdin := [], stdout := [], stderr := [] }
      { cells := [7, 8, 9, 10, 0, 0, 0, 0], cellsLength := 8, currentCell := 4,
        currentLine := [], currentPosition := 0, stdin := [], stdout := [], stderr := [] }
      (fun size h => lt_of_le_of_lt (of_decide_eq_true h) (by norm_num))
      ⟨rfl, Or.inl rfl⟩ (by decide)).1, by decide⟩

/-! ## The input cursor -/

theorem input_currentPosition (r : Runtime) :
    (input r).currentPosition
      = if byteAt r.currentLine r.currentPosition = 0 then 1 else r.currentPosition + 1 := by
  unfold input
  simp only
  split <;> rfl

theorem input_currentLine (r : Runtime) :
    (input r).currentLine
      = if byteAt r.currentLine r.currentPosition = 0 then (getline r.stdin).1
        else r.currentLine := by
  unfold input
  simp only
  split <;> rfl

theorem input_stdin (r : Runtime) :
    (input r).stdin
      = if byteAt r.currentLine r.currentPosition = 0 then (getline r.stdin).2
        else r.stdin := by
  unfold input
  simp only
  split <;> rfl

theorem input_cells (r : Runtime) :
    (input r).cells
      = r.cells.set r.currentCell (byteAt (input r).currentLine (input r).currentPosition) := by
  unfold input
  simp only
  split <;> rfl

theorem input_streams (r : Runtime) :
    (input r).stdout = r.stdout ∧ (input r).stderr = r.stderr := by
  unfold input
  simp only
  split <;> exact ⟨rfl, rfl⟩

/-- Before the first call of `input` the input cursor is as `main` set it up: at the start
of the empty string. -/
theorem beforeInput_cursor (junk : Nat → Nat) (stdin : List (List Nat)) (r : Runtime)
    (h : BeforeInput junk stdin r) :
    r.currentLine = [] ∧ r.currentPosition = 0 ∧ r.stdin = stdin := by
  induction h with
  | initial => exact ⟨rfl, rfl, rfl⟩
  | step r r1 _ hs hne ih =>
    cases hs with
    | moveRight =>
      refine ⟨?_, ?_, ?_⟩ <;> (unfold moveRight; simp only; split <;> simp only [ih])
    | moveLeft h0 => exact ih
    | addCellValue k => exact ih
    | subCellValue k => exact ih
    | putchar => exact ih
    | input => exact absurd rfl hne
    | fputsError => exact ih

/-- C13: a call of `input` on the state `r` reads a new line, and takes the offset back to
its start, exactly when the byte at the current offset is the terminator, which it is in
every state `r0` before the first call of `input` of a program; it then advances the offset
by one (so to 1 after a refill), stores the byte at the new offset into the current cell,
and leaves every other cell, the size of the tape, the pointer, the capacity, the output and
the error stream as they were. -/
theorem input_contract (junk : Nat → Nat) (stdin : List (List Nat)) (r0 r : Runtime)
    (h0 : BeforeInput junk stdin r0) :
    byteAt r0.currentLine r0.currentPosition = 0
    ∧ (input r0).currentLine = (getline stdin).1
    ∧ (byteAt r.currentLine r.currentPosition = 0 →
        (input r).currentLine = (getline r.stdin).1 ∧ (input r).stdin = (getline r.stdin).2
        ∧ (input r).currentPosition = 1)
    ∧ (byteAt r.currentLine r.currentPosition ≠ 0 →
        (input r).currentLine = r.currentLine ∧ (input r).stdin = r.stdin
        ∧ (input r).currentPosition = r.currentPosition + 1)
    ∧ (input r).cells
        = r.cells.set r.currentCell (byteAt (input r).currentLine (input r).currentPosition)
    ∧ (r.currentCell < r.cells.length →
        (input r).cells[r.currentCell]?
          = some (byteAt (input r).currentLine (input r).currentPosition))
    ∧ (∀ i, i ≠ r.currentCell → (input r).cells[i]? = r.cells[i]?)
    ∧ (input r).cells.length = r.cells.length
    ∧ (input r).currentCell = r.currentCell
    ∧ (input r).cellsLength = r.cellsLength
    ∧ (input r).stdout = r.stdout
    ∧ (input r).stderr = r.stderr := by
  obtain ⟨b1, b2, b3⟩ := beforeInput_cursor junk stdin r0 h0
  have hterm : byteAt r0.currentLine r0.currentPosition = 0 := by
    rw [b1, b2]; rfl
  refine ⟨hterm, ?_, fun h => ?_, fun h => ?_, input_cells r, fun h => ?_, fun i hi => ?_,
    input_cells_length r, input_currentCell r, input_cellsLength r, (input_streams r).1,
    (input_streams r).2⟩
  · rw [input_currentLine, if_pos hterm, b3]
  · rw [input_currentLine, input_stdin, input_currentPosition, if_pos h, if_pos h, if_pos h]
    exact ⟨rfl, rfl, rfl⟩
  · rw [input_currentLine, input_stdin, input_currentPosition, if_neg h, if_neg h, if_neg h]
    exact ⟨rfl, rfl, rfl⟩
  · rw [input_cells, List.getElem?_set_self h]
  · rw [input_cells, List.getElem?_set_ne (Ne.symm hi)]

/-- C13 at the start of a program that reads the lines `AB` and `C`: the first call of
`input` reads the first line and stores the byte at offset 1, `B`; the second call, on a
byte that is no terminator, stores the byte at offset 2, the newline. -/
theorem input_contract_witness :
    BeforeInput (fun _ => 0) [[65, 66, 10], [67, 10]]
      (initialRuntime (fun _ => 0) [[65, 66, 10], [67, 10]])
    ∧ (input (initialRuntime (fun _ => 0) [[65, 66, 10], [67, 10]])).currentLine
        = [65, 66, 10]
    ∧ (input (initialRuntime (fun _ => 0) [[65, 66, 10], [67, 10]])).cells = [66, 0, 0, 0]
    ∧ (input (input (initialRuntime (fun _ => 0) [[65, 66, 10], [67, 10]]))).cells
        = [10, 0, 0, 0]
    ∧ (input (input (initialRuntime (fun _ => 0) [[65, 66, 10], [67, 10]]))).stdin
        = [[67, 10]] :=
  ⟨BeforeInput.initial,
    (input_contract (fun _ => 0) [[65, 66, 10], [67, 10]] _
      (initialRuntime (fun _ => 0) [[65, 66, 10], [67, 10]]) BeforeInput.initial).2.1,
    by decide, by decide, by decide⟩

/-- C14: a call of `input` that refills the buffer stores the byte at offset 1 of the new
line; every call of `input` reads at an offset of at least 1, so no call returns the byte at
offset 0 of a buffer, and a call that does not refill reads one byte further than the call
before it. The program `,.` on the input line `A`, newline: it compiles, and its run ends
after four steps with status 0, the newline (10) in cell 0 and on the output, not `A`
(65). -/
theorem input_skips_first_byte (junk : Nat → Nat) (r : Runtime) :
    (byteAt r.currentLine r.currentPosition = 0 →
        (input r).currentLine = (getline r.stdin).1
        ∧ (input r).cells = r.cells.set r.currentCell (byteAt (getline r.stdin).1 1))
    ∧ 1 ≤ (input r).currentPosition
    ∧ (input r).cells
        = r.cells.set r.currentCell (byteAt (input r).currentLine (input r).currentPosition)
    ∧ (byteAt r.currentLine r.currentPosition ≠ 0 →
        (input r).currentLine = r.currentLine
        ∧ (input r).currentPosition = r.currentPosition + 1)
    ∧ ∃ m, compileMain (sourceFilter [',', '.']) = some (Except.ok m)
        ∧ ∃ r1, run m.blocks junk 4 (startConfig junk [[65, 10]])
            = some (Outcome.exit 0 r1)
          ∧ r1.cells[0]? = some 10 ∧ r1.stdout = [10] ∧ r1.currentLine = [65, 10]
          ∧ r1.currentPosition = 1 := by
  refine ⟨fun h => ?_, ?_, input_cells r, fun h => ?_, ?_⟩
  · have hl : (input r).currentLine = (getline r.stdin).1 := by
      rw [input_currentLine, if_pos h]
    refine ⟨hl, ?_⟩
    rw [input_cells, hl, input_currentPosition, if_pos h]
  · rw [input_currentPosition]
    split <;> omega
  · rw [input_currentLine, input_currentPosition, if_neg h, if_neg h]
    exact ⟨rfl, rfl⟩
  · refine ⟨_, rfl, _, rfl, ?_, ?_, rfl, rfl⟩
    · rfl
    · rfl

/-- C14 at the first call of `input` of a program that reads the line `A`, newline: the call
refills the buffer and stores the newline, the byte at offset 1. -/
theorem input_skips_first_byte_witness :
    byteAt (initialRuntime (fun _ => 0) [[65, 10]]).currentLine
        (initialRuntime (fun _ => 0) [[65, 10]]).currentPosition = 0
    ∧ (input (initialRuntime (fun _ => 0) [[65, 10]])).currentLine = [65, 10]
    ∧ (input (initialRuntime (fun _ => 0) [[65, 10]])).cells = [10, 0, 0, 0]
    ∧ 1 ≤ (input (initialRuntime (fun _ => 0) [[65, 10]])).currentPosition :=
  ⟨by decide,
    ((input_skips_first_byte (fun _ => 0) (initialRuntime (fun _ => 0) [[65, 10]])).1
      (by decide)).1,
    by decide,
    (input_skips_first_byte (fun _ => 0) (initialRuntime (fun _ => 0) [[65, 10]])).2.1⟩

/-! ## The program `++++` -/

/-- C16 as stated fails: the tape is allocated with `malloc`, which does not set its bytes;
when cell 0 happens to hold 1, the run of `++++` ends with cell 0 holding 5. -/
theorem four_increments_counterexample :
    ∃ m r, compileMain (sourceFilter ['+', '+', '+', '+']) = some (Except.ok m)
      ∧ run m.blocks (fun _ => 1) 3 (startConfig (fun _ => 1) []) = some (Outcome.exit 0 r)
      ∧ r.cells[0]? = some 5 ∧ r.cells[0]? ≠ some 4 :=
  ⟨_, _, rfl, rfl, by decide, by decide⟩

/-- C16, amended: the source `++++` is four increments, and the program compiled from it is
one add of 4 to the current cell followed by the branch to `return`; run from the initial
runtime state (capacity 4, pointer 0) it ends after three steps with status 0, the pointer
still 0, and cell 0 holding `(v + 4) % 256`, where `v` is what the allocation left in cell
0: the value 4 when that is 0. The other cells are as the allocation left them. -/
theorem four_increments (junk : Nat → Nat) (stdin : List (List Nat)) :
    sourceFilter ['+', '+', '+', '+'] = List.replicate 4 Instruction.increment
    ∧ ∃ m, compileMain (sourceFilter ['+', '+', '+', '+']) = some (Except.ok m)
      ∧ m.blocks
        = [{ name := BlockName.entry, insts := [Inst.addCellValue 4, Inst.br returnBlock] },
            { name := BlockName.error,
              insts := [Inst.callFputsError, Inst.br returnBlock] },
            { name := BlockName.ret, insts := [Inst.retPhi 0 errorBlock] }]
      ∧ (initialRuntime junk stdin).cells[0]? = some (junk 0 % 256)
      ∧ ∃ r, run m.blocks junk 3 (startConfig junk stdin) = some (Outcome.exit 0 r)
        ∧ r = addCellValue 4 (initialRuntime junk stdin)
        ∧ r.cells[0]? = some ((junk 0 % 256 + 4) % 256)
        ∧ (junk 0 % 256 = 0 → r.cells[0]? = some 4)
        ∧ (∀ i, i ≠ 0 → r.cells[i]? = (initialRuntime junk stdin).cells[i]?)
        ∧ r.currentCell = 0 ∧ r.cellsLength = 4 := by
  refine ⟨rfl, _, rfl, rfl, rfl, _, rfl, rfl, rfl, fun h => ?_, fun i hi => ?_, rfl, rfl⟩
  · show (addCellValue 4 (initialRuntime junk stdin)).cells[0]? = some 4
    have : (addCellValue 4 (initialRuntime junk stdin)).cells[0]?
        = some ((junk 0 % 256 + 4) % 256) := rfl
    rw [this, h]
  · show ((initialRuntime junk stdin).cells.set 0 _)[i]? = _
    rw [List.getElem?_set_ne (Ne.symm hi)]

/-- The amended C16 when the allocation leaves 0 in every cell: the run ends with cell 0
holding 4. -/
theorem four_increments_witness :
    ∃ m r, compileMain (sourceFilter ['+', '+', '+', '+']) = some (Except.ok m)
      ∧ run m.blocks (fun _ => 0) 3 (startConfig (fun _ => 0) []) = some (Outcome.exit 0 r)
      ∧ r.cells = [4, 0, 0, 0] := by
  obtain ⟨_, m, h1, _, _, r, h2, h3, _⟩ := four_increments (fun _ => 0) []
  exact ⟨m, r, h1, h2, by rw [h3]; decide⟩

/-! ## The outcome of the top-level emission -/

/-- C18: the top-level emission returns, and what it returns is the first violation of
nesting met from the left: `noLoopStart` exactly when some prefix of the program holds more
loop ends than loop starts, `noLoopEnd` exactly when no prefix does and the program holds
more loop starts than loop ends, and success exactly in the remaining case, that of a
well-formed program. An activation that meets a loop start it does not own and whose nested
activation returns an error returns that same error. -/
theorem emission_outcome (p : List Instruction) :
    ∃ r, generateIRTop p = some r
      ∧ r.error = firstViolation p 0
      ∧ (r.error = some ParseError.noLoopStart ↔
          ∃ k, k ≤ p.length
            ∧ (p.take k).count Instruction.startLoop < (p.take k).count Instruction.endLoop)
      ∧ (r.error = some ParseError.noLoopEnd ↔
          (¬ ∃ k, k ≤ p.length
            ∧ (p.take k).count Instruction.startLoop < (p.take k).count Instruction.endLoop)
          ∧ p.count Instruction.endLoop < p.count Instruction.startLoop)
      ∧ (r.error = none ↔ WellFormed p)
      ∧ ∀ (fuel loopStart : Nat) (frame : Option LoopFrame) (s : IRState) (inner : Emitted)
          (e : ParseError),
          p[s.currentInstruction]? = some Instruction.startLoop →
          loopStart ≠ s.currentInstruction →
          generateIRLoop p errorBlock fuel s.currentInstruction none s = some inner →
          inner.error = some e →
          generateIRLoop p errorBlock (fuel + 1) loopStart frame s
            = some { error := some e, state := inner.state } := by
  obtain ⟨r, hr, he, _⟩ := generateIRTop_outcome p
  have hstart := firstViolation_eq_noLoopStart_iff p 0
  simp only [Nat.add_zero] at hstart
  refine ⟨r, hr, he, ?_, ?_, ?_, ?_⟩
  · rw [he]; exact hstart
  · rw [he]
    constructor
    · intro h
      have h1 : firstViolation p 0 ≠ some ParseError.noLoopStart := by rw [h]; simp
      refine ⟨fun hk => h1 (hstart.mpr hk), ?_⟩
      simpa using (firstViolation_eq_noLoopEnd p 0 h1).1.mp h
    · rintro ⟨h1, h2⟩
      exact (firstViolation_eq_noLoopEnd p 0 (fun h => h1 (hstart.mp h))).1.mpr
        (by simpa using h2)
  · rw [he]
    constructor
    · intro h
      have h1 : firstViolation p 0 ≠ some ParseError.noLoopStart := by rw [h]; simp
      have h2 := (firstViolation_eq_noLoopEnd p 0 h1).2.mp h
      refine ⟨by simpa using h2.symm, fun k hk => ?_⟩
      by_contra hc
      exact h1 (hstart.mpr ⟨k, hk, by omega⟩)
    · exact firstViolation_of_wellFormed p
  · intro fuel loopStart frame s inner e hget hown hinner herr
    rw [generateIRLoop_nested _ _ _ _ _ _ hget hown, hinner]
    simp only [herr]

/-- C18 at the programs `][`, `[[]` and `[]`: the first fails with `noLoopStart` although it
holds as many loop starts as loop ends, the second with `noLoopEnd`, raised by the activation
nested in the top-level one, and the third succeeds. -/
theorem emission_outcome_witness :
    (∃ r, generateIRTop [Instruction.endLoop, Instruction.startLoop] = some r
      ∧ r.error = some ParseError.noLoopStart)
    ∧ (∃ r, generateIRTop [Instruction.startLoop, Instruction.startLoop,
          Instruction.endLoop] = some r
      ∧ r.error = some ParseError.noLoopEnd)
    ∧ (∃ r, generateIRTop [Instruction.startLoop, Instruction.endLoop] = some r
      ∧ r.error = none) := by
  refine ⟨?_, ?_, ?_⟩
  · obtain ⟨r, h1, h2, _⟩ := emission_outcome [Instruction.endLoop, Instruction.startLoop]
    exact ⟨r, h1, h2.trans (by decide)⟩
  · exact ⟨_, rfl, by decide⟩
  · exact ⟨_, rfl, by decide⟩

/-! ## Termination of the emission -/

/-- More rounds than an activation needs do not change what it returns. -/
theorem generateIRLoop_mono (instructions : List Instruction) (errorBlock : Nat)
    (fuel : Nat) : ∀ (more loopStart : Nat) (frame : Option LoopFrame) (s : IRState)
      (r : Emitted), fuel ≤ more →
    generateIRLoop instructions errorBlock fuel loopStart frame s = some r →
    generateIRLoop instructions errorBlock more loopStart frame s = some r := by
  induction fuel with
  | zero => intro _ _ _ _ _ _ h; simp [generateIRLoop] at h
  | succ fuel ih =>
    intro more loopStart frame s r hle h
    obtain ⟨more, rfl⟩ : ∃ m, more = m + 1 := ⟨more - 1, by omega⟩
    have hle1 : fuel ≤ more := by omega
    cases hget : instructions[s.currentInstruction]? with
    | none =>
      rw [generateIRLoop_end _ _ _ _ _ _ hget] at h ⊢
      exact h
    | some i =>
      rcases i.simple_or_bracket with hi | rfl | rfl
      · rw [generateIRLoop_simple _ _ _ _ _ _ _ hget hi] at h ⊢
        exact ih _ _ _ _ _ hle1 h
      · by_cases hown : loopStart = s.currentInstruction
        · rw [generateIRLoop_open _ _ _ _ _ _ hget hown] at h ⊢
          exact ih _ _ _ _ _ hle1 h
        · rw [generateIRLoop_nested _ _ _ _ _ _ hget hown] at h ⊢
          cases hin : generateIRLoop instructions errorBlock fuel s.currentInstruction none s
            with
          | none => simp [hin] at h
          | some inner =>
            rw [ih _ _ _ _ _ hle1 hin]
            simp only [hin] at h ⊢
            cases herr : inner.error with
            | some e => simpa [herr] using h
            | none =>
              simp only [herr] at h ⊢
              exact ih _ _ _ _ _ hle1 h
      · rw [generateIRLoop_close _ _ _ _ _ _ hget] at h ⊢
        exact h

/-- Every activation returns within a number of rounds that the number of instructions from
the cursor on bounds: two for each of them and one more, and one less for the activation
that starts on its own loop start. -/
theorem generateIRLoop_returns (instructions : List Instruction) (errorBlock : Nat)
    (fuel : Nat) : ∀ (loopStart : Nat) (frame : Option LoopFrame) (s : IRState),
    2 * (instructions.length - s.currentInstruction)
      + (if loopStart = s.currentInstruction
          ∧ instructions[s.currentInstruction]? = some Instruction.startLoop then 0 else 1)
      ≤ fuel →
    ∃ r, generateIRLoop instructions errorBlock fuel loopStart frame s = some r := by
  induction fuel using Nat.strong_induction_on with
  | _ fuel ih =>
    intro loopStart frame s hfuel
    cases hget : instructions[s.currentInstruction]? with
    | none =>
      rw [hget] at hfuel
      obtain ⟨fuel, rfl⟩ : ∃ m, fuel = m + 1 := ⟨fuel - 1, by simp at hfuel; omega⟩
      exact ⟨_, generateIRLoop_end _ _ _ _ _ _ hget⟩
    | some i =>
      have hlt : s.currentInstruction < instructions.length :=
        (List.getElem?_eq_some.mp hget).1
      have hpos : 2 ≤ fuel := by
        have : 0 ≤ (if loopStart = s.currentInstruction
          ∧ instructions[s.currentInstruction]? = some Instruction.startLoop then 0 else 1) :=
          Nat.zero_le _
        omega
      obtain ⟨fuel, rfl⟩ : ∃ m, fuel = m + 1 := ⟨fuel - 1, by omega⟩
      have next : ∀ (t : IRState) (l : Nat) (f : Option LoopFrame),
          s.currentInstruction < t.currentInstruction →
          ∃ r, generateIRLoop instructions errorBlock fuel l f t = some r := by
        intro t l f ht
        refine ih fuel (by omega) l f t ?_
        have : (if l = t.currentInstruction
            ∧ instructions[t.currentInstruction]? = some Instruction.startLoop then 0 else 1)
            ≤ 1 := by split <;> omega
        omega
      rcases i.simple_or_bracket with hi | rfl | rfl
      · rw [generateIRLoop_simple _ _ _ _ _ _ _ hget hi]
        exact next _ _ _ (simpleRound_cursor instructions errorBlock s i hget hi).1
      · by_cases hown : loopStart = s.currentInstruction
        · rw [generateIRLoop_open _ _ _ _ _ _ hget hown]
          exact next _ _ _ (by simp only [IRState.advance, openLoop_cursor]; omega)
        · rw [generateIRLoop_nested _ _ _ _ _ _ hget hown]
          rw [hget, if_neg (fun h => hown h.1)] at hfuel
          obtain ⟨inner, hin⟩ := ih fuel (by omega) s.currentInstruction none s
            (by rw [hget, if_pos ⟨rfl, rfl⟩]; omega)
          rw [hin]
          cases herr : inner.error with
          | some e => exact ⟨{ error := some e, state := inner.state }, by simp only [herr]⟩
          | none =>
            simp only [herr]
            have := generateIRLoop_cursor_mono _ _ _ _ _ _ _ hin
            exact next _ _ _ (by simp only [IRState.advance]; omega)
      · rw [generateIRLoop_close _ _ _ _ _ _ hget]
        cases frame with
        | none => exact ⟨_, rfl⟩
        | some f => exact ⟨_, rfl⟩

/-- C20: the emission terminates on every program, well formed or not: every activation of
`generateIR`, whatever its cursor, owned loop and locals, returns within a number of rounds
that only the number of instructions from the cursor on bounds (two for each, and one
more), and what it returns does not depend on how many more rounds it is allowed; so
`generateIR` and the top-level call `generateIR()` return on every program. -/
theorem generateIR_total (instructions : List Instruction) (errorBlock loopStart : Nat)
    (frame : Option LoopFrame) (s : IRState) :
    (∃ r, ∀ fuel, fuelFor instructions s.currentInstruction ≤ fuel →
        generateIRLoop instructions errorBlock fuel loopStart frame s = some r)
    ∧ (∃ r, generateIR instructions errorBlock loopStart s = some r)
    ∧ (∃ r, generateIRTop instructions = some r) := by
  have bound : ∀ (l : Nat) (f : Option LoopFrame),
      2 * (instructions.length - s.currentInstruction)
        + (if l = s.currentInstruction
            ∧ instructions[s.currentInstruction]? = some Instruction.startLoop then 0 else 1)
        ≤ fuelFor instructions s.currentInstruction := by
    intro l f
    unfold fuelFor
    split <;> omega
  obtain ⟨r, hr⟩ := generateIRLoop_returns instructions errorBlock _ loopStart frame s
    (bound loopStart frame)
  refine ⟨⟨r, fun fuel hfuel => generateIRLoop_mono _ _ _ _ _ _ _ _ hfuel hr⟩, ?_, ?_⟩
  · exact generateIRLoop_returns instructions errorBlock _ loopStart none s
      (bound loopStart none)
  · obtain ⟨r, hr, _⟩ := generateIRTop_outcome instructions
    exact ⟨r, hr⟩

/-! ## The cursor during the emission -/

theorem dispatches_end (instructions : List Instruction) (errorBlock : Nat)
    (fuel loopStart : Nat) (frame : Option LoopFrame) (s : IRState)
    (h : instructions[s.currentInstruction]? = none) :
    dispatches instructions errorBlock (fuel + 1) loopStart frame s = [] := by
  simp only [dispatches, h]

theorem dispatches_simple (instructions : List Instruction) (errorBlock : Nat)
    (fuel loopStart : Nat) (frame : Option LoopFrame) (s : IRState) (i : Instruction)
    (h : instructions[s.currentInstruction]? = some i) (hi : i.isSimple) :
    dispatches instructions errorBlock (fuel + 1) loopStart frame s
      = s.currentInstruction
        :: dispatches instructions errorBlock fuel loopStart frame
            (simpleRound instructions errorBlock i s) := by
  obtain ⟨h1, h2⟩ := hi
  cases i
  case startLoop => exact absurd rfl h1
  case endLoop => exact absurd rfl h2
  all_goals simp only [dispatches, h, simpleRound]

theorem dispatches_open (instructions : List Instruction) (errorBlock : Nat)
    (fuel loopStart : Nat) (frame : Option LoopFrame) (s : IRState)
    (h : instructions[s.currentInstruction]? = some Instruction.startLoop)
    (hown : loopStart = s.currentInstruction) :
    dispatches instructions errorBlock (fuel + 1) loopStart frame s
      = s.currentInstruction
        :: dispatches instructions errorBlock fuel loopStart (some (openLoop s).1)
            (openLoop s).2.advance := by
  simp only [dispatches, h, if_pos hown]

theorem dispatches_nested (instructions : List Instruction) (errorBlock : Nat)
    (fuel loopStart : Nat) (frame : Option LoopFrame) (s : IRState)
    (h : instructions[s.currentInstruction]? = some Instruction.startLoop)
    (hown : loopStart ≠ s.currentInstruction) :
    dispatches instructions errorBlock (fuel + 1) loopStart frame s
      = s.currentInstruction
        :: (dispatches instructions errorBlock fuel s.currentInstruction none s
          ++ match generateIRLoop instructions errorBlock fuel s.currentInstruction none s with
            | none => []
            | some inner =>
              match inner.error with
              | some _ => []
              | none =>
                dispatches instructions errorBlock fuel loopStart frame
                  inner.state.advance) := by
  simp only [dispatches, h, if_neg hown]

theorem dispatches_close (instructions : List Instruction) (errorBlock : Nat)
    (fuel loopStart : Nat) (frame : Option LoopFrame) (s : IRState)
    (h : instructions[s.currentInstruction]? = some Instruction.endLoop) :
    dispatches instructions errorBlock (fuel + 1) loopStart frame s
      = [s.currentInstruction] := by
  simp only [dispatches, h]

theorem count_eq_zero_of_lt (l : List Nat) (c : Nat) (h : ∀ j ∈ l, c < j) : l.count c = 0 :=
  List.count_eq_zero.mpr (fun hc => absurd (h c hc) (lt_irrefl c))

theorem count_eq_zero_of_gt (l : List Nat) (c : Nat) (h : ∀ j ∈ l, j < c) : l.count c = 0 :=
  List.count_eq_zero.mpr (fun hc => absurd (h c hc) (lt_irrefl c))

/-- The dispatches of an activation: none before its cursor and none after the cursor it
leaves, in ascending order, no position more than twice, twice a loop start only, and the
loop start that the activation owns once. -/
theorem dispatches_spec (instructions : List Instruction) (errorBlock : Nat) (fuel : Nat) :
    ∀ (loopStart : Nat) (frame : Option LoopFrame) (s : IRState),
    (∀ j ∈ dispatches instructions errorBlock fuel loopStart frame s, s.currentInstruction ≤ j)
    ∧ (∀ r, generateIRLoop instructions errorBlock fuel loopStart frame s = some r →
        ∀ j ∈ dispatches instructions errorBlock fuel loopStart frame s,
          j ≤ r.state.currentInstruction)
    ∧ (dispatches instructions errorBlock fuel loopStart frame s).Pairwise (· ≤ ·)
    ∧ (∀ j, (dispatches instructions errorBlock fuel loopStart frame s).count j ≤ 2
        ∧ (instructions[j]? ≠ some Instruction.startLoop →
          (dispatches instructions errorBlock fuel loopStart frame s).count j ≤ 1))
    ∧ (loopStart = s.currentInstruction →
        (dispatches instructions errorBlock fuel loopStart frame s).count s.currentInstruction
          ≤ 1) := by
  induction fuel with
  | zero =>
    intro loopStart frame s
    simp [dispatches]
  | succ fuel ih =>
    intro loopStart frame s
    -- a round that dispatches once and goes on at a later cursor
    have round : ∀ (t : IRState) (l : Nat) (f : Option LoopFrame),
        s.currentInstruction < t.currentInstruction →
        dispatches instructions errorBlock (fuel + 1) loopStart frame s
          = s.currentInstruction :: dispatches instructions errorBlock fuel l f t →
        (∀ r, generateIRLoop instructions errorBlock (fuel + 1) loopStart frame s = some r →
          generateIRLoop instructions errorBlock fuel l f t = some r) →
        (∀ j ∈ dispatches instructions errorBlock (fuel + 1) loopStart frame s,
            s.currentInstruction ≤ j)
        ∧ (∀ r, generateIRLoop instructions errorBlock (fuel + 1) loopStart frame s = some r →
            ∀ j ∈ dispatches instructions errorBlock (fuel + 1) loopStart frame s,
              j ≤ r.state.currentInstruction)
        ∧ (dispatches instructions errorBlock (fuel + 1) loopStart frame s).Pairwise (· ≤ ·)
        ∧ (∀ j, (dispatches instructions errorBlock (fuel + 1) loopStart frame s).count j ≤ 2
            ∧ (instructions[j]? ≠ some Instruction.startLoop →
              (dispatches instructions errorBlock (fuel + 1) loopStart frame s).count j ≤ 1))
        ∧ (loopStart = s.currentInstruction →
            (dispatches instructions errorBlock (fuel + 1) loopStart frame s).count
              s.currentInstruction ≤ 1) := by
      intro t l f hlt hd hg
      obtain ⟨i1, i2, i3, i4, _⟩ := ih l f t
      have hzero : (dispatches instructions errorBlock fuel l f t).count s.currentInstruction
          = 0 := count_eq_zero_of_lt _ _ (fun j hj => lt_of_lt_of_le hlt (i1 j hj))
      rw [hd]
      refine ⟨fun j hj => ?_, fun r hr j hj => ?_, ?_, fun j => ?_, fun _ => ?_⟩
      · rw [List.mem_cons] at hj
        rcases hj with rfl | hj
        · exact le_refl _
        · exact le_trans (le_of_lt hlt) (i1 j hj)
      · have hr1 := hg r hr
        rw [List.mem_cons] at hj
        rcases hj with rfl | hj
        · exact le_trans (le_of_lt hlt) (generateIRLoop_cursor_mono _ _ _ _ _ _ _ hr1)
        · exact i2 r hr1 j hj
      · rw [List.pairwise_cons]
        exact ⟨fun j hj => le_trans (le_of_lt hlt) (i1 j hj), i3⟩
      · rw [List.count_cons]
        by_cases hjc : s.currentInstruction = j
        · subst hjc
          rw [hzero]
          simp
        · have : (s.currentInstruction == j) = false := by simpa using hjc
          rw [this]
          simpa using i4 j
      · rw [List.count_cons, hzero]
        simp
    cases hget : instructions[s.currentInstruction]? with
    | none =>
      rw [dispatches_end _ _ _ _ _ _ hget]
      simp
    | some i =>
      rcases i.simple_or_bracket with hi | rfl | rfl
      · exact round _ _ _ (simpleRound_cursor instructions errorBlock s i hget hi).1
          (dispatches_simple _ _ _ _ _ _ _ hget hi)
          (fun r hr => by rwa [generateIRLoop_simple _ _ _ _ _ _ _ hget hi] at hr)
      · by_cases hown : loopStart = s.currentInstruction
        · exact round _ _ _ (by simp only [IRState.advance, openLoop_cursor]; omega)
            (dispatches_open _ _ _ _ _ _ hget hown)
            (fun r hr => by rwa [generateIRLoop_open _ _ _ _ _ _ hget hown] at hr)
        · obtain ⟨n1, n2, n3, n4, n5⟩ := ih s.currentInstruction none s
          have n5 := n5 rfl
          rw [dispatches_nested _ _ _ _ _ _ hget hown]
          cases hin : generateIRLoop instructions errorBlock fuel s.currentInstruction none s
            with
          | none =>
            simp only [List.append_nil]
            refine ⟨fun j hj => ?_, fun r hr => ?_, ?_, fun j => ?_, fun h => absurd h hown⟩
            · rw [List.mem_cons] at hj
              rcases hj with rfl | hj
              · exact le_refl _
              · exact n1 j hj
            · rw [generateIRLoop_nested _ _ _ _ _ _ hget hown, hin] at hr
              simp at hr
            · rw [List.pairwise_cons]
              exact ⟨n1, n3⟩
            · rw [List.count_cons]
              by_cases hjc : s.currentInstruction = j
              · subst hjc
                refine ⟨by simp; omega, fun h => absurd hget h⟩
              · have : (s.currentInstruction == j) = false := by simpa using hjc
                rw [this]
                simpa using n4 j
          | some inner =>
            have hmono := generateIRLoop_cursor_mono _ _ _ _ _ _ _ hin
            have n2 := n2 inner hin
            cases herr : inner.error with
            | some e =>
              simp only [herr, List.append_nil]
              refine ⟨fun j hj => ?_, fun r hr j hj => ?_, ?_, fun j => ?_,
                fun h => absurd h hown⟩
              · rw [List.mem_cons] at hj
                rcases hj with rfl | hj
                · exact le_refl _
                · exact n1 j hj
              · rw [generateIRLoop_nested _ _ _ _ _ _ hget hown, hin] at hr
                simp only [herr, Option.some.injEq] at hr
                subst hr
                rw [List.mem_cons] at hj
                rcases hj with rfl | hj
                · exact hmono
                · exact n2 j hj
              · rw [List.pairwise_cons]
                exact ⟨n1, n3⟩
              · rw [List.count_cons]
                by_cases hjc : s.currentInstruction = j
                · subst hjc
                  refine ⟨by simp; omega, fun h => absurd hget h⟩
                · have : (s.currentInstruction == j) = false := by simpa using hjc
                  rw [this]
                  simpa using n4 j
            | none =>
              simp only [herr]
              obtain ⟨o1, o2, o3, o4, _⟩ := ih loopStart frame inner.state.advance
              have hadv : inner.state.advance.currentInstruction
                  = inner.state.currentInstruction + 1 := rfl
              refine ⟨fun j hj => ?_, fun r hr j hj => ?_, ?_, fun j => ?_,
                fun h => absurd h hown⟩
              · rw [List.mem_cons, List.mem_append] at hj
                rcases hj with rfl | hj | hj
                · exact le_refl _
                · exact n1 j hj
                · have := o1 j hj
                  omega
              · rw [generateIRLoop_nested _ _ _ _ _ _ hget hown, hin] at hr
                simp only [herr] at hr
                have hm2 := generateIRLoop_cursor_mono _ _ _ _ _ _ _ hr
                rw [List.mem_cons, List.mem_append] at hj
                rcases hj with rfl | hj | hj
                · omega
                · have := n2 j hj
                  omega
                · exact o2 r hr j hj
              · rw [List.pairwise_cons, List.pairwise_append]
                refine ⟨fun j hj => ?_, n3, o3, fun a ha b hb => ?_⟩
                · rw [List.mem_append] at hj
                  rcases hj with hj | hj
                  · exact n1 j hj
                  · have := o1 j hj
                    omega
                · have := n2 a ha
                  have := o1 b hb
                  omega
              · rw [List.count_cons, List.count_append]
                by_cases hjc : s.currentInstruction = j
                · subst hjc
                  have hz := count_eq_zero_of_lt
                    (dispatches instructions errorBlock fuel loopStart frame
                      inner.state.advance) s.currentInstruction
                    (fun j hj => by have := o1 j hj; omega)
                  rw [hz]
                  refine ⟨by simp; omega, fun h => absurd hget h⟩
                · have hb : (s.currentInstruction == j) = false := by simpa using hjc
                  rw [hb]
                  simp only [Bool.false_eq_true, if_false, Nat.add_zero]
                  by_cases hj : j ≤ inner.state.currentInstruction
                  · have hz := count_eq_zero_of_lt
                      (dispatches instructions errorBlock fuel loopStart frame
                        inner.state.advance) j
                      (fun x hx => by have := o1 x hx; omega)
                    rw [hz]
                    exact n4 j
                  · have hz := count_eq_zero_of_gt
                      (dispatches instructions errorBlock fuel s.currentInstruction none s) j
                      (fun x hx => by have := n2 x hx; omega)
                    rw [hz, Nat.zero_add]
                    exact o4 j
      · rw [dispatches_close _ _ _ _ _ _ hget]
        refine ⟨by simp, fun r hr j hj => ?_, by simp, fun j => ?_, fun _ => by simp⟩
        · rw [generateIRLoop_close _ _ _ _ _ _ hget] at hr
          rw [List.mem_singleton] at hj
          subst hj
          cases frame with
          | none =>
            simp only [Option.some.injEq] at hr
            subst hr
            exact le_refl _
          | some f =>
            simp only [Option.some.injEq] at hr
            subst hr
            exact le_refl _
        · rw [List.count_singleton]
          constructor <;> (intros; split <;> omega)

theorem mergeRun_cursor_le (kind : Instruction) (ahead : List Instruction)
    (count cursor : Nat) : cursor ≤ (mergeRun kind ahead count cursor).2 := by
  induction ahead generalizing count cursor with
  | nil => exact le_refl _
  | cons i ahead ih =>
    unfold mergeRun
    split
    · exact le_trans (Nat.le_succ _) (ih _ _)
    · exact le_refl _

/-- C19 as stated fails: in the emission of `[]` the `switch` is entered twice at position
0, by the top-level activation, which starts a nested activation there, and by that nested
activation, which opens the loop; the emission succeeds. -/
theorem dispatch_counterexample :
    dispatches [Instruction.startLoop, Instruction.endLoop] errorBlock
        (fuelFor [Instruction.startLoop, Instruction.endLoop] 0)
        [Instruction.startLoop, Instruction.endLoop].length none mainStart = [0, 0, 1]
    ∧ (dispatches [Instruction.startLoop, Instruction.endLoop] errorBlock
        (fuelFor [Instruction.startLoop, Instruction.endLoop] 0)
        [Instruction.startLoop, Instruction.endLoop].length none mainStart).count 0 = 2
    ∧ ∃ r, generateIRTop [Instruction.startLoop, Instruction.endLoop] = some r
        ∧ r.error = none :=
  ⟨by decide, by decide, _, rfl, by decide⟩

/-- C19, amended: during the emission the cursor never moves back: no activation returns
with the cursor before the place where it started, the look-ahead of a run leaves the cursor
at or after the place where it started, and the positions at which the top-level activation
and the activations nested in it enter the `switch` come in ascending order, none after the
cursor that the emission leaves. No position is dispatched more than twice, and only a loop
start is dispatched twice (by the activation that meets it and by the activation started for
it). A successful top-level emission leaves the cursor at the end of the program. -/
theorem cursor_never_decreases (p : List Instruction) :
    (∀ (fuel loopStart : Nat) (frame : Option LoopFrame) (s : IRState) (r : Emitted),
        generateIRLoop p errorBlock fuel loopStart frame s = some r →
        s.currentInstruction ≤ r.state.currentInstruction)
    ∧ (∀ (kind : Instruction) (ahead : List Instruction) (count cursor : Nat),
        cursor ≤ (mergeRun kind ahead count cursor).2)
    ∧ (dispatches p errorBlock (fuelFor p 0) p.length none mainStart).Pairwise (· ≤ ·)
    ∧ (∀ j, (dispatches p errorBlock (fuelFor p 0) p.length none mainStart).count j ≤ 2
        ∧ (p[j]? ≠ some Instruction.startLoop →
          (dispatches p errorBlock (fuelFor p 0) p.length none mainStart).count j ≤ 1))
    ∧ ∃ r, generateIRTop p = some r
        ∧ (∀ j ∈ dispatches p errorBlock (fuelFor p 0) p.length none mainStart,
            j ≤ r.state.currentInstruction)
        ∧ (r.error = none → r.state.currentInstruction = p.length) := by
  obtain ⟨_, d2, d3, d4, _⟩ := dispatches_spec p errorBlock (fuelFor p 0) p.length none
    mainStart
  obtain ⟨r, hr, _, hend⟩ := generateIRTop_outcome p
  exact ⟨fun fuel loopStart frame s r h => generateIRLoop_cursor_mono p errorBlock fuel
      loopStart frame s r h,
    mergeRun_cursor_le, d3, d4, r, hr, d2 r hr, hend⟩

/-- The amended C19 at the program `+[-]`: the dispatches are at 0, 1, 1, 2, 3, and the
cursor is left at 4. -/
theorem cursor_never_decreases_witness :
    dispatches [Instruction.increment, Instruction.startLoop, Instruction.decrement,
        Instruction.endLoop] errorBlock 9 4 none mainStart = [0, 1, 1, 2, 3]
    ∧ (dispatches [Instruction.increment, Instruction.startLoop, Instruction.decrement,
        Instruction.endLoop] errorBlock
        (fuelFor [Instruction.increment, Instruction.startLoop, Instruction.decrement,
          Instruction.endLoop] 0)
        [Instruction.increment, Instruction.startLoop, Instruction.decrement,
          Instruction.endLoop].length none mainStart).Pairwise (· ≤ ·)
    ∧ ∃ r, generateIRTop [Instruction.increment, Instruction.startLoop,
          Instruction.decrement, Instruction.endLoop] = some r
        ∧ r.state.currentInstruction = 4 :=
  ⟨by decide,
    (cursor_never_decreases [Instruction.increment, Instruction.startLoop,
      Instruction.decrement, Instruction.endLoop]).2.2.1,
    _, rfl, by decide⟩

/-! ## A parse error ends the compilation -/

/-- C17: when the top-level emission fails with a parse error, `main` erases the function
`main` it has built so far, writes the diagnostic `Parsing Error: ` with the text of the
error to the error stream, and returns 1; it does nothing else: no temporary file, no object
code, no run of `xcrun` or `ld`, nothing on the output stream, whatever the environment. -/
theorem parse_error_aborts (env : Environment) (p : List Instruction) (r : Emitted)
    (e : ParseError) (h : generateIRTop p = some r) (he : r.error = some e) :
    compiler env p
      = some (1, [Event.eraseMain,
          Event.errs ("Parsing Error: ".toList ++ e.log ++ "\n".toList)])
    ∧ (∀ status events, compiler env p = some (status, events) →
        status ≠ 0 ∧ events.head? = some Event.eraseMain
        ∧ ∀ x ∈ events, x.isOutput = false)
    ∧ (e = ParseError.noLoopEnd → e.log = "Loop was not ended!".toList)
    ∧ (e = ParseError.noLoopStart → e.log = "Loop was not started!".toList) := by
  have hc : compiler env p
      = some (1, [Event.eraseMain,
          Event.errs ("Parsing Error: ".toList ++ e.log ++ "\n".toList)]) := by
    simp only [compiler, h, he]
  refine ⟨hc, fun status events hs => ?_, fun h1 => by rw [h1]; rfl,
    fun h1 => by rw [h1]; rfl⟩
  rw [hc] at hs
  simp only [Option.some.injEq, Prod.mk.injEq] at hs
  obtain ⟨rfl, rfl⟩ := hs
  refine ⟨by omega, rfl, fun x hx => ?_⟩
  simp only [List.mem_cons, List.mem_singleton, List.not_mem_nil, or_false] at hx
  rcases hx with rfl | rfl <;> rfl

/-- C17 at the programs `[` and `]`; and, for contrast, the well-formed program `+` in an
environment where every collaborator succeeds: the object code is written and `ld` runs. -/
theorem parse_error_aborts_witness :
    compiler ⟨['a'], none, none, false, none, none, 0, [], none, 0, ['a']⟩ [Instruction.startLoop]
      = some (1, [Event.eraseMain,
          Event.errs "Parsing Error: Loop was not ended!\n".toList])
    ∧ compiler ⟨['a'], none, none, false, none, none, 0, [], none, 0, ['a']⟩ [Instruction.endLoop]
      = some (1, [Event.eraseMain,
          Event.errs "Parsing Error: Loop was not started!\n".toList])
    ∧ ∃ m, compiler ⟨['a'], none, none, false, none, none, 0, [], none, 0, ['a']⟩
        [Instruction.increment]
      = some (0, [Event.temporaryFile ['a'] "o".toList, Event.emitObject m,
          Event.temporaryFile "sdkpath".toList [], Event.execute "xcrun".toList,
          Event.execute "ld".toList, Event.outs "Generated a\n".toList]) :=
  ⟨(parse_error_aborts ⟨['a'], none, none, false, none, none, 0, [], none, 0, ['a']⟩
      [Instruction.startLoop] _ ParseError.noLoopEnd rfl rfl).1,
    by decide, ⟨_, rfl⟩⟩

/-! ## How a compiled program ends -/

/-- In a program without violation of nesting, the search back from a loop end finds its
loop start. -/
theorem findLoopStart_found (p : List Instruction) (hv : firstViolation p 0 = none) (k : Nat)
    (hk : p[k]? = some Instruction.endLoop) :
    findLoopStart (p.take k).reverse 0 ≠ none := by
  rcases loopEnd_matched_or_open p k hk with ⟨i, d, hi, hd, rfl⟩ | ⟨c, hc⟩
  · rw [List.take_add, List.reverse_append, reverse_take_succ p i _ hi,
      findLoopStart_over _ 0 d hd]
    simp [findLoopStart]
  · rw [findLoopEnd_none_of_firstViolation p 0 c hv (Nat.zero_le _)] at hc
    exact absurd hc (by simp)

/-- The reference interpreter, on a program without violation of nesting, ends only by
returning from `main`. -/
theorem referenceRun_exits (p : List Instruction) (hv : firstViolation p 0 = none)
    (junk : Nat → Nat) (n : Nat) : ∀ (rc : RefConfig) (o : Outcome),
    referenceRun p junk n rc = some o → ∃ status r, o = Outcome.exit status r := by
  induction n with
  | zero => intro rc o h; simp [referenceRun] at h
  | succ n ih =>
    intro rc o h
    rw [referenceRun] at h
    cases hstep : referenceStep p junk rc with
    | next rc1 =>
      rw [hstep] at h
      exact ih rc1 o h
    | halt o1 =>
      rw [hstep] at h
      simp only [Option.some.injEq] at h
      subst h
      unfold referenceStep at hstep
      cases hget : p[rc.pc]? with
      | none =>
        simp only [hget, RefStep.halt.injEq] at hstep
        exact ⟨0, rc.runtime, hstep.symm⟩
      | some i =>
        cases i with
        | moveRight => simp [hget] at hstep
        | moveLeft =>
          simp only [hget] at hstep
          split at hstep
          · simp only [RefStep.halt.injEq] at hstep
            exact ⟨1, _, hstep.symm⟩
          · simp at hstep
        | increment => simp [hget] at hstep
        | decrement => simp [hget] at hstep
        | output => simp [hget] at hstep
        | input => simp [hget] at hstep
        | startLoop =>
          simp only [hget] at hstep
          split at hstep
          · cases hd : findLoopEnd (p.drop (rc.pc + 1)) 0 with
            | none => exact absurd hd (firstViolation_none_matched p 0 hv rc.pc hget)
            | some d => simp [hd] at hstep
          · simp at hstep
        | endLoop =>
          simp only [hget] at hstep
          split at hstep
          · cases hd : findLoopStart (p.take rc.pc).reverse 0 with
            | none => exact absurd hd (findLoopStart_found p hv rc.pc hget)
            | some d => simp [hd] at hstep
          · simp at hstep

theorem allInsts_same_length (Q : Inst → Prop) (old new : List BasicBlock) (ip : Nat)
    (x : Inst) (hold : ∀ b j z, fetch old b j = some z → Q z)
    (hi : ∀ b, instsAt new b = if b = ip then instsAt old b ++ [x] else instsAt old b)
    (hx : Q x) : ∀ b j z, fetch new b j = some z → Q z := by
  intro b j z hf
  have hex : ∃ extra, instsAt new b = instsAt old b ++ extra ∧ ∀ y ∈ extra, y = x := by
    rw [hi]
    split
    · exact ⟨[x], rfl, fun y hy => by simpa using hy⟩
    · exact ⟨[], by simp, fun y hy => by simp at hy⟩
  obtain ⟨extra, h1, h2⟩ := hex
  rcases fetch_cases_of_instsAt _ _ b j z extra h1 hf with h | h
  · exact hold b j z h
  · rw [h2 z h]; exact hx

theorem allInsts_new_block (Q : Inst → Prop) (old new : List BasicBlock) (ip : Nat)
    (x y : Inst) (hold : ∀ b j z, fetch old b j = some z → Q z)
    (hi : ∀ b, instsAt new b
      = if b = ip then instsAt old b ++ [x]
        else if b = old.length then [y] else instsAt old b)
    (hx : Q x) (hy : Q y) : ∀ b j z, fetch new b j = some z → Q z := by
  intro b j z hf
  have hex : ∃ extra, instsAt new b = instsAt old b ++ extra
      ∧ ∀ w ∈ extra, w = x ∨ w = y := by
    rw [hi]
    split
    · exact ⟨[x], rfl, fun w hw => Or.inl (by simpa using hw)⟩
    · split
      · rename_i hb
        exact ⟨[y], by rw [hb, instsAt_of_length_le _ _ (le_refl _)]; rfl,
          fun w hw => Or.inr (by simpa using hw)⟩
      · exact ⟨[], by simp, fun w hw => by simp at hw⟩
  obtain ⟨extra, h1, h2⟩ := hex
  rcases fetch_cases_of_instsAt _ _ b j z extra h1 hf with h | h
  · exact hold b j z h
  · rcases h2 z h with h3 | h3 <;> (rw [h3]; assumption)

/-- The rounds of `generateIR` emit instructions of its own kinds only. -/
theorem stackEmits_fromGenerateIR (instructions : List Instruction) (stack : List LoopFrame)
    (s t : IRState) (h : StackEmits instructions errorBlock stack s t)
    (below : List LoopFrame) (hfit : StackFits s (stack ++ below))
    (hs : ∀ b j z, fetch s.blocks b j = some z → z.fromGenerateIR = true) :
    ∀ b j z, fetch t.blocks b j = some z → z.fromGenerateIR = true := by
  induction h with
  | done s _ => exact hs
  | simple stack s t i hget hi _ ih =>
    refine ih (simpleRound_code instructions s _ i hget hi hfit).1 ?_
    have emitted : ∀ (x : Inst) (cursor : Nat), x.fromGenerateIR = true →
        ∀ b j z, fetch ({ s with currentInstruction := cursor }.emit x).advance.blocks b j
          = some z → z.fromGenerateIR = true :=
      fun x cursor hx => allInsts_same_length _ s.blocks _ s.insertPoint x hs
        (emit_spec { s with currentInstruction := cursor } x hfit.1).2.2.2 hx
    obtain ⟨h1, h2⟩ := hi
    cases i
    case startLoop => exact absurd rfl h1
    case endLoop => exact absurd rfl h2
    case moveRight => exact emitted _ s.currentInstruction rfl
    case output => exact emitted _ s.currentInstruction rfl
    case input => exact emitted _ s.currentInstruction rfl
    case increment => exact emitted _ _ rfl
    case decrement => exact emitted _ _ rfl
    case moveLeft =>
      exact allInsts_new_block _ s.blocks _ s.insertPoint _ _ hs
        (emitMoveLeft_spec errorBlock s hfit.1).2.2.2 rfl rfl
  | startLoop stack s t hget _ ih =>
    exact ih (openLoop_code instructions s _ hget hfit).1
      (allInsts_new_block _ s.blocks _ s.insertPoint _ _ hs
        (openLoop_spec s hfit.1).2.2.2 rfl rfl)
  | endLoop f stack s t hget _ ih =>
    exact ih (closeLoop_code instructions f s _ hget hfit).1
      (allInsts_same_length _ s.blocks _ s.insertPoint _ hs
        (closeLoop_spec f s hfit.1).2.2 rfl)

/-- A compiled program writes the diagnostic in the block `error` only, and its return
gives status 1 for the predecessor `error`. -/
theorem compileMain_tidy (p : List Instruction) (m : IRState)
    (h : compileMain p = some (Except.ok m)) : Tidy m.blocks := by
  unfold compileMain at h
  cases hg : generateIRTop p with
  | none => simp [hg] at h
  | some emitted =>
    simp only [hg] at h
    cases he : emitted.error with
    | some e => simp [he] at h
    | none =>
      simp only [he, Option.some.injEq, Except.ok.injEq] at h
      subst h
      have hemit : generateIRTop p = some { error := none, state := emitted.state } := by
        rw [hg, ← he]
      have hstack := generateIRTop_stackEmits p _ hemit
      have hfit := stackEmits_fits p [] _ _ hstack _ mainStart_fits
      have hspec := finishMain_spec _ hfit
      have h0 : ∀ b j z, fetch mainStart.blocks b j = some z → z.fromGenerateIR = true := by
        intro b j z hf
        rw [fetch_eq_instsAt] at hf
        have : instsAt mainStart.blocks b = [] := by
          rcases b with _ | _ | _ | b <;> rfl
        rw [this] at hf
        simp at hf
      have hgen := stackEmits_fromGenerateIR p [] _ _ hstack _ mainStart_fits h0
      obtain ⟨hip, hmerge, _⟩ := hfit
      obtain ⟨he1, he2, he3⟩ := hmerge _ (List.mem_cons_self _ _)
      obtain ⟨hr1, hr2, hr3⟩ := hmerge _ (List.mem_cons_of_mem _ (List.mem_cons_self _ _))
      simp only at he1 he2 he3 hr1 hr2 hr3
      intro b j x hf
      have old : fetch emitted.state.blocks b j = some x →
          (x = Inst.callFputsError → b = errorBlock)
            ∧ ∀ fromLast fromError, x = Inst.retPhi fromLast fromError →
              fromError = errorBlock := by
        intro hold
        have := hgen b j x hold
        constructor
        · intro hx; rw [hx] at this; cases this
        · intro f1 f2 hx; rw [hx] at this; cases this
      rw [fetch_eq_instsAt, hspec b] at hf
      by_cases h1 : b = emitted.state.insertPoint
      · rw [if_pos h1] at hf
        by_cases hj : j < (instsAt emitted.state.blocks b).length
        · rw [List.getElem?_append_left hj] at hf
          exact old (by rw [fetch_eq_instsAt]; exact hf)
        · rw [List.getElem?_append_right (by omega)] at hf
          have := List.getElem?_mem hf
          rw [List.mem_singleton] at this
          subst this
          exact ⟨fun hx => (nomatch hx), fun _ _ hx => (nomatch hx)⟩
      · rw [if_neg h1] at hf
        by_cases h2 : b = errorBlock
        · rw [if_pos h2] at hf
          have := List.getElem?_mem hf
          simp only [List.mem_cons, List.mem_singleton, List.not_mem_nil, or_false] at this
          rcases this with rfl | rfl
          · exact ⟨fun _ => h2, fun _ _ hx => (nomatch hx)⟩
          · exact ⟨fun hx => (nomatch hx), fun _ _ hx => (nomatch hx)⟩
        · rw [if_neg h2] at hf
          by_cases h3 : b = returnBlock
          · rw [if_pos h3] at hf
            have := List.getElem?_mem hf
            rw [List.mem_singleton] at this
            subst this
            refine ⟨fun hx => (nomatch hx), fun f1 f2 hx => ?_⟩
            simp only [Inst.retPhi.injEq] at hx
            exact hx.2.symm
          · rw [if_neg h3] at hf
            exact old (by rw [fetch_eq_instsAt]; exact hf)

theorem moveRight_stderr (junk : Nat → Nat) (r : Runtime) :
    (moveRight junk r).stderr = r.stderr := by
  unfold moveRight
  simp only
  split <;> rfl

/-- From the start of the block `error` a run ends with status 1 and the diagnostic added to
the error stream. -/
theorem run_from_error (blocks : List BasicBlock) (junk : Nat → Nat)
    (herr : ErrorPath blocks) (n previous : Nat) (r : Runtime) (o : Outcome)
    (h : run blocks junk n ⟨errorBlock, 0, previous, r⟩ = some o) :
    o = Outcome.exit 1 (fputsError r) := by
  obtain ⟨e1, e2, last, e3, e4⟩ := herr
  have s2 : RunsTo blocks junk 1 ⟨errorBlock, 0, previous, r⟩
      ⟨errorBlock, 1, previous, fputsError r⟩ := RunsTo.single e1 rfl
  have s3 : RunsTo blocks junk 1 ⟨errorBlock, 1, previous, fputsError r⟩
      ⟨returnBlock, 0, errorBlock, fputsError r⟩ := RunsTo.single e2 rfl
  have s4 : RunsOut blocks junk 1 ⟨returnBlock, 0, errorBlock, fputsError r⟩
      (Outcome.exit 1 (fputsError r)) :=
    RunsOut.last e4 (by simp only [execInst, if_neg (Ne.symm e3), if_true])
  have hout := s2.out (s3.out s4)
  have a1 := run_mono blocks junk n _ o (max n 3 + 0) h (by simp)
  have a2 := hout (max n 3 - 3)
  rw [show 1 + (1 + 1) + (max n 3 - 3) = max n 3 + 0 by
    have := Nat.le_max_right n 3; omega, a1] at a2
  simp only [Option.some.injEq] at a2
  exact a2

/-- A run that ends by returning from `main`, begun outside the block `error`: either it
comes to the block `error`, and then the status is 1 and the diagnostic has been added once
to the error stream, or it does not, and then the status is 0 and the error stream is as it
was. -/
theorem run_status (blocks : List BasicBlock) (junk : Nat → Nat) (herr : ErrorPath blocks)
    (htidy : Tidy blocks) (n : Nat) : ∀ (c : Config) (status : Nat) (r : Runtime),
    c.block ≠ errorBlock → c.previous ≠ errorBlock →
    run blocks junk n c = some (Outcome.exit status r) →
    (visitsError blocks junk n c = true ∧ status = 1
        ∧ r.stderr = c.runtime.stderr ++ moveLeftErrorString)
    ∨ (visitsError blocks junk n c = false ∧ status = 0 ∧ r.stderr = c.runtime.stderr) := by
  induction n with
  | zero => intro c status r _ _ h; simp [run] at h
  | succ n ih =>
    intro c status r hb hp h
    have hbeq : (c.block == errorBlock) = false := by simpa using hb
    -- a step that stays in the block
    have stay : ∀ (op : Runtime → Runtime), (∀ x, (op x).stderr = x.stderr) →
        step blocks junk c = Step.next (c.advance (op c.runtime)) →
        (visitsError blocks junk (n + 1) c = true ∧ status = 1
            ∧ r.stderr = c.runtime.stderr ++ moveLeftErrorString)
        ∨ (visitsError blocks junk (n + 1) c = false ∧ status = 0
            ∧ r.stderr = c.runtime.stderr) := by
      intro op hop hstep
      rw [run, hstep] at h
      have := ih (c.advance (op c.runtime)) status r hb hp h
      simp only [visitsError, hbeq, hstep, Bool.false_or]
      simpa [Config.advance, hop] using this
    -- a step that branches
    have jump : ∀ dest, step blocks junk c = Step.next (c.jump dest) →
        (visitsError blocks junk (n + 1) c = true ∧ status = 1
            ∧ r.stderr = c.runtime.stderr ++ moveLeftErrorString)
        ∨ (visitsError blocks junk (n + 1) c = false ∧ status = 0
            ∧ r.stderr = c.runtime.stderr) := by
      intro dest hstep
      rw [run, hstep] at h
      simp only [visitsError, hbeq, hstep, Bool.false_or]
      by_cases hd : dest = errorBlock
      · subst hd
        left
        have ho := run_from_error blocks junk herr n c.block c.runtime _ h
        simp only [Outcome.exit.injEq] at ho
        obtain ⟨rfl, rfl⟩ := ho
        refine ⟨?_, rfl, rfl⟩
        cases n with
        | zero => simp [run] at h
        | succ n => simp [visitsError, Config.jump]
      · exact ih (c.jump dest) status r hd hb h
    cases hf : fetch blocks c.block c.index with
    | none =>
      rw [run] at h
      simp [step, hf] at h
    | some x =>
      have hstep : step blocks junk c = execInst junk c x := by simp only [step, hf]
      cases x with
      | callMoveRight => exact stay (moveRight junk) (moveRight_stderr junk) hstep
      | decrementCurrentCell => exact stay decrementCurrentCell (fun _ => rfl) hstep
      | addCellValue k => exact stay (addCellValue k) (fun _ => rfl) hstep
      | subCellValue k => exact stay (subCellValue k) (fun _ => rfl) hstep
      | callPutchar => exact stay putchar (fun _ => rfl) hstep
      | callInput => exact stay input (fun x => (input_streams x).2) hstep
      | callFputsError => exact absurd ((htidy _ _ _ hf).1 rfl) hb
      | br dest => exact jump dest hstep
      | condBrReturnWithError ifZero otherwise =>
        by_cases hz : c.runtime.currentCell = 0
        · exact jump ifZero (by rw [hstep]; simp only [execInst, if_pos hz])
        · exact jump otherwise (by rw [hstep]; simp only [execInst, if_neg hz])
      | condBrContinueLoop ifNonZero otherwise =>
        by_cases hz : loadCell c.runtime ≠ 0
        · exact jump ifNonZero (by rw [hstep]; simp only [execInst, if_pos hz])
        · exact jump otherwise (by rw [hstep]; simp only [execInst, if_neg hz])
      | retPhi fromLast fromError =>
        have hfe := (htidy _ _ _ hf).2 fromLast fromError rfl
        subst hfe
        rw [run, hstep] at h
        simp only [execInst] at h
        right
        by_cases h1 : c.previous = fromLast
        · rw [if_pos h1] at h
          simp only [Option.some.injEq, Outcome.exit.injEq] at h
          obtain ⟨rfl, rfl⟩ := h
          refine ⟨?_, rfl, rfl⟩
          simp only [visitsError, hbeq, hstep, execInst, if_pos h1, Bool.false_or]
        · rw [if_neg h1, if_neg hp] at h
          simp at h


/-- The rounds of `generateIR` emit no branch to the block `error` but the zero branch of a
pointer guard. -/
theorem stackEmits_guardsError (instructions : List Instruction) (stack : List LoopFrame)
    (s t : IRState) (h : StackEmits instructions errorBlock stack s t)
    (hfit : StackFits s (stack ++ [{ loopBlock := 0, mergeBlock := errorBlock },
      { loopBlock := 0, mergeBlock := returnBlock }]))
    (hl : Laid s stack [{ loopBlock := 0, mergeBlock := errorBlock },
      { loopBlock := 0, mergeBlock := returnBlock }])
    (hs : ∀ b j z, fetch s.blocks b j = some z → z.guardsError) :
    ∀ b j z, fetch t.blocks b j = some z → z.guardsError := by
  induction h with
  | done s _ => exact hs
  | simple stack s t i hget hi _ ih =>
    have hlen : 2 < s.blocks.length :=
      (hfit.2.1 { loopBlock := 0, mergeBlock := returnBlock } (by simp)).1
    refine ih (simpleRound_code instructions s _ i hget hi hfit).1
      (simpleRound_laid instructions s stack _ i hi hfit hl).1 ?_
    have emitted : ∀ (x : Inst) (cursor : Nat), x.guardsError →
        ∀ b j z, fetch ({ s with currentInstruction := cursor }.emit x).advance.blocks b j
          = some z → z.guardsError :=
      fun x cursor hx => allInsts_same_length _ s.blocks _ s.insertPoint x hs
        (emit_spec { s with currentInstruction := cursor } x hfit.1).2.2.2 hx
    obtain ⟨h1, h2⟩ := hi
    cases i
    case startLoop => exact absurd rfl h1
    case endLoop => exact absurd rfl h2
    case moveRight => exact emitted _ s.currentInstruction trivial
    case output => exact emitted _ s.currentInstruction trivial
    case input => exact emitted _ s.currentInstruction trivial
    case increment => exact emitted _ _ trivial
    case decrement => exact emitted _ _ trivial
    case moveLeft =>
      refine allInsts_new_block _ s.blocks _ s.insertPoint _ _ hs
        (emitMoveLeft_spec errorBlock s hfit.1).2.2.2 ⟨rfl, ?_⟩ trivial
      show s.blocks.length ≠ 1
      omega
  | startLoop stack s t hget _ ih =>
    have hlen : 2 < s.blocks.length :=
      (hfit.2.1 { loopBlock := 0, mergeBlock := returnBlock } (by simp)).1
    refine ih (openLoop_code instructions s _ hget hfit).1 (openLoop_laid s stack _ hfit hl).1
      (allInsts_new_block _ s.blocks _ s.insertPoint _ _ hs
        (openLoop_spec s hfit.1).2.2.2 ?_ ⟨?_, ?_⟩)
    · show s.blocks.length ≠ 1
      omega
    · show s.blocks.length + 1 ≠ 1
      omega
    · show s.blocks.length + 2 ≠ 1
      omega
  | endLoop f stack s t hget _ ih =>
    refine ih (closeLoop_code instructions f s _ hget hfit).1
      (closeLoop_laid f s stack _ hfit hl).1
      (allInsts_same_length _ s.blocks _ s.insertPoint _ hs
        (closeLoop_spec f s hfit.1).2.2 ?_)
    show f.loopBlock ≠ errorBlock
    intro hc
    have hmem := hl.loop_mem f (List.mem_cons_self _ _)
    rw [hc] at hmem
    exact hl.2.2.2.1 { loopBlock := 0, mergeBlock := errorBlock } (by simp) hmem

/-- In a compiled program, the only branches to the block `error` are the zero branches of
the pointer guards. -/
theorem compileMain_guardsError (p : List Instruction) (m : IRState)
    (h : compileMain p = some (Except.ok m)) :
    ∀ b j z, fetch m.blocks b j = some z → z.guardsError := by
  unfold compileMain at h
  cases hg : generateIRTop p with
  | none => simp [hg] at h
  | some emitted =>
    simp only [hg] at h
    cases he : emitted.error with
    | some e => simp [he] at h
    | none =>
      simp only [he, Option.some.injEq, Except.ok.injEq] at h
      subst h
      have hemit : generateIRTop p = some { error := none, state := emitted.state } := by
        rw [hg, ← he]
      have hstack := generateIRTop_stackEmits p _ hemit
      have hfit := stackEmits_fits p [] _ _ hstack _ mainStart_fits
      have hspec := finishMain_spec _ hfit
      have h0 : ∀ b j z, fetch mainStart.blocks b j = some z → z.guardsError := by
        intro b j z hf
        rw [fetch_eq_instsAt] at hf
        have : instsAt mainStart.blocks b = [] := by
          rcases b with _ | _ | _ | b <;> rfl
        rw [this] at hf
        simp at hf
      have hgen := stackEmits_guardsError p [] _ _ hstack mainStart_fits mainStart_laid h0
      obtain ⟨hip, hmerge, _⟩ := hfit
      obtain ⟨he1, he2, he3⟩ := hmerge _ (List.mem_cons_self _ _)
      obtain ⟨hr1, hr2, hr3⟩ := hmerge _ (List.mem_cons_of_mem _ (List.mem_cons_self _ _))
      simp only at he1 he2 he3 hr1 hr2 hr3
      have hre : returnBlock ≠ errorBlock := by decide
      intro b j x hf
      rw [fetch_eq_instsAt, hspec b] at hf
      by_cases h1 : b = emitted.state.insertPoint
      · rw [if_pos h1] at hf
        by_cases hj : j < (instsAt emitted.state.blocks b).length
        · rw [List.getElem?_append_left hj] at hf
          exact hgen b j x (by rw [fetch_eq_instsAt]; exact hf)
        · rw [List.getElem?_append_right (by omega)] at hf
          have := List.getElem?_mem hf
          rw [List.mem_singleton] at this
          subst this
          exact hre
      · rw [if_neg h1] at hf
        by_cases h2 : b = errorBlock
        · rw [if_pos h2] at hf
          have := List.getElem?_mem hf
          simp only [List.mem_cons, List.mem_singleton, List.not_mem_nil, or_false] at this
          rcases this with rfl | rfl
          · trivial
          · exact hre
        · rw [if_neg h2] at hf
          by_cases h3 : b = returnBlock
          · rw [if_pos h3] at hf
            have := List.getElem?_mem hf
            rw [List.mem_singleton] at this
            subst this
            trivial
          · rw [if_neg h3] at hf
            exact hgen b j x (by rw [fetch_eq_instsAt]; exact hf)

/-- When no branch leads to the block `error` but the zero branch of a pointer guard, a run
begun outside that block that ends comes to it exactly when it executes a pointer guard with
the pointer at 0. -/
theorem visitsError_eq_underflows (blocks : List BasicBlock) (junk : Nat → Nat)
    (htidy : Tidy blocks) (hguards : ∀ b j z, fetch blocks b j = some z → z.guardsError)
    (n : Nat) : ∀ (c : Config) (o : Outcome), c.block ≠ errorBlock →
    run blocks junk n c = some o →
    visitsError blocks junk n c = underflows blocks junk n c := by
  induction n with
  | zero => intro c o _ h; simp [run] at h
  | succ n ih =>
    intro c o hb h
    have hbeq : (c.block == errorBlock) = false := by simpa using hb
    cases hf : fetch blocks c.block c.index with
    | none => simp [visitsError, underflows, step, hf, hbeq]
    | some x =>
      have hstep : step blocks junk c = execInst junk c x := by simp only [step, hf]
      have hx := hguards _ _ _ hf
      rw [run, hstep] at h
      have stay : ∀ (c1 : Config), c1.block ≠ errorBlock →
          run blocks junk n c1 = some o →
          visitsError blocks junk n c1 = (false || underflows blocks junk n c1) := by
        intro c1 hc1 hrun
        rw [Bool.false_or]
        exact ih c1 o hc1 hrun
      cases x with
      | callMoveRight =>
        simp only [visitsError, underflows, hbeq, hf, hstep, execInst, Bool.false_or]
        exact stay _ hb h
      | decrementCurrentCell =>
        simp only [visitsError, underflows, hbeq, hf, hstep, execInst, Bool.false_or]
        exact stay _ hb h
      | addCellValue k =>
        simp only [visitsError, underflows, hbeq, hf, hstep, execInst, Bool.false_or]
        exact stay _ hb h
      | subCellValue k =>
        simp only [visitsError, underflows, hbeq, hf, hstep, execInst, Bool.false_or]
        exact stay _ hb h
      | callPutchar =>
        simp only [visitsError, underflows, hbeq, hf, hstep, execInst, Bool.false_or]
        exact stay _ hb h
      | callInput =>
        simp only [visitsError, underflows, hbeq, hf, hstep, execInst, Bool.false_or]
        exact stay _ hb h
      | callFputsError => exact absurd ((htidy _ _ _ hf).1 rfl) hb
      | br dest =>
        simp only [visitsError, underflows, hbeq, hf, hstep, execInst, Bool.false_or]
        exact stay _ hx h
      | condBrReturnWithError ifZero otherwise =>
        obtain ⟨hz1, hz2⟩ := hx
        subst hz1
        simp only [execInst] at h
        simp only [visitsError, underflows, hbeq, hf, hstep, execInst, Bool.false_or]
        by_cases hz : c.runtime.currentCell = 0
        · rw [if_pos hz] at h
          simp only [if_pos hz, hz, decide_True, Bool.true_or]
          cases n with
          | zero => simp [run] at h
          | succ n => simp [visitsError, Config.jump]
        · rw [if_neg hz] at h
          simp only [if_neg hz, hz, decide_False]
          exact stay _ hz2 h
      | condBrContinueLoop ifNonZero otherwise =>
        obtain ⟨hz1, hz2⟩ := hx
        simp only [execInst] at h
        simp only [visitsError, underflows, hbeq, hf, hstep, execInst, Bool.false_or]
        by_cases hz : loadCell c.runtime ≠ 0
        · rw [if_pos hz] at h
          simp only [if_pos hz]
          exact stay _ hz1 h
        · rw [if_neg hz] at h
          simp only [if_neg hz]
          exact stay _ hz2 h
      | retPhi fromLast fromError =>
        simp only [visitsError, underflows, hbeq, hf, hstep, execInst, Bool.false_or]
        by_cases h1 : c.previous = fromLast
        · simp only [if_pos h1]
        · by_cases h2 : c.previous = fromError
          · simp only [if_neg h1, if_pos h2]
          · simp only [if_neg h1, if_neg h2]

/-- C15: every run of a compiled program that ends, ends by returning from `main`. When the
run has taken the guarded-underflow path, that is, has executed a pointer guard with the
pointer at 0, which is exactly when it has come to the block `error`, the status is 1 and
the error stream holds the diagnostic, once; when it has not, the status is 0 and the error
stream is empty. -/
theorem exit_status (p : List Instruction) (m : IRState)
    (h : compileMain p = some (Except.ok m)) (junk : Nat → Nat) (stdin : List (List Nat))
    (n : Nat) (o : Outcome) (hrun : run m.blocks junk n (startConfig junk stdin) = some o) :
    underflows m.blocks junk n (startConfig junk stdin)
      = visitsError m.blocks junk n (startConfig junk stdin)
    ∧ ∃ r, (underflows m.blocks junk n (startConfig junk stdin) = true
          ∧ o = Outcome.exit 1 r ∧ r.stderr = moveLeftErrorString)
      ∨ (underflows m.blocks junk n (startConfig junk stdin) = false
          ∧ o = Outcome.exit 0 r ∧ r.stderr = []) := by
  obtain ⟨hcode, herr⟩ := compileMain_code p m h
  have htidy := compileMain_tidy p m h
  have hguards := compileMain_guardsError p m h
  have hv : firstViolation p 0 = none := by
    obtain ⟨r, hr, he, _⟩ := generateIRTop_outcome p
    rw [← he]
    unfold compileMain at h
    rw [hr] at h
    cases herr2 : r.error with
    | none => rfl
    | some e => simp [herr2] at h
  have hrel : Related m.blocks p ⟨0, initialRuntime junk stdin⟩ (startConfig junk stdin) :=
    ⟨rfl, Nat.zero_le _, [], hcode, Enclosing.nil _⟩
  obtain ⟨k, hk⟩ := emitted_to_reference _ p junk herr n _ _ hrel o hrun
  obtain ⟨status, r, rfl⟩ := referenceRun_exits p hv junk k _ o hk
  have h0 : (0 : Nat) ≠ errorBlock := by decide
  have heq := visitsError_eq_underflows m.blocks junk htidy hguards n
    (startConfig junk stdin) _ h0 hrun
  refine ⟨heq.symm, r, ?_⟩
  rw [← heq]
  rcases run_status m.blocks junk herr htidy n (startConfig junk stdin) status r h0 h0 hrun
    with ⟨h1, h2, h3⟩ | ⟨h1, h2, h3⟩
  · exact Or.inl ⟨h1, by rw [h2], by rw [h3]; rfl⟩
  · exact Or.inr ⟨h1, by rw [h2], by rw [h3]; rfl⟩

/-- C15 at the programs `<` and `+`: the run of the first executes the pointer guard with
the pointer at 0, comes to the block `error` and ends with status 1 and the diagnostic on
the error stream; the run of the second does not and ends with status 0 and an empty error
stream. -/
theorem exit_status_witness :
    (∃ m r, compileMain [Instruction.moveLeft] = some (Except.ok m)
      ∧ run m.blocks (fun _ => 0) 4 (startConfig (fun _ => 0) []) = some (Outcome.exit 1 r)
      ∧ underflows m.blocks (fun _ => 0) 4 (startConfig (fun _ => 0) []) = true
      ∧ visitsError m.blocks (fun _ => 0) 4 (startConfig (fun _ => 0) []) = true
      ∧ r.stderr = moveLeftErrorString)
    ∧ (∃ m r, compileMain [Instruction.increment] = some (Except.ok m)
      ∧ run m.blocks (fun _ => 0) 3 (startConfig (fun _ => 0) []) = some (Outcome.exit 0 r)
      ∧ underflows m.blocks (fun _ => 0) 3 (startConfig (fun _ => 0) []) = false
      ∧ r.stderr = [])
    ∧ ∃ m, compileMain [Instruction.moveLeft] = some (Except.ok m)
      ∧ underflows m.blocks (fun _ => 0) 4 (startConfig (fun _ => 0) [])
        = visitsError m.blocks (fun _ => 0) 4 (startConfig (fun _ => 0) []) := by
  refine ⟨⟨_, _, rfl, rfl, by decide, by decide, by decide⟩,
    ⟨_, _, rfl, rfl, by decide, by decide⟩, _, rfl, ?_⟩
  exact (exit_status [Instruction.moveLeft] _ rfl (fun _ => 0) [] 4
    (Outcome.exit 1 (fputsError (initialRuntime (fun _ => 0) []))) (by decide)).1

/-! ## One pointer guard for every move to the left -/

theorem count_drop_run (p : List Instruction) (x : Instruction) (k m : Nat)
    (h : ∀ j, k ≤ j → j < k + m → ∃ y, p[j]? = some y ∧ y ≠ x) :
    (p.drop k).count x = (p.drop (k + m)).count x := by
  induction m generalizing k with
  | zero => simp
  | succ m ih =>
    obtain ⟨y, hy, hne⟩ := h k (le_refl _) (by omega)
    rw [drop_eq_cons_of_getElem? _ _ _ hy, List.count_cons,
      ih (k + 1) (fun j h1 h2 => h j (by omega) (by omega)),
      show k + 1 + m = k + (m + 1) by omega]
    simp [hne]

/-- The instructions that a simple round passes over are of the kind it dispatched: the
instruction itself and, for an increment or a decrement, the rest of its run. -/
theorem simpleRound_run (instructions : List Instruction) (errorBlock : Nat)
    (s : IRState) (i : Instruction)
    (h : instructions[s.currentInstruction]? = some i) (hi : i.isSimple) :
    (∀ j, s.currentInstruction ≤ j →
        j < (simpleRound instructions errorBlock i s).currentInstruction →
        instructions[j]? = some i)
    ∧ (i = Instruction.moveLeft →
        (simpleRound instructions errorBlock i s).currentInstruction
          = s.currentInstruction + 1) := by
  have one : (∀ j, s.currentInstruction ≤ j → j < s.currentInstruction + 1 →
      instructions[j]? = some i) :=
    fun j h1 h2 => by rw [show j = s.currentInstruction by omega, h]
  have run : ∀ kind : Instruction, i = kind →
      ∀ r : Nat × Nat, r = mergeRun kind (instructions.drop (s.currentInstruction + 1)) 1
        s.currentInstruction →
      ∀ j, s.currentInstruction ≤ j → j < r.2 + 1 → instructions[j]? = some i := by
    intro kind hik r hr j hj1 hj2
    obtain ⟨_, h2, _, _⟩ := mergeRun_spec instructions kind _ 1 s.currentInstruction rfl
    rw [← hr] at h2
    by_cases hj : j = s.currentInstruction
    · rw [hj, h]
    · rw [hik]; exact h2 j (by omega) (by omega)
  obtain ⟨h1, h2⟩ := hi
  cases i
  case startLoop => exact absurd rfl h1
  case endLoop => exact absurd rfl h2
  case increment =>
    exact ⟨run Instruction.increment rfl _ rfl, fun hx => (nomatch hx)⟩
  case decrement =>
    exact ⟨run Instruction.decrement rfl _ rfl, fun hx => (nomatch hx)⟩
  case moveLeft => exact ⟨one, fun _ => rfl⟩
  all_goals exact ⟨one, fun hx => (nomatch hx)⟩

theorem simpleRound_guardCount (instructions : List Instruction) (s : IRState)
    (stack : List LoopFrame) (i : Instruction) (hi : i.isSimple)
    (hfit : StackFits s stack) :
    countInsts isGuard (simpleRound instructions errorBlock i s).blocks
        = countInsts isGuard s.blocks + (if i = Instruction.moveLeft then 1 else 0)
    ∧ countBlocks BlockName.error (simpleRound instructions errorBlock i s).blocks
        = countBlocks BlockName.error s.blocks := by
  have emitted : ∀ (x : Inst) (cursor : Nat), isGuard s.insertPoint x = false →
      countInsts isGuard ({ s with currentInstruction := cursor }.emit x).advance.blocks
          = countInsts isGuard s.blocks + 0
      ∧ countBlocks BlockName.error
          ({ s with currentInstruction := cursor }.emit x).advance.blocks
          = countBlocks BlockName.error s.blocks := by
    intro x cursor hx
    obtain ⟨hlen, _, _, hinsts⟩ := emit_spec { s with currentInstruction := cursor } x hfit.1
    refine ⟨?_, countBlocks_emit _ _ _⟩
    have := countInsts_same_length isGuard s.blocks _ s.insertPoint x hlen hfit.1 hinsts
    rw [hx] at this
    simpa using this
  obtain ⟨h1, h2⟩ := hi
  cases i
  case startLoop => exact absurd rfl h1
  case endLoop => exact absurd rfl h2
  case moveRight => exact emitted _ s.currentInstruction rfl
  case output => exact emitted _ s.currentInstruction rfl
  case input => exact emitted _ s.currentInstruction rfl
  case increment => exact emitted _ _ rfl
  case decrement => exact emitted _ _ rfl
  case moveLeft =>
    obtain ⟨hlen, hipn, _, hinsts⟩ := emitMoveLeft_spec errorBlock s hfit.1
    have hl : (emitMoveLeft errorBlock s).advance.blocks.length = s.blocks.length + (0 + 1) :=
      hlen
    refine ⟨?_, ?_⟩
    · have := countInsts_new_block isGuard s.blocks _ s.insertPoint 0 _ _ hl hfit.1 hinsts
      simpa [isGuard] using this
    · show countBlocks BlockName.error (emitMoveLeft errorBlock s).blocks = _
      unfold emitMoveLeft
      simp only [IRState.setInsertPoint]
      rw [countBlocks_emit]
      show countBlocks BlockName.error
        ((s.createBlock BlockName.moveLeft true).2.emit _).blocks = _
      rw [countBlocks_emit, countBlocks_createBlock, if_neg (by decide)]
      rfl

theorem openLoop_guardCount (s : IRState) (stack : List LoopFrame) (hfit : StackFits s stack) :
    countInsts isGuard (openLoop s).2.advance.blocks = countInsts isGuard s.blocks
    ∧ countBlocks BlockName.error (openLoop s).2.advance.blocks
        = countBlocks BlockName.error s.blocks := by
  obtain ⟨hframe, hlen, hipn, hinsts⟩ := openLoop_spec s hfit.1
  have hl : (openLoop s).2.advance.blocks.length = s.blocks.length + (2 + 1) := hlen
  refine ⟨?_, ?_⟩
  · have := countInsts_new_block isGuard s.blocks _ s.insertPoint 2 _ _ hl hfit.1 hinsts
    simpa [isGuard] using this
  · show countBlocks BlockName.error (openLoop s).2.blocks = _
    unfold openLoop
    simp only [IRState.setInsertPoint, IRState.pushBack]
    rw [countBlocks_emit]
    show countBlocks BlockName.error (((((s.createBlock BlockName.loop true).2.createBlock
      BlockName.thenBlock false).2.createBlock BlockName.merge false).2.emit _).blocks) = _
    rw [countBlocks_emit, countBlocks_createBlock, countBlocks_createBlock,
      countBlocks_createBlock, if_neg (by decide), if_neg (by decide), if_neg (by decide)]
    rfl

theorem closeLoop_guardCount (f : LoopFrame) (s : IRState) (stack : List LoopFrame)
    (hfit : StackFits s (f :: stack)) :
    countInsts isGuard (closeLoop f s).advance.blocks = countInsts isGuard s.blocks
    ∧ countBlocks BlockName.error (closeLoop f s).advance.blocks
        = countBlocks BlockName.error s.blocks := by
  obtain ⟨hlen, hipn, hinsts⟩ := closeLoop_spec f s hfit.1
  refine ⟨?_, countBlocks_emit _ s _⟩
  have := countInsts_same_length isGuard s.blocks _ s.insertPoint _ hlen hfit.1 hinsts
  simpa [isGuard] using this

/-- The rounds add one pointer guard for every move to the left still to come, and create
no block under the name `error`. -/
theorem stackEmits_guardCount (instructions : List Instruction) (stack : List LoopFrame)
    (s t : IRState) (h : StackEmits instructions errorBlock stack s t)
    (below : List LoopFrame) (hfit : StackFits s (stack ++ below)) :
    countInsts isGuard t.blocks = countInsts isGuard s.blocks
        + (instructions.drop s.currentInstruction).count Instruction.moveLeft
    ∧ countBlocks BlockName.error t.blocks = countBlocks BlockName.error s.blocks := by
  induction h with
  | done s hget =>
    rw [List.drop_eq_nil_of_le (List.getElem?_eq_none_iff.mp hget)]
    simp
  | simple stack s t i hget hi _ ih =>
    obtain ⟨c1, c2, c3⟩ := simpleRound_cursor instructions errorBlock s i hget hi
    obtain ⟨k1, k2⟩ := simpleRound_run instructions errorBlock s i hget hi
    obtain ⟨o1, o2⟩ := simpleRound_guardCount instructions s _ i hi hfit
    obtain ⟨e1, e2⟩ := ih (simpleRound_code instructions s _ i hget hi hfit).1
    rw [e1, e2, o1, o2]
    refine ⟨?_, rfl⟩
    by_cases hml : i = Instruction.moveLeft
    · rw [if_pos hml, k2 hml, drop_eq_cons_of_getElem? _ _ _ hget, hml, List.count_cons]
      simp only [beq_self_eq_true, if_true]
      omega
    · obtain ⟨m, hm⟩ : ∃ m, (simpleRound instructions errorBlock i s).currentInstruction
          = s.currentInstruction + m := ⟨_, (Nat.add_sub_cancel' (le_of_lt c1)).symm⟩
      have := count_drop_run instructions Instruction.moveLeft s.currentInstruction m
        (fun j hj1 hj2 => ⟨i, k1 j hj1 (by omega), hml⟩)
      rw [if_neg hml, this, ← hm]
      rfl
  | startLoop stack s t hget _ ih =>
    obtain ⟨o1, o2⟩ := openLoop_guardCount s _ hfit
    obtain ⟨e1, e2⟩ := ih (openLoop_code instructions s _ hget hfit).1
    rw [drop_eq_cons_of_getElem? _ _ _ hget, e1, e2, o1, o2]
    simp only [IRState.advance, openLoop_cursor, List.count_cons]
    exact ⟨by simp, trivial⟩
  | endLoop f stack s t hget _ ih =>
    obtain ⟨o1, o2⟩ := closeLoop_guardCount f s _ hfit
    obtain ⟨e1, e2⟩ := ih (closeLoop_code instructions f s _ hget hfit).1
    rw [drop_eq_cons_of_getElem? _ _ _ hget, e1, e2, o1, o2]
    simp only [IRState.advance, closeLoop_cursor, List.count_cons]
    exact ⟨by simp, trivial⟩

theorem countInsts_eq_zero (q : Nat → Inst → Bool) (blocks : List BasicBlock)
    (h : ∀ b j x, fetch blocks b j = some x → q b x = false) : countInsts q blocks = 0 := by
  unfold countInsts
  refine Finset.sum_eq_zero (fun b _ => ?_)
  rw [List.countP_eq_zero]
  intro x hx
  obtain ⟨j, hj⟩ := List.mem_iff_getElem?.mp hx
  rw [h b j x (by rw [fetch_eq_instsAt]; exact hj)]
  simp

/-- C22, for the programs on which emission succeeds: the compiled blocks hold as many
pointer guards as the program has moves to the left; every pointer guard branches to the
block `error` when the pointer is 0 and otherwise to a block that starts with the decrement
of the pointer; and there is one error path: one block was created under the name `error`,
the diagnostic is written by one instruction, and the block `error` is that write and the
branch to `return`. -/
theorem one_guard_per_moveLeft (p : List Instruction) (m : IRState)
    (h : compileMain p = some (Except.ok m)) :
    countInsts isGuard m.blocks = p.count Instruction.moveLeft
    ∧ (∀ b j ifZero otherwise,
        fetch m.blocks b j = some (Inst.condBrReturnWithError ifZero otherwise) →
        ifZero = errorBlock ∧ fetch m.blocks otherwise 0 = some Inst.decrementCurrentCell)
    ∧ countBlocks BlockName.error m.blocks = 1
    ∧ countInsts isErrorMessage m.blocks = 1
    ∧ instsAt m.blocks errorBlock = [Inst.callFputsError, Inst.br returnBlock] := by
  have hguards := compileMain_guards p m h
  unfold compileMain at h
  cases hg : generateIRTop p with
  | none => simp [hg] at h
  | some emitted =>
    simp only [hg] at h
    cases he : emitted.error with
    | some e => simp [he] at h
    | none =>
      simp only [he, Option.some.injEq, Except.ok.injEq] at h
      subst h
      have hemit : generateIRTop p = some { error := none, state := emitted.state } := by
        rw [hg, ← he]
      have hstack := generateIRTop_stackEmits p _ hemit
      have hfit := stackEmits_fits p [] _ _ hstack _ mainStart_fits
      obtain ⟨c1, c2⟩ := stackEmits_guardCount p [] _ _ hstack _ mainStart_fits
      have h0 : ∀ b j z, fetch mainStart.blocks b j = some z → z.fromGenerateIR = true := by
        intro b j z hf
        rw [fetch_eq_instsAt] at hf
        have : instsAt mainStart.blocks b = [] := by
          rcases b with _ | _ | _ | b <;> rfl
        rw [this] at hf
        simp at hf
      have hgen := stackEmits_fromGenerateIR p [] _ _ hstack _ mainStart_fits h0
      have z1 : countInsts isGuard mainStart.blocks = 0 := by decide
      have z2 : countBlocks BlockName.error mainStart.blocks = 1 := by decide
      have z3 : countInsts isErrorMessage emitted.state.blocks = 0 := by
        refine countInsts_eq_zero _ _ (fun b j x hf => ?_)
        have := hgen b j x hf
        cases x <;> first | rfl | cases this
      have hdrop : p.drop mainStart.currentInstruction = p := rfl
      rw [z1, hdrop, Nat.zero_add] at c1
      rw [z2] at c2
      have hne : errorBlock ≠ emitted.state.insertPoint :=
        (hfit.2.1 _ (List.mem_cons_self _ _)).2.2
      refine ⟨?_, hguards, ?_, ?_, ?_⟩
      · rw [finishMain_countInsts _ _ hfit, c1]
        rfl
      · rw [finishMain_countBlocks, c2]
      · rw [finishMain_countInsts _ _ hfit, z3]
        rfl
      · rw [finishMain_spec _ hfit, if_neg hne, if_pos rfl]

/-- C22 does not hold of a program on which emission fails: on the program `]<` the
top-level call returns `noLoopStart` at the loop end, the move to the left after it is never
dispatched, and the blocks hold no pointer guard for it. -/
theorem guard_counterexample :
    ∃ r, generateIRTop [Instruction.endLoop, Instruction.moveLeft] = some r
      ∧ r.error = some ParseError.noLoopStart
      ∧ r.state.currentInstruction = 0
      ∧ countInsts isGuard r.state.blocks = 0
      ∧ [Instruction.endLoop, Instruction.moveLeft].count Instruction.moveLeft = 1
      ∧ compileMain [Instruction.endLoop, Instruction.moveLeft]
          = some (Except.error ParseError.noLoopStart) :=
  ⟨_, rfl, rfl, rfl, by decide, by decide, rfl⟩

/-- C22 at the program `<+<<`: it compiles, to three pointer guards for its three moves to
the left (at the ends of the blocks 0, 3 and 4), each with the block `error` as its zero
target, and the block `error` holds the one write of the diagnostic. -/
theorem one_guard_per_moveLeft_witness :
    ∃ m, compileMain [Instruction.moveLeft, Instruction.increment, Instruction.moveLeft,
          Instruction.moveLeft] = some (Except.ok m)
      ∧ countInsts isGuard m.blocks = [Instruction.moveLeft, Instruction.increment,
          Instruction.moveLeft, Instruction.moveLeft].count Instruction.moveLeft
      ∧ countInsts isGuard m.blocks = 3
      ∧ fetch m.blocks 0 0 = some (Inst.condBrReturnWithError errorBlock 3)
      ∧ fetch m.blocks 3 2 = some (Inst.condBrReturnWithError errorBlock 4)
      ∧ fetch m.blocks 4 1 = some (Inst.condBrReturnWithError errorBlock 5)
      ∧ countInsts isErrorMessage m.blocks = 1
      ∧ fetch m.blocks errorBlock 0 = some Inst.callFputsError :=
  ⟨_, rfl, (one_guard_per_moveLeft [Instruction.moveLeft, Instruction.increment,
      Instruction.moveLeft, Instruction.moveLeft] _ rfl).1, by decide, by decide, by decide,
    by decide, by decide, by decide⟩

/-! ## The calls of `input` served from one line -/

theorem takeWhile_length_spec (l : List Nat) :
    (∀ j, j < (l.takeWhile (fun byte => decide (byte % 256 ≠ 0))).length →
        l.getD j 0 % 256 ≠ 0)
    ∧ l.getD (l.takeWhile (fun byte => decide (byte % 256 ≠ 0))).length 0 % 256 = 0 := by
  induction l with
  | nil => exact ⟨fun j hj => by simp at hj, rfl⟩
  | cons a l ih =>
    by_cases ha : a % 256 ≠ 0
    · rw [List.takeWhile_cons_of_pos (by simpa using ha)]
      refine ⟨fun j hj => ?_, ?_⟩
      · cases j with
        | zero => simpa using ha
        | succ j =>
          have := ih.1 j (by simpa using hj)
          simpa using this
      · simpa using ih.2
    · rw [List.takeWhile_cons_of_neg (by simpa using ha)]
      exact ⟨fun j hj => by simp at hj, by simpa using ha⟩

theorem getD_drop (l : List Nat) (p j : Nat) : (l.drop p).getD j 0 = l.getD (p + j) 0 := by
  simp [List.getD_eq_getElem?_getD, List.getElem?_drop]

/-- The length that `strlen` finds from the offset `position`: the bytes before it are no
terminators, and the byte at it is one. -/
theorem strlen_spec (line : List Nat) (position : Nat) :
    (∀ j, position ≤ j → j < position + strlen line position → byteAt line j ≠ 0)
    ∧ byteAt line (position + strlen line position) = 0 := by
  obtain ⟨h1, h2⟩ := takeWhile_length_spec (line.drop position)
  unfold strlen byteAt
  refine ⟨fun j hj1 hj2 => ?_, ?_⟩
  · have := h1 (j - position) (by omega)
    rw [getD_drop, show position + (j - position) = j by omega] at this
    exact this
  · rw [getD_drop] at h2
    exact h2

/-- The test `strlen(currentPosition) == 0` of lines 294-296 holds exactly when the byte at
the offset is the terminator. -/
theorem strlen_eq_zero_iff (line : List Nat) (position : Nat) :
    strlen line position = 0 ↔ byteAt line position = 0 := by
  obtain ⟨h1, h2⟩ := strlen_spec line position
  constructor
  · intro h
    rw [h] at h2
    exact h2
  · intro h
    by_contra hne
    exact h1 position (le_refl _) (by omega) h

/-- An operation other than a call of `input` leaves the input cursor as it was. -/
theorem runtimeStep_cursor (junk : Nat → Nat) (r r1 : Runtime)
    (hs : RuntimeStep junk r r1) (hne : r1 ≠ input r) :
    r1.currentLine = r.currentLine ∧ r1.currentPosition = r.currentPosition
      ∧ r1.stdin = r.stdin := by
  cases hs with
  | moveRight =>
    refine ⟨?_, ?_, ?_⟩ <;> (unfold moveRight; simp only; split <;> rfl)
  | moveLeft h0 => exact ⟨rfl, rfl, rfl⟩
  | addCellValue k => exact ⟨rfl, rfl, rfl⟩
  | subCellValue k => exact ⟨rfl, rfl, rfl⟩
  | putchar => exact ⟨rfl, rfl, rfl⟩
  | input => exact absurd rfl hne
  | fputsError => exact ⟨rfl, rfl, rfl⟩

/-- The input cursor after `k` calls of `input` from a state in which the next call refills,
when the line it reads has a length of at least `k`: before the first call it is as it was,
afterwards it is at offset `k` of that line. -/
theorem afterInputs_cursor (junk : Nat → Nat) (r : Runtime) (line : List Nat)
    (rest : List (List Nat)) (hrefill : byteAt r.currentLine r.currentPosition = 0)
    (hstdin : r.stdin = line :: rest) (k : Nat) (r1 : Runtime)
    (h : AfterInputs junk k r r1) (hk : k ≤ strlen line 0) :
    (k = 0 → r1.currentLine = r.currentLine ∧ r1.currentPosition = r.currentPosition
        ∧ r1.stdin = r.stdin)
    ∧ (1 ≤ k → r1.currentLine = line ∧ r1.currentPosition = k ∧ r1.stdin = rest) := by
  induction h with
  | start r => exact ⟨fun _ => ⟨rfl, rfl, rfl⟩, fun h => absurd h (by omega)⟩
  | other k r r1 r2 _ hs hne ih =>
    obtain ⟨e1, e2, e3⟩ := runtimeStep_cursor junk r1 r2 hs hne
    rw [e1, e2, e3]
    exact ih hrefill hstdin hk
  | call k r r1 _ ih =>
    obtain ⟨i0, i1⟩ := ih hrefill hstdin (by omega)
    refine ⟨fun h => absurd h (by omega), fun _ => ?_⟩
    rw [input_currentLine, input_currentPosition, input_stdin]
    by_cases hk0 : k = 0
    · obtain ⟨e1, e2, e3⟩ := i0 hk0
      have hz : byteAt r1.currentLine r1.currentPosition = 0 := by rw [e1, e2]; exact hrefill
      rw [if_pos hz, if_pos hz, if_pos hz, e3, hstdin, hk0]
      exact ⟨rfl, rfl, rfl⟩
    · obtain ⟨e1, e2, e3⟩ := i1 (by omega)
      have hz : byteAt r1.currentLine r1.currentPosition ≠ 0 := by
        rw [e1, e2]
        exact (strlen_spec line 0).1 k (Nat.zero_le _) (by omega)
      rw [if_neg hz, if_neg hz, if_neg hz]
      exact ⟨e1, by rw [e2], e3⟩

/-- C23: let the next call of `input` in the state `r` refill the buffer (as it does at the
start of a program and after a line has been used up), with a line of length `L ≥ 1` up to
its terminator, and let `r1` be reached from `r` by operations of which `k ≤ L` are calls of
`input`. Then from the first call on the buffer is that line and the offset is `k`, so
between 1 and `L`; the test for a refill holds exactly when `k = L`; for `k < L` the next
call is served from the line: it stores the byte at offset `k + 1`, which is the terminator
exactly when it is call number `L`; and for `k = L` the next call refills the buffer from
the rest of the input. -/
theorem input_line_served (junk : Nat → Nat) (r : Runtime) (line : List Nat)
    (rest : List (List Nat)) (L k : Nat) (r1 : Runtime)
    (hrefill : strlen r.currentLine r.currentPosition = 0)
    (hstdin : r.stdin = line :: rest) (hL : strlen line 0 = L) (h1 : 1 ≤ L)
    (hcalls : AfterInputs junk k r r1) (hk : k ≤ L) :
    (1 ≤ k → r1.currentLine = line ∧ r1.stdin = rest ∧ r1.currentPosition = k
        ∧ 1 ≤ r1.currentPosition ∧ r1.currentPosition ≤ L)
    ∧ (1 ≤ k → (strlen r1.currentLine r1.currentPosition = 0 ↔ k = L))
    ∧ (k < L → (input r1).currentLine = line ∧ (input r1).stdin = rest
        ∧ (input r1).currentPosition = k + 1
        ∧ (input r1).cells = r1.cells.set r1.currentCell (byteAt line (k + 1))
        ∧ (byteAt line (k + 1) = 0 ↔ k + 1 = L))
    ∧ (k = L → (input r1).currentLine = (getline rest).1
        ∧ (input r1).stdin = (getline rest).2
        ∧ (input r1).currentPosition = 1
        ∧ (input r1).cells = r1.cells.set r1.currentCell (byteAt (getline rest).1 1)) := by
  subst hL
  have hrefill0 := (strlen_eq_zero_iff _ _).mp hrefill
  obtain ⟨s1, s2⟩ := strlen_spec line 0
  rw [Nat.zero_add] at s2
  obtain ⟨c0, c1⟩ := afterInputs_cursor junk r line rest hrefill0 hstdin k r1 hcalls hk
  have hterm : ∀ j, j ≤ strlen line 0 → (byteAt line j = 0 ↔ j = strlen line 0) := by
    intro j hj
    constructor
    · intro hz
      by_contra hne
      exact s1 j (Nat.zero_le _) (by omega) hz
    · intro he
      rw [he]; exact s2
  have hnext : (input r1).currentLine = line ∧ (input r1).stdin = rest
      ∧ (input r1).currentPosition = k + 1 → k < strlen line 0 →
      (input r1).currentLine = line ∧ (input r1).stdin = rest
        ∧ (input r1).currentPosition = k + 1
        ∧ (input r1).cells = r1.cells.set r1.currentCell (byteAt line (k + 1))
        ∧ (byteAt line (k + 1) = 0 ↔ k + 1 = strlen line 0) := by
    intro ⟨e1, e2, e3⟩ hlt
    refine ⟨e1, e2, e3, ?_, hterm _ (by omega)⟩
    rw [input_cells, e1, e3]
  refine ⟨fun hk1 => ?_, fun hk1 => ?_, fun hlt => ?_, fun he => ?_⟩
  · obtain ⟨e1, e2, e3⟩ := c1 hk1
    exact ⟨e1, e3, e2, by omega, by omega⟩
  · obtain ⟨e1, e2, e3⟩ := c1 hk1
    rw [strlen_eq_zero_iff, e1, e2]
    exact hterm k hk
  · refine hnext ?_ hlt
    rw [input_currentLine, input_stdin, input_currentPosition]
    by_cases hk0 : k = 0
    · obtain ⟨e1, e2, e3⟩ := c0 hk0
      have hz : byteAt r1.currentLine r1.currentPosition = 0 := by rw [e1, e2]; exact hrefill0
      rw [if_pos hz, if_pos hz, if_pos hz, e3, hstdin, hk0]
      exact ⟨rfl, rfl, rfl⟩
    · obtain ⟨e1, e2, e3⟩ := c1 (by omega)
      have hz : byteAt r1.currentLine r1.currentPosition ≠ 0 := by
        rw [e1, e2]
        exact s1 k (Nat.zero_le _) (by omega)
      rw [if_neg hz, if_neg hz, if_neg hz]
      exact ⟨e1, e3, by rw [e2]⟩
  · obtain ⟨e1, e2, e3⟩ := c1 (by omega)
    have hz : byteAt r1.currentLine r1.currentPosition = 0 := by
      rw [e1, e2]
      exact (hterm k hk).mpr he
    have hl : (input r1).currentLine = (getline rest).1 := by
      rw [input_currentLine, if_pos hz, e3]
    have hp : (input r1).currentPosition = 1 := by
      rw [input_currentPosition, if_pos hz]
    refine ⟨hl, ?_, hp, ?_⟩
    · rw [input_stdin, if_pos hz, e3]
    · rw [input_cells, hl, hp]

/-- C23 at a program that reads the lines `AB`, newline (length 3) and `C`, newline: after
two calls of `input` the offset is 2 and no refill is due; the third call is served from
the line and stores the terminator at offset 3; the fourth call refills the buffer with the
second line and stores its byte at offset 1, the newline. -/
theorem input_line_served_witness :
    strlen (initialRuntime (fun _ => 0) [[65, 66, 10], [67, 10]]).currentLine
        (initialRuntime (fun _ => 0) [[65, 66, 10], [67, 10]]).currentPosition = 0
    ∧ strlen [65, 66, 10] 0 = 3
    ∧ AfterInputs (fun _ => 0) 2 (initialRuntime (fun _ => 0) [[65, 66, 10], [67, 10]])
        (input (input (initialRuntime (fun _ => 0) [[65, 66, 10], [67, 10]])))
    ∧ (input (input (initialRuntime (fun _ => 0) [[65, 66, 10], [67, 10]]))).currentPosition
        = 2
    ∧ (input (input (input
        (initialRuntime (fun _ => 0) [[65, 66, 10], [67, 10]])))).currentPosition = 3
    ∧ (input (input (input (initialRuntime (fun _ => 0) [[65, 66, 10], [67, 10]])))).cells
        = [0, 0, 0, 0]
    ∧ (input (input (input (input
        (initialRuntime (fun _ => 0) [[65, 66, 10], [67, 10]]))))).currentLine = [67, 10]
    ∧ (input (input (input (input
        (initialRuntime (fun _ => 0) [[65, 66, 10], [67, 10]]))))).cells = [10, 0, 0, 0] :=
  ⟨by decide, by decide,
    AfterInputs.call 1 _ _ (AfterInputs.call 0 _ _ (AfterInputs.start _)),
    ((input_line_served (fun _ => 0) (initialRuntime (fun _ => 0) [[65, 66, 10], [67, 10]])
      [65, 66, 10] [[67, 10]] 3 2 _ (by decide) rfl (by decide) (by decide)
      (AfterInputs.call 1 _ _ (AfterInputs.call 0 _ _ (AfterInputs.start _)))
      (by decide)).1 (by decide)).2.2.1,
    ((input_line_served (fun _ => 0) (initialRuntime (fun _ => 0) [[65, 66, 10], [67, 10]])
      [65, 66, 10] [[67, 10]] 3 2 _ (by decide) rfl (by decide) (by decide)
      (AfterInputs.call 1 _ _ (AfterInputs.call 0 _ _ (AfterInputs.start _)))
      (by decide)).2.2.1 (by decide)).2.2.1,
    by decide, by decide, by decide⟩

/-! ## The recursion of `generateIR` -/

theorem activations_end (instructions : List Instruction) (errorBlock : Nat)
    (fuel loopStart : Nat) (frame : Option LoopFrame) (s : IRState)
    (h : instructions[s.currentInstruction]? = none) :
    activations instructions errorBlock (fuel + 1) loopStart frame s = [] := by
  simp only [activations, h]

theorem activations_simple (instructions : List Instruction) (errorBlock : Nat)
    (fuel loopStart : Nat) (frame : Option LoopFrame) (s : IRState) (i : Instruction)
    (h : instructions[s.currentInstruction]? = some i) (hi : i.isSimple) :
    activations instructions errorBlock (fuel + 1) loopStart frame s
      = activations instructions errorBlock fuel loopStart frame
          (simpleRound instructions errorBlock i s) := by
  obtain ⟨h1, h2⟩ := hi
  cases i
  case startLoop => exact absurd rfl h1
  case endLoop => exact absurd rfl h2
  all_goals simp only [activations, h, simpleRound]

theorem activations_open (instructions : List Instruction) (errorBlock : Nat)
    (fuel loopStart : Nat) (frame : Option LoopFrame) (s : IRState)
    (h : instructions[s.currentInstruction]? = some Instruction.startLoop)
    (hown : loopStart = s.currentInstruction) :
    activations instructions errorBlock (fuel + 1) loopStart frame s
      = activations instructions errorBlock fuel loopStart (some (openLoop s).1)
          (openLoop s).2.advance := by
  simp only [activations, h, if_pos hown]

theorem activations_close (instructions : List Instruction) (errorBlock : Nat)
    (fuel loopStart : Nat) (frame : Option LoopFrame) (s : IRState)
    (h : instructions[s.currentInstruction]? = some Instruction.endLoop) :
    activations instructions errorBlock (fuel + 1) loopStart frame s = [] := by
  simp only [activations, h]

/-- A loop start met by an activation that does not own it, when the activation it starts
returns with success: the activation started, what that one starts, and what this one
starts when it goes on. -/
theorem activations_nested (instructions : List Instruction) (errorBlock : Nat)
    (fuel loopStart : Nat) (frame : Option LoopFrame) (s : IRState) (inner : Emitted)
    (h : instructions[s.currentInstruction]? = some Instruction.startLoop)
    (hown : loopStart ≠ s.currentInstruction)
    (hinner : generateIRLoop instructions errorBlock fuel s.currentInstruction none s
      = some inner) (herr : inner.error = none) :
    activations instructions errorBlock (fuel + 1) loopStart frame s
      = s.currentInstruction
        :: (activations instructions errorBlock fuel s.currentInstruction none s
          ++ activations instructions errorBlock fuel loopStart frame inner.state.advance) := by
  simp only [activations, h, if_neg hown, hinner, herr]

theorem recursionDepth_end (instructions : List Instruction) (errorBlock : Nat)
    (fuel loopStart : Nat) (frame : Option LoopFrame) (s : IRState)
    (h : instructions[s.currentInstruction]? = none) :
    recursionDepth instructions errorBlock (fuel + 1) loopStart frame s = 0 := by
  simp only [recursionDepth, h]

theorem recursionDepth_simple (instructions : List Instruction) (errorBlock : Nat)
    (fuel loopStart : Nat) (frame : Option LoopFrame) (s : IRState) (i : Instruction)
    (h : instructions[s.currentInstruction]? = some i) (hi : i.isSimple) :
    recursionDepth instructions errorBlock (fuel + 1) loopStart frame s
      = recursionDepth instructions errorBlock fuel loopStart frame
          (simpleRound instructions errorBlock i s) := by
  obtain ⟨h1, h2⟩ := hi
  cases i
  case startLoop => exact absurd rfl h1
  case endLoop => exact absurd rfl h2
  all_goals simp only [recursionDepth, h, simpleRound]

theorem recursionDepth_open (instructions : List Instruction) (errorBlock : Nat)
    (fuel loopStart : Nat) (frame : Option LoopFrame) (s : IRState)
    (h : instructions[s.currentInstruction]? = some Instruction.startLoop)
    (hown : loopStart = s.currentInstruction) :
    recursionDepth instructions errorBlock (fuel + 1) loopStart frame s
      = recursionDepth instructions errorBlock fuel loopStart (some (openLoop s).1)
          (openLoop s).2.advance := by
  simp only [recursionDepth, h, if_pos hown]

theorem recursionDepth_close (instructions : List Instruction) (errorBlock : Nat)
    (fuel loopStart : Nat) (frame : Option LoopFrame) (s : IRState)
    (h : instructions[s.currentInstruction]? = some Instruction.endLoop) :
    recursionDepth instructions errorBlock (fuel + 1) loopStart frame s = 0 := by
  simp only [recursionDepth, h]

/-- A loop start met by an activation that does not own it, when the activation it starts
returns with success: that activation is active together with what is active inside it, and
is over when this one goes on. -/
theorem recursionDepth_nested (instructions : List Instruction) (errorBlock : Nat)
    (fuel loopStart : Nat) (frame : Option LoopFrame) (s : IRState) (inner : Emitted)
    (h : instructions[s.currentInstruction]? = some Instruction.startLoop)
    (hown : loopStart ≠ s.currentInstruction)
    (hinner : generateIRLoop instructions errorBlock fuel s.currentInstruction none s
      = some inner) (herr : inner.error = none) :
    recursionDepth instructions errorBlock (fuel + 1) loopStart frame s
      = max (1 + recursionDepth instructions errorBlock fuel s.currentInstruction none s)
          (recursionDepth instructions errorBlock fuel loopStart frame
            inner.state.advance) := by
  simp only [recursionDepth, h, if_neg hown, hinner, herr]

/-! ### The nesting depth of a program -/

theorem nestingDepth_ge (p : List Instruction) (d : Nat) : d ≤ nestingDepth p d := by
  cases p with
  | nil => exact le_refl _
  | cons i p => cases i <;> exact le_max_left _ _

theorem nestingDepth_cons_simple (i : Instruction) (l : List Instruction) (d : Nat)
    (hi : i.isSimple) : nestingDepth (i :: l) d = nestingDepth l d := by
  obtain ⟨h1, h2⟩ := hi
  have := nestingDepth_ge l d
  cases i
  case startLoop => exact absurd rfl h1
  case endLoop => exact absurd rfl h2
  all_goals exact max_eq_right this

theorem nestingDepth_cons_startLoop (l : List Instruction) (d : Nat) :
    nestingDepth (Instruction.startLoop :: l) d = nestingDepth l (d + 1) := by
  have := nestingDepth_ge l (d + 1)
  exact max_eq_right (by omega)

theorem nestingDepth_cons_endLoop (l : List Instruction) (d : Nat) :
    nestingDepth (Instruction.endLoop :: l) (d + 1) = max (d + 1) (nestingDepth l d) := rfl

theorem nestingDepth_skip (p : List Instruction) (k m d : Nat)
    (h : ∀ j, k ≤ j → j < k + m → ∃ x, p[j]? = some x ∧ x.isSimple) :
    nestingDepth (p.drop k) d = nestingDepth (p.drop (k + m)) d := by
  induction m generalizing k with
  | zero => simp
  | succ m ih =>
    obtain ⟨x, hx, hs⟩ := h k (le_refl _) (by omega)
    rw [drop_eq_cons_of_getElem? _ _ _ hx, nestingDepth_cons_simple _ _ _ hs,
      ih (k + 1) (fun j h1 h2 => h j (by omega) (by omega)),
      show k + 1 + m = k + (m + 1) by omega]

/-- The nesting depth is the largest number of loops open after a prefix of the program:
when no prefix closes more loops than `depth` and its loop starts have opened, the loops
open after a prefix are never more than `nestingDepth`, and after some prefix they are as
many. -/
theorem nestingDepth_spec (p : List Instruction) (d : Nat)
    (h : ∀ k, k ≤ p.length →
      (p.take k).count Instruction.endLoop ≤ (p.take k).count Instruction.startLoop + d) :
    (∀ k, k ≤ p.length →
      (p.take k).count Instruction.startLoop + d - (p.take k).count Instruction.endLoop
        ≤ nestingDepth p d)
    ∧ ∃ k, k ≤ p.length ∧
      (p.take k).count Instruction.startLoop + d - (p.take k).count Instruction.endLoop
        = nestingDepth p d := by
  induction p generalizing d with
  | nil =>
    refine ⟨fun k _ => by simp [nestingDepth], ⟨0, le_refl _, by simp [nestingDepth]⟩⟩
  | cons x p ih =>
    have step : ∀ e a b : Nat, a = (if x = Instruction.startLoop then 1 else 0) →
        b = (if x = Instruction.endLoop then 1 else 0) → e + b = d + a →
        nestingDepth (x :: p) d = max d (nestingDepth p e) →
        (∀ k, k ≤ (x :: p).length →
          ((x :: p).take k).count Instruction.startLoop + d
            - ((x :: p).take k).count Instruction.endLoop ≤ nestingDepth (x :: p) d)
        ∧ ∃ k, k ≤ (x :: p).length ∧
          ((x :: p).take k).count Instruction.startLoop + d
            - ((x :: p).take k).count Instruction.endLoop = nestingDepth (x :: p) d := by
      intro e a b ha hb hab hnd
      have hge := nestingDepth_ge p e
      obtain ⟨i1, k0, hk0, i2⟩ := ih e (fun k hk => by
        have := h (k + 1) (by simpa using hk)
        rw [count_take_cons, count_take_cons, ← ha, ← hb] at this
        omega)
      rw [hnd]
      refine ⟨fun k hk => ?_, ?_⟩
      · cases k with
        | zero => simp
        | succ k =>
          have := i1 k (by simpa using hk)
          rw [count_take_cons, count_take_cons, ← ha, ← hb]
          omega
      · by_cases hcase : nestingDepth p e ≤ d
        · exact ⟨0, Nat.zero_le _, by simp; omega⟩
        · refine ⟨k0 + 1, by simpa using hk0, ?_⟩
          rw [count_take_cons, count_take_cons, ← ha, ← hb]
          omega
    have h1 := h 1 (by simp)
    cases x
    case startLoop => exact step (d + 1) 1 0 rfl rfl rfl rfl
    case endLoop =>
      have hd : 1 ≤ d := by simpa using h1
      exact step (d - 1) 0 1 rfl rfl (by omega) rfl
    all_goals exact step d 0 0 rfl rfl rfl rfl

theorem filter_range_simple (p : List Instruction) (k m : Nat)
    (h : ∀ j, k ≤ j → j < k + m → ∃ x, p[j]? = some x ∧ x.isSimple) :
    (List.range' k m).filter (fun i => decide (p[i]? = some Instruction.startLoop)) = [] := by
  rw [List.filter_eq_nil_iff]
  intro a ha
  rw [List.mem_range'_1] at ha
  obtain ⟨x, hx, hs⟩ := h a ha.1 ha.2
  rw [hx]
  intro hcon
  simp only [Option.some.injEq, decide_eq_true_eq] at hcon
  exact hs.1 hcon

/-- The activation that owns a loop whose end is `d` instructions ahead starts one
activation for every loop start before that end, in their order, and the loops open at the
same time up to that end are the loops already open and the activations active at the same
time in this one. -/
theorem recursion_owner (instructions : List Instruction) (errorBlock : Nat)
    (fuel : Nat) : ∀ (s : IRState) (loopStart : Nat) (f : LoopFrame),
    loopStart < s.currentInstruction → fuelFor instructions s.currentInstruction ≤ fuel →
    ∀ d, findLoopEnd (instructions.drop s.currentInstruction) 0 = some d →
      activations instructions errorBlock fuel loopStart (some f) s
        = (List.range' s.currentInstruction d).filter
            (fun i => decide (instructions[i]? = some Instruction.startLoop))
      ∧ ∀ d0, nestingDepth (instructions.drop s.currentInstruction) (d0 + 1)
          = max (recursionDepth instructions errorBlock fuel loopStart (some f) s + (d0 + 1))
              (nestingDepth (instructions.drop (s.currentInstruction + d + 1)) d0) := by
  induction fuel using Nat.strong_induction_on with
  | _ fuel ih =>
    intro s loopStart f hls hfuel d hd
    obtain ⟨fuel, rfl⟩ : ∃ m, fuel = m + 1 := ⟨fuel - 1, by unfold fuelFor at hfuel; omega⟩
    cases hget : instructions[s.currentInstruction]? with
    | none =>
      have hdrop : instructions.drop s.currentInstruction = [] :=
        List.drop_eq_nil_of_le (List.getElem?_eq_none_iff.mp hget)
      simp [hdrop, findLoopEnd] at hd
    | some i =>
      have hlt : s.currentInstruction < instructions.length :=
        (List.getElem?_eq_some.mp hget).1
      by_cases hi : i.isSimple
      · obtain ⟨h1, h2, h3⟩ := simpleRound_cursor instructions errorBlock s i hget hi
        obtain ⟨m, hm⟩ : ∃ m, (simpleRound instructions errorBlock i s).currentInstruction
            = s.currentInstruction + m := ⟨_, (Nat.add_sub_cancel' (le_of_lt h1)).symm⟩
        have hsimple : ∀ j, s.currentInstruction ≤ j → j < s.currentInstruction + m →
            ∃ x, instructions[j]? = some x ∧ x.isSimple :=
          fun j hj1 hj2 => h3 j hj1 (by omega)
        have hskip := findLoopEnd_skip instructions s.currentInstruction m 0 hsimple
        rw [hskip, Option.map_eq_some'] at hd
        obtain ⟨a, ha, rfl⟩ := hd
        rw [← hm] at ha
        obtain ⟨r1, r2⟩ := ih fuel (by omega)
          (simpleRound instructions errorBlock i s) loopStart f (by omega)
          (by unfold fuelFor at hfuel ⊢; omega) a ha
        rw [activations_simple _ _ _ _ _ _ _ hget hi,
          recursionDepth_simple _ _ _ _ _ _ _ hget hi, r1]
        refine ⟨?_, fun d0 => ?_⟩
        · rw [← List.range'_append_1, List.filter_append,
            filter_range_simple instructions _ _ hsimple, List.nil_append, hm]
        · rw [nestingDepth_skip instructions _ m _ hsimple, ← hm, r2 d0, hm,
            show s.currentInstruction + m + a + 1 = s.currentInstruction + (a + m) + 1
              by omega]
      · have hcases : i = Instruction.startLoop ∨ i = Instruction.endLoop := by
          unfold Instruction.isSimple at hi
          by_contra hcon
          exact hi ⟨fun h => hcon (Or.inl h), fun h => hcon (Or.inr h)⟩
        have hdrop := drop_eq_cons_of_getElem? _ _ _ hget
        rcases hcases with rfl | rfl
        · -- a nested loop: the activation it starts, then the rest of this one
          obtain ⟨fuel, rfl⟩ : ∃ m, fuel = m + 1 :=
            ⟨fuel - 1, by unfold fuelFor at hfuel; omega⟩
          have hown : s.currentInstruction < (openLoop s).2.advance.currentInstruction := by
            simp [IRState.advance, openLoop_cursor]
          have hfuel1 : fuelFor instructions (openLoop s).2.advance.currentInstruction
              ≤ fuel := by
            unfold fuelFor at hfuel ⊢
            simp only [IRState.advance, openLoop_cursor]; omega
          obtain ⟨r1, hr1, hr1a, hr1b⟩ := generateIRLoop_owner instructions errorBlock fuel
            (openLoop s).2.advance s.currentInstruction (openLoop s).1 hown hfuel1
          have hinner : generateIRLoop instructions errorBlock (fuel + 1) s.currentInstruction
              none s = some r1 := by
            rw [generateIRLoop_open _ _ _ _ _ _ hget rfl, hr1]
          simp only [IRState.advance, openLoop_cursor] at hr1a hr1b
          cases hfe : findLoopEnd (instructions.drop (s.currentInstruction + 1)) 0 with
          | none =>
            have := findLoopEnd_none_deeper _ 0 1 hfe
            simp [hdrop, findLoopEnd, this] at hd
          | some d1 =>
            obtain ⟨e1, e2⟩ := hr1a d1 hfe
            have hdeep := findLoopEnd_deeper _ 0 d1 0 hfe
            simp only [List.drop_drop] at hdeep
            rw [show s.currentInstruction + 1 + (d1 + 1) = s.currentInstruction + 1 + d1 + 1
              by omega, show 0 + 0 + 1 = 1 by rfl] at hdeep
            rw [hdrop] at hd
            simp only [findLoopEnd, Nat.zero_add, hdeep, Option.map_map,
              Option.map_eq_some'] at hd
            obtain ⟨a, ha, rfl⟩ := hd
            obtain ⟨i1, i2⟩ := ih fuel (by omega) (openLoop s).2.advance
              s.currentInstruction (openLoop s).1 hown hfuel1 d1
              (by simp only [IRState.advance, openLoop_cursor]; exact hfe)
            obtain ⟨o1, o2⟩ := ih (fuel + 1) (by omega) r1.state.advance
              loopStart f (by simp only [IRState.advance, e2]; omega)
              (by unfold fuelFor at hfuel ⊢
                  simp only [IRState.advance, e2]; omega) a
              (by simp only [IRState.advance, e2]; exact ha)
            have c1 : (openLoop s).2.advance.currentInstruction = s.currentInstruction + 1 :=
              rfl
            have c2 : r1.state.advance.currentInstruction
                = s.currentInstruction + 1 + d1 + 1 := by
              simp only [IRState.advance, e2]
            rw [c1] at i1 i2
            rw [c2] at o1 o2
            have hend : instructions[s.currentInstruction + 1 + d1]?
                = some Instruction.endLoop := by
              have := findLoopEnd_getElem _ _ _ hfe
              rw [List.getElem?_drop] at this
              exact this
            rw [activations_nested _ _ _ _ _ _ r1 hget (by omega) hinner e1,
              recursionDepth_nested _ _ _ _ _ _ r1 hget (by omega) hinner e1,
              activations_open _ _ _ _ _ _ hget rfl,
              recursionDepth_open _ _ _ _ _ _ hget rfl, i1, o1]
            refine ⟨?_, fun d0 => ?_⟩
            · simp only [Function.comp]
              rw [show a + (d1 + 1) + 1 = (a + 1 + d1) + 1 by omega, List.range'_succ,
                ← List.range'_append_1, List.range'_succ, List.filter_cons, hget,
                List.filter_append, List.filter_cons, hend]
              simp
            · have t1 := i2 (d0 + 1)
              have t2 := o2 d0
              simp only [Function.comp]
              rw [hdrop, nestingDepth_cons_startLoop, t1, t2,
                show s.currentInstruction + 1 + d1 + 1 + a + 1
                  = s.currentInstruction + (a + (d1 + 1) + 1) + 1 by omega]
              omega
        · -- the loop end of this activation
          simp only [hdrop, findLoopEnd, Option.some.injEq] at hd
          subst hd
          rw [activations_close _ _ _ _ _ _ hget, recursionDepth_close _ _ _ _ _ _ hget]
          refine ⟨rfl, fun d0 => ?_⟩
          rw [hdrop, nestingDepth_cons_endLoop]
          simp

/-- The activation that owns no loop, on instructions without a violation of nesting,
starts one activation for every loop start from the cursor on, in their order, and the
activations active at the same time in it are as many as the loops open at the same time
from the cursor on. -/
theorem recursion_top (instructions : List Instruction) (errorBlock : Nat)
    (fuel : Nat) : ∀ (s : IRState) (loopStart : Nat),
    instructions.length ≤ loopStart → fuelFor instructions s.currentInstruction ≤ fuel →
    s.currentInstruction ≤ instructions.length →
    firstViolation (instructions.drop s.currentInstruction) 0 = none →
      activations instructions errorBlock fuel loopStart none s
        = (List.range' s.currentInstruction (instructions.length - s.currentInstruction)).filter
            (fun i => decide (instructions[i]? = some Instruction.startLoop))
      ∧ recursionDepth instructions errorBlock fuel loopStart none s
        = nestingDepth (instructions.drop s.currentInstruction) 0 := by
  induction fuel using Nat.strong_induction_on with
  | _ fuel ih =>
    intro s loopStart hls hfuel hcur hv
    obtain ⟨fuel, rfl⟩ : ∃ m, fuel = m + 1 := ⟨fuel - 1, by unfold fuelFor at hfuel; omega⟩
    cases hget : instructions[s.currentInstruction]? with
    | none =>
      have hge := List.getElem?_eq_none_iff.mp hget
      have hdrop : instructions.drop s.currentInstruction = [] := List.drop_eq_nil_of_le hge
      rw [activations_end _ _ _ _ _ _ hget, recursionDepth_end _ _ _ _ _ _ hget, hdrop,
        show instructions.length - s.currentInstruction = 0 by omega]
      exact ⟨rfl, rfl⟩
    | some i =>
      have hlt : s.currentInstruction < instructions.length :=
        (List.getElem?_eq_some.mp hget).1
      by_cases hi : i.isSimple
      · obtain ⟨h1, h2, h3⟩ := simpleRound_cursor instructions errorBlock s i hget hi
        obtain ⟨m, hm⟩ : ∃ m, (simpleRound instructions errorBlock i s).currentInstruction
            = s.currentInstruction + m := ⟨_, (Nat.add_sub_cancel' (le_of_lt h1)).symm⟩
        have hsimple : ∀ j, s.currentInstruction ≤ j → j < s.currentInstruction + m →
            ∃ x, instructions[j]? = some x ∧ x.isSimple :=
          fun j hj1 hj2 => h3 j hj1 (by omega)
        have hskip := firstViolation_skip instructions s.currentInstruction m 0 hsimple
        rw [hskip, ← hm] at hv
        obtain ⟨r1, r2⟩ := ih fuel (by omega)
          (simpleRound instructions errorBlock i s) loopStart hls
          (by unfold fuelFor at hfuel ⊢; omega) h2 hv
        rw [activations_simple _ _ _ _ _ _ _ hget hi,
          recursionDepth_simple _ _ _ _ _ _ _ hget hi, r1, r2]
        refine ⟨?_, ?_⟩
        · rw [show instructions.length - s.currentInstruction
              = (instructions.length
                - (simpleRound instructions errorBlock i s).currentInstruction) + m by omega,
            ← List.range'_append_1, List.filter_append,
            filter_range_simple instructions _ _ hsimple, List.nil_append, hm]
        · rw [nestingDepth_skip instructions _ m _ hsimple, ← hm]
      · have hcases : i = Instruction.startLoop ∨ i = Instruction.endLoop := by
          unfold Instruction.isSimple at hi
          by_contra hcon
          exact hi ⟨fun h => hcon (Or.inl h), fun h => hcon (Or.inr h)⟩
        have hdrop := drop_eq_cons_of_getElem? _ _ _ hget
        rcases hcases with rfl | rfl
        · obtain ⟨fuel, rfl⟩ : ∃ m, fuel = m + 1 :=
            ⟨fuel - 1, by unfold fuelFor at hfuel; omega⟩
          have hown : s.currentInstruction < (openLoop s).2.advance.currentInstruction := by
            simp [IRState.advance, openLoop_cursor]
          have hfuel1 : fuelFor instructions (openLoop s).2.advance.currentInstruction
              ≤ fuel := by
            unfold fuelFor at hfuel ⊢
            simp only [IRState.advance, openLoop_cursor]; omega
          obtain ⟨r1, hr1, hr1a, hr1b⟩ := generateIRLoop_owner instructions errorBlock fuel
            (openLoop s).2.advance s.currentInstruction (openLoop s).1 hown hfuel1
          have hinner : generateIRLoop instructions errorBlock (fuel + 1) s.currentInstruction
              none s = some r1 := by
            rw [generateIRLoop_open _ _ _ _ _ _ hget rfl, hr1]
          simp only [IRState.advance, openLoop_cursor] at hr1a hr1b
          cases hfe : findLoopEnd (instructions.drop (s.currentInstruction + 1)) 0 with
          | none =>
            have := firstViolation_unclosed _ 0 0 hfe
            simp [hdrop, firstViolation, this] at hv
          | some d1 =>
            obtain ⟨e1, e2⟩ := hr1a d1 hfe
            have hd1 := findLoopEnd_lt_length _ _ _ hfe
            simp only [List.length_drop] at hd1
            have hdeep := firstViolation_deeper _ 0 d1 0 hfe
            simp only [List.drop_drop] at hdeep
            rw [show s.currentInstruction + 1 + (d1 + 1) = s.currentInstruction + 1 + d1 + 1
              by omega, show 0 + 0 + 1 = 1 by rfl] at hdeep
            rw [hdrop] at hv
            simp only [firstViolation, Nat.zero_add, hdeep] at hv
            have c1 : (openLoop s).2.advance.currentInstruction = s.currentInstruction + 1 :=
              rfl
            have c2 : r1.state.advance.currentInstruction
                = s.currentInstruction + 1 + d1 + 1 := by
              simp only [IRState.advance, e2]
            obtain ⟨i1, i2⟩ := recursion_owner instructions errorBlock fuel
              (openLoop s).2.advance s.currentInstruction (openLoop s).1 hown hfuel1 d1
              (by rw [c1]; exact hfe)
            obtain ⟨o1, o2⟩ := ih (fuel + 1) (by omega) r1.state.advance loopStart hls
              (by unfold fuelFor at hfuel ⊢
                  rw [c2]; omega)
              (by rw [c2]; omega) (by rw [c2]; exact hv)
            rw [c1] at i1 i2
            rw [c2] at o1 o2
            have hend : instructions[s.currentInstruction + 1 + d1]?
                = some Instruction.endLoop := by
              have := findLoopEnd_getElem _ _ _ hfe
              rw [List.getElem?_drop] at this
              exact this
            rw [activations_nested _ _ _ _ _ _ r1 hget (by omega) hinner e1,
              recursionDepth_nested _ _ _ _ _ _ r1 hget (by omega) hinner e1,
              activations_open _ _ _ _ _ _ hget rfl,
              recursionDepth_open _ _ _ _ _ _ hget rfl, i1, o1, o2]
            refine ⟨?_, ?_⟩
            · rw [show instructions.length - s.currentInstruction
                  = ((instructions.length - (s.currentInstruction + 1 + d1 + 1)) + 1 + d1) + 1
                  by omega, List.range'_succ,
                ← List.range'_append_1, List.range'_succ, List.filter_cons, hget,
                List.filter_append, List.filter_cons, hend]
              simp
            · have t1 := i2 0
              rw [hdrop, nestingDepth_cons_startLoop, t1]
              omega
        · simp [hdrop, firstViolation] at hv

/-- C21: when the top-level call of `generateIR` on the program `p` returns with success,
then with every bound on the rounds from `fuelFor p 0` on, the largest number of recursive
activations active at the same time is the maximum loop-nesting depth of `p`, which is the
largest number of loops open after a prefix of `p` (loop starts less loop ends); and the
recursive activations created are started at the positions of the loop starts of `p`, one
for each, in their order. -/
theorem recursion_depth_eq_nesting (p : List Instruction) (s : IRState)
    (h : generateIRTop p = some { error := none, state := s }) (fuel : Nat)
    (hfuel : fuelFor p 0 ≤ fuel) :
    recursionDepth p errorBlock fuel p.length none mainStart = nestingDepth p 0
    ∧ (∀ k, k ≤ p.length →
        (p.take k).count Instruction.startLoop - (p.take k).count Instruction.endLoop
          ≤ nestingDepth p 0)
    ∧ (∃ k, k ≤ p.length ∧
        (p.take k).count Instruction.startLoop - (p.take k).count Instruction.endLoop
          = nestingDepth p 0)
    ∧ activations p errorBlock fuel p.length none mainStart
        = (List.range p.length).filter (fun i => decide (p[i]? = some Instruction.startLoop))
    ∧ (activations p errorBlock fuel p.length none mainStart).Nodup
    ∧ (∀ i, i ∈ activations p errorBlock fuel p.length none mainStart
        ↔ p[i]? = some Instruction.startLoop) := by
  obtain ⟨r, hr, he, _⟩ := generateIRTop_outcome p
  rw [h] at hr
  simp only [Option.some.injEq] at hr
  subst hr
  have hv : firstViolation p 0 = none := he.symm
  obtain ⟨a1, a2⟩ := recursion_top p errorBlock fuel mainStart p.length (le_refl _) hfuel
    (Nat.zero_le _) hv
  have hdrop : p.drop mainStart.currentInstruction = p := rfl
  have hcur : mainStart.currentInstruction = 0 := rfl
  rw [hdrop] at a2
  rw [hcur, Nat.sub_zero, ← List.range_eq_range'] at a1
  have hpre : ∀ k, k ≤ p.length →
      (p.take k).count Instruction.endLoop ≤ (p.take k).count Instruction.startLoop + 0 := by
    intro k hk
    by_contra hcon
    have := (firstViolation_eq_noLoopStart_iff p 0).mpr ⟨k, hk, by omega⟩
    rw [hv] at this
    cases this
  obtain ⟨n1, n2⟩ := nestingDepth_spec p 0 hpre
  refine ⟨a2, n1, n2, a1, ?_, fun i => ?_⟩
  · rw [a1]
    exact (List.nodup_range _).filter _
  · rw [a1, List.mem_filter, List.mem_range, decide_eq_true_eq]
    exact ⟨fun hx => hx.2, fun hx => ⟨(List.getElem?_eq_some.mp hx).1, hx⟩⟩

/-- C21 at the program `[[]][]`: emission succeeds; two recursive activations are active at
the same time at most, as two loops are open at most; and three recursive activations are
created, at the positions 0, 1 and 4 of the loop starts. -/
theorem recursion_depth_eq_nesting_witness :
    (∃ s, generateIRTop [Instruction.startLoop, Instruction.startLoop, Instruction.endLoop,
        Instruction.endLoop, Instruction.startLoop, Instruction.endLoop]
        = some { error := none, state := s })
    ∧ recursionDepth [Instruction.startLoop, Instruction.startLoop, Instruction.endLoop,
        Instruction.endLoop, Instruction.startLoop, Instruction.endLoop] errorBlock 13 6
        none mainStart = 2
    ∧ nestingDepth [Instruction.startLoop, Instruction.startLoop, Instruction.endLoop,
        Instruction.endLoop, Instruction.startLoop, Instruction.endLoop] 0 = 2
    ∧ activations [Instruction.startLoop, Instruction.startLoop, Instruction.endLoop,
        Instruction.endLoop, Instruction.startLoop, Instruction.endLoop] errorBlock 13 6
        none mainStart = [0, 1, 4]
    ∧ recursionDepth [Instruction.startLoop, Instruction.startLoop, Instruction.endLoop,
        Instruction.endLoop, Instruction.startLoop, Instruction.endLoop] errorBlock 13
        [Instruction.startLoop, Instruction.startLoop, Instruction.endLoop,
          Instruction.endLoop, Instruction.startLoop, Instruction.endLoop].length
        none mainStart
      = nestingDepth [Instruction.startLoop, Instruction.startLoop, Instruction.endLoop,
        Instruction.endLoop, Instruction.startLoop, Instruction.endLoop] 0 :=
  ⟨⟨_, rfl⟩, by decide, by decide, by decide,
    (recursion_depth_eq_nesting [Instruction.startLoop, Instruction.startLoop,
      Instruction.endLoop, Instruction.endLoop, Instruction.startLoop, Instruction.endLoop]
      _ rfl 13 (by decide)).1⟩

/-! ## What an activation leaves of the blocks it found -/

theorem emit_extends (s : IRState) (x : Inst) : Extends s.blocks (s.emit x).blocks := by
  refine extends_of_instsAt _ _ (fun b => ?_)
  by_cases h : s.insertPoint < s.blocks.length
  · rw [instsAt_emit s x b h]
    split
    · exact ⟨[x], rfl⟩
    · exact ⟨[], by simp⟩
  · by_cases hb : b < s.blocks.length
    · refine ⟨[], ?_⟩
      unfold instsAt IRState.emit
      rw [List.getElem?_modify_ne _ _ (by omega)]
      simp
    · rw [instsAt_of_length_le _ _ (by rw [emit_length]; omega),
        instsAt_of_length_le _ _ (by omega)]
      exact ⟨[], rfl⟩

theorem createBlock_extends (s : IRState) (name : BlockName) (attached : Bool) :
    Extends s.blocks (s.createBlock name attached).2.blocks :=
  extends_of_instsAt _ _ (fun b => ⟨[], by rw [instsAt_createBlock]; simp⟩)

theorem simpleRound_extends (instructions : List Instruction) (errorBlock : Nat)
    (i : Instruction) (s : IRState) :
    Extends s.blocks (simpleRound instructions errorBlock i s).blocks := by
  cases i
  case moveLeft =>
    have e1 := createBlock_extends s BlockName.moveLeft true
    have e2 := emit_extends (s.createBlock BlockName.moveLeft true).2
      (Inst.condBrReturnWithError errorBlock (s.createBlock BlockName.moveLeft true).1)
    have e3 := emit_extends (((s.createBlock BlockName.moveLeft true).2.emit
      (Inst.condBrReturnWithError errorBlock
        (s.createBlock BlockName.moveLeft true).1)).setInsertPoint
          (s.createBlock BlockName.moveLeft true).1) Inst.decrementCurrentCell
    exact e1.andThen (e2.andThen e3)
  case startLoop => exact Extends.same _
  case endLoop => exact Extends.same _
  all_goals exact emit_extends _ _

theorem openLoop_extends (s : IRState) : Extends s.blocks (openLoop s).2.blocks := by
  have e1 := createBlock_extends s BlockName.loop true
  have e2 := createBlock_extends (s.createBlock BlockName.loop true).2 BlockName.thenBlock
    false
  have e3 := createBlock_extends ((s.createBlock BlockName.loop true).2.createBlock
    BlockName.thenBlock false).2 BlockName.merge false
  have e4 := emit_extends (((s.createBlock BlockName.loop true).2.createBlock
    BlockName.thenBlock false).2.createBlock BlockName.merge false).2
    (Inst.br (s.createBlock BlockName.loop true).1)
  have e5 := emit_extends (((((s.createBlock BlockName.loop true).2.createBlock
    BlockName.thenBlock false).2.createBlock BlockName.merge false).2.emit
    (Inst.br (s.createBlock BlockName.loop true).1)).setInsertPoint
      (s.createBlock BlockName.loop true).1)
    (Inst.condBrContinueLoop
      ((s.createBlock BlockName.loop true).2.createBlock BlockName.thenBlock false).1
      (((s.createBlock BlockName.loop true).2.createBlock BlockName.thenBlock
        false).2.createBlock BlockName.merge false).1)
  exact e1.andThen (e2.andThen (e3.andThen (e4.andThen e5)))

theorem closeLoop_extends (f : LoopFrame) (s : IRState) :
    Extends s.blocks (closeLoop f s).blocks :=
  emit_extends s _

/-- An activation only adds to the blocks: what it finds emitted is still there when it
returns, with success or with an error. -/
theorem generateIRLoop_extends (instructions : List Instruction) (errorBlock : Nat)
    (fuel : Nat) : ∀ (loopStart : Nat) (frame : Option LoopFrame) (s : IRState) (r : Emitted),
    generateIRLoop instructions errorBlock fuel loopStart frame s = some r →
    Extends s.blocks r.state.blocks := by
  induction fuel with
  | zero => intro _ _ _ _ h; simp [generateIRLoop] at h
  | succ fuel ih =>
    intro loopStart frame s r h
    cases hget : instructions[s.currentInstruction]? with
    | none =>
      rw [generateIRLoop_end _ _ _ _ _ _ hget] at h
      simp only [Option.some.injEq] at h
      subst h; exact Extends.same _
    | some i =>
      rcases i.simple_or_bracket with hi | rfl | rfl
      · rw [generateIRLoop_simple _ _ _ _ _ _ _ hget hi] at h
        exact (simpleRound_extends instructions errorBlock i s).andThen (ih _ _ _ _ h)
      · by_cases hown : loopStart = s.currentInstruction
        · rw [generateIRLoop_open _ _ _ _ _ _ hget hown] at h
          have h2 := ih _ _ _ _ h
          exact (openLoop_extends s).andThen h2
        · rw [generateIRLoop_nested _ _ _ _ _ _ hget hown] at h
          cases hin : generateIRLoop instructions errorBlock fuel s.currentInstruction none s with
          | none => simp [hin] at h
          | some inner =>
            have h1 := ih _ _ _ _ hin
            simp only [hin] at h
            cases he : inner.error with
            | some e =>
              simp only [he, Option.some.injEq] at h
              subst h; exact h1
            | none =>
              simp only [he] at h
              have h2 := ih _ _ _ _ h
              exact h1.andThen h2
      · rw [generateIRLoop_close _ _ _ _ _ _ hget] at h
        cases frame with
        | none => simp only [Option.some.injEq] at h; subst h; exact Extends.same _
        | some f =>
          simp only [Option.some.injEq] at h
          subst h
          exact closeLoop_extends f s

/-- The state after a round that appends the one instruction `x` at the insert point and
moves the cursor to `cursor`: no block is created, the function and the insert point are as
they were, and the block at the insert point has `x` as its new last instruction, every
other block the instructions it had. -/
theorem merged_round_state (s : IRState) (x : Inst) (cursor : Nat)
    (hip : s.insertPoint < s.blocks.length) :
    ({ s.emit x with currentInstruction := cursor } : IRState).currentInstruction = cursor
    ∧ ({ s.emit x with currentInstruction := cursor } : IRState).blocks.length
        = s.blocks.length
    ∧ blockNames ({ s.emit x with currentInstruction := cursor } : IRState).blocks
        = blockNames s.blocks
    ∧ ({ s.emit x with currentInstruction := cursor } : IRState).function = s.function
    ∧ ({ s.emit x with currentInstruction := cursor } : IRState).insertPoint = s.insertPoint
    ∧ (∀ b, instsAt ({ s.emit x with currentInstruction := cursor } : IRState).blocks b
        = if b = s.insertPoint then instsAt s.blocks b ++ [x] else instsAt s.blocks b)
    ∧ fetch ({ s.emit x with currentInstruction := cursor } : IRState).blocks s.insertPoint
        (instsAt s.blocks s.insertPoint).length = some x := by
  refine ⟨rfl, emit_length s x, blockNames_emit s x, rfl, rfl,
    fun b => instsAt_emit s x b hip, ?_⟩
  rw [fetch_eq_instsAt]
  show (instsAt (s.emit x).blocks s.insertPoint)[_]? = _
  rw [instsAt_emit s x _ hip, if_pos rfl, List.getElem?_append_right (le_refl _)]
  simp

/-- When a round hands over to the state `t`, the activation returns once the rounds
suffice, and what `t` holds in its blocks is in the blocks it returns. -/
theorem round_kept (instructions : List Instruction) (errorBlock : Nat)
    (fuel loopStart : Nat) (frame : Option LoopFrame) (s t : IRState)
    (heq : generateIRLoop instructions errorBlock (fuel + 1) loopStart frame s
      = generateIRLoop instructions errorBlock fuel loopStart frame t)
    (hfuel : fuelFor instructions s.currentInstruction ≤ fuel + 1) :
    ∃ r, generateIRLoop instructions errorBlock (fuel + 1) loopStart frame s = some r
      ∧ Extends t.blocks r.state.blocks := by
  obtain ⟨r, hr⟩ := generateIRLoop_returns instructions errorBlock (fuel + 1) loopStart frame s
    (by unfold fuelFor at hfuel; split <;> omega)
  refine ⟨r, hr, ?_⟩
  rw [heq] at hr
  exact generateIRLoop_extends instructions errorBlock fuel _ _ _ _ hr

theorem getElem?_after_run (pre post : List Instruction) (kind : Instruction) (n : Nat) :
    (pre ++ List.replicate n kind ++ post)[pre.length + n]? = post.head? := by
  rw [List.getElem?_append_right (by simp), List.head?_eq_getElem?]
  simp

/-- C6: let the cursor stand at the first of exactly `n ≥ 1` consecutive increments (the
instruction after them, if any, is not an increment), with the insert point in a block.
The round of the `generateIR` loop that dispatches it hands over to the state `t` in which
the block at the insert point has the one new instruction `addCellValue (n % 256)` at its
end, every other block holds what it held, no block has been created, the function and the
insert point are as they were, and the cursor is on the first instruction after the run,
which the next round dispatches. With enough rounds the activation returns, and the blocks
it returns hold that `addCellValue (n % 256)` where the round put it. Likewise for
decrements with `subCellValue (n % 256)`. -/
theorem run_merged_into_one (pre post : List Instruction) (n : Nat) (hn : 1 ≤ n)
    (s : IRState) (hs : s.currentInstruction = pre.length)
    (hip : s.insertPoint < s.blocks.length)
    (errorBlock : Nat) (fuel loopStart : Nat) (frame : Option LoopFrame) :
    (post.head? ≠ some Instruction.increment →
      ∃ t : IRState,
        t = { s.emit (Inst.addCellValue (n % 256)) with currentInstruction := pre.length + n }
        ∧ generateIRLoop (pre ++ List.replicate n Instruction.increment ++ post) errorBlock
            (fuel + 1) loopStart frame s
          = generateIRLoop (pre ++ List.replicate n Instruction.increment ++ post) errorBlock
            fuel loopStart frame t
        ∧ t.currentInstruction = pre.length + n
        ∧ (pre ++ List.replicate n Instruction.increment ++ post)[t.currentInstruction]?
          = post.head?
        ∧ t.blocks.length = s.blocks.length
        ∧ blockNames t.blocks = blockNames s.blocks
        ∧ t.function = s.function
        ∧ t.insertPoint = s.insertPoint
        ∧ (∀ b, instsAt t.blocks b
            = if b = s.insertPoint then instsAt s.blocks b ++ [Inst.addCellValue (n % 256)]
              else instsAt s.blocks b)
        ∧ (fuelFor (pre ++ List.replicate n Instruction.increment ++ post)
              s.currentInstruction ≤ fuel + 1 →
            ∃ r, generateIRLoop (pre ++ List.replicate n Instruction.increment ++ post)
                errorBlock (fuel + 1) loopStart frame s = some r
              ∧ Extends t.blocks r.state.blocks
              ∧ fetch r.state.blocks s.insertPoint (instsAt s.blocks s.insertPoint).length
                = some (Inst.addCellValue (n % 256))))
    ∧ (post.head? ≠ some Instruction.decrement →
      ∃ t : IRState,
        t = { s.emit (Inst.subCellValue (n % 256)) with currentInstruction := pre.length + n }
        ∧ generateIRLoop (pre ++ List.replicate n Instruction.decrement ++ post) errorBlock
            (fuel + 1) loopStart frame s
          = generateIRLoop (pre ++ List.replicate n Instruction.decrement ++ post) errorBlock
            fuel loopStart frame t
        ∧ t.currentInstruction = pre.length + n
        ∧ (pre ++ List.replicate n Instruction.decrement ++ post)[t.currentInstruction]?
          = post.head?
        ∧ t.blocks.length = s.blocks.length
        ∧ blockNames t.blocks = blockNames s.blocks
        ∧ t.function = s.function
        ∧ t.insertPoint = s.insertPoint
        ∧ (∀ b, instsAt t.blocks b
            = if b = s.insertPoint then instsAt s.blocks b ++ [Inst.subCellValue (n % 256)]
              else instsAt s.blocks b)
        ∧ (fuelFor (pre ++ List.replicate n Instruction.decrement ++ post)
              s.currentInstruction ≤ fuel + 1 →
            ∃ r, generateIRLoop (pre ++ List.replicate n Instruction.decrement ++ post)
                errorBlock (fuel + 1) loopStart frame s = some r
              ∧ Extends t.blocks r.state.blocks
              ∧ fetch r.state.blocks s.insertPoint (instsAt s.blocks s.insertPoint).length
                = some (Inst.subCellValue (n % 256)))) := by
  have h1 : (1 + (n - 1)) % 256 = n % 256 := by congr 1; omega
  have h2 : pre.length + (n - 1) + 1 = pre.length + n := by omega
  constructor
  · intro hpost
    have heq : generateIRLoop (pre ++ List.replicate n Instruction.increment ++ post)
        errorBlock (fuel + 1) loopStart frame s
        = generateIRLoop (pre ++ List.replicate n Instruction.increment ++ post) errorBlock
          fuel loopStart frame
          { s.emit (Inst.addCellValue (n % 256)) with
            currentInstruction := pre.length + n } := by
      rw [generateIRLoop_increment _ _ _ _ _ _ (by rw [hs, getElem?_run _ _ _ _ hn])]
      simp only [emitIncrement, hs, drop_run _ _ _ _ hn,
        mergeRun_replicate _ _ _ hpost _ _ (by norm_num : 1 < 256)]
      simp only [IRState.advance, IRState.emit, h1, h2]
    obtain ⟨m1, m2, m3, m4, m5, m6, m7⟩ :=
      merged_round_state s (Inst.addCellValue (n % 256)) (pre.length + n) hip
    refine ⟨_, rfl, heq, m1, ?_, m2, m3, m4, m5, m6, fun hfuel => ?_⟩
    · rw [m1]; exact getElem?_after_run pre post _ n
    · obtain ⟨r, hr, hext⟩ := round_kept _ errorBlock fuel loopStart frame s _ heq hfuel
      exact ⟨r, hr, hext, hext _ _ _ m7⟩
  · intro hpost
    have heq : generateIRLoop (pre ++ List.replicate n Instruction.decrement ++ post)
        errorBlock (fuel + 1) loopStart frame s
        = generateIRLoop (pre ++ List.replicate n Instruction.decrement ++ post) errorBlock
          fuel loopStart frame
          { s.emit (Inst.subCellValue (n % 256)) with
            currentInstruction := pre.length + n } := by
      rw [generateIRLoop_decrement _ _ _ _ _ _ (by rw [hs, getElem?_run _ _ _ _ hn])]
      simp only [emitDecrement, hs, drop_run _ _ _ _ hn,
        mergeRun_replicate _ _ _ hpost _ _ (by norm_num : 1 < 256)]
      simp only [IRState.advance, IRState.emit, h1, h2]
    obtain ⟨m1, m2, m3, m4, m5, m6, m7⟩ :=
      merged_round_state s (Inst.subCellValue (n % 256)) (pre.length + n) hip
    refine ⟨_, rfl, heq, m1, ?_, m2, m3, m4, m5, m6, fun hfuel => ?_⟩
    · rw [m1]; exact getElem?_after_run pre post _ n
    · obtain ⟨r, hr, hext⟩ := round_kept _ errorBlock fuel loopStart frame s _ heq hfuel
      exact ⟨r, hr, hext, hext _ _ _ m7⟩

/-- C6 at three increments (respectively decrements) followed by an output, with the cursor
at the start and the insert point in the empty block `entry`: the activation returns blocks
in which `entry` starts with the one `addCellValue 3` (respectively `subCellValue 3`), and
the instruction after it is already the call of `putchar` for the output. -/
theorem run_merged_into_one_witness :
    mainStart.insertPoint < mainStart.blocks.length
    ∧ (∃ r, generateIRLoop ([] ++ List.replicate 3 Instruction.increment ++ [Instruction.output])
          errorBlock (8 + 1) 4 none mainStart = some r
        ∧ fetch r.state.blocks mainStart.insertPoint
            (instsAt mainStart.blocks mainStart.insertPoint).length
          = some (Inst.addCellValue (3 % 256)))
    ∧ (∃ r, generateIRLoop ([] ++ List.replicate 3 Instruction.decrement ++ [Instruction.output])
          errorBlock (8 + 1) 4 none mainStart = some r
        ∧ fetch r.state.blocks mainStart.insertPoint
            (instsAt mainStart.blocks mainStart.insertPoint).length
          = some (Inst.subCellValue (3 % 256)))
    ∧ (generateIRLoop ([] ++ List.replicate 3 Instruction.increment ++ [Instruction.output])
          errorBlock (8 + 1) 4 none mainStart).map (fun r => instsAt r.state.blocks 0)
        = some [Inst.addCellValue 3, Inst.callPutchar]
    ∧ (generateIRLoop ([] ++ List.replicate 3 Instruction.decrement ++ [Instruction.output])
          errorBlock (8 + 1) 4 none mainStart).map (fun r => instsAt r.state.blocks 0)
        = some [Inst.subCellValue 3, Inst.callPutchar] := by
  refine ⟨by decide, ?_, ?_, by decide, by decide⟩
  · obtain ⟨t, _, _, _, _, _, _, _, _, _, hret⟩ :=
      (run_merged_into_one [] [Instruction.output] 3 (by decide) mainStart rfl (by decide)
        errorBlock 8 4 none).1 (by decide)
    obtain ⟨r, hr, _, hfetch⟩ := hret (by decide)
    exact ⟨r, hr, hfetch⟩
  · obtain ⟨t, _, _, _, _, _, _, _, _, _, hret⟩ :=
      (run_merged_into_one [] [Instruction.output] 3 (by decide) mainStart rfl (by decide)
        errorBlock 8 4 none).2 (by decide)
    obtain ⟨r, hr, _, hfetch⟩ := hret (by decide)
    exact ⟨r, hr, hfetch⟩
end BrainFuck
